import Mathlib

/-! Pente board engine and move evaluator.

A shallow embedding of `Board.cpp` / `Board.h` of the Pente program (the board
engine: placement, undo, capture, n-in-a-row counting) and of the computer
strategy of `Player.cpp` / `Player.h`, followed by theorems about them.

Conventions of the embedding:
* `char` is `Char`, `string` is `List Char`, `int` is `Int`;
* `vector<vector<char>>` is `List (List Char)`; all reads and writes of the
  board in the source are guarded by `IsValidIndex`;
* `stack<Move>` is a `List Move` whose head is the top of the stack;
* a C++ member function that mutates the board is a function returning the
  new board next to its return value.
-/

namespace Pente

/-! ## Codes.h -/

/-- The return codes of `Codes::ReturnCode`. -/
inductive ReturnCode where
  | UNKNOWN
  | SUCCESS
  | COULD_NOT_PARSE
  | INVALID_MOVE
  | SPACE_OCCUPIED
  | INVALID_BOARD
  | FULL_BOARD
  | ALREADY_WINNER
  | INVALID_BOUNDS
  | NO_PREV_MOVES
  | INVALID_INC
  | SERIALIZE
  | ROUND_END
  | INVALID_PLAYER
  | NULL_PLAYER
  | SAME_COLOR
  | LOAD_ERROR
  | SAVE_ERROR
  deriving DecidableEq, Repr

/-! ## Board.h : constants and data -/

/-- The grid, `vector<vector<char>>`. -/
abbrev Grid := List (List Char)

def BOARD_SIZE : Int := 19
def NULL_PIECE : Char := 'O'
def COLUMN_OFFSET : Char := 'A'
def ROW_OFFSET : Int := 1
def NUM_DIRECTIONS : Nat := 8
def COLUMN_DELTA : List Int := [0, 1, 1, 1, 0, -1, -1, -1]
def ROW_DELTA : List Int := [1, 1, 0, -1, -1, -1, 0, 1]
def DEFAULT_SCORES : Int := 0
def DEFAULT_LAST_POSITION : List Char := []
def WIN_SCORE : Int := 5
def CAPTURE_NUM : Int := 2

/-- The `Board::Move` struct. -/
structure Move where
  position : List Char
  innerBounds : Int
  outerBounds : Int
  capturedPairs : Int
  winInARow : Int
  intersectLeft : Int
  prevSeqs : List (List Char)
  deriving DecidableEq, Repr

/-- The default constructor `Move()`. -/
def Move.default : Move where
  position := DEFAULT_LAST_POSITION
  innerBounds := BOARD_SIZE - BOARD_SIZE
  outerBounds := BOARD_SIZE
  capturedPairs := DEFAULT_SCORES
  winInARow := DEFAULT_SCORES
  intersectLeft := BOARD_SIZE * BOARD_SIZE
  prevSeqs := List.replicate NUM_DIRECTIONS []

/-- The member variables of `Board`. -/
structure Board where
  m_gameBoard : Grid
  m_prevMoves : List Move
  m_currMove : Move
  deriving DecidableEq, Repr

/-- `Board::InitGameBoard`. -/
def InitGameBoard : Grid :=
  List.replicate BOARD_SIZE.toNat (List.replicate BOARD_SIZE.toNat NULL_PIECE)

/-- The constructor `Board()`. -/
def Board.init : Board where
  m_gameBoard := InitGameBoard
  m_prevMoves := []
  m_currMove := Move.default

/-- Read of `m_gameBoard[row][column]`. -/
def getCell (g : Grid) (row column : Int) : Char :=
  (g.getD row.toNat []).getD column.toNat NULL_PIECE

/-- Write `m_gameBoard[row][column] = v`. -/
def setCell (g : Grid) (row column : Int) (v : Char) : Grid :=
  g.set row.toNat ((g.getD row.toNat []).set column.toNat v)

/-! ## Accessors -/

def Board.GetGameBoard (b : Board) : Grid := b.m_gameBoard
def Board.GetInnerBounds (b : Board) : Int := b.m_currMove.innerBounds
def Board.GetOuterBounds (b : Board) : Int := b.m_currMove.outerBounds
def Board.IsBoardFull (b : Board) : Bool := decide (b.m_currMove.intersectLeft ≤ 0)
def Board.IsWinner (b : Board) : Bool := decide (b.m_currMove.winInARow > 0)
def Board.IsGameOver (b : Board) : Bool := b.IsBoardFull || b.IsWinner
def Board.GetIntersectLeft (b : Board) : Int := b.m_currMove.intersectLeft
def Board.GetWinInARow (b : Board) : Int := b.m_currMove.winInARow
def Board.GetCapturedPairs (b : Board) : Int := b.m_currMove.capturedPairs
def Board.GetLastPosition (b : Board) : List Char := b.m_currMove.position

/-! ## Static utilities -/

/-- `Board::IsValidIndex`. -/
def IsValidIndex (a_row a_column : Int) : Bool :=
  (decide (a_row ≥ 0) && decide (a_row < BOARD_SIZE)) &&
    (decide (a_column ≥ 0) && decide (a_column < BOARD_SIZE))

/-- `Board::AwayFromCenter`: Chebyshev distance from the centre. -/
def AwayFromCenter (a_row a_column : Int) : Int :=
  let CENTER_INDEX : Int := Int.tdiv BOARD_SIZE 2
  max ((a_row - CENTER_INDEX).natAbs : Int) ((a_column - CENTER_INDEX).natAbs : Int)

/-- The indices `OffsetIndices` leaves in its reference parameters. -/
def offsetPos (a_row a_column : Int) (a_direction : Nat) (a_step : Int) : Int × Int :=
  (a_row + ROW_DELTA.getD a_direction 0 * a_step,
   a_column + COLUMN_DELTA.getD a_direction 0 * a_step)

/-- `Board::OffsetIndices`: the offset indices when they are valid, `none` when the
function returns `false`. -/
def OffsetIndices (a_row a_column : Int) (a_direction : Nat) (a_step : Int) :
    Option (Int × Int) :=
  let p := offsetPos a_row a_column a_direction a_step
  if IsValidIndex p.1 p.2 then some p else none

/-- The `stoi` of a string of decimal digits. -/
def stoi (s : List Char) : Int :=
  s.foldl (fun acc ch => acc * 10 + ((ch.toNat : Int) - 48)) 0

/-- `Board::ParsePosition`: `none` when it returns `false`, else the row and
column it stores. -/
def ParsePosition (a_position : List Char) : Option (Int × Int) :=
  if a_position.length < 2 ∨ a_position.length > 3 then none
  else if !(a_position.drop 1).all Char.isDigit then none
  else if !(a_position.headD ' ').isAlpha then none
  else
    some (stoi (a_position.drop 1) - ROW_OFFSET,
          ((a_position.headD ' ').toUpper.toNat : Int) - (COLUMN_OFFSET.toNat : Int))

/-! ## Private utilities -/

/-- `Board::CountSameStones`. -/
def CountSameStones (a_seq : List Char) : Int :=
  match a_seq with
  | [] => 0
  | first :: _ =>
    ((a_seq.takeWhile (fun ch => !(ch != first || ch == NULL_PIECE))).length : Int)

/-- The inner loop of `Board::ColorSeq` for one direction: steps `step`,
`step + 1`, ... while fewer than `a_n` were taken and the index is valid. -/
def colorSeqFrom (g : Grid) (a_row a_column : Int) (direction : Nat) :
    Nat → Nat → List Char
  | _, 0 => []
  | step, fuel + 1 =>
    match OffsetIndices a_row a_column direction step with
    | none => []
    | some (currRow, currColumn) =>
      getCell g currRow currColumn ::
        colorSeqFrom g a_row a_column direction (step + 1) fuel

/-- `Board::ColorSeq`. -/
def ColorSeq (g : Grid) (a_n : Int) (a_row a_column : Int) : List (List Char) :=
  (List.range NUM_DIRECTIONS).map
    (fun direction => colorSeqFrom g a_row a_column direction 0 a_n.toNat)

/-- The inner loop of `Board::UpdateSeqs` over one direction's sequence. The
flag is `false` when the source returns `false` early. -/
def updateSeqFrom (a_row a_column : Int) (direction : Nat) :
    Grid → List Char → Nat → Grid × Bool
  | g, [], _ => (g, true)
  | g, ch :: rest, step =>
    match OffsetIndices a_row a_column direction step with
    | none => (g, false)
    | some (currRow, currColumn) =>
      updateSeqFrom a_row a_column direction (setCell g currRow currColumn ch) rest (step + 1)

/-- The outer loop of `Board::UpdateSeqs` over the directions. -/
def updateSeqsLoop (a_row a_column : Int) : Grid → List (List Char) → Nat → Grid × Bool
  | g, [], _ => (g, true)
  | g, seq :: rest, direction =>
    match updateSeqFrom a_row a_column direction g seq 0 with
    | (g', false) => (g', false)
    | (g', true) => updateSeqsLoop a_row a_column g' rest (direction + 1)

/-- `Board::UpdateSeqs`: the grid it leaves and its return value. -/
def UpdateSeqs (g : Grid) (a_seq : List (List Char)) (a_row a_column : Int) : Grid × Bool :=
  if a_seq.length ≠ NUM_DIRECTIONS then (g, false)
  else updateSeqsLoop a_row a_column g a_seq 0

/-- `Board::CardinalCount`. -/
def CardinalCount (g : Grid) (a_n : Int) (a_row a_column : Int) : List Int :=
  let PLANES := NUM_DIRECTIONS / 2
  let seqs := ColorSeq g a_n a_row a_column
  (List.range PLANES).map (fun direction =>
    CountSameStones (seqs.getD direction []) +
      CountSameStones (seqs.getD (direction + PLANES) []))

/-- `Board::GetNumNInARow`. -/
def GetNumNInARow (g : Grid) (a_n : Int) (a_row a_column : Int) : Int :=
  let LOWER_LIMIT : Int := 2
  if a_n < LOWER_LIMIT then 0
  else
    (CardinalCount g a_n a_row a_column).foldl (fun NInARow count =>
      let count :=
        if count > 0 ∧ Int.tmod (Int.tdiv count 2) a_n ≠ 0 then count - 1 else count
      NInARow + Int.tdiv count a_n) 0

/-- The body of the loop of `Board::CapturePairs` for one sequence: the
sequence after the iteration and whether a pair was captured. -/
def captureSeq (a_color : Char) (seq : List Char) : List Char × Bool :=
  let SEQ_LENGTH : Int := CAPTURE_NUM + 2
  if (seq.length : Int) ≠ SEQ_LENGTH then (seq, false)
  else
    let firstStone := seq.headD ' '
    let lastStone := seq.getLastD ' '
    if firstStone ≠ lastStone then (seq, false)
    else
      let captureSeq := (seq.drop 1).take (seq.length - 2)
      if CountSameStones captureSeq = CAPTURE_NUM ∧ captureSeq.headD ' ' ≠ a_color then
        (firstStone :: (List.replicate captureSeq.length NULL_PIECE ++ [lastStone]), true)
      else (seq, false)

/-- The loop of `Board::CapturePairs` over the direction sequences, threading
`capturedPairs` and `m_currMove.intersectLeft`. -/
def captureLoop (a_color : Char) :
    List (List Char) → Int → Int → List (List Char) × Int × Int
  | [], capturedPairs, intersectLeft => ([], capturedPairs, intersectLeft)
  | seq :: rest, capturedPairs, intersectLeft =>
    match captureSeq a_color seq with
    | (seq', true) =>
      let r := captureLoop a_color rest (capturedPairs + 1) (intersectLeft + CAPTURE_NUM)
      (seq' :: r.1, r.2)
    | (seq', false) =>
      let r := captureLoop a_color rest capturedPairs intersectLeft
      (seq' :: r.1, r.2)

/-- `Board::CapturePairs`: the board it leaves and the number of pairs captured. -/
def CapturePairs (b : Board) (a_color : Char) (a_row a_column : Int) : Board × Int :=
  let SEQ_LENGTH : Int := CAPTURE_NUM + 2
  let directionSeqs := ColorSeq b.m_gameBoard SEQ_LENGTH a_row a_column
  let r := captureLoop a_color directionSeqs 0 b.m_currMove.intersectLeft
  ({ b with
      m_gameBoard := (UpdateSeqs b.m_gameBoard r.1 a_row a_column).1
      m_currMove := { b.m_currMove with intersectLeft := r.2.2 } },
   r.2.1)

/-! ## Mutators -/

/-- `Board::PlaceStone`. -/
def PlaceStone (b : Board) (a_color : Char) (a_position : List Char) : Board × ReturnCode :=
  match ParsePosition a_position with
  | none => (b, ReturnCode.COULD_NOT_PARSE)
  | some (row, column) =>
    if !IsValidIndex row column then (b, ReturnCode.INVALID_MOVE)
    else
      let distance := AwayFromCenter row column
      if b.m_currMove.innerBounds > distance ∨ distance > b.m_currMove.outerBounds then
        (b, ReturnCode.INVALID_MOVE)
      else if getCell b.m_gameBoard row column ≠ NULL_PIECE then
        (b, ReturnCode.SPACE_OCCUPIED)
      else if b.m_currMove.winInARow > 0 then (b, ReturnCode.ALREADY_WINNER)
      else if b.IsBoardFull then (b, ReturnCode.FULL_BOARD)
      else
        let g1 := setCell b.m_gameBoard row column a_color
        let b1 : Board := { b with
          m_gameBoard := g1
          m_currMove := { b.m_currMove with
            prevSeqs := ColorSeq g1 WIN_SCORE row column
            intersectLeft := b.m_currMove.intersectLeft - 1
            position := a_position
            winInARow := GetNumNInARow g1 WIN_SCORE row column } }
        let r := CapturePairs b1 a_color row column
        let b2 : Board := { r.1 with
          m_currMove := { r.1.m_currMove with capturedPairs := r.2 } }
        ({ b2 with m_prevMoves := b2.m_currMove :: b2.m_prevMoves }, ReturnCode.SUCCESS)

/-- `Board::UndoMove`. The source ignores the results of `ParsePosition` and of
`UpdateSeqs`; a stored position always parses (it was parsed by `PlaceStone`),
and `(0, 0)` stands for the indices left unset otherwise. -/
def UndoMove (b : Board) : Board × ReturnCode :=
  match b.m_prevMoves with
  | [] => (b, ReturnCode.NO_PREV_MOVES)
  | top :: rest =>
    let (row, column) := (ParsePosition top.position).getD (0, 0)
    let g1 := (UpdateSeqs b.m_gameBoard top.prevSeqs row column).1
    let g2 := setCell g1 row column NULL_PIECE
    let intersectLeft := top.intersectLeft + 1 + top.capturedPairs * CAPTURE_NUM
    ({ m_gameBoard := g2
       m_prevMoves := rest
       m_currMove := { top with
         intersectLeft := intersectLeft
         winInARow := DEFAULT_SCORES
         capturedPairs := DEFAULT_SCORES } },
     ReturnCode.SUCCESS)

/-- `Board::SetBounds`. -/
def SetBounds (b : Board) (a_innerBounds a_outerBounds : Int) : Board × ReturnCode :=
  if (a_innerBounds > BOARD_SIZE ∨ a_innerBounds < 0) ∨
      (a_outerBounds > BOARD_SIZE ∨ a_outerBounds < 0) then
    (b, ReturnCode.INVALID_BOUNDS)
  else
    ({ b with m_currMove := { b.m_currMove with
        innerBounds := a_innerBounds
        outerBounds := a_outerBounds } },
     ReturnCode.SUCCESS)

/-- The nested loop of `Board::SetBoard` over the cells, row by row: `none`
when a winner is found, else the number of null pieces counted. -/
def setBoardScan (g : Grid) : List (Int × Int) → Int → Option Int
  | [], intersectLeft => some intersectLeft
  | (row, column) :: rest, intersectLeft =>
    if getCell g row column = NULL_PIECE then setBoardScan g rest (intersectLeft + 1)
    else if GetNumNInARow g WIN_SCORE row column > 0 then none
    else setBoardScan g rest intersectLeft

/-- The cells of the board in the order of the loops `for row ... for column`. -/
def allCells : List (Int × Int) :=
  (List.range BOARD_SIZE.toNat).flatMap (fun (row : Nat) =>
    (List.range BOARD_SIZE.toNat).map (fun (column : Nat) => ((row : Int), (column : Int))))

/-- `Board::SetBoard`: the member grid is overwritten with the argument before
the scan and put back from `gameBoardCopy` on the two rejections after it. -/
def SetBoard (b : Board) (a_gameBoard : Grid) : Board × ReturnCode :=
  if (a_gameBoard.length : Int) ≠ BOARD_SIZE then (b, ReturnCode.INVALID_BOARD)
  else if !a_gameBoard.all (fun row => decide ((row.length : Int) = BOARD_SIZE)) then
    (b, ReturnCode.INVALID_BOARD)
  else
    let gameBoardCopy := b.m_gameBoard
    let b1 : Board := { b with m_gameBoard := a_gameBoard }
    match setBoardScan b1.m_gameBoard allCells 0 with
    | none => ({ b1 with m_gameBoard := gameBoardCopy }, ReturnCode.ALREADY_WINNER)
    | some intersectLeft =>
      if intersectLeft = 0 then
        ({ b1 with m_gameBoard := gameBoardCopy }, ReturnCode.FULL_BOARD)
      else
        ({ b1 with
           m_prevMoves := []
           m_currMove := { b1.m_currMove with
             intersectLeft := intersectLeft
             position := DEFAULT_LAST_POSITION
             winInARow := DEFAULT_SCORES
             capturedPairs := DEFAULT_SCORES } },
         ReturnCode.SUCCESS)

/-! ## Public utility functions -/

/-- The `std::to_string` of an `int`. -/
def to_string (i : Int) : List Char :=
  if i < 0 then '-' :: Nat.toDigits 10 i.natAbs else Nat.toDigits 10 i.toNat

/-- `Board::IndicesToString`; the cast `(char)` keeps the low 8 bits. -/
def IndicesToString (a_row a_column : Int) : List Char :=
  let row := a_row + ROW_OFFSET
  let column : Char := Char.ofNat ((a_column + (COLUMN_OFFSET.toNat : Int)) % 256).toNat
  column :: to_string row

/-- The character class `[^O^c]` of the pattern built in `GetPotentialCaptures`
(`REGEX_HEADER`): any character other than the null piece, `^` and the colour. -/
def matchesHeader (a_color ch : Char) : Bool :=
  ch != NULL_PIECE && ch != '^' && ch != a_color

/-- Whether the text starts with a match of `Occ[^O^c]|[^O^c]ccO`, the pattern
`capSeq + "|" + revCapSeq` built from a colour `c`. This is what the standard
library's `std::regex` means by that pattern when `c` is an ordinary character
(a letter, as the colours 'W' and 'B' are). -/
def matchesAt (a_color : Char) : List Char → Bool
  | x0 :: x1 :: x2 :: x3 :: _ =>
    (x0 == NULL_PIECE && x1 == a_color && x2 == a_color && matchesHeader a_color x3) ||
      (matchesHeader a_color x0 && x1 == a_color && x2 == a_color && x3 == NULL_PIECE)
  | _ => false

/-- The `regex_search` of that pattern: a match starting at some position. -/
def regex_search (a_color : Char) : List Char → Bool
  | [] => false
  | ch :: rest => matchesAt a_color (ch :: rest) || regex_search a_color rest

/-- `Board::GetPotentialCaptures`. -/
def GetPotentialCaptures (g : Grid) (a_color : Char) (a_row a_column : Int) : Int :=
  let PLANES := NUM_DIRECTIONS / 2
  let SEQ_LENGTH : Int := CAPTURE_NUM + 1
  let directionSeqs := ColorSeq g SEQ_LENGTH a_row a_column
  (List.range PLANES).foldl (fun count direction =>
    let firstSeq := (directionSeqs.getD direction []).drop 1
    let secondSeq := (directionSeqs.getD (direction + PLANES) []).reverse
    if regex_search a_color (secondSeq ++ firstSeq) then count + 1 else count) 0

/-- The two nested loops of `Board::GetUninterStones`: the value of `total`
before the division. -/
def uninterTotal (g : Grid) (a_n : Int) (a_color : Char) : Int :=
  allCells.foldl (fun total p =>
    if getCell g p.1 p.2 ≠ a_color then total
    else
      (CardinalCount g (a_n + 1) p.1 p.2).foldl (fun total count =>
        if count - 1 = a_n then total + 1 else total) total) 0

/-- `Board::GetUninterStones`. -/
def GetUninterStones (g : Grid) (a_n : Int) (a_color : Char) : Int :=
  if a_n < 1 ∨ a_n > BOARD_SIZE - 1 then 0
  else Int.tdiv (uninterTotal g a_n a_color) a_n

/-! ## States reachable through the public operations -/

/-- The states of a board object: the constructed board, closed under the four
public mutators called with any argument (whatever they return). -/
inductive Reachable : Board → Prop where
  | init : Reachable Board.init
  | place (b : Board) (a_color : Char) (a_position : List Char) :
      Reachable b → Reachable (PlaceStone b a_color a_position).1
  | undo (b : Board) : Reachable b → Reachable (UndoMove b).1
  | setBounds (b : Board) (i o : Int) : Reachable b → Reachable (SetBounds b i o).1
  | setBoard (b : Board) (g : Grid) : Reachable b → Reachable (SetBoard b g).1

/-! ## Definitions of the statements -/

/-- The grid has `BOARD_SIZE` rows of `BOARD_SIZE` cells. -/
def WellFormed (g : Grid) : Prop :=
  g.length = 19 ∧ ∀ row ∈ g, row.length = 19

/-- Number of cells of the grid holding the null piece. -/
def countEmpty (g : Grid) : Int :=
  ((g.map (fun row => row.count NULL_PIECE)).sum : Nat)

/-- A run of PlaceStone calls, each of which must return SUCCESS. -/
def placeAll : Board → List (Char × List Char) → Option Board
  | b, [] => some b
  | b, (a_color, a_position) :: rest =>
    match PlaceStone b a_color a_position with
    | (b', ReturnCode.SUCCESS) => placeAll b' rest
    | _ => none

/-- A run of `k` UndoMove calls, each of which must return SUCCESS. -/
def undoAll : Board → Nat → Option Board
  | b, 0 => some b
  | b, k + 1 =>
    match UndoMove b with
    | (b', ReturnCode.SUCCESS) => undoAll b' k
    | _ => none

/-! ## The writes of `UpdateSeqs` as a list -/

/-- The writes `m_gameBoard[row][column] = v` of a list, first to last. -/
def applyWrites (g : Grid) (ws : List ((Int × Int) × Char)) : Grid :=
  ws.foldl (fun g w => setCell g w.1.1 w.1.2 w.2) g

/-- The writes of one direction's sequence in `UpdateSeqs`. -/
def writesFrom (r c : Int) (d : Nat) : List Char → Nat → List ((Int × Int) × Char)
  | [], _ => []
  | ch :: rest, step => (offsetPos r c d step, ch) :: writesFrom r c d rest (step + 1)

/-- The writes of `UpdateSeqs` over the directions from `d` on. -/
def allWrites (r c : Int) : List (List Char) → Nat → List ((Int × Int) × Char)
  | [], _ => []
  | seq :: rest, d => writesFrom r c d seq 0 ++ allWrites r c rest (d + 1)

/-! ## Captures -/

/-- The capture condition in direction `d` around `(r, c)` for a
stone of colour `m`, read on the grid before the placement: the cells at
distance 1 and 2 hold the same stone, not the null piece and not `m`, and the
cell at distance 3 is on the board and holds `m`. -/
def capturesAlong (g : Grid) (m : Char) (r c : Int) (d : Nat) : Bool :=
  let p1 := offsetPos r c d 1
  let p2 := offsetPos r c d 2
  let p3 := offsetPos r c d 3
  IsValidIndex p1.1 p1.2 && IsValidIndex p2.1 p2.2 && IsValidIndex p3.1 p3.2 &&
    getCell g p1.1 p1.2 == getCell g p2.1 p2.2 &&
    getCell g p1.1 p1.2 != NULL_PIECE &&
    getCell g p1.1 p1.2 != m &&
    getCell g p3.1 p3.2 == m

/-- The board a successful `PlaceStone` at `(r, c)` leaves, with the loop of
`CapturePairs` in closed form. -/
def placedBoard (b : Board) (m : Char) (pos : List Char) (r c : Int) : Board :=
  let g1 := setCell b.m_gameBoard r c m
  let seqs := ColorSeq g1 4 r c
  let k : Int := ((seqs.filter (fun s => (captureSeq m s).2)).length : Int)
  let mv : Move :=
    { position := pos
      innerBounds := b.m_currMove.innerBounds
      outerBounds := b.m_currMove.outerBounds
      capturedPairs := k
      winInARow := GetNumNInARow g1 WIN_SCORE r c
      intersectLeft := b.m_currMove.intersectLeft - 1 + CAPTURE_NUM * k
      prevSeqs := ColorSeq g1 WIN_SCORE r c }
  { m_gameBoard := (UpdateSeqs g1 (seqs.map (fun s => (captureSeq m s).1)) r c).1
    m_prevMoves := mv :: b.m_prevMoves
    m_currMove := mv }

/-- Whether `q` is one of the two cells bracketed in a capturing direction
around `(r, c)`: at distance 1 or 2 in a direction where `capturesAlong` holds. -/
def isCapturedCell (g : Grid) (m : Char) (r c : Int) (q : Int × Int) : Bool :=
  (List.range NUM_DIRECTIONS).any (fun d =>
    capturesAlong g m r c d && (q == offsetPos r c d 1 || q == offsetPos r c d 2))

/-! ## Concrete boards -/

/-- The board after `B` at K10, `W` at M10 and `B` at L10: a `W` stone at J10
brackets the two `B` stones. -/
def bracketBoard : Board :=
  (PlaceStone (PlaceStone (PlaceStone Board.init 'B' ['K', '1', '0']).1
    'W' ['M', '1', '0']).1 'B' ['L', '1', '0']).1

/-- The board after the capturing placement of `W` at J10 on `bracketBoard`. -/
def capturedBoard : Board := (PlaceStone bracketBoard 'W' ['J', '1', '0']).1

/-! ## The decision list of a placement -/

/-- The decision list of a placement in the words of the specification: the
outcome of the first failing check, in the fixed order parse, on the board,
within the radius bounds (Chebyshev distance from the centre (9, 9)), target
empty, not already won, not full; SUCCESS when all six pass. -/
def placeStoneDecision (b : Board) (a_position : List Char) : ReturnCode :=
  match ParsePosition a_position with
  | none => ReturnCode.COULD_NOT_PARSE
  | some (row, column) =>
    if ¬ (0 ≤ row ∧ row < 19 ∧ 0 ≤ column ∧ column < 19) then ReturnCode.INVALID_MOVE
    else if max |row - 9| |column - 9| < b.GetInnerBounds ∨
        max |row - 9| |column - 9| > b.GetOuterBounds then ReturnCode.INVALID_MOVE
    else if getCell b.m_gameBoard row column ≠ 'O' then ReturnCode.SPACE_OCCUPIED
    else if b.GetWinInARow > 0 then ReturnCode.ALREADY_WINNER
    else if b.GetIntersectLeft ≤ 0 then ReturnCode.FULL_BOARD
    else ReturnCode.SUCCESS

/-- The board after five `W` stones at A1 .. E1: the last one completes a row. -/
def wonBoard : Board :=
  (PlaceStone (PlaceStone (PlaceStone (PlaceStone (PlaceStone Board.init
    'W' ['A', '1']).1 'W' ['B', '1']).1 'W' ['C', '1']).1 'W' ['D', '1']).1 'W' ['E', '1']).1

/-! ## Boards holding a single run -/

/-- Whether `q` is one of the `L` cells `(r0, c0) + j * delta(d)`, `j < L`. -/
def onRun (r0 c0 : Int) (d L : Nat) (q : Int × Int) : Bool :=
  (List.range L).any (fun (j : Nat) => q == offsetPos r0 c0 d (j : Int))

/-- A board whose only stones are `L` stones of one colour `X`, consecutive in
direction `d` from `(r0, c0)`, all on the board. -/
def IsRunBoard (g : Grid) (X : Char) (r0 c0 : Int) (d L : Nat) : Prop :=
  WellFormed g ∧ X ≠ NULL_PIECE ∧ d < 8 ∧ 1 ≤ L ∧ IsValidIndex r0 c0 = true ∧
    IsValidIndex (offsetPos r0 c0 d ((L : Int) - 1)).1
      (offsetPos r0 c0 d ((L : Int) - 1)).2 = true ∧
    ∀ q : Int × Int, IsValidIndex q.1 q.2 = true →
      getCell g q.1 q.2 = if onRun r0 c0 d L q = true then X else NULL_PIECE

/-- The empty board with `L` stones `X` put down from `(r0, c0)` in direction `d`. -/
def runBoard (X : Char) (r0 c0 : Int) (d L : Nat) : Grid :=
  applyWrites InitGameBoard
    ((List.range L).map (fun (j : Nat) => (offsetPos r0 c0 d (j : Int), X)))

/-- What one lane adds to the total in the loop of `GetNumNInARow`. -/
def laneScore (a_n count : Int) : Int :=
  Int.tdiv (if count > 0 ∧ Int.tmod (Int.tdiv count 2) a_n ≠ 0 then count - 1 else count) a_n

/-! ## Runs of public calls -/

/-- A call of one of the four public mutators of `Board`. -/
inductive Op where
  | place (a_color : Char) (a_position : List Char)
  | undo
  | setBounds (a_innerBounds a_outerBounds : Int)
  | setBoard (a_gameBoard : Grid)

/-- The board and the return code of one call. -/
def applyOp (b : Board) : Op → Board × ReturnCode
  | Op.place a_color a_position => PlaceStone b a_color a_position
  | Op.undo => UndoMove b
  | Op.setBounds i o => SetBounds b i o
  | Op.setBoard g => SetBoard b g

/-- The number of successful placements not yet undone since construction or
the last successful `SetBoard`, after one more call that returned `code`. -/
def pendingAfter (pending : Nat) : Op → ReturnCode → Nat
  | Op.place _ _, ReturnCode.SUCCESS => pending + 1
  | Op.undo, ReturnCode.SUCCESS => pending - 1
  | Op.setBoard _, ReturnCode.SUCCESS => 0
  | _, _ => pending

/-- A run of calls, carrying the board and the count of `pendingAfter`. -/
def runOps : Board → Nat → List Op → Board × Nat
  | b, pending, [] => (b, pending)
  | b, pending, op :: rest =>
    runOps (applyOp b op).1 (pendingAfter pending op (applyOp b op).2) rest

/-! ## Labels and the centre-only opening -/

/-- Decimal value of a string of digits, most significant digit first. -/
def decimalValue : List Char → Nat
  | [] => 0
  | ch :: rest => (ch.toNat - '0'.toNat) * 10 ^ rest.length + decimalValue rest

/-- The fresh board after `SetBounds(0, 0)`. -/
def centreOnlyBoard : Board := (SetBounds Board.init 0 0).1

/-! ## The capture scan on any grid -/

/-- The capture condition of `CapturePairs(m, r, c)` in direction `d`, read on
the grid the scan starts from: the cell at distance 3 is on the board and holds
the same piece as `(r, c)`, and the cells at distance 1 and 2 hold the same
stone, not the null piece and not `m`. -/
def scanCaptures (g : Grid) (m : Char) (r c : Int) (d : Nat) : Bool :=
  let p1 := offsetPos r c d 1
  let p2 := offsetPos r c d 2
  let p3 := offsetPos r c d 3
  IsValidIndex p3.1 p3.2 && getCell g r c == getCell g p3.1 p3.2 &&
    getCell g p1.1 p1.2 == getCell g p2.1 p2.2 &&
    getCell g p1.1 p1.2 != NULL_PIECE &&
    getCell g p1.1 p1.2 != m

/-- Whether `q` is at distance 1 or 2 in a direction where `scanCaptures` holds. -/
def isScanCapturedCell (g : Grid) (m : Char) (r c : Int) (q : Int × Int) : Bool :=
  (List.range NUM_DIRECTIONS).any (fun d =>
    scanCaptures g m r c d && (q == offsetPos r c d 1 || q == offsetPos r c d 2))

/-- The board loaded by `SetBoard` with the grid of `bracketBoard` plus a `W`
stone at J10: the bracket W B B W stands on the board, not yet scanned. -/
def preCaptureBoard : Board :=
  (SetBoard Board.init (setCell bracketBoard.m_gameBoard 9 9 'W')).1

/-! ## Vulnerable windows and runs of exactly `n` stones -/

/-- The bracket-vulnerability pattern on four consecutive cells: Empty, s, s, X
or X, s, s, Empty, with X neither Empty nor s. -/
def vulnerablePattern (s x0 x1 x2 x3 : Char) : Bool :=
  (x0 == NULL_PIECE && x1 == s && x2 == s && (x3 != NULL_PIECE && x3 != s)) ||
    ((x0 != NULL_PIECE && x0 != s) && x1 == s && x2 == s && x3 == NULL_PIECE)

/-- Whether the window of lane `d` around `(r, c)`, from distance 2 on one side
to distance 2 on the other and truncated at the board edge, contains four
consecutive cells with the vulnerable pattern: the four cells start at signed
distance -2 or -1 and are all on the board. -/
def laneVulnerable (g : Grid) (s : Char) (r c : Int) (d : Nat) : Bool :=
  ([-2, -1] : List Int).any (fun t =>
    IsValidIndex (offsetPos r c d t).1 (offsetPos r c d t).2 &&
    IsValidIndex (offsetPos r c d (t + 3)).1 (offsetPos r c d (t + 3)).2 &&
    vulnerablePattern s
      (getCell g (offsetPos r c d t).1 (offsetPos r c d t).2)
      (getCell g (offsetPos r c d (t + 1)).1 (offsetPos r c d (t + 1)).2)
      (getCell g (offsetPos r c d (t + 2)).1 (offsetPos r c d (t + 2)).2)
      (getCell g (offsetPos r c d (t + 3)).1 (offsetPos r c d (t + 3)).2))

/-- Whether a maximal run of exactly `n` stones of `s` in lane `d` starts at
`(r, c)`: the `n` cells from `(r, c)` on in direction `d` are on the board and
hold `s`, and neither the cell before `(r, c)` nor the cell after the `n`-th is
an on-board cell holding `s`. -/
def isRunStart (g : Grid) (s : Char) (n : Nat) (r c : Int) (d : Nat) : Bool :=
  (List.range n).all (fun (k : Nat) =>
    IsValidIndex (offsetPos r c d (k : Int)).1 (offsetPos r c d (k : Int)).2 &&
      getCell g (offsetPos r c d (k : Int)).1 (offsetPos r c d (k : Int)).2 == s) &&
  !(IsValidIndex (offsetPos r c d (-1)).1 (offsetPos r c d (-1)).2 &&
      getCell g (offsetPos r c d (-1)).1 (offsetPos r c d (-1)).2 == s) &&
  !(IsValidIndex (offsetPos r c d (n : Int)).1 (offsetPos r c d (n : Int)).2 &&
      getCell g (offsetPos r c d (n : Int)).1 (offsetPos r c d (n : Int)).2 == s)

/-- The number of maximal straight runs of exactly `n` stones of `s`, over the
four lanes (directions 0 .. 3), each run counted at its first cell. -/
def countRuns (g : Grid) (s : Char) (n : Nat) : Nat :=
  ((List.range 4).map (fun d =>
    (allCells.filter (fun p => isRunStart g s n p.1 p.2 d)).length)).sum

/-- The test of `GetUninterStones(n, s)` for one cell and one lane: the cell
holds `s` and the lane total of `CardinalCount(n + 1, ...)` minus 1 is `n`. -/
def laneExact (g : Grid) (s : Char) (n : Nat) (r c : Int) (d : Nat) : Bool :=
  getCell g r c == s &&
    decide (CountSameStones (colorSeqFrom g r c d 0 (n + 1)) +
      CountSameStones (colorSeqFrom g r c (d + 4) 0 (n + 1)) - 1 = (n : Int))


/-! ## Player.h and Player.cpp : the move evaluator -/

/-- The default name of `Player`. -/
def DEFAULT_NAME : List Char := ['P', 'l', 'a', 'y', 'e', 'r']

def DEFAULT_COLOR : Char := '?'

def DEFAULT_SCORE : Int := 0

def WHITE_CHAR : Char := 'W'

def BLACK_CHAR : Char := 'B'

/-- The constant `DEFAULT_EVAL = INT_MIN` of a 32-bit `int`. -/
def DEFAULT_EVAL : Int := -2147483648

/-- The enumeration `Player::MoveReason`. -/
inductive MoveReason where
  | UNKNOWN
  | WIN
  | CAPTURE
  | BUILD
  | BOARD_RESTRICTION
  deriving DecidableEq, Repr

/-- The `Player::ComputerMove` struct. -/
structure ComputerMove where
  position : List Char
  evalScore : Int
  color : Char
  reason : MoveReason
  deriving DecidableEq, Repr

/-- The default constructor `ComputerMove()`. -/
def ComputerMove.default : ComputerMove where
  position := []
  evalScore := DEFAULT_EVAL
  color := DEFAULT_COLOR
  reason := MoveReason.UNKNOWN

/-- The member variables of `Player`. -/
structure Player where
  m_name : List Char
  m_color : Char
  m_tournamentScore : Int
  m_capturedPairs : Int
  m_bestMove : ComputerMove
  deriving DecidableEq, Repr

/-- The constructor `Player(a_name)`. -/
def Player.init (a_name : List Char) : Player where
  m_name := a_name
  m_color := DEFAULT_COLOR
  m_tournamentScore := DEFAULT_SCORE
  m_capturedPairs := DEFAULT_SCORE
  m_bestMove := ComputerMove.default

def Player.GetColor (p : Player) : Char := p.m_color

/-- `Player::SetColor`. -/
def Player.SetColor (p : Player) (a_color : Char) : Player × ReturnCode :=
  ({ p with m_color := a_color }, ReturnCode.SUCCESS)

/-- The values of `n` the loop `for (int n = WIN_SCORE - 1; n > 1; n--)` of
`Player::EvaluateMove` runs through, in order. -/
def buildLengths : List Int :=
  (List.range (WIN_SCORE - 2).toNat).map (fun (i : Nat) => WIN_SCORE - 1 - (i : Int))

/-- `Player::EvaluateMove`, a member of the evaluating player `p`. The source
ignores the result of `ParsePosition`; `(0, 0)` stands for the indices left
unset when the last position does not parse (it parses after every successful
`PlaceStone`). The `int` arithmetic is exact: the counts read from a board the
program builds are at most 8. -/
def EvaluateMove (p : Player) (a_board : Board) (a_player : Player) : ComputerMove :=
  let WIN_MULTI : Int := 10000
  let CAPTURE_MULTI : Int := 2000
  let BUILD_MULTI : Int := 5
  let position := a_board.GetLastPosition
  let color := a_player.GetColor
  let rc := (ParsePosition position).getD (0, 0)
  let row := rc.1
  let column := rc.2
  let evalScore := WIN_MULTI * a_board.GetWinInARow
  let acc := buildLengths.foldl (fun (acc : Int × Int) n =>
    let blockCount := acc.1 +
      (GetNumNInARow a_board.m_gameBoard n row column - a_board.GetWinInARow)
    (blockCount, acc.2 + BUILD_MULTI * blockCount * n * n)) (0, evalScore)
  let blockCount := acc.1
  let evalScore := acc.2
  let evalScore :=
    if blockCount > 0 ∧ p.m_color = a_player.GetColor then evalScore + BUILD_MULTI
    else evalScore
  let evalScore :=
    if evalScore < WIN_MULTI ∧ p.m_color = a_player.GetColor then
      evalScore - CAPTURE_MULTI *
        GetPotentialCaptures a_board.m_gameBoard a_player.m_color row column
    else evalScore
  let evalScore := evalScore + CAPTURE_MULTI * a_board.GetCapturedPairs
  { position := position
    evalScore := evalScore
    color := color
    reason :=
      if evalScore ≥ WIN_MULTI then MoveReason.WIN
      else if evalScore ≥ CAPTURE_MULTI then MoveReason.CAPTURE
      else if evalScore > 0 then MoveReason.BUILD
      else MoveReason.UNKNOWN }

/-- The local variables of `Player::BestMove` that live across the iterations
of its loops. -/
structure ScanState where
  boardCopy : Board
  ourBest : ComputerMove
  theirBest : ComputerMove
  ourMove : ComputerMove
  theirMove : ComputerMove
  topMoves : List ComputerMove
  deriving DecidableEq, Repr

/-- The body of the loops of `Player::BestMove` at one cell; `continue` leaves
the iteration with the state reached so far. -/
def scanStep (p a_nextPlayer : Player) (s : ScanState) (cell : Int × Int) : ScanState :=
  let currPosition := IndicesToString cell.1 cell.2
  let r1 := PlaceStone s.boardCopy p.m_color currPosition
  if r1.2 ≠ ReturnCode.SUCCESS then { s with boardCopy := r1.1 }
  else
    let ourMove := EvaluateMove p r1.1 p
    let b2 := (UndoMove r1.1).1
    let r2 := PlaceStone b2 a_nextPlayer.GetColor currPosition
    if r2.2 ≠ ReturnCode.SUCCESS then { s with boardCopy := r2.1, ourMove := ourMove }
    else
      let theirMove := EvaluateMove p r2.1 a_nextPlayer
      let b4 := (UndoMove r2.1).1
      let s1 : ScanState :=
        { s with boardCopy := b4, ourMove := ourMove, theirMove := theirMove }
      let s2 : ScanState :=
        if ourMove.evalScore ≥ s1.ourBest.evalScore then
          { s1 with ourBest := ourMove, topMoves := s1.topMoves ++ [ourMove] }
        else s1
      if theirMove.evalScore ≥ s2.theirBest.evalScore then
        { s2 with theirBest := theirMove, topMoves := s2.topMoves ++ [theirMove] }
      else s2

/-- The locals of `Player::BestMove` before its loops: `boardCopy` is a copy of
the board, the four moves are default constructed, `topMoves` is empty. -/
def scanStart (a_board : Board) : ScanState where
  boardCopy := a_board
  ourBest := ComputerMove.default
  theirBest := ComputerMove.default
  ourMove := ComputerMove.default
  theirMove := ComputerMove.default
  topMoves := []

/-- The two nested loops of `Player::BestMove` over the cells, row by row. -/
def bestMoveScan (p : Player) (a_board : Board) (a_nextPlayer : Player) : ScanState :=
  allCells.foldl (scanStep p a_nextPlayer) (scanStart a_board)

/-- The array `VALUES` of `Player::DetermineBest`. -/
def VALUES : List (List Char) := [['J', '7'], ['M', '1', '0'], ['J', '1', '3'], ['G', '1', '0']]

/-- `Player::DetermineBest`. The values the successive calls of `rand()` return
are `rand 0`, `rand 1`, ...; the result is the player with `m_bestMove` set, the
vector `topMoves` as the function leaves it, and the number of calls of `rand()`
it made. -/
def DetermineBest (p : Player) (a_board : Board) (ourBest theirBest : ComputerMove)
    (topMoves : List ComputerMove) (rand : Nat → Nat) :
    Player × List ComputerMove × Nat :=
  if ourBest.reason = MoveReason.WIN then ({ p with m_bestMove := ourBest }, topMoves, 0)
  else
    let best := if ourBest.evalScore > theirBest.evalScore then ourBest else theirBest
    let topMoves := topMoves.filter (fun it => !decide (it.evalScore ≠ best.evalScore))
    let calls : Nat := if topMoves.length > 1 then 1 else 0
    let best :=
      if topMoves.length > 1 then topMoves.getD (rand 0 % topMoves.length) best else best
    let best :=
      if a_board.GetOuterBounds = 0 then { best with reason := MoveReason.BOARD_RESTRICTION }
      else best
    if a_board.GetInnerBounds = 3 then
      ({ p with m_bestMove :=
          { best with
            reason := MoveReason.BOARD_RESTRICTION
            position := VALUES.getD (rand calls % 4) [] } },
        topMoves, calls + 1)
    else ({ p with m_bestMove := best }, topMoves, calls)

/-- `Player::BestMove`: the player with `m_bestMove` set and the number of
calls of `rand()` made. The board is a `const` reference: the function works on
the copy held by `bestMoveScan`. -/
def BestMove (p : Player) (a_board : Board) (a_nextPlayer : Player) (rand : Nat → Nat) :
    Player × Nat :=
  let s := bestMoveScan p a_board a_nextPlayer
  let r := DetermineBest p s.boardCopy s.ourBest s.theirBest s.topMoves rand
  (r.1, r.2.2)

/-- The score of `EvaluateMove` in closed form, from the counts it reads: `w`
winning lines, `n4 n3 n2` the n-in-a-row counts for n = 4, 3, 2, `pc` potential
captures, `cap` captured pairs; `own` says whether the evaluating player has the
colour of the player the move is evaluated for. The block count is cumulative:
the count of n = 4 is weighted 16 + 9 + 4, that of n = 3 is weighted 9 + 4. -/
def closedScore (own : Bool) (w n4 n3 n2 pc cap : Int) : Int :=
  let base := 10000 * w + 5 * (29 * (n4 - w) + 13 * (n3 - w) + 4 * (n2 - w))
  let bonus : Int := if 0 < (n4 - w) + (n3 - w) + (n2 - w) ∧ own = true then 5 else 0
  let penalty : Int := if base + bonus < 10000 ∧ own = true then 2000 * pc else 0
  base + bonus - penalty + 2000 * cap

/-- The score in the words of the claimed formula: `10000 * w`, plus
`5 * n * n * (count at n - w)` for n = 4, 3, 2, minus `2000 * pc` when the
evaluating player owns the stone and the running score is below 10000, plus
`2000 * cap`. -/
def claimedScore (own : Bool) (w n4 n3 n2 pc cap : Int) : Int :=
  let running := 10000 * w +
    (5 * 4 * 4 * (n4 - w) + 5 * 3 * 3 * (n3 - w) + 5 * 2 * 2 * (n2 - w))
  let penalty : Int := if own = true ∧ running < 10000 then 2000 * pc else 0
  running - penalty + 2000 * cap

/-- A player named "White" holding the white stones. -/
def whitePlayer : Player := ((Player.init ['W', 'h', 'i', 't', 'e']).SetColor WHITE_CHAR).1

/-- A player named "Black" holding the black stones. -/
def blackPlayer : Player := ((Player.init ['B', 'l', 'a', 'c', 'k']).SetColor BLACK_CHAR).1

/-- The board after `W` at J10 and `W` at K10. -/
def pairBoard : Board :=
  (PlaceStone (PlaceStone Board.init 'W' ['J', '1', '0']).1 'W' ['K', '1', '0']).1

/-- The board after `W` at J10, K10 and L10. -/
def tripleBoard : Board := (PlaceStone pairBoard 'W' ['L', '1', '0']).1

/-- Whether `PlaceStone` accepts a stone on the cell once its label is parsed
and its index validated: within the bounds, empty, no winner yet, board not
full. -/
def isOpenCell (b : Board) (cell : Int × Int) : Bool :=
  !(decide (b.m_currMove.innerBounds > AwayFromCenter cell.1 cell.2) ||
      decide (AwayFromCenter cell.1 cell.2 > b.m_currMove.outerBounds)) &&
    (getCell b.m_gameBoard cell.1 cell.2 == NULL_PIECE) &&
    !decide (b.m_currMove.winInARow > 0) && !b.IsBoardFull

/-- The working copy `b2` agrees with the board `b` on all that a placement
and its evaluation read: grid, history, bounds, and the two game-over tests. -/
def SameGame (b b2 : Board) : Prop :=
  b2.m_gameBoard = b.m_gameBoard ∧ b2.m_prevMoves = b.m_prevMoves ∧
    b2.m_currMove.innerBounds = b.m_currMove.innerBounds ∧
    b2.m_currMove.outerBounds = b.m_currMove.outerBounds ∧
    (b2.m_currMove.winInARow > 0 ↔ b.m_currMove.winInARow > 0) ∧
    b2.IsBoardFull = b.IsBoardFull

/-- The move `BestMove` evaluates for the mover `p` at a cell of the board `b`. -/
def ourCandidate (p : Player) (b : Board) (cell : Int × Int) : ComputerMove :=
  EvaluateMove p (PlaceStone b p.m_color (IndicesToString cell.1 cell.2)).1 p

/-- The move `BestMove` evaluates for the next player `q` at a cell of the
board `b`. -/
def theirCandidate (p : Player) (b : Board) (q : Player) (cell : Int × Int) : ComputerMove :=
  EvaluateMove p (PlaceStone b q.GetColor (IndicesToString cell.1 cell.2)).1 q

/-- The end of an iteration of the loops of `BestMove` in which both
placements succeeded: the two comparisons against the best moves so far. -/
def recordMoves (s : ScanState) (boardCopy : Board) (ourMove theirMove : ComputerMove) :
    ScanState :=
  { boardCopy := boardCopy
    ourBest := if ourMove.evalScore ≥ s.ourBest.evalScore then ourMove else s.ourBest
    theirBest := if theirMove.evalScore ≥ s.theirBest.evalScore then theirMove else s.theirBest
    ourMove := ourMove
    theirMove := theirMove
    topMoves :=
      (s.topMoves ++ if ourMove.evalScore ≥ s.ourBest.evalScore then [ourMove] else []) ++
        if theirMove.evalScore ≥ s.theirBest.evalScore then [theirMove] else [] }

/-- Four `W` stones at F10, G10, H10 and I10, then `SetBounds(0, 0)`: the centre
J10 is the only cell within the bounds, and a `W` stone there completes five. -/
def fourBoard : Board :=
  (SetBounds (PlaceStone (PlaceStone (PlaceStone (PlaceStone Board.init
    'W' ['F', '1', '0']).1 'W' ['G', '1', '0']).1 'W' ['H', '1', '0']).1
    'W' ['I', '1', '0']).1 0 0).1

/-- The stones of `fourBoard`, four `B` stones at J6 .. J9, `W` stones at K11 and
L12 and a `B` stone at M13, then `SetBounds(0, 0)`: at the centre J10 a `W` stone
completes five, and a `B` stone completes five and captures a pair. -/
def contestedBoard : Board :=
  (SetBounds (PlaceStone (PlaceStone (PlaceStone (PlaceStone (PlaceStone (PlaceStone
    (PlaceStone (PlaceStone (PlaceStone (PlaceStone (PlaceStone Board.init
    'W' ['F', '1', '0']).1 'W' ['G', '1', '0']).1 'W' ['H', '1', '0']).1
    'W' ['I', '1', '0']).1 'B' ['J', '6']).1 'B' ['J', '7']).1 'B' ['J', '8']).1
    'B' ['J', '9']).1 'W' ['K', '1', '1']).1 'W' ['L', '1', '2']).1
    'B' ['M', '1', '3']).1 0 0).1

/-- `W` stones at G7 and H7, then `SetBounds(3, 3)`: the legal cells are the
empty cells of the ring at distance 3 from the centre. -/
def ringBoard : Board :=
  (SetBounds (PlaceStone (PlaceStone Board.init 'W' ['G', '7']).1 'W' ['H', '7']).1 3 3).1

/-- Eight `B` stones on the cells around the centre, then `SetBounds(0, 1)`: the
centre J10 is the only empty cell within the bounds. -/
def crowdedBoard : Board :=
  (SetBounds (PlaceStone (PlaceStone (PlaceStone (PlaceStone (PlaceStone (PlaceStone
    (PlaceStone (PlaceStone Board.init 'B' ['I', '9']).1 'B' ['J', '9']).1 'B' ['K', '9']).1
    'B' ['I', '1', '0']).1 'B' ['K', '1', '0']).1 'B' ['I', '1', '1']).1
    'B' ['J', '1', '1']).1 'B' ['K', '1', '1']).1 0 1).1

/-- The bounds in force at the successful placements not yet undone, newest
first, after one more call on the board `b` that returned `code`: a successful
`PlaceStone` records the bounds of `b`, a successful `UndoMove` drops the newest
record, a successful `SetBoard` drops them all. -/
def boundsLogAfter (log : List (Int × Int)) (b : Board) : Op → ReturnCode → List (Int × Int)
  | Op.place _ _, ReturnCode.SUCCESS => (b.GetInnerBounds, b.GetOuterBounds) :: log
  | Op.undo, ReturnCode.SUCCESS => log.tail
  | Op.setBoard _, ReturnCode.SUCCESS => []
  | _, _ => log

/-- A run of calls, carrying the board and the log of `boundsLogAfter`. -/
def runOpsLog : Board → List (Int × Int) → List Op → Board × List (Int × Int)
  | b, log, [] => (b, log)
  | b, log, op :: rest =>
    runOpsLog (applyOp b op).1 (boundsLogAfter log b op (applyOp b op).2) rest

/-- The cells of the grid that hold the null piece, among the 361 cells of the
board. -/
def emptyCells (g : Grid) : List (Int × Int) :=
  allCells.filter (fun p => getCell g p.1 p.2 == NULL_PIECE)

/-- The number of cells of the board on the ray from `(r, c)` in direction `d`,
the start cell included: the steps `k = 0 .. 18` whose cell is on the board (no
cell at step 19 or beyond is). -/
def rayLength (r c : Int) (d : Nat) : Nat :=
  ((List.range BOARD_SIZE.toNat).filter (fun (k : Nat) =>
    IsValidIndex (offsetPos r c d (k : Int)).1 (offsetPos r c d (k : Int)).2)).length

/-- The same-colour run length from the cell `(r, c)` in direction `d`, the cell
included, capped at `n`: the number of steps `k = 0, 1, ..` below `n`, taken while
the cell at step `k` is on the board and holds what `(r, c)` holds. -/
def runLength (g : Grid) (r c : Int) (d n : Nat) : Nat :=
  ((List.range n).takeWhile (fun (k : Nat) =>
    IsValidIndex (offsetPos r c d (k : Int)).1 (offsetPos r c d (k : Int)).2 &&
      getCell g (offsetPos r c d (k : Int)).1 (offsetPos r c d (k : Int)).2 ==
        getCell g r c)).length

/-- What a lane with run lengths `a` and `b` in its two directions adds to the
count of n-in-a-rows: 0 if `a + b - 1 < n`, 2 if `a = b = n`, 1 otherwise. -/
def laneTerm (n a b : Nat) : Int :=
  if (a : Int) + (b : Int) - 1 < (n : Int) then 0 else if a = n ∧ b = n then 2 else 1

/-- The variable `blockCount` of `Player::EvaluateMove` after the loop has run
through the lengths `ns`, the last position being `(row, column)`. -/
def blockCountAfter (a_board : Board) (row column : Int) (ns : List Int) : Int :=
  ns.foldl (fun blockCount n =>
    blockCount + (GetNumNInARow a_board.m_gameBoard n row column - a_board.GetWinInARow)) 0

/-- The board at the third ply of a round: `SetBounds(0, 0)` and `W` at the
centre J10, `SetBounds(0, 19)` and `B` at J7, then `SetBounds(3, 19)`. -/
def thirdPlyBoard : Board :=
  (SetBounds (PlaceStone (SetBounds (PlaceStone (SetBounds Board.init 0 0).1
    'W' ['J', '1', '0']).1 0 19).1 'B' ['J', '7']).1 3 19).1

/-! # Theorems -/

/-! ## The grid as a map from valid indices to cells -/

theorem IsValidIndex_iff (r c : Int) :
    IsValidIndex r c = true ↔ 0 ≤ r ∧ r < 19 ∧ 0 ≤ c ∧ c < 19 := by
  simp [IsValidIndex, BOARD_SIZE]
  tauto

theorem wf_setCell {g : Grid} (r c : Int) (v : Char) (hg : WellFormed g) :
    WellFormed (setCell g r c v) := by
  obtain ⟨h1, h2⟩ := hg
  refine ⟨by simp [setCell, h1], ?_⟩
  intro row hrow
  simp only [setCell] at hrow
  rcases List.mem_or_eq_of_mem_set hrow with h | h
  · exact h2 row h
  · subst h
    rw [List.length_set]
    by_cases hr : r.toNat < g.length
    · rw [List.getD_eq_getElem _ _ hr]
      exact h2 _ (List.getElem_mem _)
    · rw [List.getD_eq_default _ _ (not_lt.mp hr)] at hrow
      rw [List.set_eq_of_length_le (not_lt.mp hr)] at hrow
      have := h2 _ hrow
      simp at this

theorem getCell_setCell {g : Grid} (hg : WellFormed g) {r c r' c' : Int} (v : Char)
    (hv : IsValidIndex r c = true) (hv' : IsValidIndex r' c' = true) :
    getCell (setCell g r c v) r' c' = if r' = r ∧ c' = c then v else getCell g r' c' := by
  rw [IsValidIndex_iff] at hv hv'
  obtain ⟨h1, h2⟩ := hg
  have hr : r.toNat < g.length := by omega
  have hr' : r'.toNat < g.length := by omega
  have hrow : (g[r.toNat]).length = 19 := h2 _ (List.getElem_mem _)
  simp only [getCell, setCell, List.getD_eq_getElem?_getD, List.getElem?_set]
  by_cases e : r' = r
  · subst e
    have hc : c.toNat < (g[r'.toNat]).length := by omega
    by_cases e2 : c' = c
    · subst e2
      simp [hr, hc]
    · have : c.toNat ≠ c'.toNat := by omega
      simp [hr, e2, this]
  · have : r.toNat ≠ r'.toNat := by omega
    simp [e, this]

theorem grid_ext {g1 g2 : Grid} (h1 : WellFormed g1) (h2 : WellFormed g2)
    (h : ∀ r c : Int, IsValidIndex r c = true → getCell g1 r c = getCell g2 r c) :
    g1 = g2 := by
  apply List.ext_getElem (by rw [h1.1, h2.1])
  intro i hi1 hi2
  have hl1 : (g1[i]).length = 19 := h1.2 _ (List.getElem_mem _)
  have hl2 : (g2[i]).length = 19 := h2.2 _ (List.getElem_mem _)
  apply List.ext_getElem (by rw [hl1, hl2])
  intro j hj1 hj2
  have hi : i < 19 := by rw [← h1.1]; exact hi1
  have hj : j < 19 := by rw [← hl1]; exact hj1
  have := h (i : Int) (j : Int) (by rw [IsValidIndex_iff]; omega)
  simp only [getCell, Int.toNat_ofNat] at this
  rwa [List.getD_eq_getElem _ _ hi1, List.getD_eq_getElem _ _ hi2,
    List.getD_eq_getElem _ _ hj1, List.getD_eq_getElem _ _ hj2] at this

/-! ## `UpdateSeqs` as a list of writes -/

theorem applyWrites_wf {g : Grid} (ws : List ((Int × Int) × Char)) (hg : WellFormed g) :
    WellFormed (applyWrites g ws) := by
  induction ws generalizing g with
  | nil => exact hg
  | cons w ws ih => exact ih (wf_setCell _ _ _ hg)

theorem applyWrites_append (g : Grid) (a b : List ((Int × Int) × Char)) :
    applyWrites g (a ++ b) = applyWrites (applyWrites g a) b := by
  simp [applyWrites, List.foldl_append]

theorem applyWrites_untouched {g : Grid} (hg : WellFormed g)
    (ws : List ((Int × Int) × Char)) (q : Int × Int)
    (hv : ∀ w ∈ ws, IsValidIndex w.1.1 w.1.2 = true) (hq : IsValidIndex q.1 q.2 = true)
    (hne : ∀ w ∈ ws, w.1 ≠ q) :
    getCell (applyWrites g ws) q.1 q.2 = getCell g q.1 q.2 := by
  induction ws generalizing g with
  | nil => rfl
  | cons w ws ih =>
    have h1 := ih (wf_setCell w.1.1 w.1.2 w.2 hg)
      (fun x hx => hv x (List.mem_cons_of_mem _ hx))
      (fun x hx => hne x (List.mem_cons_of_mem _ hx))
    have hw : ¬ (q.1 = w.1.1 ∧ q.2 = w.1.2) := by
      intro h
      exact hne w (List.mem_cons_self _ _) (Prod.ext h.1.symm h.2.symm)
    show getCell (applyWrites (setCell g w.1.1 w.1.2 w.2) ws) q.1 q.2 = _
    rw [h1, getCell_setCell hg _ (hv w (List.mem_cons_self _ _)) hq, if_neg hw]

theorem applyWrites_written {g : Grid} (hg : WellFormed g)
    (ws : List ((Int × Int) × Char)) (q : Int × Int) (v : Char)
    (hv : ∀ w ∈ ws, IsValidIndex w.1.1 w.1.2 = true) (hq : IsValidIndex q.1 q.2 = true)
    (hval : ∀ w ∈ ws, w.1 = q → w.2 = v) (hex : ∃ w ∈ ws, w.1 = q) :
    getCell (applyWrites g ws) q.1 q.2 = v := by
  induction ws generalizing g with
  | nil => simp at hex
  | cons w ws ih =>
    have hg' := wf_setCell w.1.1 w.1.2 w.2 hg
    have hv' : ∀ x ∈ ws, IsValidIndex x.1.1 x.1.2 = true :=
      fun x hx => hv x (List.mem_cons_of_mem _ hx)
    show getCell (applyWrites (setCell g w.1.1 w.1.2 w.2) ws) q.1 q.2 = v
    by_cases hin : ∃ x ∈ ws, x.1 = q
    · exact ih hg' hv' (fun x hx => hval x (List.mem_cons_of_mem _ hx)) hin
    · have hne : ∀ x ∈ ws, x.1 ≠ q := fun x hx e => hin ⟨x, hx, e⟩
      rw [applyWrites_untouched hg' ws q hv' hq hne]
      obtain ⟨x, hx, hxq⟩ := hex
      rcases List.mem_cons.mp hx with rfl | hx'
      · rw [getCell_setCell hg _ (hv x (List.mem_cons_self _ _)) hq]
        simp [← hxq, hval x (List.mem_cons_self _ _) hxq]
      · exact absurd hxq (hne x hx')

theorem mem_writesFrom {r c : Int} {d : Nat} {seq : List Char} {step : Nat}
    {w : (Int × Int) × Char} :
    w ∈ writesFrom r c d seq step ↔
      ∃ i, seq[i]? = some w.2 ∧ w.1 = offsetPos r c d ((step + i : Nat) : Int) := by
  induction seq generalizing step with
  | nil => simp [writesFrom]
  | cons ch rest ih =>
    simp only [writesFrom, List.mem_cons, ih]
    constructor
    · rintro (rfl | ⟨i, h1, h2⟩)
      · exact ⟨0, by simp, by simp⟩
      · exact ⟨i + 1, by simpa using h1, by rw [h2]; congr 2; omega⟩
    · rintro ⟨i, h1, h2⟩
      cases i with
      | zero =>
        left
        simp at h1 h2
        exact Prod.ext h2 h1.symm
      | succ i =>
        right
        exact ⟨i, by simpa using h1, by rw [h2]; congr 2; omega⟩

theorem mem_allWrites {r c : Int} {seqs : List (List Char)} {d : Nat}
    {w : (Int × Int) × Char} :
    w ∈ allWrites r c seqs d ↔
      ∃ j i s, seqs[j]? = some s ∧ s[i]? = some w.2 ∧
        w.1 = offsetPos r c (d + j) ((i : Nat) : Int) := by
  induction seqs generalizing d with
  | nil => simp [allWrites]
  | cons seq rest ih =>
    simp only [allWrites, List.mem_append, mem_writesFrom, ih]
    constructor
    · rintro (⟨i, h1, h2⟩ | ⟨j, i, s, h1, h2, h3⟩)
      · exact ⟨0, i, seq, by simp, h1, by simpa using h2⟩
      · exact ⟨j + 1, i, s, by simpa using h1, h2, by rw [h3]; congr 1; omega⟩
    · rintro ⟨j, i, s, h1, h2, h3⟩
      cases j with
      | zero =>
        left
        simp at h1
        subst h1
        exact ⟨i, h2, by simpa using h3⟩
      | succ j =>
        right
        exact ⟨j, i, s, by simpa using h1, h2, by rw [h3]; congr 1; omega⟩

theorem updateSeqFrom_eq {r c : Int} {d : Nat} (g : Grid) (seq : List Char) (step : Nat)
    (hv : ∀ w ∈ writesFrom r c d seq step, IsValidIndex w.1.1 w.1.2 = true) :
    updateSeqFrom r c d g seq step = (applyWrites g (writesFrom r c d seq step), true) := by
  induction seq generalizing g step with
  | nil => rfl
  | cons ch rest ih =>
    have h0 := hv (offsetPos r c d step, ch) (by simp [writesFrom])
    simp only [updateSeqFrom, OffsetIndices, h0, if_true]
    rw [ih _ _ (fun w hw => hv w (by simp [writesFrom, hw]))]
    rfl

theorem updateSeqsLoop_eq {r c : Int} (g : Grid) (seqs : List (List Char)) (d : Nat)
    (hv : ∀ w ∈ allWrites r c seqs d, IsValidIndex w.1.1 w.1.2 = true) :
    updateSeqsLoop r c g seqs d = (applyWrites g (allWrites r c seqs d), true) := by
  induction seqs generalizing g d with
  | nil => rfl
  | cons seq rest ih =>
    simp only [updateSeqsLoop, allWrites]
    rw [updateSeqFrom_eq g seq 0 (fun w hw => hv w (by simp [allWrites, hw]))]
    simp only
    rw [ih _ _ (fun w hw => hv w (by simp [allWrites, hw])), applyWrites_append]

/-! ## Geometry of the eight directions, and `ColorSeq` -/

theorem offsetPos_zero (r c : Int) (d : Nat) : offsetPos r c d ((0 : Nat) : Int) = (r, c) := by
  simp [offsetPos]

/-- Two cells of the star around `(r, c)` coincide only at the centre or when
they are the same step of the same direction. -/
theorem offsetPos_inj {r c : Int} {d d' : Nat} {k k' : Int} (hd : d < 8) (hd' : d' < 8)
    (h : offsetPos r c d k = offsetPos r c d' k') (hk : 0 ≤ k) (hk' : 0 ≤ k') :
    (k = 0 ∧ k' = 0) ∨ (d = d' ∧ k = k') := by
  simp only [offsetPos, Prod.mk.injEq] at h
  obtain ⟨h1, h2⟩ := h
  interval_cases d <;> interval_cases d' <;>
    simp [ROW_DELTA, COLUMN_DELTA] at h1 h2 ⊢ <;> omega

/-- The board is convex along every direction. -/
theorem offsetPos_valid_between {r c : Int} {d : Nat} {j k : Int}
    (h0 : IsValidIndex r c = true)
    (hk : IsValidIndex (offsetPos r c d k).1 (offsetPos r c d k).2 = true)
    (hj : 0 ≤ j) (hjk : j ≤ k) :
    IsValidIndex (offsetPos r c d j).1 (offsetPos r c d j).2 = true := by
  rw [IsValidIndex_iff] at *
  simp only [offsetPos] at *
  by_cases hd : d < 8
  · interval_cases d <;> simp [ROW_DELTA, COLUMN_DELTA] at hk ⊢ <;> omega
  · have e1 : ROW_DELTA.getD d 0 = 0 := List.getD_eq_default _ _ (by simp [ROW_DELTA]; omega)
    have e2 : COLUMN_DELTA.getD d 0 = 0 :=
      List.getD_eq_default _ _ (by simp [COLUMN_DELTA]; omega)
    simp only [e1, e2, zero_mul, add_zero]
    omega

theorem colorSeqFrom_length_le (g : Grid) (r c : Int) (d step fuel : Nat) :
    (colorSeqFrom g r c d step fuel).length ≤ fuel := by
  induction fuel generalizing step with
  | zero => simp [colorSeqFrom]
  | succ n ih =>
    simp only [colorSeqFrom]
    cases h : OffsetIndices r c d step with
    | none => simp
    | some p =>
      simp only [List.length_cons]
      have := ih (step + 1)
      omega

theorem OffsetIndices_eq_some {r c : Int} {d : Nat} {k : Int} {p : Int × Int}
    (h : OffsetIndices r c d k = some p) :
    p = offsetPos r c d k ∧ IsValidIndex p.1 p.2 = true := by
  simp only [OffsetIndices] at h
  split at h
  · next hv => simp at h; subst h; exact ⟨rfl, hv⟩
  · simp at h

theorem colorSeqFrom_getElem? {g : Grid} {r c : Int} {d step fuel i : Nat} {v : Char}
    (h : (colorSeqFrom g r c d step fuel)[i]? = some v) :
    IsValidIndex (offsetPos r c d ((step + i : Nat) : Int)).1
        (offsetPos r c d ((step + i : Nat) : Int)).2 = true ∧
      v = getCell g (offsetPos r c d ((step + i : Nat) : Int)).1
        (offsetPos r c d ((step + i : Nat) : Int)).2 := by
  induction fuel generalizing step i with
  | zero => simp [colorSeqFrom] at h
  | succ n ih =>
    simp only [colorSeqFrom] at h
    cases ho : OffsetIndices r c d step with
    | none => simp [ho] at h
    | some p =>
      obtain ⟨hp, hvalid⟩ := OffsetIndices_eq_some ho
      simp only [ho] at h
      cases i with
      | zero =>
        simp at h
        subst h
        rw [hp] at hvalid
        exact ⟨by simpa using hvalid, by simp [hp]⟩
      | succ i =>
        simp only [List.getElem?_cons_succ] at h
        have := ih h
        have e : step + 1 + i = step + (i + 1) := by omega
        rwa [e] at this

theorem colorSeqFrom_getElem?_of_valid {g : Grid} {r c : Int} {d step fuel i : Nat}
    (hv : ∀ k, k ≤ i → IsValidIndex (offsetPos r c d ((step + k : Nat) : Int)).1
        (offsetPos r c d ((step + k : Nat) : Int)).2 = true)
    (hi : i < fuel) :
    (colorSeqFrom g r c d step fuel)[i]? =
      some (getCell g (offsetPos r c d ((step + i : Nat) : Int)).1
        (offsetPos r c d ((step + i : Nat) : Int)).2) := by
  induction fuel generalizing step i with
  | zero => omega
  | succ n ih =>
    have h0 := hv 0 (Nat.zero_le _)
    simp only [Nat.add_zero] at h0
    simp only [colorSeqFrom, OffsetIndices, h0, if_true]
    cases i with
    | zero => simp
    | succ i =>
      simp only [List.getElem?_cons_succ]
      have := @ih (step + 1) i
        (fun k hk => by
          have := hv (k + 1) (by omega)
          have e : step + 1 + k = step + (k + 1) := by omega
          rwa [e]) (by omega)
      have e : step + 1 + i = step + (i + 1) := by omega
      rwa [e] at this

theorem ColorSeq_length (g : Grid) (n r c : Int) : (ColorSeq g n r c).length = 8 := by
  simp [ColorSeq, NUM_DIRECTIONS]

theorem ColorSeq_getElem? {g : Grid} {n r c : Int} {j : Nat} {s : List Char}
    (h : (ColorSeq g n r c)[j]? = some s) :
    j < 8 ∧ s = colorSeqFrom g r c j 0 n.toNat := by
  simp only [ColorSeq, NUM_DIRECTIONS, List.getElem?_map] at h
  have hj : j < 8 := by
    by_contra hc
    rw [List.getElem?_eq_none (by simp; omega)] at h
    simp at h
  rw [List.getElem?_range hj] at h
  simp at h
  exact ⟨hj, h.symm⟩

theorem ColorSeq_getElem?_lt {g : Grid} {n r c : Int} {j : Nat} (hj : j < 8) :
    (ColorSeq g n r c)[j]? = some (colorSeqFrom g r c j 0 n.toNat) := by
  simp [ColorSeq, NUM_DIRECTIONS, List.getElem?_map, List.getElem?_range hj]

theorem UpdateSeqs_eq {r c : Int} (g : Grid) (seqs : List (List Char))
    (hl : seqs.length = 8)
    (hv : ∀ w ∈ allWrites r c seqs 0, IsValidIndex w.1.1 w.1.2 = true) :
    UpdateSeqs g seqs r c = (applyWrites g (allWrites r c seqs 0), true) := by
  simp [UpdateSeqs, hl, NUM_DIRECTIONS, updateSeqsLoop_eq g seqs 0 hv]

theorem UpdateSeqs_wf {g : Grid} (seqs : List (List Char)) (r c : Int) (hg : WellFormed g) :
    WellFormed (UpdateSeqs g seqs r c).1 := by
  have h1 : ∀ (d : Nat) (seq : List Char) (step : Nat) (g : Grid), WellFormed g →
      WellFormed (updateSeqFrom r c d g seq step).1 := by
    intro d seq
    induction seq with
    | nil => intro _ g hg; exact hg
    | cons ch rest ih =>
      intro step g hg
      simp only [updateSeqFrom]
      cases OffsetIndices r c d step with
      | none => exact hg
      | some p => exact ih _ _ (wf_setCell _ _ _ hg)
  have h2 : ∀ (seqs : List (List Char)) (d : Nat) (g : Grid), WellFormed g →
      WellFormed (updateSeqsLoop r c g seqs d).1 := by
    intro seqs
    induction seqs with
    | nil => intro _ g hg; exact hg
    | cons seq rest ih =>
      intro d g hg
      simp only [updateSeqsLoop]
      have := h1 d seq 0 g hg
      rcases hh : updateSeqFrom r c d g seq 0 with ⟨g', fl⟩
      rw [hh] at this
      cases fl with
      | false => exact this
      | true => exact ih _ _ this
  unfold UpdateSeqs
  split
  · exact hg
  · exact h2 _ _ _ hg

/-! ## The capture loop and a successful placement -/

theorem CountSameStones_pair (x y : Char) :
    CountSameStones [x, y] = CAPTURE_NUM ↔ x = y ∧ x ≠ NULL_PIECE := by
  have e2 : (CAPTURE_NUM : Int) = 2 := rfl
  by_cases h3 : x = NULL_PIECE
  · have e : (x == NULL_PIECE) = true := by simpa using h3
    simp [CountSameStones, List.takeWhile, e, h3, e2]
  · have e : (x == NULL_PIECE) = false := by simpa using h3
    by_cases h2 : y = x
    · subst h2
      simp [CountSameStones, List.takeWhile, e, h3, e2]
    · have e' : (y != x) = true := by simpa using h2
      simp [CountSameStones, List.takeWhile, e, e', h3, e2, Ne.symm h2]

theorem captureSeq_four (m a x y z : Char) :
    captureSeq m [a, x, y, z] =
      if a = z ∧ x = y ∧ x ≠ NULL_PIECE ∧ x ≠ m then ([a, NULL_PIECE, NULL_PIECE, z], true)
      else ([a, x, y, z], false) := by
  have hc := CountSameStones_pair x y
  have e4 : ((([a, x, y, z] : List Char).length : Int) ≠ CAPTURE_NUM + 2) = False := by
    simp [CAPTURE_NUM]
  have e5 : List.take (([a, x, y, z] : List Char).length - 2) [x, y, z] = [x, y] := rfl
  have e6 : ([a, x, y, z] : List Char).getLastD ' ' = z := rfl
  have e7 : ([a, x, y, z] : List Char).headD ' ' = a := rfl
  have e8 : ([a, x, y, z] : List Char).drop 1 = [x, y, z] := rfl
  unfold captureSeq
  simp only [e4, e8, e5, e6, e7, if_false, hc, List.headD_cons]
  by_cases h1 : a = z
  · by_cases h2 : (x = y ∧ x ≠ NULL_PIECE) ∧ x ≠ m
    · have h2' : a = z ∧ x = y ∧ x ≠ NULL_PIECE ∧ x ≠ m := ⟨h1, h2.1.1, h2.1.2, h2.2⟩
      rw [if_neg (not_not.mpr h1), if_pos h2, if_pos h2']
      rfl
    · have h2' : ¬ (a = z ∧ x = y ∧ x ≠ NULL_PIECE ∧ x ≠ m) :=
        fun h => h2 ⟨⟨h.2.1, h.2.2.1⟩, h.2.2.2⟩
      rw [if_neg (not_not.mpr h1), if_neg h2, if_neg h2']
  · have h2' : ¬ (a = z ∧ x = y ∧ x ≠ NULL_PIECE ∧ x ≠ m) := fun h => h1 h.1
    rw [if_pos h1, if_neg h2']

theorem captureSeq_length (m : Char) (s : List Char) :
    (captureSeq m s).1.length = s.length := by
  by_cases h : s.length = 4
  · match s, h with
    | [a, x, y, z], _ =>
      rw [captureSeq_four]
      split <;> rfl
  · have : ((s.length : Int) ≠ CAPTURE_NUM + 2) := by
      simp only [CAPTURE_NUM]; omega
    simp [captureSeq, this]

theorem captureSeq_of_length_ne (m : Char) (s : List Char) (h : s.length ≠ 4) :
    captureSeq m s = (s, false) := by
  have : ((s.length : Int) ≠ CAPTURE_NUM + 2) := by
    simp only [CAPTURE_NUM]; omega
  simp [captureSeq, this]

theorem captureLoop_eq (m : Char) (seqs : List (List Char)) (cp il : Int) :
    captureLoop m seqs cp il =
      (seqs.map (fun s => (captureSeq m s).1),
       cp + ((seqs.filter (fun s => (captureSeq m s).2)).length : Int),
       il + CAPTURE_NUM * ((seqs.filter (fun s => (captureSeq m s).2)).length : Int)) := by
  induction seqs generalizing cp il with
  | nil => simp [captureLoop]
  | cons s rest ih =>
    simp only [captureLoop]
    rcases h : captureSeq m s with ⟨s', fl⟩
    cases fl with
    | true =>
      simp only [ih, List.map_cons, h, List.filter_cons, if_true, List.length_cons]
      refine Prod.ext rfl (Prod.ext ?_ ?_) <;> simp <;> ring
    | false =>
      simp only [ih, List.map_cons, h, List.filter_cons]
      simp

theorem PlaceStone_success {b : Board} {m : Char} {pos : List Char}
    (h : (PlaceStone b m pos).2 = ReturnCode.SUCCESS) :
    ∃ r c, ParsePosition pos = some (r, c) ∧ IsValidIndex r c = true ∧
      ¬ (b.m_currMove.innerBounds > AwayFromCenter r c ∨
          AwayFromCenter r c > b.m_currMove.outerBounds) ∧
      getCell b.m_gameBoard r c = NULL_PIECE ∧ ¬ b.m_currMove.winInARow > 0 ∧
      b.IsBoardFull = false ∧ (PlaceStone b m pos).1 = placedBoard b m pos r c := by
  cases hp : ParsePosition pos with
  | none => simp [PlaceStone, hp] at h
  | some p =>
    obtain ⟨r, c⟩ := p
    have h1 : IsValidIndex r c = true := by
      by_contra h1
      simp [PlaceStone, hp, h1] at h
    have h2 : ¬ (b.m_currMove.innerBounds > AwayFromCenter r c ∨
          AwayFromCenter r c > b.m_currMove.outerBounds) := by
      intro h2
      simp [PlaceStone, hp, h1, h2] at h
    have h3 : getCell b.m_gameBoard r c = NULL_PIECE := by
      by_contra h3
      simp [PlaceStone, hp, h1, h2, h3] at h
    have h4 : ¬ b.m_currMove.winInARow > 0 := by
      intro h4
      simp [PlaceStone, hp, h1, h2, h3, h4] at h
    have h5 : b.IsBoardFull = false := by
      by_contra h5
      simp [PlaceStone, hp, h1, h2, h3, h4, h5] at h
    refine ⟨r, c, rfl, h1, h2, h3, h4, h5, ?_⟩
    have e : (CAPTURE_NUM + 2 : Int) = 4 := rfl
    simp only [PlaceStone, hp, h1, h2, h3, h4, h5, Bool.not_true, Bool.false_eq_true, if_false,
      ne_eq, not_true, CapturePairs, placedBoard, captureLoop_eq, e, zero_add]

theorem offsetPos_ne_center {r c : Int} {d : Nat} {k : Int} (hd : d < 8) (hk : 1 ≤ k) :
    offsetPos r c d k ≠ (r, c) := by
  intro h
  have h0 : offsetPos r c d k = offsetPos r c d 0 := by
    rw [h]; simp [offsetPos]
  rcases offsetPos_inj hd hd h0 (by omega) (le_refl _) with h1 | h1 <;> omega

theorem getCell_setCell_offset {g : Grid} (hg : WellFormed g) {r c : Int} {d : Nat} {k : Int}
    (m : Char) (hrc : IsValidIndex r c = true) (hd : d < 8) (hk : 1 ≤ k)
    (hv : IsValidIndex (offsetPos r c d k).1 (offsetPos r c d k).2 = true) :
    getCell (setCell g r c m) (offsetPos r c d k).1 (offsetPos r c d k).2 =
      getCell g (offsetPos r c d k).1 (offsetPos r c d k).2 := by
  rw [getCell_setCell hg m hrc hv, if_neg]
  intro h
  exact offsetPos_ne_center hd hk (Prod.ext h.1 h.2)

/-- The sequence of length 4 that `CapturePairs` reads in direction `d` after
the stone was put down, when the cell at distance 3 is on the board. -/
theorem colorSeqFrom_four {g : Grid} (hg : WellFormed g) {r c : Int} {d : Nat} (m : Char)
    (hrc : IsValidIndex r c = true) (hd : d < 8)
    (h3 : IsValidIndex (offsetPos r c d 3).1 (offsetPos r c d 3).2 = true) :
    colorSeqFrom (setCell g r c m) r c d 0 4 =
      [m, getCell g (offsetPos r c d 1).1 (offsetPos r c d 1).2,
        getCell g (offsetPos r c d 2).1 (offsetPos r c d 2).2,
        getCell g (offsetPos r c d 3).1 (offsetPos r c d 3).2] := by
  have h1 := offsetPos_valid_between (j := 1) hrc h3 (by omega) (by omega)
  have h2 := offsetPos_valid_between (j := 2) hrc h3 (by omega) (by omega)
  have h0 : IsValidIndex (offsetPos r c d 0).1 (offsetPos r c d 0).2 = true := by
    simpa [offsetPos] using hrc
  have e0 : getCell (setCell g r c m) (offsetPos r c d 0).1 (offsetPos r c d 0).2 = m := by
    simp [offsetPos, getCell_setCell hg m hrc hrc]
  simp only [colorSeqFrom, OffsetIndices, Nat.cast_zero, Nat.cast_one, Nat.cast_ofNat,
    zero_add, Nat.reduceAdd, h0, h1, h2, h3, if_true, e0,
    getCell_setCell_offset hg m hrc hd (by omega : (1 : Int) ≤ 1) h1,
    getCell_setCell_offset hg m hrc hd (by omega : (1 : Int) ≤ 2) h2,
    getCell_setCell_offset hg m hrc hd (by omega : (1 : Int) ≤ 3) h3]

theorem colorSeqFrom_short {g : Grid} {r c : Int} {d : Nat}
    (h3 : ¬ IsValidIndex (offsetPos r c d 3).1 (offsetPos r c d 3).2 = true) :
    (colorSeqFrom g r c d 0 4).length ≠ 4 := by
  intro hl
  have : ∃ v, (colorSeqFrom g r c d 0 4)[3]? = some v := by
    rw [List.getElem?_eq_getElem (by omega)]
    exact ⟨_, rfl⟩
  obtain ⟨v, hv⟩ := this
  have := (colorSeqFrom_getElem? hv).1
  simp at this
  exact h3 this

theorem capturesAlong_iff {g : Grid} {m : Char} {r c : Int} {d : Nat}
    (hrc : IsValidIndex r c = true) :
    capturesAlong g m r c d = true ↔
      IsValidIndex (offsetPos r c d 3).1 (offsetPos r c d 3).2 = true ∧
      m = getCell g (offsetPos r c d 3).1 (offsetPos r c d 3).2 ∧
      getCell g (offsetPos r c d 1).1 (offsetPos r c d 1).2 =
        getCell g (offsetPos r c d 2).1 (offsetPos r c d 2).2 ∧
      getCell g (offsetPos r c d 1).1 (offsetPos r c d 1).2 ≠ NULL_PIECE ∧
      getCell g (offsetPos r c d 1).1 (offsetPos r c d 1).2 ≠ m := by
  simp only [capturesAlong, Bool.and_eq_true, beq_iff_eq, bne_iff_ne, ne_eq]
  constructor
  · rintro ⟨⟨⟨⟨⟨⟨_, _⟩, h3⟩, h4⟩, h5⟩, h6⟩, h7⟩
    exact ⟨h3, h7.symm, h4, h5, h6⟩
  · rintro ⟨h3, h7, h4, h5, h6⟩
    exact ⟨⟨⟨⟨⟨⟨offsetPos_valid_between (j := 1) hrc h3 (by omega) (by omega),
      offsetPos_valid_between (j := 2) hrc h3 (by omega) (by omega)⟩, h3⟩, h4⟩, h5⟩, h6⟩, h7.symm⟩

/-- What one iteration of the capture loop does to the sequence of direction `d`. -/
theorem captureSeq_colorSeq {g : Grid} (hg : WellFormed g) {r c : Int} {d : Nat} (m : Char)
    (hrc : IsValidIndex r c = true) (hd : d < 8) :
    captureSeq m (colorSeqFrom (setCell g r c m) r c d 0 4) =
      if capturesAlong g m r c d = true then
        ([m, NULL_PIECE, NULL_PIECE, m], true)
      else (colorSeqFrom (setCell g r c m) r c d 0 4, false) := by
  by_cases h3 : IsValidIndex (offsetPos r c d 3).1 (offsetPos r c d 3).2 = true
  · rw [colorSeqFrom_four hg m hrc hd h3, captureSeq_four]
    by_cases hc : capturesAlong g m r c d = true
    · have hc' := (capturesAlong_iff hrc).mp hc
      rw [if_pos hc, if_pos hc'.2, ← hc'.2.1]
    · have hc' : ¬ (m = getCell g (offsetPos r c d 3).1 (offsetPos r c d 3).2 ∧
          getCell g (offsetPos r c d 1).1 (offsetPos r c d 1).2 =
            getCell g (offsetPos r c d 2).1 (offsetPos r c d 2).2 ∧
          getCell g (offsetPos r c d 1).1 (offsetPos r c d 1).2 ≠ NULL_PIECE ∧
          getCell g (offsetPos r c d 1).1 (offsetPos r c d 1).2 ≠ m) :=
        fun h => hc ((capturesAlong_iff hrc).mpr ⟨h3, h⟩)
      rw [if_neg hc, if_neg hc']
  · rw [captureSeq_of_length_ne _ _ (colorSeqFrom_short h3), if_neg]
    rw [capturesAlong_iff hrc]
    exact fun h => h3 h.1

theorem applyWrites_const {g : Grid} (hg : WellFormed g)
    (ws : List ((Int × Int) × Char)) (q : Int × Int) (v : Char)
    (hv : ∀ w ∈ ws, IsValidIndex w.1.1 w.1.2 = true) (hq : IsValidIndex q.1 q.2 = true)
    (hval : ∀ w ∈ ws, w.1 = q → w.2 = v)
    (hno : (∀ w ∈ ws, w.1 ≠ q) → getCell g q.1 q.2 = v) :
    getCell (applyWrites g ws) q.1 q.2 = v := by
  by_cases hin : ∃ x ∈ ws, x.1 = q
  · exact applyWrites_written hg ws q v hv hq hval hin
  · have hne : ∀ x ∈ ws, x.1 ≠ q := fun x hx e => hin ⟨x, hx, e⟩
    rw [applyWrites_untouched hg ws q hv hq hne]
    exact hno hne

/-- The sequences `CapturePairs` writes back, direction by direction. -/
theorem captured_seqs_getElem? {g : Grid} (hg : WellFormed g) {r c : Int} (m : Char)
    (hrc : IsValidIndex r c = true) {j : Nat} {s : List Char}
    (h : ((ColorSeq (setCell g r c m) 4 r c).map (fun s => (captureSeq m s).1))[j]? = some s) :
    j < 8 ∧ s = if capturesAlong g m r c j = true then [m, NULL_PIECE, NULL_PIECE, m]
      else colorSeqFrom (setCell g r c m) r c j 0 4 := by
  rw [List.getElem?_map] at h
  cases h' : (ColorSeq (setCell g r c m) 4 r c)[j]? with
  | none => simp [h'] at h
  | some s0 =>
    obtain ⟨hj, hs0⟩ := ColorSeq_getElem? h'
    simp only [h', Option.map_some', Option.some.injEq] at h
    refine ⟨hj, ?_⟩
    have e : (4 : Int).toNat = 4 := rfl
    rw [← h, hs0, e, captureSeq_colorSeq hg m hrc hj]
    split <;> rfl

theorem captured_seqs_getElem?_lt {g : Grid} (hg : WellFormed g) {r c : Int} (m : Char)
    (hrc : IsValidIndex r c = true) {j : Nat} (hj : j < 8) :
    ((ColorSeq (setCell g r c m) 4 r c).map (fun s => (captureSeq m s).1))[j]? =
      some (if capturesAlong g m r c j = true then [m, NULL_PIECE, NULL_PIECE, m]
        else colorSeqFrom (setCell g r c m) r c j 0 4) := by
  have e : (4 : Int).toNat = 4 := rfl
  rw [List.getElem?_map, ColorSeq_getElem?_lt hj, e]
  simp only [Option.map_some', captureSeq_colorSeq hg m hrc hj]
  split <;> rfl

/-- Every write of the capture step: where it goes and what it stores. -/
theorem captured_write {g : Grid} (hg : WellFormed g) {r c : Int} (m : Char)
    (hrc : IsValidIndex r c = true) {w : (Int × Int) × Char}
    (hw : w ∈ allWrites r c
      ((ColorSeq (setCell g r c m) 4 r c).map (fun s => (captureSeq m s).1)) 0) :
    ∃ j i : Nat, j < 8 ∧ w.1 = offsetPos r c j (i : Int) ∧
      IsValidIndex w.1.1 w.1.2 = true ∧
      w.2 = if capturesAlong g m r c j = true ∧ (i = 1 ∨ i = 2) then NULL_PIECE
        else getCell (setCell g r c m) w.1.1 w.1.2 := by
  obtain ⟨j, i, s, h1, h2, h3⟩ := mem_allWrites.mp hw
  obtain ⟨hj, hs⟩ := captured_seqs_getElem? hg m hrc h1
  rw [zero_add] at h3
  refine ⟨j, i, hj, h3, ?_⟩
  by_cases hc : capturesAlong g m r c j = true
  · rw [if_pos hc] at hs
    subst hs
    obtain ⟨hv3, hm, -, -, -⟩ := (capturesAlong_iff hrc).mp hc
    have hi : i < 4 := by
      by_contra hi
      rw [List.getElem?_eq_none (by simp; omega)] at h2
      exact absurd h2 (by simp)
    have hvi : IsValidIndex w.1.1 w.1.2 = true := by
      rw [h3]
      exact offsetPos_valid_between hrc hv3 (by omega) (by omega)
    refine ⟨hvi, ?_⟩
    interval_cases i
    · simp at h2
      have e0 : w.1 = (r, c) := by rw [h3]; simp [offsetPos]
      simp [e0, ← h2, getCell_setCell hg m hrc hrc]
    · simp at h2
      simp [hc, ← h2]
    · simp at h2
      simp [hc, ← h2]
    · simp at h2
      have e3 : w.1 = offsetPos r c j 3 := by rw [h3]; rfl
      rw [if_neg (by omega), e3, getCell_setCell_offset hg m hrc hj (by omega) hv3, ← hm, ← h2]
  · rw [if_neg hc] at hs
    subst hs
    obtain ⟨hv, hval⟩ := colorSeqFrom_getElem? h2
    rw [zero_add] at hv hval
    rw [h3]
    exact ⟨hv, by rw [if_neg (fun h => hc h.1)]; exact hval⟩

theorem isCapturedCell_iff {g : Grid} {m : Char} {r c : Int} {q : Int × Int} :
    isCapturedCell g m r c q = true ↔
      ∃ d, d < 8 ∧ capturesAlong g m r c d = true ∧
        (q = offsetPos r c d 1 ∨ q = offsetPos r c d 2) := by
  simp [isCapturedCell, NUM_DIRECTIONS]

/-- The grid after a successful placement, cell by cell. -/
theorem placedBoard_cell {b : Board} (hg : WellFormed b.m_gameBoard) (m : Char)
    (pos : List Char) {r c : Int} (hrc : IsValidIndex r c = true)
    (q : Int × Int) (hq : IsValidIndex q.1 q.2 = true) :
    getCell (placedBoard b m pos r c).m_gameBoard q.1 q.2 =
      if q = (r, c) then m
      else if isCapturedCell b.m_gameBoard m r c q = true then NULL_PIECE
      else getCell b.m_gameBoard q.1 q.2 := by
  simp only [isCapturedCell_iff]
  have hg1 := wf_setCell r c m hg
  have hvalid : ∀ w ∈ allWrites r c
      ((ColorSeq (setCell b.m_gameBoard r c m) 4 r c).map (fun s => (captureSeq m s).1)) 0,
      IsValidIndex w.1.1 w.1.2 = true := by
    intro w hw
    obtain ⟨j, i, _, _, hv, _⟩ := captured_write hg m hrc hw
    exact hv
  simp only [placedBoard]
  rw [UpdateSeqs_eq _ _ (by simp [ColorSeq_length]) hvalid]
  apply applyWrites_const hg1 _ q _ hvalid hq
  · intro w hw hwq
    obtain ⟨j, i, hj, hpos, hv, hval⟩ := captured_write hg m hrc hw
    rw [hval, hwq]
    rw [hwq] at hpos
    by_cases hq0 : q = (r, c)
    · have hi : i = 0 := by
        by_contra hi
        exact offsetPos_ne_center (k := (i : Int)) hj (by omega) (hpos.symm.trans hq0)
      rw [if_pos hq0, if_neg (by omega), hq0]
      exact (getCell_setCell hg m hrc hrc).trans (by simp)
    · rw [if_neg hq0]
      by_cases hcap : ∃ d, d < 8 ∧ capturesAlong b.m_gameBoard m r c d = true ∧
          (q = offsetPos r c d 1 ∨ q = offsetPos r c d 2)
      · rw [if_pos hcap]
        obtain ⟨d, hd, hc, hqd⟩ := hcap
        have key : ∀ k : Int, 1 ≤ k → q = offsetPos r c d k → j = d ∧ (i : Int) = k := by
          intro k hk hqk
          rcases offsetPos_inj hj hd (hpos.symm.trans hqk) (by omega) (by omega) with h | h
          · omega
          · exact h
        rcases hqd with hqd | hqd
        · obtain ⟨e1, e2⟩ := key 1 (by omega) hqd
          subst e1
          rw [if_pos ⟨hc, Or.inl (by omega)⟩]
        · obtain ⟨e1, e2⟩ := key 2 (by omega) hqd
          subst e1
          rw [if_pos ⟨hc, Or.inr (by omega)⟩]
      · rw [if_neg hcap, if_neg]
        · rw [getCell_setCell hg m hrc hq, if_neg (fun h => hq0 (Prod.ext h.1 h.2))]
        · rintro ⟨hc, hi⟩
          apply hcap
          refine ⟨j, hj, hc, ?_⟩
          rcases hi with hi | hi
          · left; rw [hpos, hi]; rfl
          · right; rw [hpos, hi]; rfl
  · intro hno
    by_cases hq0 : q = (r, c)
    · exfalso
      have h0 := captured_seqs_getElem?_lt hg m hrc (by omega : 0 < 8)
      refine hno ((r, c), m) (mem_allWrites.mpr ⟨0, 0, _, h0, ?_, by simp [offsetPos]⟩) hq0.symm
      split
      · rfl
      · rw [colorSeqFrom_getElem?_of_valid (by
          intro k hk
          have : k = 0 := by omega
          subst this
          simpa [offsetPos] using hrc) (by omega)]
        simp [offsetPos, getCell_setCell hg m hrc hrc]
    · rw [if_neg hq0]
      by_cases hcap : ∃ d, d < 8 ∧ capturesAlong b.m_gameBoard m r c d = true ∧
          (q = offsetPos r c d 1 ∨ q = offsetPos r c d 2)
      · exfalso
        obtain ⟨d, hd, hc, hqd⟩ := hcap
        have hd' := captured_seqs_getElem?_lt hg m hrc hd
        rw [if_pos hc] at hd'
        rcases hqd with hqd | hqd
        · exact hno (q, NULL_PIECE)
            (mem_allWrites.mpr ⟨d, 1, _, hd', by simp, by simp [hqd]⟩) rfl
        · exact hno (q, NULL_PIECE)
            (mem_allWrites.mpr ⟨d, 2, _, hd', by simp, by simp [hqd]⟩) rfl
      · rw [if_neg hcap, getCell_setCell hg m hrc hq,
          if_neg (fun h => hq0 (Prod.ext h.1 h.2))]

/-! ## Undo of a placement -/

theorem ColorSeq_write {g : Grid} {n r c : Int} {w : (Int × Int) × Char}
    (hw : w ∈ allWrites r c (ColorSeq g n r c) 0) :
    IsValidIndex w.1.1 w.1.2 = true ∧ w.2 = getCell g w.1.1 w.1.2 := by
  obtain ⟨j, i, s, h1, h2, h3⟩ := mem_allWrites.mp hw
  obtain ⟨_, hs⟩ := ColorSeq_getElem? h1
  subst hs
  obtain ⟨hv, hval⟩ := colorSeqFrom_getElem? h2
  rw [zero_add] at hv hval h3
  rw [h3]
  exact ⟨hv, hval⟩

/-- Writing back the sequences read from `g1` on a grid that agrees with `g1`
outside the cells those sequences cover gives `g1` again. -/
theorem UpdateSeqs_ColorSeq_restore {g g1 : Grid} (hg : WellFormed g) (hg1 : WellFormed g1)
    (n r c : Int)
    (hagree : ∀ q : Int × Int, IsValidIndex q.1 q.2 = true →
      (∀ w ∈ allWrites r c (ColorSeq g1 n r c) 0, w.1 ≠ q) →
      getCell g q.1 q.2 = getCell g1 q.1 q.2) :
    (UpdateSeqs g (ColorSeq g1 n r c) r c).1 = g1 := by
  apply grid_ext (UpdateSeqs_wf _ _ _ hg) hg1
  intro r' c' hq
  rw [UpdateSeqs_eq _ _ (ColorSeq_length _ _ _ _) (fun w hw => (ColorSeq_write hw).1)]
  apply applyWrites_const hg _ (r', c') _ (fun w hw => (ColorSeq_write hw).1) hq
  · intro w hw hwq
    rw [(ColorSeq_write hw).2, hwq]
  · exact hagree (r', c') hq

theorem setCell_setCell_null {g : Grid} (hg : WellFormed g) {r c : Int} (m : Char)
    (hrc : IsValidIndex r c = true) (hO : getCell g r c = NULL_PIECE) :
    setCell (setCell g r c m) r c NULL_PIECE = g := by
  apply grid_ext (wf_setCell _ _ _ (wf_setCell _ _ _ hg)) hg
  intro r' c' hq
  rw [getCell_setCell (wf_setCell _ _ _ hg) _ hrc hq, getCell_setCell hg _ hrc hq]
  by_cases h : r' = r ∧ c' = c
  · rw [if_pos h, h.1, h.2, hO]
  · rw [if_neg h, if_neg h]

/-- `UndoMove` on any board holding the grid and the history a successful
placement left: the grid and the history of before the placement come back. -/
theorem UndoMove_placedBoard {b : Board} (hg : WellFormed b.m_gameBoard) (m : Char)
    {pos : List Char} {r c : Int} (hp : ParsePosition pos = some (r, c))
    (hrc : IsValidIndex r c = true) (hO : getCell b.m_gameBoard r c = NULL_PIECE)
    (b2 : Board) (hgrid : b2.m_gameBoard = (placedBoard b m pos r c).m_gameBoard)
    (hstack : b2.m_prevMoves = (placedBoard b m pos r c).m_prevMoves) :
    (UndoMove b2).2 = ReturnCode.SUCCESS ∧
      (UndoMove b2).1.m_gameBoard = b.m_gameBoard ∧
      (UndoMove b2).1.m_prevMoves = b.m_prevMoves := by
  have hg1 := wf_setCell r c m hg
  have hst : b2.m_prevMoves = (placedBoard b m pos r c).m_currMove :: b.m_prevMoves := by
    rw [hstack]; rfl
  have hpos : (placedBoard b m pos r c).m_currMove.position = pos := rfl
  have hseq : (placedBoard b m pos r c).m_currMove.prevSeqs =
      ColorSeq (setCell b.m_gameBoard r c m) WIN_SCORE r c := rfl
  have hrest : (UpdateSeqs (placedBoard b m pos r c).m_gameBoard
      (ColorSeq (setCell b.m_gameBoard r c m) WIN_SCORE r c) r c).1 =
      setCell b.m_gameBoard r c m := by
    have hg2 : WellFormed (placedBoard b m pos r c).m_gameBoard := UpdateSeqs_wf _ _ _ hg1
    apply UpdateSeqs_ColorSeq_restore hg2 hg1
    intro q hq hno
    rw [placedBoard_cell hg m pos hrc q hq]
    by_cases hq0 : q = (r, c)
    · rw [if_pos hq0, hq0]
      exact ((getCell_setCell hg m hrc hrc).trans (by simp)).symm
    · rw [if_neg hq0]
      by_cases hcap : isCapturedCell b.m_gameBoard m r c q = true
      · exfalso
        obtain ⟨d, hd, hc, hqd⟩ := isCapturedCell_iff.mp hcap
        obtain ⟨hv3, -⟩ := (capturesAlong_iff hrc).mp hc
        have hd' : (ColorSeq (setCell b.m_gameBoard r c m) WIN_SCORE r c)[d]? = _ :=
          ColorSeq_getElem?_lt hd
        have e5 : WIN_SCORE.toNat = 5 := rfl
        rw [e5] at hd'
        have hval : ∀ i : Nat, i ≤ 3 → ∀ k, k ≤ i →
            IsValidIndex (offsetPos r c d ((0 + k : Nat) : Int)).1
              (offsetPos r c d ((0 + k : Nat) : Int)).2 = true := by
          intro i hi k hk
          exact offsetPos_valid_between hrc hv3 (by omega) (by push_cast; omega)
        rcases hqd with hqd | hqd
        · have h1 := @colorSeqFrom_getElem?_of_valid (setCell b.m_gameBoard r c m) r c d 0 5 1
            (hval 1 (by omega)) (by omega)
          exact hno (q, _) (mem_allWrites.mpr ⟨d, 1, _, hd', h1, by simp [hqd]⟩) rfl
        · have h2 := @colorSeqFrom_getElem?_of_valid (setCell b.m_gameBoard r c m) r c d 0 5 2
            (hval 2 (by omega)) (by omega)
          exact hno (q, _) (mem_allWrites.mpr ⟨d, 2, _, hd', h2, by simp [hqd]⟩) rfl
      · rw [if_neg hcap, getCell_setCell hg m hrc hq,
          if_neg (fun h => hq0 (Prod.ext h.1 h.2))]
  simp only [UndoMove, hst, hpos, hseq, hp, Option.getD_some, hgrid, hrest,
    setCell_setCell_null hg m hrc hO, and_self]

/-! ## Reachable boards are well formed -/

theorem InitGameBoard_wf : WellFormed InitGameBoard := by
  refine ⟨by simp [InitGameBoard, BOARD_SIZE], ?_⟩
  intro row hrow
  simp only [InitGameBoard, BOARD_SIZE] at hrow
  rw [(List.mem_replicate.mp hrow).2]
  simp

theorem PlaceStone_failure {b : Board} {m : Char} {pos : List Char}
    (h : (PlaceStone b m pos).2 ≠ ReturnCode.SUCCESS) : (PlaceStone b m pos).1 = b := by
  unfold PlaceStone at h ⊢
  split
  · rfl
  · split
    · rfl
    · simp only
      split
      · rfl
      · split
        · rfl
        · split
          · rfl
          · split
            · rfl
            · exact absurd (by
                simp_all [PlaceStone]) h

theorem placedBoard_wf {b : Board} (hg : WellFormed b.m_gameBoard) (m : Char)
    (pos : List Char) (r c : Int) : WellFormed (placedBoard b m pos r c).m_gameBoard :=
  UpdateSeqs_wf _ _ _ (wf_setCell r c m hg)

theorem PlaceStone_wf {b : Board} (hg : WellFormed b.m_gameBoard) (m : Char)
    (pos : List Char) : WellFormed (PlaceStone b m pos).1.m_gameBoard := by
  by_cases h : (PlaceStone b m pos).2 = ReturnCode.SUCCESS
  · obtain ⟨r, c, _, _, _, _, _, _, e⟩ := PlaceStone_success h
    rw [e]
    exact placedBoard_wf hg m pos r c
  · rw [PlaceStone_failure h]
    exact hg

theorem UndoMove_wf {b : Board} (hg : WellFormed b.m_gameBoard) :
    WellFormed (UndoMove b).1.m_gameBoard := by
  unfold UndoMove
  split
  · exact hg
  · exact wf_setCell _ _ _ (UpdateSeqs_wf _ _ _ hg)

theorem SetBounds_grid (b : Board) (i o : Int) :
    (SetBounds b i o).1.m_gameBoard = b.m_gameBoard := by
  unfold SetBounds
  split <;> rfl

theorem WellFormed_iff_checks (g : Grid) :
    WellFormed g ↔ ¬ ((g.length : Int) ≠ BOARD_SIZE) ∧
      ¬ ((!g.all (fun row => decide ((row.length : Int) = BOARD_SIZE))) = true) := by
  simp only [WellFormed, BOARD_SIZE, ne_eq, not_not, Bool.not_eq_true', Bool.not_eq_false,
    List.all_eq_true, decide_eq_true_eq]
  constructor
  · rintro ⟨h1, h2⟩
    exact ⟨by omega, fun row hrow => by have := h2 row hrow; omega⟩
  · rintro ⟨h1, h2⟩
    exact ⟨by omega, fun row hrow => by have := h2 row hrow; omega⟩

/-- `SetBoard` on a grid of the wrong shape. -/
theorem SetBoard_of_not_wf (b : Board) {g : Grid} (h : ¬ WellFormed g) :
    SetBoard b g = (b, ReturnCode.INVALID_BOARD) := by
  rw [WellFormed_iff_checks] at h
  unfold SetBoard
  by_cases h1 : (g.length : Int) ≠ BOARD_SIZE
  · rw [if_pos h1]
  · have h2 : (!g.all (fun row => decide ((row.length : Int) = BOARD_SIZE))) = true := by
      by_contra h2
      exact h ⟨h1, h2⟩
    rw [if_neg h1, if_pos h2]

/-- `SetBoard` on a grid of 19 rows of 19 cells: the outcome of the scan. -/
theorem SetBoard_of_wf (b : Board) {g : Grid} (h : WellFormed g) :
    SetBoard b g =
      match setBoardScan g allCells 0 with
      | none => (b, ReturnCode.ALREADY_WINNER)
      | some intersectLeft =>
        if intersectLeft = 0 then (b, ReturnCode.FULL_BOARD)
        else
          ({ m_gameBoard := g
             m_prevMoves := []
             m_currMove := { b.m_currMove with
               intersectLeft := intersectLeft
               position := DEFAULT_LAST_POSITION
               winInARow := DEFAULT_SCORES
               capturedPairs := DEFAULT_SCORES } },
           ReturnCode.SUCCESS) := by
  obtain ⟨h1, h2⟩ := (WellFormed_iff_checks g).mp h
  unfold SetBoard
  rw [if_neg h1, if_neg h2]

theorem SetBoard_wf {b : Board} (hg : WellFormed b.m_gameBoard) (g : Grid) :
    WellFormed (SetBoard b g).1.m_gameBoard := by
  by_cases h : WellFormed g
  · rw [SetBoard_of_wf b h]
    cases setBoardScan g allCells 0 with
    | none => exact hg
    | some n =>
      simp only
      split
      · exact hg
      · exact h
  · rw [SetBoard_of_not_wf b h]
    exact hg

/-- Every reachable board holds a grid of 19 rows of 19 cells. -/
theorem Reachable_wf {b : Board} (hb : Reachable b) : WellFormed b.m_gameBoard := by
  induction hb with
  | init => exact InitGameBoard_wf
  | place b m pos _ ih => exact PlaceStone_wf ih m pos
  | undo b _ ih => exact UndoMove_wf ih
  | setBounds b i o _ ih => rw [SetBounds_grid]; exact ih
  | setBoard b g _ ih => exact SetBoard_wf ih g

theorem placeAll_cons_some {b b' : Board} {m : Char} {pos : List Char}
    {rest : List (Char × List Char)} (h : placeAll b ((m, pos) :: rest) = some b') :
    (PlaceStone b m pos).2 = ReturnCode.SUCCESS ∧
      placeAll (PlaceStone b m pos).1 rest = some b' := by
  simp only [placeAll] at h
  rcases hp : PlaceStone b m pos with ⟨b1, code⟩
  rw [hp] at h
  cases code <;> simp at h
  exact ⟨rfl, h⟩

theorem undoAll_succ (b : Board) (k : Nat) :
    undoAll b (k + 1) = (undoAll b k).bind (fun x => undoAll x 1) := by
  induction k generalizing b with
  | zero => simp [undoAll]
  | succ n ih =>
    rw [undoAll]
    rcases hu : UndoMove b with ⟨b1, code⟩
    cases code <;> simp [undoAll, hu]
    have := ih b1
    simpa [undoAll] using this

/-- Core of the round trip: undoing `ms.length` times on any board that holds
the grid and the history left by the placements `ms`. -/
theorem placeAll_undoAll {b : Board} (hg : WellFormed b.m_gameBoard)
    (ms : List (Char × List Char)) {b' : Board} (hplace : placeAll b ms = some b')
    (b2 : Board) (hgrid : b2.m_gameBoard = b'.m_gameBoard)
    (hstack : b2.m_prevMoves = b'.m_prevMoves) :
    ∃ b'', undoAll b2 ms.length = some b'' ∧ b''.m_gameBoard = b.m_gameBoard ∧
      b''.m_prevMoves = b.m_prevMoves := by
  induction ms generalizing b with
  | nil =>
    simp only [placeAll, Option.some.injEq] at hplace
    subst hplace
    exact ⟨b2, rfl, hgrid, hstack⟩
  | cons mv rest ih =>
    obtain ⟨m, pos⟩ := mv
    obtain ⟨hs, hrest⟩ := placeAll_cons_some hplace
    obtain ⟨r, c, hp, hrc, _, hO, _, _, e⟩ := PlaceStone_success hs
    obtain ⟨b3, h3, hg3, hs3⟩ := ih (PlaceStone_wf hg m pos) hrest
    rw [e] at hg3 hs3
    obtain ⟨u1, u2, u3⟩ := UndoMove_placedBoard hg m hp hrc hO b3 hg3 hs3
    refine ⟨(UndoMove b3).1, ?_, u2, u3⟩
    rw [List.length_cons, undoAll_succ, h3]
    simp only [Option.some_bind, undoAll]
    rcases hu : UndoMove b3 with ⟨b4, code⟩
    rw [hu] at u1
    simp only at u1
    subst u1
    rfl

/-! ## Place / undo round trip -/

theorem bracketBoard_reachable : Reachable bracketBoard :=
  Reachable.place _ _ _ (Reachable.place _ _ _ (Reachable.place _ _ _ Reachable.init))

/-- C1: from a reachable board, `k` successful PlaceStone calls followed by `k`
UndoMove calls all succeed and leave the grid equal, cell for cell, to the grid
before the sequence (captured stones included). -/
theorem place_undo_grid_round_trip (b : Board) (hb : Reachable b)
    (ms : List (Char × List Char)) (b' : Board) (hplace : placeAll b ms = some b') :
    ∃ b'', undoAll b' ms.length = some b'' ∧ b''.m_gameBoard = b.m_gameBoard := by
  obtain ⟨b'', h1, h2, _⟩ := placeAll_undoAll (Reachable_wf hb) ms hplace b' rfl rfl
  exact ⟨b'', h1, h2⟩

theorem place_undo_grid_round_trip_witness :
    Reachable bracketBoard ∧
    placeAll bracketBoard [('W', ['J', '1', '0']), ('B', ['A', '1'])] =
      some (PlaceStone capturedBoard 'B' ['A', '1']).1 ∧
    getCell capturedBoard.m_gameBoard 9 10 = NULL_PIECE ∧
    getCell bracketBoard.m_gameBoard 9 10 = 'B' ∧
    ∃ b'', undoAll (PlaceStone capturedBoard 'B' ['A', '1']).1
        [('W', ['J', '1', '0']), ('B', ['A', '1'])].length = some b'' ∧
      b''.m_gameBoard = bracketBoard.m_gameBoard :=
  ⟨bracketBoard_reachable, by rfl, by decide, by decide,
    place_undo_grid_round_trip bracketBoard bracketBoard_reachable
      [('W', ['J', '1', '0']), ('B', ['A', '1'])] _ (by rfl)⟩

/-- The remaining-empty counter after a successful placement and the undo
right after it: the counter of before the placement plus 4 for every pair the
placement captured (`CapturePairs` adds 2 per pair before the snapshot is
pushed, `UndoMove` adds 2 per pair again). -/
theorem UndoMove_placedBoard_intersectLeft (b : Board) (m : Char) (pos : List Char)
    (r c : Int) :
    (UndoMove (placedBoard b m pos r c)).1.GetIntersectLeft =
      b.GetIntersectLeft + 4 * (placedBoard b m pos r c).GetCapturedPairs := by
  simp only [UndoMove, placedBoard, Board.GetIntersectLeft, Board.GetCapturedPairs,
    CAPTURE_NUM]
  ring

/-- C2: on the reachable board `bracketBoard` (358 empty cells recorded), the
placement of `W` at J10 succeeds and captures one pair; the UndoMove right after
it leaves `GetIntersectLeft()` at 362, not at the 358 of before the placement. -/
theorem undo_after_capture_intersectLeft :
    bracketBoard.GetIntersectLeft = 358 ∧
    (PlaceStone bracketBoard 'W' ['J', '1', '0']).2 = ReturnCode.SUCCESS ∧
    capturedBoard.GetCapturedPairs = 1 ∧
    capturedBoard.GetIntersectLeft = 359 ∧
    (UndoMove capturedBoard).2 = ReturnCode.SUCCESS ∧
    (UndoMove capturedBoard).1.GetIntersectLeft = 362 := by
  refine ⟨by rfl, by rfl, by rfl, by rfl, by rfl, by rfl⟩

/-- C3: the board reached by undoing the capturing placement on `bracketBoard`
is reachable, its grid holds 358 null pieces, and its `GetIntersectLeft()` is 362
(more than the 361 cells of the board). -/
theorem undo_after_capture_breaks_accounting :
    Reachable (UndoMove capturedBoard).1 ∧
    countEmpty (UndoMove capturedBoard).1.m_gameBoard = 358 ∧
    (UndoMove capturedBoard).1.GetIntersectLeft = 362 := by
  refine ⟨Reachable.undo _ (Reachable.place _ _ _ bracketBoard_reachable), by rfl, by rfl⟩

/-! ## Decision order, capture rule and frame of a placement -/

theorem AwayFromCenter_eq (r c : Int) : AwayFromCenter r c = max |r - 9| |c - 9| := by
  have e : Int.tdiv BOARD_SIZE 2 = 9 := by decide
  simp only [AwayFromCenter, e, Int.natCast_natAbs]

/-- C4: for every board state, colour and label, the code `PlaceStone` returns
is the outcome of the first failing check in the order parse (COULD_NOT_PARSE),
on the 19x19 board (INVALID_MOVE), Chebyshev distance from (9, 9) within the
bounds (INVALID_MOVE), target cell empty (SPACE_OCCUPIED), no winning line
recorded (ALREADY_WINNER), remaining-empty count above 0 (FULL_BOARD), and
SUCCESS exactly when all six pass. -/
theorem placeStone_decision_order (b : Board) (a_color : Char) (a_position : List Char) :
    (PlaceStone b a_color a_position).2 = placeStoneDecision b a_position := by
  unfold PlaceStone placeStoneDecision
  cases hp : ParsePosition a_position with
  | none => rfl
  | some p =>
    obtain ⟨r, c⟩ := p
    have hv := IsValidIndex_iff r c
    have hO : NULL_PIECE = 'O' := rfl
    simp only [AwayFromCenter_eq, Board.GetInnerBounds, Board.GetOuterBounds,
      Board.GetWinInARow, Board.GetIntersectLeft, Board.IsBoardFull, hO]
    by_cases h1 : IsValidIndex r c = true
    · have h1' := hv.mp h1
      simp only [h1, h1', Bool.not_true, Bool.false_eq_true, if_false, and_self, not_true]
      by_cases h2 : b.m_currMove.innerBounds > max |r - 9| |c - 9| ∨
          max |r - 9| |c - 9| > b.m_currMove.outerBounds
      · have h2' : max |r - 9| |c - 9| < b.m_currMove.innerBounds ∨
            max |r - 9| |c - 9| > b.m_currMove.outerBounds := h2
        simp only [h2, h2', if_true]
      · have h2' : ¬ (max |r - 9| |c - 9| < b.m_currMove.innerBounds ∨
            max |r - 9| |c - 9| > b.m_currMove.outerBounds) := h2
        simp only [h2, h2', if_false]
        by_cases h3 : getCell b.m_gameBoard r c = 'O'
        · simp only [h3, ne_eq, not_true, if_false]
          by_cases h4 : b.m_currMove.winInARow > 0
          · simp only [h4, if_true]
          · simp only [h4, if_false]
            by_cases h5 : b.m_currMove.intersectLeft ≤ 0
            · simp only [h5, decide_True, if_true]
            · simp only [h5, decide_False, Bool.false_eq_true, if_false]
        · simp only [h3, ne_eq, not_false_eq_true, if_true]
    · have h1' : ¬ (0 ≤ r ∧ r < 19 ∧ 0 ≤ c ∧ c < 19) := fun h => h1 (hv.mpr h)
      have h1'' : IsValidIndex r c = false := by simpa using h1
      simp only [h1'', h1', Bool.not_false, if_true, not_false_eq_true]

theorem placedBoard_capturedPairs {b : Board} (hg : WellFormed b.m_gameBoard) (m : Char)
    (pos : List Char) {r c : Int} (hrc : IsValidIndex r c = true) :
    (placedBoard b m pos r c).m_currMove.capturedPairs =
      (((List.range 8).filter (capturesAlong b.m_gameBoard m r c)).length : Int) := by
  have e : (4 : Int).toNat = 4 := rfl
  simp only [placedBoard, ColorSeq, NUM_DIRECTIONS, List.filter_map, List.length_map, e]
  congr 2
  apply List.filter_congr
  intro d hd
  have hd' : d < 8 := List.mem_range.mp hd
  simp only [Function.comp, captureSeq_colorSeq hg m hrc hd']
  split <;> simp_all

/-- C5: after a successful `PlaceStone(m, p)` on a reachable board,
`GetCapturedPairs()` is the number of the 8 directions in which, before the
placement, the cells at distance 1 and 2 held the same stone (not Empty, not
`m`) and the cell at distance 3 was on the board and held `m`; the
distance-1 and distance-2 cells of those directions are Empty afterwards and
every other cell but `p` holds what it held before. -/
theorem capture_rule (b : Board) (hb : Reachable b) (m : Char) (pos : List Char)
    (r c : Int) (hp : ParsePosition pos = some (r, c))
    (hs : (PlaceStone b m pos).2 = ReturnCode.SUCCESS) :
    (PlaceStone b m pos).1.GetCapturedPairs =
        (((List.range 8).filter (capturesAlong b.m_gameBoard m r c)).length : Int) ∧
      ∀ q : Int × Int, IsValidIndex q.1 q.2 = true → q ≠ (r, c) →
        getCell (PlaceStone b m pos).1.m_gameBoard q.1 q.2 =
          if isCapturedCell b.m_gameBoard m r c q = true then NULL_PIECE
          else getCell b.m_gameBoard q.1 q.2 := by
  have hg := Reachable_wf hb
  obtain ⟨r', c', hp', hrc, _, _, _, _, e⟩ := PlaceStone_success hs
  rw [hp] at hp'
  simp only [Option.some.injEq, Prod.mk.injEq] at hp'
  obtain ⟨rfl, rfl⟩ := hp'
  rw [e]
  refine ⟨placedBoard_capturedPairs hg m pos hrc, fun q hq hne => ?_⟩
  rw [placedBoard_cell hg m pos hrc q hq, if_neg hne]

theorem capture_rule_witness :
    ParsePosition ['J', '1', '0'] = some (9, 9) ∧
    (PlaceStone bracketBoard 'W' ['J', '1', '0']).2 = ReturnCode.SUCCESS ∧
    ((PlaceStone bracketBoard 'W' ['J', '1', '0']).1.GetCapturedPairs =
        (((List.range 8).filter (capturesAlong bracketBoard.m_gameBoard 'W' 9 9)).length : Int) ∧
      ∀ q : Int × Int, IsValidIndex q.1 q.2 = true → q ≠ (9, 9) →
        getCell (PlaceStone bracketBoard 'W' ['J', '1', '0']).1.m_gameBoard q.1 q.2 =
          if isCapturedCell bracketBoard.m_gameBoard 'W' 9 9 q = true then NULL_PIECE
          else getCell bracketBoard.m_gameBoard q.1 q.2) :=
  ⟨by rfl, by rfl,
    capture_rule bracketBoard bracketBoard_reachable 'W' ['J', '1', '0'] 9 9 (by rfl) (by rfl)⟩

/-- C6: a successful `PlaceStone(m, p)` on a reachable board sets cell `p` to
`m`; every other cell is unchanged or goes from a stone that is neither Empty
nor `m` to Empty; no cell holding `m` before the placement loses it. -/
theorem placement_frame (b : Board) (hb : Reachable b) (m : Char) (pos : List Char)
    (r c : Int) (hp : ParsePosition pos = some (r, c))
    (hs : (PlaceStone b m pos).2 = ReturnCode.SUCCESS) :
    getCell (PlaceStone b m pos).1.m_gameBoard r c = m ∧
      (∀ q : Int × Int, IsValidIndex q.1 q.2 = true → q ≠ (r, c) →
        getCell (PlaceStone b m pos).1.m_gameBoard q.1 q.2 = getCell b.m_gameBoard q.1 q.2 ∨
        (getCell b.m_gameBoard q.1 q.2 ≠ NULL_PIECE ∧ getCell b.m_gameBoard q.1 q.2 ≠ m ∧
          getCell (PlaceStone b m pos).1.m_gameBoard q.1 q.2 = NULL_PIECE)) ∧
      ∀ q : Int × Int, IsValidIndex q.1 q.2 = true → getCell b.m_gameBoard q.1 q.2 = m →
        getCell (PlaceStone b m pos).1.m_gameBoard q.1 q.2 = m := by
  have hg := Reachable_wf hb
  obtain ⟨r', c', hp', hrc, _, _, _, _, e⟩ := PlaceStone_success hs
  rw [hp] at hp'
  simp only [Option.some.injEq, Prod.mk.injEq] at hp'
  obtain ⟨rfl, rfl⟩ := hp'
  rw [e]
  have hcell := placedBoard_cell hg m pos hrc
  have hcap : ∀ q : Int × Int, isCapturedCell b.m_gameBoard m r c q = true →
      getCell b.m_gameBoard q.1 q.2 ≠ NULL_PIECE ∧ getCell b.m_gameBoard q.1 q.2 ≠ m := by
    intro q hq
    obtain ⟨d, _, hc, hqd⟩ := isCapturedCell_iff.mp hq
    obtain ⟨_, _, h12, hO, hm⟩ := (capturesAlong_iff hrc).mp hc
    rcases hqd with rfl | rfl
    · exact ⟨hO, hm⟩
    · rw [← h12]; exact ⟨hO, hm⟩
  refine ⟨?_, ?_, ?_⟩
  · have := hcell (r, c) hrc
    simpa using this
  · intro q hq hne
    rw [hcell q hq, if_neg hne]
    by_cases hc : isCapturedCell b.m_gameBoard m r c q = true
    · rw [if_pos hc]
      exact Or.inr ⟨(hcap q hc).1, (hcap q hc).2, rfl⟩
    · rw [if_neg hc]
      exact Or.inl rfl
  · intro q hq hm
    rw [hcell q hq]
    by_cases hq0 : q = (r, c)
    · rw [if_pos hq0]
    · rw [if_neg hq0]
      by_cases hc : isCapturedCell b.m_gameBoard m r c q = true
      · exact absurd hm (hcap q hc).2
      · rw [if_neg hc, hm]

theorem placement_frame_witness :
    getCell capturedBoard.m_gameBoard 9 9 = 'W' ∧
    getCell capturedBoard.m_gameBoard 9 12 = 'W' ∧
    (getCell (PlaceStone bracketBoard 'W' ['J', '1', '0']).1.m_gameBoard 9 9 = 'W' ∧
      (∀ q : Int × Int, IsValidIndex q.1 q.2 = true → q ≠ (9, 9) →
        getCell (PlaceStone bracketBoard 'W' ['J', '1', '0']).1.m_gameBoard q.1 q.2 =
          getCell bracketBoard.m_gameBoard q.1 q.2 ∨
        (getCell bracketBoard.m_gameBoard q.1 q.2 ≠ NULL_PIECE ∧
          getCell bracketBoard.m_gameBoard q.1 q.2 ≠ 'W' ∧
          getCell (PlaceStone bracketBoard 'W' ['J', '1', '0']).1.m_gameBoard q.1 q.2 =
            NULL_PIECE)) ∧
      ∀ q : Int × Int, IsValidIndex q.1 q.2 = true →
        getCell bracketBoard.m_gameBoard q.1 q.2 = 'W' →
        getCell (PlaceStone bracketBoard 'W' ['J', '1', '0']).1.m_gameBoard q.1 q.2 = 'W') :=
  ⟨by decide, by decide,
    placement_frame bracketBoard bracketBoard_reachable 'W' ['J', '1', '0'] 9 9
      (by rfl) (by rfl)⟩

/-- C10: in every state where `IsGameOver()` is true, `PlaceStone` returns a
non-SUCCESS outcome for every colour and label and leaves the board unchanged. -/
theorem game_over_blocks_placement (b : Board) (a_color : Char) (a_position : List Char)
    (hover : b.IsGameOver = true) :
    (PlaceStone b a_color a_position).2 ≠ ReturnCode.SUCCESS ∧
      (PlaceStone b a_color a_position).1 = b := by
  have hne : (PlaceStone b a_color a_position).2 ≠ ReturnCode.SUCCESS := by
    intro hs
    obtain ⟨r, c, _, _, _, _, hw, hf, _⟩ := PlaceStone_success hs
    simp only [Board.IsGameOver, Board.IsWinner, Bool.or_eq_true, decide_eq_true_eq] at hover
    rcases hover with h | h
    · rw [hf] at h; exact absurd h (by simp)
    · exact hw h
  exact ⟨hne, PlaceStone_failure hne⟩

theorem game_over_blocks_placement_witness :
    wonBoard.GetWinInARow = 1 ∧ wonBoard.IsGameOver = true ∧
    ((PlaceStone wonBoard 'B' ['J', '1', '0']).2 ≠ ReturnCode.SUCCESS ∧
      (PlaceStone wonBoard 'B' ['J', '1', '0']).1 = wonBoard) :=
  ⟨by rfl, by rfl, game_over_blocks_placement wonBoard 'B' ['J', '1', '0'] (by rfl)⟩

/-! ## n-in-a-row counts on a board holding a single run -/

/-- Length of the counted prefix of a scanned sequence, from the cells of the
grid: `m` leading cells hold the stone `X`, and the scan stops there. -/
theorem takeWhile_colorSeqFrom {g : Grid} {r c : Int} {e : Nat} {X : Char}
    (hX : X ≠ NULL_PIECE) (m : Nat) :
    ∀ (step fuel : Nat),
      (∀ k, k < m → IsValidIndex (offsetPos r c e ((step + k : Nat) : Int)).1
          (offsetPos r c e ((step + k : Nat) : Int)).2 = true ∧
        getCell g (offsetPos r c e ((step + k : Nat) : Int)).1
          (offsetPos r c e ((step + k : Nat) : Int)).2 = X) →
      m ≤ fuel →
      (m < fuel → IsValidIndex (offsetPos r c e ((step + m : Nat) : Int)).1
          (offsetPos r c e ((step + m : Nat) : Int)).2 = true →
        getCell g (offsetPos r c e ((step + m : Nat) : Int)).1
          (offsetPos r c e ((step + m : Nat) : Int)).2 ≠ X) →
      ((colorSeqFrom g r c e step fuel).takeWhile
        (fun ch => !(ch != X || ch == NULL_PIECE))).length = m := by
  induction m with
  | zero =>
    intro step fuel _ _ hstop
    cases fuel with
    | zero => simp [colorSeqFrom]
    | succ f =>
      by_cases hv : IsValidIndex (offsetPos r c e (step : Int)).1
          (offsetPos r c e (step : Int)).2 = true
      · have hne := hstop (by omega) (by simpa using hv)
        simp only [Nat.add_zero] at hne
        have e1 : (getCell g (offsetPos r c e (step : Int)).1
            (offsetPos r c e (step : Int)).2 != X) = true := by simpa using hne
        simp [colorSeqFrom, OffsetIndices, hv, List.takeWhile, e1]
      · simp [colorSeqFrom, OffsetIndices, hv]
  | succ m ih =>
    intro step fuel hcells hle hstop
    cases fuel with
    | zero => omega
    | succ f =>
      obtain ⟨hv0, hx0⟩ := hcells 0 (by omega)
      simp only [Nat.add_zero] at hv0 hx0
      have e1 : (X != X) = false := by simp
      have e2 : (X == NULL_PIECE) = false := by simpa using hX
      simp only [colorSeqFrom, OffsetIndices, hv0, if_true, hx0, List.takeWhile, e1, e2,
        Bool.or_false, Bool.not_false, List.length_cons, Nat.add_right_cancel_iff]
      apply ih (step + 1) f
      · intro k hk
        have := hcells (k + 1) (by omega)
        have e : step + 1 + k = step + (k + 1) := by omega
        rwa [e]
      · omega
      · intro hlt
        have := hstop (by omega)
        have e : step + 1 + m = step + (m + 1) := by omega
        rwa [e]

/-- The run count `CountSameStones` reads in direction `e` from `(r, c)` with
lookout `n`: `m` when the first `m` cells hold the stone `X` and the scan cannot
go on. -/
theorem CountSameStones_colorSeqFrom {g : Grid} {r c : Int} {e : Nat} {X : Char}
    (hX : X ≠ NULL_PIECE) {m n : Nat} (hm : 1 ≤ m) (hmn : m ≤ n)
    (hcells : ∀ k, k < m → IsValidIndex (offsetPos r c e (k : Int)).1
        (offsetPos r c e (k : Int)).2 = true ∧
      getCell g (offsetPos r c e (k : Int)).1 (offsetPos r c e (k : Int)).2 = X)
    (hstop : m < n → IsValidIndex (offsetPos r c e (m : Int)).1
        (offsetPos r c e (m : Int)).2 = true →
      getCell g (offsetPos r c e (m : Int)).1 (offsetPos r c e (m : Int)).2 ≠ X) :
    CountSameStones (colorSeqFrom g r c e 0 n) = (m : Int) := by
  have hlen := takeWhile_colorSeqFrom (g := g) (r := r) (c := c) (e := e) hX m 0 n
    (by simpa using hcells) hmn (by simpa using hstop)
  obtain ⟨hv0, hx0⟩ := hcells 0 (by omega)
  cases n with
  | zero => omega
  | succ f =>
    have hcons : colorSeqFrom g r c e 0 (f + 1) =
        X :: colorSeqFrom g r c e 1 f := by
      simp only [colorSeqFrom, OffsetIndices, hv0, if_true, hx0, Nat.zero_add]
    rw [hcons] at hlen ⊢
    simp only [CountSameStones]
    rw [hlen]

theorem onRun_iff {r0 c0 : Int} {d L : Nat} {q : Int × Int} :
    onRun r0 c0 d L q = true ↔ ∃ j : Nat, j < L ∧ q = offsetPos r0 c0 d (j : Int) := by
  simp [onRun]

theorem offsetPos_add (r c : Int) (d : Nat) (a b : Int) :
    offsetPos (offsetPos r c d a).1 (offsetPos r c d a).2 d b = offsetPos r c d (a + b) := by
  simp only [offsetPos]
  refine Prod.ext ?_ ?_ <;> simp <;> ring

theorem offsetPos_opp {r c : Int} {d : Nat} (hd : d < 8) (k : Int) :
    offsetPos r c ((d + 4) % 8) k = offsetPos r c d (-k) := by
  interval_cases d <;> simp [offsetPos, ROW_DELTA, COLUMN_DELTA]

/-- A cell at distance `k ≥ 1` in direction `e` lies on the line through the
centre in direction `d` only when `e` is `d` or its opposite. -/
theorem offsetPos_line {r c : Int} {d e : Nat} {k t : Int} (hd : d < 8) (he : e < 8)
    (hk : 1 ≤ k) (h : offsetPos r c e k = offsetPos r c d t) :
    (e = d ∧ t = k) ∨ (e = (d + 4) % 8 ∧ t = -k) := by
  simp only [offsetPos, Prod.mk.injEq] at h
  obtain ⟨h1, h2⟩ := h
  interval_cases d <;> interval_cases e <;>
    simp only [ROW_DELTA, COLUMN_DELTA, List.getD_cons_zero, List.getD_cons_succ,
      Nat.reduceAdd, Nat.reduceMod, OfNat.ofNat_ne_zero, OfNat.zero_ne_ofNat,
      OfNat.ofNat_ne_one, OfNat.one_ne_ofNat, Nat.reduceEqDiff, false_and, true_and,
      false_or, or_false, reduceCtorEq] at h1 h2 ⊢ <;> omega

theorem getCell_InitGameBoard {r c : Int} (h : IsValidIndex r c = true) :
    getCell InitGameBoard r c = NULL_PIECE := by
  rw [IsValidIndex_iff] at h
  have e : BOARD_SIZE.toNat = 19 := rfl
  have hr : r.toNat < 19 := by omega
  have hc : c.toNat < 19 := by omega
  simp only [getCell, InitGameBoard, e, List.getD_eq_getElem?_getD, List.getElem?_replicate,
    hr, hc, if_true, Option.getD_some]

theorem runBoard_isRunBoard {X : Char} {r0 c0 : Int} {d L : Nat} (hX : X ≠ NULL_PIECE)
    (hd : d < 8) (hL : 1 ≤ L) (h0 : IsValidIndex r0 c0 = true)
    (h1 : IsValidIndex (offsetPos r0 c0 d ((L : Int) - 1)).1
      (offsetPos r0 c0 d ((L : Int) - 1)).2 = true) :
    IsRunBoard (runBoard X r0 c0 d L) X r0 c0 d L := by
  refine ⟨applyWrites_wf _ InitGameBoard_wf, hX, hd, hL, h0, h1, ?_⟩
  intro q hq
  have hmem : ∀ w ∈ (List.range L).map (fun j : Nat => (offsetPos r0 c0 d (j : Int), X)),
      ∃ j : Nat, j < L ∧ w.1 = offsetPos r0 c0 d (j : Int) ∧ w.2 = X := by
    intro w hw
    obtain ⟨j, hj, rfl⟩ := List.mem_map.mp hw
    exact ⟨j, List.mem_range.mp hj, rfl, rfl⟩
  apply applyWrites_const InitGameBoard_wf _ q _ _ hq
  · intro w hw hwq
    obtain ⟨j, hj, e1, e2⟩ := hmem w hw
    have : onRun r0 c0 d L q = true := onRun_iff.mpr ⟨j, hj, by rw [← hwq, e1]⟩
    rw [if_pos this, e2]
  · intro hno
    rw [getCell_InitGameBoard hq, if_neg]
    intro hon
    obtain ⟨j, hj, e⟩ := onRun_iff.mp hon
    exact hno (offsetPos r0 c0 d (j : Int), X)
      (List.mem_map.mpr ⟨j, List.mem_range.mpr hj, rfl⟩) e.symm
  · intro w hw
    obtain ⟨j, hj, e1, _⟩ := hmem w hw
    rw [e1]
    exact offsetPos_valid_between h0 h1 (by omega) (by omega)

/-- On a run board, seen from the stone of index `i`: the cell at signed
distance `t` along the run's direction is on the board and holds `X` when it is
within the run. -/
theorem run_cell_in {g : Grid} {X : Char} {r0 c0 : Int} {d L : Nat}
    (h : IsRunBoard g X r0 c0 d L) {i : Nat} {t : Int}
    (h1 : -(i : Int) ≤ t) (h2 : t ≤ (L : Int) - 1 - i) :
    IsValidIndex
        (offsetPos (offsetPos r0 c0 d i).1 (offsetPos r0 c0 d i).2 d t).1
        (offsetPos (offsetPos r0 c0 d i).1 (offsetPos r0 c0 d i).2 d t).2 = true ∧
      getCell g (offsetPos (offsetPos r0 c0 d i).1 (offsetPos r0 c0 d i).2 d t).1
        (offsetPos (offsetPos r0 c0 d i).1 (offsetPos r0 c0 d i).2 d t).2 = X := by
  obtain ⟨_, _, hd, hL, h0, hend, hcell⟩ := h
  rw [offsetPos_add]
  have hv := offsetPos_valid_between (j := (i : Int) + t) h0 hend (by omega) (by omega)
  refine ⟨hv, ?_⟩
  rw [hcell _ hv, if_pos]
  refine onRun_iff.mpr ⟨((i : Int) + t).toNat, by omega, ?_⟩
  congr 1
  omega

/-- On a run board every cell holding `X` is a cell of the run. -/
theorem run_cell_out {g : Grid} {X : Char} {r0 c0 : Int} {d L : Nat}
    (h : IsRunBoard g X r0 c0 d L) {i : Nat} {q : Int × Int}
    (hq : IsValidIndex q.1 q.2 = true) (hX : getCell g q.1 q.2 = X) :
    ∃ t : Int, -(i : Int) ≤ t ∧ t ≤ (L : Int) - 1 - i ∧
      q = offsetPos (offsetPos r0 c0 d i).1 (offsetPos r0 c0 d i).2 d t := by
  obtain ⟨_, hne, hd, hL, h0, hend, hcell⟩ := h
  rw [hcell q hq] at hX
  by_cases hon : onRun r0 c0 d L q = true
  · obtain ⟨j, hj, e⟩ := onRun_iff.mp hon
    refine ⟨(j : Int) - i, by omega, by omega, ?_⟩
    rw [offsetPos_add, e]
    congr 1
    omega
  · rw [if_neg hon] at hX
    exact absurd hX.symm hne

/-- Along one direction, different steps reach different cells. -/
theorem offsetPos_step_inj {r c : Int} {d : Nat} {a b : Int} (hd : d < 8)
    (h : offsetPos r c d a = offsetPos r c d b) : a = b := by
  simp only [offsetPos, Prod.mk.injEq] at h
  obtain ⟨h1, h2⟩ := h
  interval_cases d <;> simp [ROW_DELTA, COLUMN_DELTA] at h1 h2 <;> omega

/-- The run counts of the 8 directions at the stone of index `i` of a run
board, with lookout `n`: along the run, against it, and 1 elsewhere. -/
theorem run_counts {g : Grid} {X : Char} {r0 c0 : Int} {d L : Nat}
    (h : IsRunBoard g X r0 c0 d L) {i : Nat} (hi : i < L) {n : Nat} (hn : 1 ≤ n)
    {e : Nat} (he : e < 8) :
    CountSameStones
        (colorSeqFrom g (offsetPos r0 c0 d i).1 (offsetPos r0 c0 d i).2 e 0 n) =
      ((if e = d then min n (L - i) else if e = (d + 4) % 8 then min n (i + 1) else 1 : Nat) :
        Int) := by
  have hX := h.2.1
  have hd := h.2.2.1
  by_cases e1 : e = d
  · subst e1
    rw [if_pos rfl]
    apply CountSameStones_colorSeqFrom hX (by omega) (by omega)
    · intro k hk
      exact run_cell_in h (by omega) (by omega)
    · intro hlt hv hc
      obtain ⟨t, ht1, ht2, ht⟩ := run_cell_out (i := i) h hv hc
      rcases offsetPos_line he he (by omega) ht with h' | h' <;> omega
  · rw [if_neg e1]
    by_cases e2 : e = (d + 4) % 8
    · subst e2
      rw [if_pos rfl]
      apply CountSameStones_colorSeqFrom hX (by omega) (by omega)
      · intro k hk
        rw [offsetPos_opp hd]
        exact run_cell_in h (by omega) (by omega)
      · intro hlt hv hc
        rw [offsetPos_opp hd] at hv hc
        obtain ⟨t, ht1, ht2, ht⟩ := run_cell_out (i := i) h hv hc
        have hm : min n (i + 1) = i + 1 := by omega
        rw [hm] at ht
        have := offsetPos_step_inj hd ht
        omega
    · rw [if_neg e2]
      apply CountSameStones_colorSeqFrom hX (le_refl _) hn
      · intro k hk
        have hk0 : k = 0 := by omega
        subst hk0
        have := run_cell_in (t := 0) h (i := i) (by omega) (by omega)
        simpa [offsetPos] using this
      · intro hlt hv hc
        obtain ⟨t, ht1, ht2, ht⟩ := run_cell_out (i := i) h hv hc
        rcases offsetPos_line hd he (by simp) ht with h' | h'
        · exact e1 h'.1
        · exact e2 h'.1

theorem GetNumNInARow_eq (g : Grid) {n : Nat} (hn : 2 ≤ n) (r c : Int) :
    GetNumNInARow g (n : Int) r c =
      laneScore n (CountSameStones (colorSeqFrom g r c 0 0 n) +
          CountSameStones (colorSeqFrom g r c 4 0 n)) +
        laneScore n (CountSameStones (colorSeqFrom g r c 1 0 n) +
          CountSameStones (colorSeqFrom g r c 5 0 n)) +
        laneScore n (CountSameStones (colorSeqFrom g r c 2 0 n) +
          CountSameStones (colorSeqFrom g r c 6 0 n)) +
        laneScore n (CountSameStones (colorSeqFrom g r c 3 0 n) +
          CountSameStones (colorSeqFrom g r c 7 0 n)) := by
  have h2 : ¬ ((n : Int) < 2) := by omega
  have e8 : List.range 8 = [0, 1, 2, 3, 4, 5, 6, 7] := by decide
  have e4 : List.range 4 = [0, 1, 2, 3] := by decide
  simp only [GetNumNInARow, h2, if_false, CardinalCount, ColorSeq, NUM_DIRECTIONS, e8, e4,
    Nat.reduceDiv, List.map_cons, List.map_nil, Int.toNat_ofNat, List.getD_cons_zero,
    List.getD_cons_succ, Nat.reduceAdd, List.foldl_cons, List.foldl_nil, laneScore, zero_add]

theorem laneScore_eq {n : Nat} (hn : 2 ≤ n) {count : Nat} (h1 : 2 ≤ count)
    (h2 : count ≤ 2 * n) :
    laneScore n count = if count = 2 * n then 2 else if n + 1 ≤ count then 1 else 0 := by
  have hpos : ((count : Int) > 0) := by omega
  have hnpos : (0 : Int) < n := by omega
  have einner : Int.tmod (Int.tdiv (count : Int) 2) n = (count : Int) / 2 % n := by
    rw [Int.tdiv_eq_ediv (by omega) (by omega), Int.tmod_eq_emod (by omega) (by omega)]
  unfold laneScore
  rw [einner]
  by_cases hc : count = 2 * n
  · have e1 : (count : Int) / 2 = n := by omega
    rw [if_pos hc, e1, Int.emod_self, if_neg (by simp), Int.tdiv_eq_ediv (by omega) (by omega)]
    have : (count : Int) = 2 * n := by omega
    rw [this, Int.mul_ediv_cancel _ (by omega)]
  · have hlt : (count : Int) / 2 < n := by omega
    have hge : 0 < (count : Int) / 2 := by omega
    rw [if_neg hc, Int.emod_eq_of_lt (by omega) hlt, if_pos ⟨hpos, by omega⟩,
      Int.tdiv_eq_ediv (by omega) (by omega)]
    by_cases hc2 : n + 1 ≤ count
    · rw [if_pos hc2]
      have hle : (1 : Int) ≤ ((count : Int) - 1) / n :=
        (Int.le_ediv_iff_mul_le hnpos).mpr (by omega)
      have hlt2 : ((count : Int) - 1) / n < 2 :=
        (Int.ediv_lt_iff_lt_mul hnpos).mpr (by omega)
      omega
    · rw [if_neg hc2]
      exact Int.ediv_eq_zero_of_lt (by omega) (by omega)

/-- `GetNumNInARow` at the stone of index `i` of a run board: only the lane of
the run counts, with the two run counts `min n (L - i)` and `min n (i + 1)`. -/
theorem GetNumNInARow_run {g : Grid} {X : Char} {r0 c0 : Int} {d L : Nat}
    (h : IsRunBoard g X r0 c0 d L) {i : Nat} (hi : i < L) {n : Nat} (hn : 2 ≤ n) :
    GetNumNInARow g (n : Int) (offsetPos r0 c0 d i).1 (offsetPos r0 c0 d i).2 =
      if min n (L - i) + min n (i + 1) = 2 * n then 2
      else if n + 1 ≤ min n (L - i) + min n (i + 1) then 1 else 0 := by
  have hd := h.2.2.1
  have h2 : laneScore n 2 = 0 := by
    have := @laneScore_eq n hn 2 (le_refl _) (by omega)
    rw [if_neg (by omega), if_neg (by omega)] at this
    exact_mod_cast this
  have hrun := @laneScore_eq n hn (min n (L - i) + min n (i + 1)) (by omega) (by omega)
  push_cast at hrun
  have hrun' := hrun
  rw [add_comm (min (n : Int) ((L - i : Nat) : Int)) (min (n : Int) ((i : Int) + 1))] at hrun'
  rw [GetNumNInARow_eq g hn]
  rw [run_counts h hi (by omega) (by omega : 0 < 8), run_counts h hi (by omega) (by omega : 1 < 8),
    run_counts h hi (by omega) (by omega : 2 < 8), run_counts h hi (by omega) (by omega : 3 < 8),
    run_counts h hi (by omega) (by omega : 4 < 8), run_counts h hi (by omega) (by omega : 5 < 8),
    run_counts h hi (by omega) (by omega : 6 < 8), run_counts h hi (by omega) (by omega : 7 < 8)]
  interval_cases d <;> simp [h2, hrun, hrun']

/-- C7: on a board whose only stones are exactly 5 same-coloured stones
consecutive in one lane (any of the 8 directions from the first stone),
`GetNumNInARow(5, r, c) = 1` at each of the five stones. -/
theorem exactly_five_row (g : Grid) (X : Char) (r0 c0 : Int) (d : Nat)
    (h : IsRunBoard g X r0 c0 d 5) (i : Nat) (hi : i < 5) :
    GetNumNInARow g 5 (offsetPos r0 c0 d i).1 (offsetPos r0 c0 d i).2 = 1 := by
  have := GetNumNInARow_run h hi (n := 5) (by omega)
  rw [show ((5 : Nat) : Int) = 5 from rfl] at this
  rw [this]
  interval_cases i <;> simp

theorem exactly_five_row_witness :
    IsRunBoard (runBoard 'W' 9 5 2 5) 'W' 9 5 2 5 ∧ offsetPos 9 5 2 (2 : Nat) = (9, 7) ∧
    getCell (runBoard 'W' 9 5 2 5) 9 7 = 'W' ∧
    GetNumNInARow (runBoard 'W' 9 5 2 5) 5 (offsetPos 9 5 2 (2 : Nat)).1
      (offsetPos 9 5 2 (2 : Nat)).2 = 1 :=
  ⟨runBoard_isRunBoard (by decide) (by decide) (by decide) (by decide) (by decide),
    by decide, by decide,
    exactly_five_row (runBoard 'W' 9 5 2 5) 'W' 9 5 2
      (runBoard_isRunBoard (by decide) (by decide) (by decide) (by decide) (by decide))
      2 (by decide)⟩

/-- C8, as stated, fails: on the board whose only stones are the 10 `W` stones
E10 .. N10 (row 9, columns 4 .. 13), `GetNumNInARow(5, 9, 4)` at the end stone
E10 is 1, not 2. -/
theorem exactly_ten_row_counterexample :
    IsRunBoard (runBoard 'W' 9 4 2 10) 'W' 9 4 2 10 ∧
    getCell (runBoard 'W' 9 4 2 10) 9 4 = 'W' ∧
    GetNumNInARow (runBoard 'W' 9 4 2 10) 5 9 4 = 1 ∧
    GetNumNInARow (runBoard 'W' 9 4 2 10) 5 9 4 ≠ 2 :=
  ⟨runBoard_isRunBoard (by decide) (by decide) (by decide) (by decide) (by decide),
    by decide, by decide, by decide⟩

/-- C8, amended: on a board whose only stones are exactly 10 same-coloured
stones consecutive in one straight lane, `GetNumNInARow(5, r, c)` is 2 at the
two middle stones (the 5th and the 6th) and 1 at each of the other eight. -/
theorem exactly_ten_row (g : Grid) (X : Char) (r0 c0 : Int) (d : Nat)
    (h : IsRunBoard g X r0 c0 d 10) (i : Nat) (hi : i < 10) :
    GetNumNInARow g 5 (offsetPos r0 c0 d i).1 (offsetPos r0 c0 d i).2 =
      if i = 4 ∨ i = 5 then 2 else 1 := by
  have := GetNumNInARow_run h hi (n := 5) (by omega)
  rw [show ((5 : Nat) : Int) = 5 from rfl] at this
  rw [this]
  interval_cases i <;> simp

theorem exactly_ten_row_witness :
    IsRunBoard (runBoard 'W' 9 4 2 10) 'W' 9 4 2 10 ∧
    GetNumNInARow (runBoard 'W' 9 4 2 10) 5 (offsetPos 9 4 2 (4 : Nat)).1
      (offsetPos 9 4 2 (4 : Nat)).2 = (if (4 : Nat) = 4 ∨ (4 : Nat) = 5 then 2 else 1) :=
  ⟨runBoard_isRunBoard (by decide) (by decide) (by decide) (by decide) (by decide),
    exactly_ten_row (runBoard 'W' 9 4 2 10) 'W' 9 4 2
      (runBoard_isRunBoard (by decide) (by decide) (by decide) (by decide) (by decide))
      4 (by decide)⟩

/-- C9, as stated, fails: on the board whose only stones are the 9 `W` stones
F10 .. N10 (row 9, columns 5 .. 13), with n = 5 <= 9 < 10 = 2n,
`GetNumNInARow(5, 9, 9)` at the middle stone J10 is 2, not 1, although the run is
shorter than 2n. -/
theorem single_run_counterexample :
    IsRunBoard (runBoard 'W' 9 5 2 9) 'W' 9 5 2 9 ∧
    getCell (runBoard 'W' 9 5 2 9) 9 9 = 'W' ∧
    GetNumNInARow (runBoard 'W' 9 5 2 9) 5 9 9 = 2 ∧
    GetNumNInARow (runBoard 'W' 9 5 2 9) 5 9 9 ≠ 1 :=
  ⟨runBoard_isRunBoard (by decide) (by decide) (by decide) (by decide) (by decide),
    by decide, by decide, by decide⟩

/-- C9, amended: for every n >= 2 and every board whose only stones form a
single straight run of L same-coloured stones with n <= L < 2n,
`GetNumNInARow(n, r, c)` is 1 at every stone of the run, except at the middle
stone of a run of length exactly 2n - 1, where it is 2; and on a single-run
board of any length a result of 2 is reported only when the run has length at
least 2n - 1. -/
theorem single_run_count (g : Grid) (X : Char) (r0 c0 : Int) (d L : Nat)
    (h : IsRunBoard g X r0 c0 d L) (n : Nat) (hn : 2 ≤ n) (i : Nat) (hi : i < L) :
    (n ≤ L → L < 2 * n →
      GetNumNInARow g (n : Int) (offsetPos r0 c0 d i).1 (offsetPos r0 c0 d i).2 =
        if L = 2 * n - 1 ∧ i = n - 1 then 2 else 1) ∧
    (GetNumNInARow g (n : Int) (offsetPos r0 c0 d i).1 (offsetPos r0 c0 d i).2 = 2 →
      2 * n - 1 ≤ L) := by
  rw [GetNumNInARow_run h hi hn]
  constructor
  · intro h1 h2
    split_ifs <;> omega
  · intro h2
    split_ifs at h2 <;> omega

theorem single_run_count_witness :
    IsRunBoard (runBoard 'W' 9 5 2 9) 'W' 9 5 2 9 ∧
    ((5 ≤ 9 → 9 < 2 * 5 →
      GetNumNInARow (runBoard 'W' 9 5 2 9) ((5 : Nat) : Int) (offsetPos 9 5 2 (4 : Nat)).1
          (offsetPos 9 5 2 (4 : Nat)).2 =
        if 9 = 2 * 5 - 1 ∧ 4 = 5 - 1 then 2 else 1) ∧
    (GetNumNInARow (runBoard 'W' 9 5 2 9) ((5 : Nat) : Int) (offsetPos 9 5 2 (4 : Nat)).1
        (offsetPos 9 5 2 (4 : Nat)).2 = 2 → 2 * 5 - 1 ≤ 9)) :=
  ⟨runBoard_isRunBoard (by decide) (by decide) (by decide) (by decide) (by decide),
    single_run_count (runBoard 'W' 9 5 2 9) 'W' 9 5 2 9
      (runBoard_isRunBoard (by decide) (by decide) (by decide) (by decide) (by decide))
      5 (by decide) 4 (by decide)⟩

/-! ## History, `SetBounds` and `SetBoard` -/

theorem SetBounds_valid (b : Board) {i o : Int}
    (h : 0 ≤ i ∧ i ≤ 19 ∧ 0 ≤ o ∧ o ≤ 19) :
    SetBounds b i o =
      ({ b with m_currMove := { b.m_currMove with innerBounds := i, outerBounds := o } },
        ReturnCode.SUCCESS) := by
  unfold SetBounds
  rw [if_neg]
  simp only [BOARD_SIZE]
  omega

theorem SetBounds_invalid (b : Board) {i o : Int}
    (h : ¬ (0 ≤ i ∧ i ≤ 19 ∧ 0 ≤ o ∧ o ≤ 19)) :
    SetBounds b i o = (b, ReturnCode.INVALID_BOUNDS) := by
  unfold SetBounds
  rw [if_pos]
  simp only [BOARD_SIZE]
  omega

theorem SetBoard_failure {b : Board} {g : Grid}
    (h : (SetBoard b g).2 ≠ ReturnCode.SUCCESS) : (SetBoard b g).1 = b := by
  by_cases hg : WellFormed g
  · rw [SetBoard_of_wf b hg] at h ⊢
    cases hsc : setBoardScan g allCells 0 with
    | none => rfl
    | some n =>
      simp only [hsc] at h ⊢
      by_cases hn : n = 0
      · rw [if_pos hn]
      · rw [if_neg hn] at h
        exact absurd rfl h
  · rw [SetBoard_of_not_wf b hg]

theorem SetBoard_success_stack {b : Board} {g : Grid}
    (h : (SetBoard b g).2 = ReturnCode.SUCCESS) : (SetBoard b g).1.m_prevMoves = [] := by
  by_cases hg : WellFormed g
  · rw [SetBoard_of_wf b hg] at h ⊢
    cases hsc : setBoardScan g allCells 0 with
    | none => simp [hsc] at h
    | some n =>
      simp only [hsc] at h ⊢
      by_cases hn : n = 0
      · rw [if_pos hn] at h
        simp at h
      · rw [if_neg hn]
  · rw [SetBoard_of_not_wf b hg] at h
    simp at h

theorem UndoMove_nil {b : Board} (h : b.m_prevMoves = []) :
    UndoMove b = (b, ReturnCode.NO_PREV_MOVES) := by
  unfold UndoMove
  rw [h]

theorem UndoMove_cons {b : Board} {top : Move} {rest : List Move}
    (h : b.m_prevMoves = top :: rest) :
    (UndoMove b).2 = ReturnCode.SUCCESS ∧ (UndoMove b).1.m_prevMoves = rest := by
  unfold UndoMove
  rw [h]
  exact ⟨rfl, rfl⟩

theorem PlaceStone_success_stack {b : Board} {m : Char} {pos : List Char}
    (h : (PlaceStone b m pos).2 = ReturnCode.SUCCESS) :
    (PlaceStone b m pos).1.m_prevMoves =
      (PlaceStone b m pos).1.m_currMove :: b.m_prevMoves := by
  obtain ⟨r, c, _, _, _, _, _, _, e⟩ := PlaceStone_success h
  rw [e]
  rfl

theorem SetBounds_stack (b : Board) (i o : Int) :
    (SetBounds b i o).1.m_prevMoves = b.m_prevMoves := by
  unfold SetBounds
  split <;> rfl

/-- One call keeps the history depth equal to the count of pending placements. -/
theorem applyOp_pending (b : Board) (pending : Nat) (op : Op)
    (h : b.m_prevMoves.length = pending) :
    (applyOp b op).1.m_prevMoves.length = pendingAfter pending op (applyOp b op).2 := by
  cases op with
  | place m pos =>
    simp only [applyOp]
    by_cases hs : (PlaceStone b m pos).2 = ReturnCode.SUCCESS
    · rw [PlaceStone_success_stack hs, hs]
      simp [pendingAfter, h]
    · rw [PlaceStone_failure hs]
      cases hc : (PlaceStone b m pos).2 <;> simp_all [pendingAfter]
  | undo =>
    simp only [applyOp]
    cases hst : b.m_prevMoves with
    | nil =>
      rw [UndoMove_nil hst]
      simp [pendingAfter, ← h, hst]
    | cons top rest =>
      obtain ⟨h1, h2⟩ := UndoMove_cons hst
      rw [h1, h2]
      simp [pendingAfter, ← h, hst]
  | setBounds i o =>
    simp only [applyOp, SetBounds_stack, h]
    cases hc : (SetBounds b i o).2 <;> rfl
  | setBoard g =>
    simp only [applyOp]
    by_cases hs : (SetBoard b g).2 = ReturnCode.SUCCESS
    · rw [SetBoard_success_stack hs, hs]
      rfl
    · rw [SetBoard_failure hs]
      cases hc : (SetBoard b g).2 <;> simp_all [pendingAfter]

theorem runOps_pending (ops : List Op) :
    ∀ (b : Board) (pending : Nat), b.m_prevMoves.length = pending →
      (runOps b pending ops).1.m_prevMoves.length = (runOps b pending ops).2 := by
  induction ops with
  | nil => intro b pending h; exact h
  | cons op rest ih =>
    intro b pending h
    exact ih _ _ (applyOp_pending b pending op h)

/-- C11: along every run of public calls from the constructed board the
history stack holds exactly one entry per successful PlaceStone not undone
since construction or the last successful SetBoard; a rejected PlaceStone
leaves the whole board as it was; UndoMove returns NO_PREV_MOVES exactly when
the stack is empty, then leaving the whole board unchanged, and otherwise
returns SUCCESS and removes exactly the top entry. -/
theorem history_discipline :
    (∀ ops : List Op,
      (runOps Board.init 0 ops).1.m_prevMoves.length = (runOps Board.init 0 ops).2) ∧
    (∀ (b : Board) (m : Char) (pos : List Char),
      (PlaceStone b m pos).2 ≠ ReturnCode.SUCCESS → (PlaceStone b m pos).1 = b) ∧
    (∀ b : Board,
      ((UndoMove b).2 = ReturnCode.NO_PREV_MOVES ↔ b.m_prevMoves = []) ∧
      (b.m_prevMoves = [] → (UndoMove b).1 = b) ∧
      (b.m_prevMoves ≠ [] → (UndoMove b).2 = ReturnCode.SUCCESS ∧
        (UndoMove b).1.m_prevMoves = b.m_prevMoves.tail)) := by
  refine ⟨fun ops => runOps_pending ops Board.init 0 rfl,
    fun b m pos h => PlaceStone_failure h, fun b => ?_⟩
  cases hst : b.m_prevMoves with
  | nil =>
    rw [UndoMove_nil hst]
    simp
  | cons top rest =>
    obtain ⟨h1, h2⟩ := UndoMove_cons hst
    rw [h1, h2]
    simp

theorem history_discipline_witness :
    (runOps Board.init 0
      [Op.place 'B' ['K', '1', '0'], Op.place 'W' ['K', '1', '0'], Op.undo, Op.undo]).2 = 0 ∧
    (runOps Board.init 0
      [Op.place 'B' ['K', '1', '0'], Op.place 'W' ['K', '1', '0'], Op.undo, Op.undo]).1.m_prevMoves.length
      = (runOps Board.init 0
      [Op.place 'B' ['K', '1', '0'], Op.place 'W' ['K', '1', '0'], Op.undo, Op.undo]).2 ∧
    (PlaceStone bracketBoard 'W' ['K', '1', '0']).2 ≠ ReturnCode.SUCCESS ∧
    (PlaceStone bracketBoard 'W' ['K', '1', '0']).1 = bracketBoard ∧
    Board.init.m_prevMoves = [] ∧ (UndoMove Board.init).1 = Board.init ∧
    bracketBoard.m_prevMoves ≠ [] ∧ (UndoMove bracketBoard).2 = ReturnCode.SUCCESS ∧
    (UndoMove bracketBoard).1.m_prevMoves = bracketBoard.m_prevMoves.tail :=
  ⟨by rfl, history_discipline.1 _, by decide,
    history_discipline.2.1 bracketBoard 'W' ['K', '1', '0'] (by decide), rfl,
    (history_discipline.2.2 Board.init).2.1 rfl, by decide,
    ((history_discipline.2.2 bracketBoard).2.2 (by decide)).1,
    ((history_discipline.2.2 bracketBoard).2.2 (by decide)).2⟩

/-- C16: whenever `SetBoard` returns anything other than SUCCESS, the whole
board (grid, remaining-empty count, last-move record, bounds, history) is as it
was before the call, and the code is INVALID_BOARD, ALREADY_WINNER or
FULL_BOARD. -/
theorem setBoard_transactional (b : Board) (g : Grid)
    (h : (SetBoard b g).2 ≠ ReturnCode.SUCCESS) :
    (SetBoard b g).1 = b ∧
      ((SetBoard b g).2 = ReturnCode.INVALID_BOARD ∨
        (SetBoard b g).2 = ReturnCode.ALREADY_WINNER ∨
        (SetBoard b g).2 = ReturnCode.FULL_BOARD) := by
  refine ⟨SetBoard_failure h, ?_⟩
  by_cases hg : WellFormed g
  · rw [SetBoard_of_wf b hg] at h ⊢
    cases hsc : setBoardScan g allCells 0 with
    | none => simp
    | some n =>
      simp only [hsc] at h ⊢
      by_cases hn : n = 0
      · rw [if_pos hn]; simp
      · rw [if_neg hn] at h
        exact absurd rfl h
  · rw [SetBoard_of_not_wf b hg]
    simp

theorem setBoard_transactional_witness :
    (SetBoard bracketBoard wonBoard.m_gameBoard).2 = ReturnCode.ALREADY_WINNER ∧
    ((SetBoard bracketBoard wonBoard.m_gameBoard).1 = bracketBoard ∧
      ((SetBoard bracketBoard wonBoard.m_gameBoard).2 = ReturnCode.INVALID_BOARD ∨
        (SetBoard bracketBoard wonBoard.m_gameBoard).2 = ReturnCode.ALREADY_WINNER ∨
        (SetBoard bracketBoard wonBoard.m_gameBoard).2 = ReturnCode.FULL_BOARD)) :=
  ⟨by rfl, setBoard_transactional bracketBoard wonBoard.m_gameBoard (by decide)⟩

/-- C17: `SetBounds(i, o)` returns SUCCESS and makes the inner bound `i` and the
outer bound `o` if and only if both lie in [0, 19]; otherwise it returns
INVALID_BOUNDS and leaves the whole board unchanged. -/
theorem setBounds_validation (b : Board) (i o : Int) :
    (((SetBounds b i o).2 = ReturnCode.SUCCESS ∧ (SetBounds b i o).1.GetInnerBounds = i ∧
        (SetBounds b i o).1.GetOuterBounds = o) ↔
      (0 ≤ i ∧ i ≤ 19 ∧ 0 ≤ o ∧ o ≤ 19)) ∧
    (¬ (0 ≤ i ∧ i ≤ 19 ∧ 0 ≤ o ∧ o ≤ 19) →
      (SetBounds b i o).2 = ReturnCode.INVALID_BOUNDS ∧ (SetBounds b i o).1 = b) := by
  by_cases h : 0 ≤ i ∧ i ≤ 19 ∧ 0 ≤ o ∧ o ≤ 19
  · rw [SetBounds_valid b h]
    exact ⟨⟨fun _ => h, fun _ => ⟨rfl, rfl, rfl⟩⟩, fun hn => absurd h hn⟩
  · rw [SetBounds_invalid b h]
    refine ⟨⟨fun hs => ?_, fun hv => absurd hv h⟩, fun _ => ⟨rfl, rfl⟩⟩
    exact absurd hs.1 (by simp)

theorem setBounds_validation_witness :
    (SetBounds bracketBoard 3 19).1.GetInnerBounds = 3 ∧
    ¬ ((0 : Int) ≤ 3 ∧ (3 : Int) ≤ 19 ∧ (0 : Int) ≤ 20 ∧ (20 : Int) ≤ 19) ∧
    ((SetBounds bracketBoard 3 20).2 = ReturnCode.INVALID_BOUNDS ∧
      (SetBounds bracketBoard 3 20).1 = bracketBoard) :=
  ⟨by rfl, by decide, (setBounds_validation bracketBoard 3 20).2 (by decide)⟩

/-! ## Labels -/

theorem isDigit_iff (ch : Char) : ch.isDigit = true ↔ ('0' ≤ ch ∧ ch ≤ '9') := by
  simp only [Char.isDigit, Bool.and_eq_true, decide_eq_true_eq, Char.le_def]
  rfl

theorem isDigit_toNat {ch : Char} (h : ch.isDigit = true) : 48 ≤ ch.toNat := by
  simp only [Char.isDigit, Bool.and_eq_true, decide_eq_true_eq] at h
  exact h.1

theorem isAlpha_iff (ch : Char) :
    ch.isAlpha = true ↔ (('a' ≤ ch ∧ ch ≤ 'z') ∨ ('A' ≤ ch ∧ ch ≤ 'Z')) := by
  simp only [Char.isAlpha, Char.isUpper, Char.isLower, Bool.or_eq_true, Bool.and_eq_true,
    decide_eq_true_eq, Char.le_def]
  constructor
  · rintro (h | h)
    · exact Or.inr h
    · exact Or.inl h
  · rintro (h | h)
    · exact Or.inr h
    · exact Or.inl h

theorem stoi_foldl (s : List Char) (h : ∀ ch ∈ s, ch.isDigit = true) (acc : Int) :
    s.foldl (fun acc ch => acc * 10 + ((ch.toNat : Int) - 48)) acc =
      acc * 10 ^ s.length + (decimalValue s : Int) := by
  induction s generalizing acc with
  | nil => simp [decimalValue]
  | cons ch rest ih =>
    have h48 := isDigit_toNat (h ch (List.mem_cons_self _ _))
    have e0 : '0'.toNat = 48 := rfl
    rw [List.foldl_cons, ih (fun x hx => h x (List.mem_cons_of_mem _ hx))]
    simp only [decimalValue, List.length_cons, e0]
    push_cast [h48]
    ring

theorem stoi_eq_decimalValue (s : List Char) (h : ∀ ch ∈ s, ch.isDigit = true) :
    stoi s = (decimalValue s : Int) := by
  unfold stoi
  rw [stoi_foldl s h 0]
  simp

/-- `ParsePosition` on a label with a first character. -/
theorem ParsePosition_cons (first : Char) (rest : List Char) :
    ParsePosition (first :: rest) =
      if (rest.length < 1 ∨ 2 < rest.length) ∨ (∃ ch ∈ rest, ch.isDigit = false) ∨
          first.isAlpha = false then none
      else some ((decimalValue rest : Int) - 1, (first.toUpper.toNat : Int) - 65) := by
  by_cases h1 : rest.length + 1 < 2 ∨ rest.length + 1 > 3
  · rw [if_pos (Or.inl (by omega))]
    simp [ParsePosition, h1]
  · by_cases h2 : rest.all Char.isDigit = true
    · have h2' : ∀ ch ∈ rest, ch.isDigit = true := by simpa using h2
      by_cases h3 : first.isAlpha = true
      · have hcond : ¬ ((rest.length < 1 ∨ 2 < rest.length) ∨
            (∃ ch ∈ rest, ch.isDigit = false) ∨ first.isAlpha = false) := by
          rintro (h | ⟨ch, hch, hd⟩ | h)
          · omega
          · rw [h2' ch hch] at hd; exact absurd hd (by simp)
          · rw [h3] at h; exact absurd h (by simp)
        rw [if_neg hcond]
        unfold ParsePosition
        simp only [List.length_cons, List.drop_succ_cons, List.drop_zero, List.headD_cons,
          h1, h2, h3, Bool.not_true, Bool.false_eq_true, if_false]
        rw [stoi_eq_decimalValue rest h2']
        rfl
      · have h3' : first.isAlpha = false := by simpa using h3
        rw [if_pos (Or.inr (Or.inr h3'))]
        unfold ParsePosition
        simp only [List.length_cons, List.drop_succ_cons, List.drop_zero, List.headD_cons,
          h1, h2, h3', Bool.not_true, Bool.false_eq_true, if_false, Bool.not_false, if_true]
    · have h2' : rest.all Char.isDigit = false := by simpa using h2
      have : ∃ ch ∈ rest, ch.isDigit = false := by
        simpa using h2
      rw [if_pos (Or.inr (Or.inl this))]
      unfold ParsePosition
      simp only [List.length_cons, List.drop_succ_cons, List.drop_zero, List.headD_cons,
        h1, h2', Bool.not_false, if_true, if_false]

/-- C13: `ParsePosition(s)` fails if and only if the length of `s` is outside
[2, 3], or some character after the first is not a decimal digit, or the first
character is not alphabetic; otherwise it succeeds with row = (decimal value
of the suffix) - 1 and column = uppercase(first character) - 'A'. -/
theorem parse_failure_conditions (s : List Char) :
    (ParsePosition s = none ↔
      (s.length < 2 ∨ 3 < s.length) ∨
      (∃ ch ∈ s.drop 1, ¬ ('0' ≤ ch ∧ ch ≤ '9')) ∨
      (∃ first rest, s = first :: rest ∧
        ¬ (('a' ≤ first ∧ first ≤ 'z') ∨ ('A' ≤ first ∧ first ≤ 'Z')))) ∧
    (∀ first rest, s = first :: rest → ParsePosition s ≠ none →
      ParsePosition s =
        some ((decimalValue rest : Int) - 1,
          (first.toUpper.toNat : Int) - ('A'.toNat : Int))) := by
  cases s with
  | nil =>
    refine ⟨⟨fun _ => Or.inl (Or.inl (by simp)), fun _ => by simp [ParsePosition]⟩, ?_⟩
    intro first rest h
    exact absurd h (by simp)
  | cons first rest =>
    rw [ParsePosition_cons]
    have hcond : ((rest.length < 1 ∨ 2 < rest.length) ∨ (∃ ch ∈ rest, ch.isDigit = false) ∨
          first.isAlpha = false) ↔
        ((first :: rest).length < 2 ∨ 3 < (first :: rest).length) ∨
        (∃ ch ∈ (first :: rest).drop 1, ¬ ('0' ≤ ch ∧ ch ≤ '9')) ∨
        (∃ f r, first :: rest = f :: r ∧
          ¬ (('a' ≤ f ∧ f ≤ 'z') ∨ ('A' ≤ f ∧ f ≤ 'Z'))) := by
      simp only [List.length_cons, List.drop_succ_cons, List.drop_zero, List.cons.injEq]
      constructor
      · rintro (h | ⟨ch, hch, hd⟩ | h)
        · exact Or.inl (by omega)
        · refine Or.inr (Or.inl ⟨ch, hch, fun hc => ?_⟩)
          rw [(isDigit_iff ch).mpr hc] at hd
          exact absurd hd (by simp)
        · refine Or.inr (Or.inr ⟨first, rest, ⟨rfl, rfl⟩, fun hc => ?_⟩)
          rw [(isAlpha_iff first).mpr hc] at h
          exact absurd h (by simp)
      · rintro (h | ⟨ch, hch, hd⟩ | ⟨f, r, ⟨rfl, rfl⟩, hf⟩)
        · exact Or.inl (by omega)
        · refine Or.inr (Or.inl ⟨ch, hch, ?_⟩)
          by_contra hc
          exact hd ((isDigit_iff ch).mp (by simpa using hc))
        · refine Or.inr (Or.inr ?_)
          by_contra hc
          exact hf ((isAlpha_iff _).mp (by simpa using hc))
    constructor
    · rw [← hcond]
      constructor
      · intro h
        by_contra hc
        rw [if_neg hc] at h
        exact absurd h (by simp)
      · intro h
        rw [if_pos h]
    · intro f r hfr hne
      simp only [List.cons.injEq] at hfr
      obtain ⟨rfl, rfl⟩ := hfr
      by_cases hc : (rest.length < 1 ∨ 2 < rest.length) ∨ (∃ ch ∈ rest, ch.isDigit = false) ∨
          first.isAlpha = false
      · rw [if_pos hc] at hne
        exact absurd rfl hne
      · rw [if_neg hc]
        rfl

theorem parse_failure_conditions_witness :
    ParsePosition ['j', '1', '0'] ≠ none ∧ decimalValue ['1', '0'] = 10 ∧
    ParsePosition ['j', '1', '0'] =
      some ((decimalValue ['1', '0'] : Int) - 1,
        (('j' : Char).toUpper.toNat : Int) - ('A'.toNat : Int)) ∧
    ParsePosition ['j', '1', '0'] = some (9, 9) ∧
    ParsePosition ['J'] = none ∧ ParsePosition ['J', '1', 'x'] = none ∧
    ParsePosition ['1', '1'] = none ∧ ParsePosition ['J', '1', '0', '0'] = none :=
  ⟨by decide, by decide,
    (parse_failure_conditions ['j', '1', '0']).2 'j' ['1', '0'] rfl (by decide),
    by decide, by decide, by decide, by decide, by decide⟩

theorem ParsePosition_IndicesToString {r c : Int} (hr0 : 0 ≤ r) (hr : r < 19) (hc0 : 0 ≤ c)
    (hc : c < 19) : ParsePosition (IndicesToString r c) = some (r, c) := by
  obtain ⟨r, rfl⟩ := Int.eq_ofNat_of_zero_le hr0
  obtain ⟨c, rfl⟩ := Int.eq_ofNat_of_zero_le hc0
  have hr' : r < 19 := by omega
  have hc' : c < 19 := by omega
  interval_cases r <;> interval_cases c <;> rfl

/-- C12: for every row and column in [0, 19), `ParsePosition` of
`IndicesToString(r, c)` succeeds and yields exactly `(r, c)`. -/
theorem label_round_trip (r c : Int) (hr0 : 0 ≤ r) (hr : r < 19) (hc0 : 0 ≤ c) (hc : c < 19) :
    ParsePosition (IndicesToString r c) = some (r, c) :=
  ParsePosition_IndicesToString hr0 hr hc0 hc

theorem label_round_trip_witness :
    IndicesToString 9 9 = ['J', '1', '0'] ∧
    ParsePosition ['J', '1', '0'] = some (Int.tdiv BOARD_SIZE 2, Int.tdiv BOARD_SIZE 2) ∧
    ParsePosition (IndicesToString 9 9) = some (9, 9) :=
  ⟨by decide, by decide, label_round_trip 9 9 (by decide) (by decide) (by decide) (by decide)⟩

/-! ## Centre-only opening and acceptance of `SetBoard` -/

theorem wonBoard_reachable : Reachable wonBoard :=
  Reachable.place _ _ _ (Reachable.place _ _ _ (Reachable.place _ _ _
    (Reachable.place _ _ _ (Reachable.place _ _ _ Reachable.init))))

/-- C14: on the fresh board after `SetBounds(0, 0)`, `PlaceStone` returns SUCCESS
exactly for the labels that parse to the centre (9, 9); for a label of any
other on-board position it returns INVALID_MOVE and leaves the board as it was. -/
theorem centre_only_opening (a_color : Char) (label : List Char) :
    ((PlaceStone centreOnlyBoard a_color label).2 = ReturnCode.SUCCESS ↔
      ParsePosition label = some (9, 9)) ∧
    (∀ r c : Int, ParsePosition label = some (r, c) → IsValidIndex r c = true →
      (r, c) ≠ (9, 9) →
      (PlaceStone centreOnlyBoard a_color label).2 = ReturnCode.INVALID_MOVE ∧
        (PlaceStone centreOnlyBoard a_color label).1 = centreOnlyBoard) := by
  have hin : centreOnlyBoard.m_currMove.innerBounds = 0 := rfl
  have hout : centreOnlyBoard.m_currMove.outerBounds = 0 := rfl
  constructor
  · constructor
    · intro hs
      obtain ⟨r, c, hp, _, hb, _, _, _, _⟩ := PlaceStone_success hs
      rw [hin, hout, AwayFromCenter_eq] at hb
      have h1 : |r - 9| ≤ max |r - 9| |c - 9| := le_max_left _ _
      have h2 : |c - 9| ≤ max |r - 9| |c - 9| := le_max_right _ _
      have h3 : 0 ≤ |r - 9| := abs_nonneg _
      have h4 : 0 ≤ |c - 9| := abs_nonneg _
      have hr : |r - 9| = 0 := by omega
      have hc : |c - 9| = 0 := by omega
      rw [abs_eq_zero] at hr hc
      rw [hp]
      congr 2 <;> omega
    · intro hp
      unfold PlaceStone
      rw [hp]
      rfl
  · intro r c hp hv hne
    have hd : AwayFromCenter r c > 0 := by
      rw [AwayFromCenter_eq]
      have h1 : |r - 9| ≤ max |r - 9| |c - 9| := le_max_left _ _
      have h2 : |c - 9| ≤ max |r - 9| |c - 9| := le_max_right _ _
      have h3 : 0 ≤ |r - 9| := abs_nonneg _
      have h4 : 0 ≤ |c - 9| := abs_nonneg _
      by_contra hcon
      have hr : |r - 9| = 0 := by omega
      have hc : |c - 9| = 0 := by omega
      rw [abs_eq_zero] at hr hc
      apply hne
      congr 1 <;> omega
    unfold PlaceStone
    rw [hp]
    simp only [hv, Bool.not_true, Bool.false_eq_true, if_false, hin, hout]
    rw [if_pos (Or.inr hd)]
    exact ⟨rfl, rfl⟩

theorem centre_only_opening_witness :
    ParsePosition ['K', '1', '0'] = some (9, 10) ∧ IsValidIndex 9 10 = true ∧
    (PlaceStone centreOnlyBoard 'W' ['J', '1', '0']).2 = ReturnCode.SUCCESS ∧
    ((PlaceStone centreOnlyBoard 'W' ['K', '1', '0']).2 = ReturnCode.INVALID_MOVE ∧
      (PlaceStone centreOnlyBoard 'W' ['K', '1', '0']).1 = centreOnlyBoard) :=
  ⟨by decide, by decide, by rfl,
    (centre_only_opening 'W' ['K', '1', '0']).2 9 10 (by decide) (by decide) (by decide)⟩

theorem mem_allCells (p : Int × Int) : p ∈ allCells ↔ IsValidIndex p.1 p.2 = true := by
  rw [IsValidIndex_iff]
  have e : BOARD_SIZE.toNat = 19 := rfl
  simp only [allCells, e, List.mem_flatMap, List.mem_map, List.mem_range]
  constructor
  · rintro ⟨r, hr, c, hc, rfl⟩
    simp only
    omega
  · rintro ⟨h1, h2, h3, h4⟩
    refine ⟨p.1.toNat, by omega, p.2.toNat, by omega, ?_⟩
    apply Prod.ext
    · simp only; omega
    · simp only; omega

theorem setBoardScan_none_iff (g : Grid) (cells : List (Int × Int)) (acc : Int) :
    setBoardScan g cells acc = none ↔
      ∃ p ∈ cells, getCell g p.1 p.2 ≠ NULL_PIECE ∧ GetNumNInARow g WIN_SCORE p.1 p.2 > 0 := by
  induction cells generalizing acc with
  | nil => simp [setBoardScan]
  | cons p rest ih =>
    obtain ⟨r, c⟩ := p
    simp only [setBoardScan, List.mem_cons, exists_eq_or_imp]
    by_cases h1 : getCell g r c = NULL_PIECE
    · simp [h1, ih]
    · by_cases h2 : GetNumNInARow g WIN_SCORE r c > 0
      · simp [h1, h2]
      · simp [h1, h2, ih]

theorem setBoardScan_some {g : Grid} {cells : List (Int × Int)} {acc n : Int}
    (h : setBoardScan g cells acc = some n) :
    n = acc + ((cells.filter (fun p => getCell g p.1 p.2 == NULL_PIECE)).length : Int) := by
  induction cells generalizing acc with
  | nil =>
    simp only [setBoardScan, Option.some.injEq] at h
    simp [h]
  | cons p rest ih =>
    obtain ⟨r, c⟩ := p
    simp only [setBoardScan] at h
    by_cases h1 : getCell g r c = NULL_PIECE
    · rw [if_pos h1] at h
      rw [ih h]
      simp [List.filter_cons, h1]
      ring
    · rw [if_neg h1] at h
      by_cases h2 : GetNumNInARow g WIN_SCORE r c > 0
      · rw [if_pos h2] at h
        exact absurd h (by simp)
      · rw [if_neg h2] at h
        rw [ih h]
        simp [List.filter_cons, h1]

/-- C15: `SetBoard(g)` returns INVALID_BOARD iff `g` does not have exactly 19
rows of exactly 19 cells; otherwise ALREADY_WINNER iff some non-Empty cell of `g`
has `GetNumNInARow(5, r, c) > 0` on `g`; otherwise FULL_BOARD iff `g` has no
Empty cell; otherwise SUCCESS. -/
theorem setBoard_acceptance (b : Board) (g : Grid) :
    ((SetBoard b g).2 = ReturnCode.INVALID_BOARD ↔ ¬ WellFormed g) ∧
    (WellFormed g →
      ((SetBoard b g).2 = ReturnCode.ALREADY_WINNER ↔
        ∃ r c : Int, IsValidIndex r c = true ∧ getCell g r c ≠ NULL_PIECE ∧
          GetNumNInARow g 5 r c > 0)) ∧
    (WellFormed g →
      (¬ ∃ r c : Int, IsValidIndex r c = true ∧ getCell g r c ≠ NULL_PIECE ∧
          GetNumNInARow g 5 r c > 0) →
      ((SetBoard b g).2 = ReturnCode.FULL_BOARD ↔
        ∀ r c : Int, IsValidIndex r c = true → getCell g r c ≠ NULL_PIECE)) ∧
    (WellFormed g →
      (¬ ∃ r c : Int, IsValidIndex r c = true ∧ getCell g r c ≠ NULL_PIECE ∧
          GetNumNInARow g 5 r c > 0) →
      (¬ ∀ r c : Int, IsValidIndex r c = true → getCell g r c ≠ NULL_PIECE) →
      (SetBoard b g).2 = ReturnCode.SUCCESS) := by
  have hwin : setBoardScan g allCells 0 = none ↔
      ∃ r c : Int, IsValidIndex r c = true ∧ getCell g r c ≠ NULL_PIECE ∧
        GetNumNInARow g 5 r c > 0 := by
    rw [setBoardScan_none_iff]
    constructor
    · rintro ⟨p, hp, h1, h2⟩
      exact ⟨p.1, p.2, (mem_allCells p).mp hp, h1, h2⟩
    · rintro ⟨r, c, hv, h1, h2⟩
      exact ⟨(r, c), (mem_allCells (r, c)).mpr hv, h1, h2⟩
  have hfull : ∀ n : Int, setBoardScan g allCells 0 = some n →
      (n = 0 ↔ ∀ r c : Int, IsValidIndex r c = true → getCell g r c ≠ NULL_PIECE) := by
    intro n hn
    rw [setBoardScan_some hn, zero_add]
    constructor
    · intro h0 r c hv hO
      have hmem : (r, c) ∈ allCells.filter (fun p => getCell g p.1 p.2 == NULL_PIECE) :=
        List.mem_filter.mpr ⟨(mem_allCells (r, c)).mpr hv, by simpa using hO⟩
      have hlen : (allCells.filter (fun p => getCell g p.1 p.2 == NULL_PIECE)).length = 0 := by
        exact_mod_cast h0
      rw [List.length_eq_zero] at hlen
      rw [hlen] at hmem
      exact absurd hmem (List.not_mem_nil _)
    · intro hall
      have : allCells.filter (fun p => getCell g p.1 p.2 == NULL_PIECE) = [] := by
        rw [List.filter_eq_nil_iff]
        intro p hp
        have := hall p.1 p.2 ((mem_allCells p).mp hp)
        simpa using this
      rw [this]
      rfl
  by_cases hg : WellFormed g
  · cases hsc : setBoardScan g allCells 0 with
    | none =>
      have hw := hwin.mp hsc
      have hcode : (SetBoard b g).2 = ReturnCode.ALREADY_WINNER := by
        rw [SetBoard_of_wf b hg, hsc]
      rw [hcode]
      exact ⟨⟨fun h => absurd h (by decide), fun h => absurd hg h⟩,
        fun _ => ⟨fun _ => hw, fun _ => rfl⟩, fun _ hnw => absurd hw hnw,
        fun _ hnw => absurd hw hnw⟩
    | some n =>
      have hnw : ¬ ∃ r c : Int, IsValidIndex r c = true ∧ getCell g r c ≠ NULL_PIECE ∧
          GetNumNInARow g 5 r c > 0 := by
        intro h
        rw [hwin.mpr h] at hsc
        exact absurd hsc (by simp)
      have hf := hfull n hsc
      by_cases hn : n = 0
      · have hcode : (SetBoard b g).2 = ReturnCode.FULL_BOARD := by
          rw [SetBoard_of_wf b hg, hsc]
          simp only [hn, if_true]
        rw [hcode]
        exact ⟨⟨fun h => absurd h (by decide), fun h => absurd hg h⟩,
          fun _ => ⟨fun h => absurd h (by decide), fun h => absurd h hnw⟩,
          fun _ _ => ⟨fun _ => hf.mp hn, fun _ => rfl⟩,
          fun _ _ hne => absurd (hf.mp hn) hne⟩
      · have hcode : (SetBoard b g).2 = ReturnCode.SUCCESS := by
          rw [SetBoard_of_wf b hg, hsc]
          simp only [hn, if_false]
        rw [hcode]
        exact ⟨⟨fun h => absurd h (by decide), fun h => absurd hg h⟩,
          fun _ => ⟨fun h => absurd h (by decide), fun h => absurd h hnw⟩,
          fun _ _ => ⟨fun h => absurd h (by decide), fun h => absurd (hf.mpr h) hn⟩,
          fun _ _ _ => rfl⟩
  · rw [SetBoard_of_not_wf b hg]
    exact ⟨⟨fun _ => hg, fun _ => rfl⟩, fun h => absurd h hg, fun h => absurd h hg,
      fun h => absurd h hg⟩

set_option maxRecDepth 100000 in
theorem setBoard_acceptance_witness :
    WellFormed wonBoard.m_gameBoard ∧
    (SetBoard bracketBoard wonBoard.m_gameBoard).2 = ReturnCode.ALREADY_WINNER ∧
    (SetBoard wonBoard bracketBoard.m_gameBoard).2 = ReturnCode.SUCCESS ∧
    (SetBoard wonBoard [['W']]).2 = ReturnCode.INVALID_BOARD ∧
    ∃ r c : Int, IsValidIndex r c = true ∧ getCell wonBoard.m_gameBoard r c ≠ NULL_PIECE ∧
      GetNumNInARow wonBoard.m_gameBoard 5 r c > 0 :=
  ⟨Reachable_wf wonBoard_reachable, by rfl, by rfl, by rfl,
    ((setBoard_acceptance bracketBoard wonBoard.m_gameBoard).2.1
      (Reachable_wf wonBoard_reachable)).mp (by rfl)⟩

/-! ## The capture scan is idempotent -/

theorem scanCaptures_iff {g : Grid} {m : Char} {r c : Int} {d : Nat} :
    scanCaptures g m r c d = true ↔
      IsValidIndex (offsetPos r c d 3).1 (offsetPos r c d 3).2 = true ∧
      getCell g r c = getCell g (offsetPos r c d 3).1 (offsetPos r c d 3).2 ∧
      getCell g (offsetPos r c d 1).1 (offsetPos r c d 1).2 =
        getCell g (offsetPos r c d 2).1 (offsetPos r c d 2).2 ∧
      getCell g (offsetPos r c d 1).1 (offsetPos r c d 1).2 ≠ NULL_PIECE ∧
      getCell g (offsetPos r c d 1).1 (offsetPos r c d 1).2 ≠ m := by
  simp only [scanCaptures, Bool.and_eq_true, beq_iff_eq, bne_iff_ne, ne_eq]
  tauto

theorem isScanCapturedCell_iff {g : Grid} {m : Char} {r c : Int} {q : Int × Int} :
    isScanCapturedCell g m r c q = true ↔
      ∃ d, d < 8 ∧ scanCaptures g m r c d = true ∧
        (q = offsetPos r c d 1 ∨ q = offsetPos r c d 2) := by
  simp [isScanCapturedCell, NUM_DIRECTIONS]

/-- The sequence of length 4 read in direction `d` when the cell at distance 3
is on the board. -/
theorem colorSeqFrom_four_of_valid {g : Grid} {r c : Int} {d : Nat}
    (hrc : IsValidIndex r c = true)
    (h3 : IsValidIndex (offsetPos r c d 3).1 (offsetPos r c d 3).2 = true) :
    colorSeqFrom g r c d 0 4 =
      [getCell g r c, getCell g (offsetPos r c d 1).1 (offsetPos r c d 1).2,
        getCell g (offsetPos r c d 2).1 (offsetPos r c d 2).2,
        getCell g (offsetPos r c d 3).1 (offsetPos r c d 3).2] := by
  have h1 := offsetPos_valid_between (j := 1) hrc h3 (by omega) (by omega)
  have h2 := offsetPos_valid_between (j := 2) hrc h3 (by omega) (by omega)
  have h0 : IsValidIndex (offsetPos r c d 0).1 (offsetPos r c d 0).2 = true := by
    simpa [offsetPos] using hrc
  have e0 : getCell g (offsetPos r c d 0).1 (offsetPos r c d 0).2 = getCell g r c := by
    simp [offsetPos]
  simp only [colorSeqFrom, OffsetIndices, Nat.cast_zero, Nat.cast_one, Nat.cast_ofNat,
    zero_add, Nat.reduceAdd, h0, h1, h2, h3, if_true, e0]

/-- What one iteration of the capture loop does to the sequence of direction `d`
read on any grid. -/
theorem captureSeq_scan {g : Grid} {r c : Int} {d : Nat} (m : Char)
    (hrc : IsValidIndex r c = true) :
    captureSeq m (colorSeqFrom g r c d 0 4) =
      if scanCaptures g m r c d = true then
        ([getCell g r c, NULL_PIECE, NULL_PIECE, getCell g r c], true)
      else (colorSeqFrom g r c d 0 4, false) := by
  by_cases h3 : IsValidIndex (offsetPos r c d 3).1 (offsetPos r c d 3).2 = true
  · rw [colorSeqFrom_four_of_valid hrc h3, captureSeq_four]
    by_cases hc : scanCaptures g m r c d = true
    · have hc' := scanCaptures_iff.mp hc
      rw [if_pos hc, if_pos hc'.2, ← hc'.2.1]
    · have hc' : ¬ (getCell g r c = getCell g (offsetPos r c d 3).1 (offsetPos r c d 3).2 ∧
          getCell g (offsetPos r c d 1).1 (offsetPos r c d 1).2 =
            getCell g (offsetPos r c d 2).1 (offsetPos r c d 2).2 ∧
          getCell g (offsetPos r c d 1).1 (offsetPos r c d 1).2 ≠ NULL_PIECE ∧
          getCell g (offsetPos r c d 1).1 (offsetPos r c d 1).2 ≠ m) :=
        fun h => hc (scanCaptures_iff.mpr ⟨h3, h⟩)
      rw [if_neg hc, if_neg hc']
  · rw [captureSeq_of_length_ne _ _ (colorSeqFrom_short h3), if_neg]
    rw [scanCaptures_iff]
    exact fun h => h3 h.1

theorem scan_seqs_getElem? {g : Grid} {r c : Int} (m : Char)
    (hrc : IsValidIndex r c = true) {j : Nat} {s : List Char}
    (h : ((ColorSeq g 4 r c).map (fun s => (captureSeq m s).1))[j]? = some s) :
    j < 8 ∧ s = if scanCaptures g m r c j = true then
        [getCell g r c, NULL_PIECE, NULL_PIECE, getCell g r c]
      else colorSeqFrom g r c j 0 4 := by
  rw [List.getElem?_map] at h
  cases h' : (ColorSeq g 4 r c)[j]? with
  | none => simp [h'] at h
  | some s0 =>
    obtain ⟨hj, hs0⟩ := ColorSeq_getElem? h'
    simp only [h', Option.map_some', Option.some.injEq] at h
    refine ⟨hj, ?_⟩
    have e : (4 : Int).toNat = 4 := rfl
    rw [← h, hs0, e, captureSeq_scan m hrc]
    split <;> rfl

theorem scan_seqs_getElem?_lt {g : Grid} {r c : Int} (m : Char)
    (hrc : IsValidIndex r c = true) {j : Nat} (hj : j < 8) :
    ((ColorSeq g 4 r c).map (fun s => (captureSeq m s).1))[j]? =
      some (if scanCaptures g m r c j = true then
          [getCell g r c, NULL_PIECE, NULL_PIECE, getCell g r c]
        else colorSeqFrom g r c j 0 4) := by
  have e : (4 : Int).toNat = 4 := rfl
  rw [List.getElem?_map, ColorSeq_getElem?_lt hj, e]
  simp only [Option.map_some', captureSeq_scan m hrc]
  split <;> rfl

/-- Every write of a capture scan: where it goes and what it stores. -/
theorem scan_write {g : Grid} {r c : Int} (m : Char)
    (hrc : IsValidIndex r c = true) {w : (Int × Int) × Char}
    (hw : w ∈ allWrites r c ((ColorSeq g 4 r c).map (fun s => (captureSeq m s).1)) 0) :
    ∃ j i : Nat, j < 8 ∧ w.1 = offsetPos r c j (i : Int) ∧
      IsValidIndex w.1.1 w.1.2 = true ∧
      w.2 = if scanCaptures g m r c j = true ∧ (i = 1 ∨ i = 2) then NULL_PIECE
        else getCell g w.1.1 w.1.2 := by
  obtain ⟨j, i, s, h1, h2, h3⟩ := mem_allWrites.mp hw
  obtain ⟨hj, hs⟩ := scan_seqs_getElem? m hrc h1
  rw [zero_add] at h3
  refine ⟨j, i, hj, h3, ?_⟩
  by_cases hc : scanCaptures g m r c j = true
  · rw [if_pos hc] at hs
    subst hs
    obtain ⟨hv3, hm, -, -, -⟩ := scanCaptures_iff.mp hc
    have hi : i < 4 := by
      by_contra hi
      rw [List.getElem?_eq_none (by simp; omega)] at h2
      exact absurd h2 (by simp)
    have hvi : IsValidIndex w.1.1 w.1.2 = true := by
      rw [h3]
      exact offsetPos_valid_between hrc hv3 (by omega) (by omega)
    refine ⟨hvi, ?_⟩
    interval_cases i
    · simp at h2
      have e0 : w.1 = (r, c) := by rw [h3]; simp [offsetPos]
      simp [e0, ← h2]
    · simp at h2
      simp [hc, ← h2]
    · simp at h2
      simp [hc, ← h2]
    · simp at h2
      have e3 : w.1 = offsetPos r c j 3 := by rw [h3]; rfl
      rw [if_neg (by omega), e3, ← hm, ← h2]
  · rw [if_neg hc] at hs
    subst hs
    obtain ⟨hv, hval⟩ := colorSeqFrom_getElem? h2
    rw [zero_add] at hv hval
    rw [h3]
    exact ⟨hv, by rw [if_neg (fun h => hc h.1)]; exact hval⟩

/-- The grid after a capture scan at `(r, c)`, cell by cell. -/
theorem CapturePairs_cell {b : Board} (hg : WellFormed b.m_gameBoard) (m : Char)
    {r c : Int} (hrc : IsValidIndex r c = true)
    (q : Int × Int) (hq : IsValidIndex q.1 q.2 = true) :
    getCell (CapturePairs b m r c).1.m_gameBoard q.1 q.2 =
      if isScanCapturedCell b.m_gameBoard m r c q = true then NULL_PIECE
      else getCell b.m_gameBoard q.1 q.2 := by
  have hvalid : ∀ w ∈ allWrites r c
      ((ColorSeq b.m_gameBoard 4 r c).map (fun s => (captureSeq m s).1)) 0,
      IsValidIndex w.1.1 w.1.2 = true := by
    intro w hw
    obtain ⟨j, i, _, _, hv, _⟩ := scan_write m hrc hw
    exact hv
  have e4 : (CAPTURE_NUM + 2 : Int) = 4 := rfl
  simp only [CapturePairs, captureLoop_eq, e4]
  rw [UpdateSeqs_eq _ _ (by simp [ColorSeq_length]) hvalid]
  apply applyWrites_const hg _ q _ hvalid hq
  · intro w hw hwq
    obtain ⟨j, i, hj, hpos, hv, hval⟩ := scan_write m hrc hw
    rw [hval, hwq]
    rw [hwq] at hpos
    by_cases hcap : isScanCapturedCell b.m_gameBoard m r c q = true
    · rw [if_pos hcap]
      obtain ⟨d, hd, hc, hqd⟩ := isScanCapturedCell_iff.mp hcap
      have key : ∀ k : Int, 1 ≤ k → q = offsetPos r c d k → j = d ∧ (i : Int) = k := by
        intro k hk hqk
        rcases offsetPos_inj hj hd (hpos.symm.trans hqk) (by omega) (by omega) with h | h
        · omega
        · exact h
      rcases hqd with hqd | hqd
      · obtain ⟨e1, e2⟩ := key 1 (by omega) hqd
        subst e1
        rw [if_pos ⟨hc, Or.inl (by omega)⟩]
      · obtain ⟨e1, e2⟩ := key 2 (by omega) hqd
        subst e1
        rw [if_pos ⟨hc, Or.inr (by omega)⟩]
    · rw [if_neg hcap, if_neg]
      rintro ⟨hc, hi⟩
      apply hcap
      refine isScanCapturedCell_iff.mpr ⟨j, hj, hc, ?_⟩
      rcases hi with hi | hi
      · left; rw [hpos, hi]; rfl
      · right; rw [hpos, hi]; rfl
  · intro hno
    by_cases hcap : isScanCapturedCell b.m_gameBoard m r c q = true
    · exfalso
      obtain ⟨d, hd, hc, hqd⟩ := isScanCapturedCell_iff.mp hcap
      have hd' := scan_seqs_getElem?_lt (g := b.m_gameBoard) m hrc hd
      rw [if_pos hc] at hd'
      rcases hqd with hqd | hqd
      · exact hno (q, NULL_PIECE)
          (mem_allWrites.mpr ⟨d, 1, _, hd', by simp, by simp [hqd]⟩) rfl
      · exact hno (q, NULL_PIECE)
          (mem_allWrites.mpr ⟨d, 2, _, hd', by simp, by simp [hqd]⟩) rfl
    · rw [if_neg hcap]

theorem CapturePairs_count (b : Board) (m : Char) {r c : Int}
    (hrc : IsValidIndex r c = true) :
    (CapturePairs b m r c).2 =
      (((List.range 8).filter (scanCaptures b.m_gameBoard m r c)).length : Int) := by
  have e : (4 : Int).toNat = 4 := rfl
  have e4 : (CAPTURE_NUM + 2 : Int) = 4 := rfl
  simp only [CapturePairs, captureLoop_eq, e4, ColorSeq, NUM_DIRECTIONS, List.filter_map,
    List.length_map, e, zero_add]
  congr 2
  apply List.filter_congr
  intro d _
  simp only [Function.comp, captureSeq_scan m hrc]
  split <;> simp_all

theorem ColorSeq_invalid (g : Grid) (n : Int) {r c : Int} (h : ¬ IsValidIndex r c = true) :
    ColorSeq g n r c = [[], [], [], [], [], [], [], []] := by
  have h0 : ∀ d k, colorSeqFrom g r c d 0 k = [] := by
    intro d k
    cases k with
    | zero => rfl
    | succ k =>
      have : ¬ IsValidIndex (offsetPos r c d ((0 : Nat) : Int)).1
          (offsetPos r c d ((0 : Nat) : Int)).2 = true := by
        simpa [offsetPos] using h
      have this' : IsValidIndex (offsetPos r c d ((0 : Nat) : Int)).1
          (offsetPos r c d ((0 : Nat) : Int)).2 = false := by simpa using this
      simp only [colorSeqFrom, OffsetIndices, this', Bool.false_eq_true, if_false]
  have e8 : List.range 8 = [0, 1, 2, 3, 4, 5, 6, 7] := by decide
  simp only [ColorSeq, NUM_DIRECTIONS, e8, List.map_cons, List.map_nil, h0]

theorem CapturePairs_invalid (b : Board) (m : Char) {r c : Int}
    (h : ¬ IsValidIndex r c = true) : CapturePairs b m r c = (b, 0) := by
  unfold CapturePairs
  simp only [ColorSeq_invalid _ _ h]
  rfl

theorem board_eta (b : Board) (g : Grid) (n : Int) (hg : g = b.m_gameBoard)
    (hn : n = b.m_currMove.intersectLeft) :
    ({ b with m_gameBoard := g, m_currMove := { b.m_currMove with intersectLeft := n } } :
      Board) = b := by
  subst hg hn
  rfl

/-- A capture scan on a grid where no direction meets the capture condition
returns 0 and leaves the board as it is. -/
theorem CapturePairs_of_no_capture {b : Board} (hg : WellFormed b.m_gameBoard) (m : Char)
    {r c : Int} (hrc : IsValidIndex r c = true)
    (hno : ∀ d, d < 8 → scanCaptures b.m_gameBoard m r c d = false) :
    (CapturePairs b m r c).2 = 0 ∧ (CapturePairs b m r c).1 = b := by
  have hfil : (List.range 8).filter (scanCaptures b.m_gameBoard m r c) = [] := by
    rw [List.filter_eq_nil_iff]
    intro d hd
    rw [hno d (List.mem_range.mp hd)]
    simp
  have hcount := CapturePairs_count b m hrc
  rw [hfil] at hcount
  refine ⟨by simpa using hcount, ?_⟩
  have hgrid : (CapturePairs b m r c).1.m_gameBoard = b.m_gameBoard := by
    have e4 : (CAPTURE_NUM + 2 : Int) = 4 := rfl
    apply grid_ext _ hg
    · intro r' c' hq
      rw [CapturePairs_cell hg m hrc (r', c') hq, if_neg]
      intro hcap
      obtain ⟨d, hd, hc, _⟩ := isScanCapturedCell_iff.mp hcap
      rw [hno d hd] at hc
      exact absurd hc (by simp)
    · simp only [CapturePairs, e4]
      exact UpdateSeqs_wf _ _ _ hg
  have hil : (CapturePairs b m r c).1.m_currMove.intersectLeft =
      b.m_currMove.intersectLeft := by
    have e : (4 : Int).toNat = 4 := rfl
    have e4 : (CAPTURE_NUM + 2 : Int) = 4 := rfl
    have hf : (ColorSeq b.m_gameBoard 4 r c).filter (fun s => (captureSeq m s).2) = [] := by
      rw [List.filter_eq_nil_iff]
      intro s hs
      simp only [ColorSeq, NUM_DIRECTIONS, List.mem_map, List.mem_range, e] at hs
      obtain ⟨d, hd, rfl⟩ := hs
      rw [captureSeq_scan m hrc, hno d hd]
      simp
    simp only [CapturePairs, captureLoop_eq, e4, hf]
    simp
  have hshape : (CapturePairs b m r c).1 =
      { b with
        m_gameBoard := (CapturePairs b m r c).1.m_gameBoard
        m_currMove := { b.m_currMove with
          intersectLeft := (CapturePairs b m r c).1.m_currMove.intersectLeft } } := rfl
  exact hshape.trans (board_eta b _ _ hgrid hil)

theorem CapturePairs_wf {b : Board} (hg : WellFormed b.m_gameBoard) (m : Char) (r c : Int) :
    WellFormed (CapturePairs b m r c).1.m_gameBoard := by
  simp only [CapturePairs]
  exact UpdateSeqs_wf _ _ _ hg

/-- After a capture scan at `(r, c)` no direction meets the capture condition. -/
theorem scanCaptures_after {b : Board} (hg : WellFormed b.m_gameBoard) (m : Char)
    {r c : Int} (hrc : IsValidIndex r c = true) {d : Nat} (hd : d < 8) :
    scanCaptures (CapturePairs b m r c).1.m_gameBoard m r c d = false := by
  by_contra hcon
  have hcon' : scanCaptures (CapturePairs b m r c).1.m_gameBoard m r c d = true := by
    simpa using hcon
  obtain ⟨hv3, h03, h12, hO, hm⟩ := scanCaptures_iff.mp hcon'
  have hv1 := offsetPos_valid_between (j := 1) hrc hv3 (by omega) (by omega)
  have hv2 := offsetPos_valid_between (j := 2) hrc hv3 (by omega) (by omega)
  have hcell := CapturePairs_cell hg m hrc
  have h1 := hcell (offsetPos r c d 1) hv1
  have h2 := hcell (offsetPos r c d 2) hv2
  have h3 := hcell (offsetPos r c d 3) hv3
  have h0 := hcell (r, c) hrc
  have hn1 : ¬ isScanCapturedCell b.m_gameBoard m r c (offsetPos r c d 1) = true := by
    intro hc
    rw [if_pos hc] at h1
    exact hO h1
  have hn2 : ¬ isScanCapturedCell b.m_gameBoard m r c (offsetPos r c d 2) = true := by
    intro hc
    rw [if_pos hc] at h2
    rw [h12] at hO
    exact hO h2
  have hn3 : ¬ isScanCapturedCell b.m_gameBoard m r c (offsetPos r c d 3) = true := by
    intro hc
    obtain ⟨d', hd', _, hq⟩ := isScanCapturedCell_iff.mp hc
    rcases hq with hq | hq
    · rcases offsetPos_inj hd hd' hq (by omega) (by omega) with h | h <;> omega
    · rcases offsetPos_inj hd hd' hq (by omega) (by omega) with h | h <;> omega
  have hn0 : ¬ isScanCapturedCell b.m_gameBoard m r c (r, c) = true := by
    intro hc
    obtain ⟨d', hd', _, hq⟩ := isScanCapturedCell_iff.mp hc
    rcases hq with hq | hq
    · exact offsetPos_ne_center hd' (by omega) hq.symm
    · exact offsetPos_ne_center hd' (by omega) hq.symm
  rw [if_neg hn1] at h1
  rw [if_neg hn2] at h2
  rw [if_neg hn3] at h3
  rw [if_neg hn0] at h0
  simp only at h0
  rw [h1, h2] at h12
  rw [h1] at hO hm
  rw [h0, h3] at h03
  apply hn1
  exact isScanCapturedCell_iff.mpr
    ⟨d, hd, scanCaptures_iff.mpr ⟨hv3, h03, h12, hO, hm⟩, Or.inl rfl⟩

/-- C20: on every reachable board, for every colour `m` and cell `(r, c)`, a
second run of `CapturePairs(m, r, c)` right after a first one returns 0 and
leaves the board (every cell, and the remaining-empty count) as the first run
left it. -/
theorem capture_scan_idempotent (b : Board) (hb : Reachable b) (m : Char) (r c : Int) :
    (CapturePairs (CapturePairs b m r c).1 m r c).2 = 0 ∧
      (CapturePairs (CapturePairs b m r c).1 m r c).1 = (CapturePairs b m r c).1 := by
  have hg := Reachable_wf hb
  by_cases hrc : IsValidIndex r c = true
  · exact CapturePairs_of_no_capture (CapturePairs_wf hg m r c) m hrc
      (fun d hd => scanCaptures_after hg m hrc hd)
  · rw [CapturePairs_invalid b m hrc]
    simp only
    rw [CapturePairs_invalid b m hrc]
    exact ⟨rfl, rfl⟩

set_option maxRecDepth 100000 in
theorem capture_scan_idempotent_witness :
    getCell preCaptureBoard.m_gameBoard 9 9 = 'W' ∧
    getCell preCaptureBoard.m_gameBoard 9 10 = 'B' ∧
    getCell preCaptureBoard.m_gameBoard 9 11 = 'B' ∧
    getCell preCaptureBoard.m_gameBoard 9 12 = 'W' ∧
    (CapturePairs preCaptureBoard 'W' 9 9).2 = 1 ∧
    getCell (CapturePairs preCaptureBoard 'W' 9 9).1.m_gameBoard 9 10 = NULL_PIECE ∧
    getCell (CapturePairs preCaptureBoard 'W' 9 9).1.m_gameBoard 9 11 = NULL_PIECE ∧
    (PlaceStone bracketBoard 'W' ['J', '1', '0']).2 = ReturnCode.SUCCESS ∧
    capturedBoard.GetCapturedPairs = 1 ∧
    (CapturePairs capturedBoard 'W' 9 9).2 = 0 ∧
    ((CapturePairs (CapturePairs preCaptureBoard 'W' 9 9).1 'W' 9 9).2 = 0 ∧
      (CapturePairs (CapturePairs preCaptureBoard 'W' 9 9).1 'W' 9 9).1 =
        (CapturePairs preCaptureBoard 'W' 9 9).1) :=
  ⟨by decide, by decide, by decide, by decide, by rfl, by decide, by decide, by rfl, by rfl,
    by rfl,
    capture_scan_idempotent preCaptureBoard (Reachable.setBoard _ _ Reachable.init) 'W' 9 9⟩

/-! ## Potential captures -/

theorem foldl_count {α : Type} (p : α → Bool) (l : List α) (acc : Int) :
    l.foldl (fun count x => if p x = true then count + 1 else count) acc =
      acc + ((l.filter p).length : Int) := by
  induction l generalizing acc with
  | nil => simp
  | cons x rest ih =>
    rw [List.foldl_cons, ih]
    by_cases h : p x = true
    · simp [h, List.filter_cons]; ring
    · simp [h, List.filter_cons]

/-- The sequence of length 3 read in direction `e` from an on-board cell. -/
theorem colorSeqFrom_three (g : Grid) {r c : Int} (e : Nat) (hrc : IsValidIndex r c = true) :
    colorSeqFrom g r c e 0 3 =
      getCell g r c ::
        (if IsValidIndex (offsetPos r c e 1).1 (offsetPos r c e 1).2 = true then
          getCell g (offsetPos r c e 1).1 (offsetPos r c e 1).2 ::
            (if IsValidIndex (offsetPos r c e 2).1 (offsetPos r c e 2).2 = true then
              [getCell g (offsetPos r c e 2).1 (offsetPos r c e 2).2]
            else [])
        else []) := by
  have h0 : IsValidIndex (offsetPos r c e 0).1 (offsetPos r c e 0).2 = true := by
    simpa [offsetPos] using hrc
  have e0 : getCell g (offsetPos r c e 0).1 (offsetPos r c e 0).2 = getCell g r c := by
    simp [offsetPos]
  simp only [colorSeqFrom, OffsetIndices, Nat.cast_zero, Nat.cast_one, Nat.cast_ofNat,
    zero_add, Nat.reduceAdd, h0, if_true, e0]
  by_cases h1 : IsValidIndex (offsetPos r c e 1).1 (offsetPos r c e 1).2 = true
  · simp only [h1, if_true]
    by_cases h2 : IsValidIndex (offsetPos r c e 2).1 (offsetPos r c e 2).2 = true
    · simp only [h2, if_true]
    · have h2' : IsValidIndex (offsetPos r c e 2).1 (offsetPos r c e 2).2 = false := by
        simpa using h2
      simp only [h2', Bool.false_eq_true, if_false]
  · have h1' : IsValidIndex (offsetPos r c e 1).1 (offsetPos r c e 1).2 = false := by
      simpa using h1
    simp only [h1', Bool.false_eq_true, if_false]

theorem offsetPos_opp_lane {r c : Int} {d : Nat} (hd : d < 4) (k : Int) :
    offsetPos r c (d + 4) k = offsetPos r c d (-k) := by
  have := offsetPos_opp (r := r) (c := c) (d := d) (by omega) k
  have e : (d + 4) % 8 = d + 4 := by omega
  rwa [e] at this

theorem matchesAt_four (s x0 x1 x2 x3 : Char) (rest : List Char)
    (h0 : x0 ≠ '^') (h3 : x3 ≠ '^') :
    matchesAt s (x0 :: x1 :: x2 :: x3 :: rest) = vulnerablePattern s x0 x1 x2 x3 := by
  have e0 : (x0 != '^') = true := by simpa using h0
  have e3 : (x3 != '^') = true := by simpa using h3
  simp only [matchesAt, matchesHeader, vulnerablePattern, e0, e3, Bool.and_true]

theorem regex_search_five (s a b x y z : Char)
    (ha : a ≠ '^') (hb : b ≠ '^') (hy : y ≠ '^') (hz : z ≠ '^') :
    regex_search s [a, b, x, y, z] =
      (vulnerablePattern s a b x y || vulnerablePattern s b x y z) := by
  have e1 : regex_search s [x, y, z] = false := rfl
  rw [regex_search, matchesAt_four _ _ _ _ _ _ ha hy, regex_search,
    matchesAt_four _ _ _ _ _ _ hb hz, e1, Bool.or_false]

theorem regex_search_four (s a b x y : Char) (ha : a ≠ '^') (hy : y ≠ '^') :
    regex_search s [a, b, x, y] = vulnerablePattern s a b x y := by
  have e1 : regex_search s [b, x, y] = false := rfl
  rw [regex_search, matchesAt_four _ _ _ _ _ _ ha hy, e1, Bool.or_false]

theorem regex_search_short (s : Char) (t : List Char) (h : t.length < 4) :
    regex_search s t = false := by
  match t, h with
  | [], _ => rfl
  | [_], _ => rfl
  | [_, _], _ => rfl
  | [_, _, _], _ => rfl

/-- One lane of `GetPotentialCaptures`: the search on the text read through
`(r, c)` agrees with the window test of the specification. -/
theorem lane_search {g : Grid} {s : Char} {r c : Int} {d : Nat}
    (hcells : ∀ q : Int × Int, IsValidIndex q.1 q.2 = true → getCell g q.1 q.2 ≠ '^')
    (hrc : IsValidIndex r c = true) (hd : d < 4) :
    regex_search s ((colorSeqFrom g r c (d + 4) 0 3).reverse ++
        (colorSeqFrom g r c d 0 3).drop 1) = laneVulnerable g s r c d := by
  rw [colorSeqFrom_three g d hrc, colorSeqFrom_three g (d + 4) hrc]
  simp only [offsetPos_opp_lane hd]
  have hc0 : offsetPos r c d 0 = (r, c) := by simp [offsetPos]
  have e1 : (-2 : Int) + 1 = -1 := rfl
  have e2 : (-2 : Int) + 2 = 0 := rfl
  have e3 : (-2 : Int) + 3 = 1 := rfl
  have e4 : (-1 : Int) + 1 = 0 := rfl
  have e5 : (-1 : Int) + 2 = 1 := rfl
  have e6 : (-1 : Int) + 3 = 2 := rfl
  simp only [laneVulnerable, List.any_cons, List.any_nil, Bool.or_false, e1, e2, e3, e4, e5, e6,
    hc0]
  by_cases w1 : IsValidIndex (offsetPos r c d (-1)).1 (offsetPos r c d (-1)).2 = true
  · by_cases v1 : IsValidIndex (offsetPos r c d 1).1 (offsetPos r c d 1).2 = true
    · by_cases w2 : IsValidIndex (offsetPos r c d (-2)).1 (offsetPos r c d (-2)).2 = true
      · by_cases v2 : IsValidIndex (offsetPos r c d 2).1 (offsetPos r c d 2).2 = true
        · simp only [w1, w2, v1, v2, if_true, List.reverse_cons, List.reverse_nil,
            List.nil_append, List.cons_append, List.drop_succ_cons, List.drop_zero,
            Bool.true_and]
          exact regex_search_five s _ _ _ _ _ (hcells _ w2) (hcells _ w1) (hcells _ v1)
            (hcells _ v2)
        · simp only [w1, w2, v1, v2, if_true, if_false, List.reverse_cons, List.reverse_nil,
            List.nil_append, List.cons_append, List.drop_succ_cons, List.drop_zero,
            Bool.true_and, Bool.false_and, Bool.and_false, Bool.or_false]
          exact regex_search_four s _ _ _ _ (hcells _ w2) (hcells _ v1)
      · by_cases v2 : IsValidIndex (offsetPos r c d 2).1 (offsetPos r c d 2).2 = true
        · simp only [w1, w2, v1, v2, if_true, if_false, List.reverse_cons, List.reverse_nil,
            List.nil_append, List.cons_append, List.drop_succ_cons, List.drop_zero,
            Bool.true_and, Bool.false_and, Bool.and_false, Bool.false_or]
          exact regex_search_four s _ _ _ _ (hcells _ w1) (hcells _ v2)
        · simp only [w1, w2, v1, v2, if_true, if_false, List.reverse_cons, List.reverse_nil,
            List.nil_append, List.cons_append, List.drop_succ_cons, List.drop_zero,
            Bool.true_and, Bool.false_and, Bool.and_false, Bool.false_or, Bool.or_false]
          exact regex_search_short s _ (by simp)
    · have v2 : ¬ IsValidIndex (offsetPos r c d 2).1 (offsetPos r c d 2).2 = true :=
        fun h => v1 (offsetPos_valid_between hrc h (by omega) (by omega))
      simp only [w1, v1, v2, if_true, if_false, Bool.false_and, Bool.and_false,
        Bool.or_false, Bool.false_or, List.drop_succ_cons, List.drop_zero]
      apply regex_search_short
      split <;> simp
  · have w2 : ¬ IsValidIndex (offsetPos r c d (-2)).1 (offsetPos r c d (-2)).2 = true := by
      intro h
      have := offsetPos_valid_between (r := r) (c := c) (d := d + 4) (j := 1) (k := 2) hrc
        (by rw [offsetPos_opp_lane hd]; exact h) (by omega) (by omega)
      rw [offsetPos_opp_lane hd] at this
      exact w1 this
    have w1' : IsValidIndex (offsetPos r c d (-1)).1 (offsetPos r c d (-1)).2 = false := by
      simpa using w1
    have w2' : IsValidIndex (offsetPos r c d (-2)).1 (offsetPos r c d (-2)).2 = false := by
      simpa using w2
    simp only [w1', w2', Bool.false_eq_true, if_false, Bool.false_and, Bool.and_false,
      Bool.or_false, List.reverse_cons, List.reverse_nil, List.nil_append, List.cons_append,
      List.drop_succ_cons, List.drop_zero]
    apply regex_search_short
    by_cases v1 : IsValidIndex (offsetPos r c d 1).1 (offsetPos r c d 1).2 = true
    · by_cases v2 : IsValidIndex (offsetPos r c d 2).1 (offsetPos r c d 2).2 = true
      · simp [v1, v2]
      · simp [v1, v2]
    · simp [v1]

theorem ColorSeq_getD (g : Grid) (n r c : Int) {d : Nat} (hd : d < 8) :
    (ColorSeq g n r c).getD d [] = colorSeqFrom g r c d 0 n.toNat := by
  rw [List.getD_eq_getElem?_getD, ColorSeq_getElem?_lt hd]
  rfl

/-- C18: on a board holding only 'W', 'B' and Empty, for every on-board cell
`(r, c)` and side `s` ('W' or 'B'), `GetPotentialCaptures(s, r, c)` is the number
of the 4 lanes whose window of cells from distance 2 on one side of `(r, c)` to
distance 2 on the other, truncated at the board edge, contains four consecutive
cells Empty, s, s, X or X, s, s, Empty with X neither Empty nor `s`. -/
theorem potential_capture_count (g : Grid) (s : Char) (r c : Int)
    (honly : ∀ q : Int × Int, IsValidIndex q.1 q.2 = true →
      getCell g q.1 q.2 = 'W' ∨ getCell g q.1 q.2 = 'B' ∨ getCell g q.1 q.2 = NULL_PIECE)
    (_hs : s = 'W' ∨ s = 'B') (hrc : IsValidIndex r c = true) :
    GetPotentialCaptures g s r c =
      (((List.range 4).filter (laneVulnerable g s r c)).length : Int) := by
  have hcells : ∀ q : Int × Int, IsValidIndex q.1 q.2 = true → getCell g q.1 q.2 ≠ '^' := by
    intro q hq h
    rcases honly q hq with h' | h' | h' <;> rw [h] at h' <;> exact absurd h' (by decide)
  have hfold : GetPotentialCaptures g s r c =
      (List.range 4).foldl (fun count d =>
        if regex_search s (((ColorSeq g 3 r c).getD (d + 4) []).reverse ++
          ((ColorSeq g 3 r c).getD d []).drop 1) = true then count + 1 else count) 0 := rfl
  rw [hfold, foldl_count, zero_add]
  congr 2
  apply List.filter_congr
  intro d hd
  have hd4 : d < 4 := List.mem_range.mp hd
  have e3 : (3 : Int).toNat = 3 := rfl
  rw [ColorSeq_getD g 3 r c (by omega : d + 4 < 8), ColorSeq_getD g 3 r c (by omega : d < 8), e3]
  exact lane_search hcells hrc hd4

theorem potential_capture_count_witness :
    getCell bracketBoard.m_gameBoard 9 9 = NULL_PIECE ∧
    getCell bracketBoard.m_gameBoard 9 10 = 'B' ∧
    getCell bracketBoard.m_gameBoard 9 11 = 'B' ∧
    getCell bracketBoard.m_gameBoard 9 12 = 'W' ∧
    GetPotentialCaptures bracketBoard.m_gameBoard 'B' 9 10 = 1 ∧
    (List.range 4).filter (laneVulnerable bracketBoard.m_gameBoard 'B' 9 10) = [2] ∧
    GetPotentialCaptures bracketBoard.m_gameBoard 'B' 9 10 =
      (((List.range 4).filter (laneVulnerable bracketBoard.m_gameBoard 'B' 9 10)).length : Int) :=
  ⟨by decide, by decide, by decide, by decide, by rfl, by decide,
    potential_capture_count bracketBoard.m_gameBoard 'B' 9 10
      (by
        intro q hq
        have hv := (IsValidIndex_iff q.1 q.2).mp hq
        obtain ⟨q1, q2⟩ := q
        simp only at hv ⊢
        obtain ⟨r, rfl⟩ := Int.eq_ofNat_of_zero_le hv.1
        obtain ⟨c, rfl⟩ := Int.eq_ofNat_of_zero_le hv.2.2.1
        have hr : r < 19 := by omega
        have hc : c < 19 := by omega
        interval_cases r <;> interval_cases c <;> decide)
      (Or.inr rfl) (by decide)⟩

/-! ## Uninterrupted structures -/

theorem allCells_nodup : allCells.Nodup := by
  have e : BOARD_SIZE.toNat = 19 := rfl
  simp only [allCells, e]
  rw [List.nodup_flatMap]
  constructor
  · intro r _
    apply List.Nodup.map _ (List.nodup_range 19)
    intro a b h
    simp only [Prod.mk.injEq, Nat.cast_inj, true_and] at h
    exact h
  · apply List.Pairwise.imp _ (List.nodup_range 19)
    intro a b hab
    simp only [Function.onFun]
    rw [List.disjoint_left]
    intro x hx hx'
    simp only [List.mem_map, List.mem_range] at hx hx'
    obtain ⟨c1, _, rfl⟩ := hx
    obtain ⟨c2, _, h2⟩ := hx'
    simp only [Prod.mk.injEq, Nat.cast_inj] at h2
    exact hab h2.1.symm

theorem isRunStart_iff {g : Grid} {s : Char} {n : Nat} {r c : Int} {d : Nat} :
    isRunStart g s n r c d = true ↔
      (∀ k : Nat, k < n →
        IsValidIndex (offsetPos r c d (k : Int)).1 (offsetPos r c d (k : Int)).2 = true ∧
          getCell g (offsetPos r c d (k : Int)).1 (offsetPos r c d (k : Int)).2 = s) ∧
      ¬ (IsValidIndex (offsetPos r c d (-1)).1 (offsetPos r c d (-1)).2 = true ∧
          getCell g (offsetPos r c d (-1)).1 (offsetPos r c d (-1)).2 = s) ∧
      ¬ (IsValidIndex (offsetPos r c d (n : Int)).1 (offsetPos r c d (n : Int)).2 = true ∧
          getCell g (offsetPos r c d (n : Int)).1 (offsetPos r c d (n : Int)).2 = s) := by
  simp only [isRunStart, Bool.and_eq_true, List.all_eq_true, List.mem_range, beq_iff_eq,
    Bool.not_eq_true', Bool.and_eq_false_iff, not_and, and_assoc]
  constructor
  · rintro ⟨h1, h2, h3⟩
    refine ⟨h1, ?_, ?_⟩
    · intro hv
      rcases h2 with h | h
      · rw [hv] at h; exact absurd h (by simp)
      · simpa using h
    · intro hv
      rcases h3 with h | h
      · rw [hv] at h; exact absurd h (by simp)
      · simpa using h
  · rintro ⟨h1, h2, h3⟩
    refine ⟨h1, ?_, ?_⟩
    · by_cases hv : IsValidIndex (offsetPos r c d (-1)).1 (offsetPos r c d (-1)).2 = true
      · right; simpa using h2 hv
      · left; simpa using hv
    · by_cases hv : IsValidIndex (offsetPos r c d (n : Int)).1 (offsetPos r c d (n : Int)).2 = true
      · right; simpa using h3 hv
      · left; simpa using hv

/-- From an on-board cell holding `X`, the scan of length `N` in direction `e`
reads some number `m` of leading cells holding `X` and stops there. -/
theorem run_exists (g : Grid) {X : Char} {r c : Int} (e : Nat)
    (hrc : IsValidIndex r c = true) (h0 : getCell g r c = X) (N : Nat) (hN : 1 ≤ N) :
    ∃ m : Nat, 1 ≤ m ∧ m ≤ N ∧
      (∀ k : Nat, k < m →
        IsValidIndex (offsetPos r c e (k : Int)).1 (offsetPos r c e (k : Int)).2 = true ∧
          getCell g (offsetPos r c e (k : Int)).1 (offsetPos r c e (k : Int)).2 = X) ∧
      (m < N → IsValidIndex (offsetPos r c e (m : Int)).1 (offsetPos r c e (m : Int)).2 = true →
        getCell g (offsetPos r c e (m : Int)).1 (offsetPos r c e (m : Int)).2 ≠ X) := by
  induction N with
  | zero => omega
  | succ N ih =>
    by_cases hN0 : N = 0
    · subst hN0
      refine ⟨1, le_refl _, le_refl _, ?_, fun h => absurd h (by omega)⟩
      intro k hk
      have hk0 : k = 0 := by omega
      subst hk0
      simpa [offsetPos] using And.intro hrc h0
    · obtain ⟨m, hm1, hmN, hcells, hstop⟩ := ih (by omega)
      by_cases hlt : m < N
      · exact ⟨m, hm1, by omega, hcells, fun _ => hstop hlt⟩
      · have hmeq : m = N := by omega
        subst hmeq
        by_cases hgood :
            IsValidIndex (offsetPos r c e (m : Int)).1 (offsetPos r c e (m : Int)).2 = true ∧
            getCell g (offsetPos r c e (m : Int)).1 (offsetPos r c e (m : Int)).2 = X
        · refine ⟨m + 1, by omega, le_refl _, ?_, fun h => absurd h (by omega)⟩
          intro k hk
          by_cases hkm : k < m
          · exact hcells k hkm
          · have : k = m := by omega
            subst this
            exact hgood
        · exact ⟨m, hm1, by omega, hcells, fun _ hv hx => hgood ⟨hv, hx⟩⟩

/-- One cell and one lane of `GetUninterStones(n, s)`: the cell holds `s` and
the lane total minus 1 is `n` exactly when a maximal run of exactly `n` stones
of `s` starts `k < n` cells behind the cell. -/
theorem lane_indicator {g : Grid} {s : Char} {n : Nat} {r c : Int} {d : Nat}
    (hs : s ≠ NULL_PIECE) (hn : 1 ≤ n) (hrc : IsValidIndex r c = true) (hd : d < 4) :
    (getCell g r c = s ∧
      CountSameStones (colorSeqFrom g r c d 0 (n + 1)) +
        CountSameStones (colorSeqFrom g r c (d + 4) 0 (n + 1)) - 1 = (n : Int)) ↔
    ∃ k : Nat, k < n ∧
      isRunStart g s n (offsetPos r c d (-(k : Int))).1 (offsetPos r c d (-(k : Int))).2 d
        = true := by
  constructor
  · rintro ⟨h0, hsum⟩
    obtain ⟨a, ha1, haN, hacells, hastop⟩ := run_exists g d hrc h0 (n + 1) (by omega)
    obtain ⟨b, hb1, hbN, hbcells, hbstop⟩ := run_exists g (d + 4) hrc h0 (n + 1) (by omega)
    rw [CountSameStones_colorSeqFrom hs ha1 haN hacells hastop,
      CountSameStones_colorSeqFrom hs hb1 hbN hbcells hbstop] at hsum
    simp only [offsetPos_opp_lane hd] at hbcells hbstop
    refine ⟨b - 1, by omega, isRunStart_iff.mpr ⟨?_, ?_, ?_⟩⟩
    · intro j hj
      rw [offsetPos_add]
      by_cases hjb : b - 1 ≤ j
      · have := hacells (j - (b - 1)) (by omega)
        have e : ((j - (b - 1) : Nat) : Int) = -((b - 1 : Nat) : Int) + (j : Int) := by omega
        rwa [e] at this
      · have := hbcells ((b - 1) - j) (by omega)
        have e : -(((b - 1) - j : Nat) : Int) = -((b - 1 : Nat) : Int) + (j : Int) := by omega
        rwa [e] at this
    · rw [offsetPos_add]
      have e : -((b - 1 : Nat) : Int) + -1 = -(b : Int) := by omega
      rw [e]
      rintro ⟨hv, hx⟩
      exact hbstop (by omega) hv hx
    · rw [offsetPos_add]
      have e : -((b - 1 : Nat) : Int) + (n : Int) = (a : Int) := by omega
      rw [e]
      rintro ⟨hv, hx⟩
      exact hastop (by omega) hv hx
  · rintro ⟨k, hk, hstart⟩
    obtain ⟨hcells, hprev, hnext⟩ := isRunStart_iff.mp hstart
    simp only [offsetPos_add] at hcells hprev hnext
    have hcell : ∀ t : Int, -(k : Int) ≤ t → t < (n : Int) - k →
        IsValidIndex (offsetPos r c d t).1 (offsetPos r c d t).2 = true ∧
          getCell g (offsetPos r c d t).1 (offsetPos r c d t).2 = s := by
      intro t h1 h2
      have := hcells (t + k).toNat (by omega)
      have e : -(k : Int) + ((t + k).toNat : Int) = t := by omega
      rwa [e] at this
    have h0 : getCell g r c = s := by
      have := (hcell 0 (by omega) (by omega)).2
      simpa [offsetPos] using this
    refine ⟨h0, ?_⟩
    have hA : CountSameStones (colorSeqFrom g r c d 0 (n + 1)) = ((n - k : Nat) : Int) := by
      apply CountSameStones_colorSeqFrom hs (by omega) (by omega)
      · intro i hi
        exact hcell i (by omega) (by omega)
      · intro _ hv hx
        apply hnext
        have e : -(k : Int) + (n : Int) = ((n - k : Nat) : Int) := by omega
        rw [e]
        exact ⟨hv, hx⟩
    have hB : CountSameStones (colorSeqFrom g r c (d + 4) 0 (n + 1)) = ((k + 1 : Nat) : Int) := by
      apply CountSameStones_colorSeqFrom hs (by omega) (by omega)
      · intro i hi
        rw [offsetPos_opp_lane hd]
        exact hcell (-(i : Int)) (by omega) (by omega)
      · intro _ hv hx
        rw [offsetPos_opp_lane hd] at hv hx
        apply hprev
        have e : -(k : Int) + -1 = -((k + 1 : Nat) : Int) := by omega
        rw [e]
        exact ⟨hv, hx⟩
    rw [hA, hB]
    omega

/-- At most one run of exactly `n` stones passes through a cell in a lane. -/
theorem runStart_unique {g : Grid} {s : Char} {n : Nat} {r c : Int} {d : Nat} {k k' : Nat}
    (hk : k < n) (hk' : k' < n)
    (h : isRunStart g s n (offsetPos r c d (-(k : Int))).1 (offsetPos r c d (-(k : Int))).2 d
      = true)
    (h' : isRunStart g s n (offsetPos r c d (-(k' : Int))).1 (offsetPos r c d (-(k' : Int))).2 d
      = true) : k = k' := by
  obtain ⟨hcells, hprev, _⟩ := isRunStart_iff.mp h
  obtain ⟨hcells', hprev', _⟩ := isRunStart_iff.mp h'
  simp only [offsetPos_add] at hcells hprev hcells' hprev'
  by_contra hne
  rcases Nat.lt_or_gt_of_ne hne with hlt | hgt
  · apply hprev
    have := hcells' (k' - k - 1) (by omega)
    have e : -(k' : Int) + ((k' - k - 1 : Nat) : Int) = -(k : Int) + -1 := by omega
    rwa [e] at this
  · apply hprev'
    have := hcells (k - k' - 1) (by omega)
    have e : -(k : Int) + ((k - k' - 1 : Nat) : Int) = -(k' : Int) + -1 := by omega
    rwa [e] at this

theorem CardinalCount_eq_map (g : Grid) (n : Nat) (r c : Int) :
    CardinalCount g ((n : Int) + 1) r c =
      (List.range 4).map (fun d =>
        CountSameStones (colorSeqFrom g r c d 0 (n + 1)) +
          CountSameStones (colorSeqFrom g r c (d + 4) 0 (n + 1))) := by
  have e : ((n : Int) + 1).toNat = n + 1 := by omega
  simp only [CardinalCount, NUM_DIRECTIONS, Nat.reduceDiv]
  apply List.map_congr_left
  intro d hd
  have hd4 : d < 4 := List.mem_range.mp hd
  rw [ColorSeq_getD g _ r c (by omega : d < 8), ColorSeq_getD g _ r c (by omega : d + 4 < 8), e]

theorem foldl_add_sum {α : Type} (F : α → Nat) (l : List α) (acc : Int) :
    l.foldl (fun total p => total + (F p : Int)) acc = acc + ((l.map F).sum : Nat) := by
  induction l generalizing acc with
  | nil => simp
  | cons x rest ih =>
    rw [List.foldl_cons, ih]
    simp only [List.map_cons, List.sum_cons]
    push_cast
    ring

theorem length_filter_range_four (q : Nat → Bool) :
    ((List.range 4).filter q).length =
      ∑ d ∈ Finset.range 4, (if q d = true then 1 else 0) := by
  have e4 : List.range 4 = [0, 1, 2, 3] := by decide
  rw [e4]
  simp only [Finset.sum_range_succ, Finset.sum_range_zero, zero_add]
  cases h0 : q 0 <;> cases h1 : q 1 <;> cases h2 : q 2 <;> cases h3 : q 3 <;>
    simp [List.filter, h0, h1, h2, h3]

/-- The raw total of `GetUninterStones` as a sum over the cells and the lanes. -/
theorem uninterTotal_eq_sum (g : Grid) (s : Char) (n : Nat) :
    uninterTotal g (n : Int) s =
      ((∑ p ∈ allCells.toFinset, ∑ d ∈ Finset.range 4,
        (if laneExact g s n p.1 p.2 d = true then 1 else 0) : Nat) : Int) := by
  have hstep : ∀ (total : Int) (p : Int × Int),
      (if getCell g p.1 p.2 ≠ s then total
      else (CardinalCount g ((n : Int) + 1) p.1 p.2).foldl (fun total count =>
        if count - 1 = (n : Int) then total + 1 else total) total) =
      total + ((∑ d ∈ Finset.range 4,
        (if laneExact g s n p.1 p.2 d = true then 1 else 0) : Nat) : Int) := by
    intro total p
    by_cases hc : getCell g p.1 p.2 = s
    · rw [if_neg (not_not.mpr hc), CardinalCount_eq_map, List.foldl_map]
      have := foldl_count (fun d : Nat =>
        decide (CountSameStones (colorSeqFrom g p.1 p.2 d 0 (n + 1)) +
          CountSameStones (colorSeqFrom g p.1 p.2 (d + 4) 0 (n + 1)) - 1 = (n : Int)))
        (List.range 4) total
      simp only [decide_eq_true_eq] at this
      rw [this, length_filter_range_four]
      simp only [laneExact, hc, beq_self_eq_true, Bool.true_and]
    · rw [if_pos hc]
      have : ∀ d, laneExact g s n p.1 p.2 d = false := by
        intro d
        simp [laneExact, hc]
      simp [this]
  unfold uninterTotal
  simp only [hstep]
  rw [foldl_add_sum (fun p => ∑ d ∈ Finset.range 4,
    (if laneExact g s n p.1 p.2 d = true then 1 else 0)) allCells 0, zero_add,
    List.sum_toFinset _ allCells_nodup]

theorem mem_allCells_toFinset (p : Int × Int) :
    p ∈ allCells.toFinset ↔ IsValidIndex p.1 p.2 = true := by
  rw [List.mem_toFinset, mem_allCells]

/-- One cell and one lane: the test of `GetUninterStones` counts the run starts
at most `n - 1` cells behind the cell. -/
theorem laneExact_eq_card {g : Grid} {s : Char} {n : Nat} (hs : s ≠ NULL_PIECE) (hn : 1 ≤ n)
    {p : Int × Int} (hp : IsValidIndex p.1 p.2 = true) {d : Nat} (hd : d < 4) :
    (if laneExact g s n p.1 p.2 d = true then 1 else 0) =
      ((Finset.range n).filter (fun k : Nat =>
        isRunStart g s n (offsetPos p.1 p.2 d (-(k : Int))).1
          (offsetPos p.1 p.2 d (-(k : Int))).2 d = true)).card := by
  have hiff : laneExact g s n p.1 p.2 d = true ↔ ∃ k : Nat, k < n ∧
      isRunStart g s n (offsetPos p.1 p.2 d (-(k : Int))).1
        (offsetPos p.1 p.2 d (-(k : Int))).2 d = true := by
    rw [← lane_indicator hs hn hp hd]
    simp [laneExact]
  by_cases h : laneExact g s n p.1 p.2 d = true
  · rw [if_pos h]
    obtain ⟨k0, hk0, hstart⟩ := hiff.mp h
    have : (Finset.range n).filter (fun k : Nat =>
        isRunStart g s n (offsetPos p.1 p.2 d (-(k : Int))).1
          (offsetPos p.1 p.2 d (-(k : Int))).2 d = true) = {k0} := by
      ext k
      simp only [Finset.mem_filter, Finset.mem_range, Finset.mem_singleton]
      constructor
      · rintro ⟨hk, hk'⟩
        exact runStart_unique hk hk0 hk' hstart
      · rintro rfl
        exact ⟨hk0, hstart⟩
    rw [this, Finset.card_singleton]
  · rw [if_neg h]
    symm
    rw [Finset.card_eq_zero, Finset.filter_eq_empty_iff]
    intro k hk hk'
    exact h (hiff.mpr ⟨k, Finset.mem_range.mp hk, hk'⟩)

/-- Shifting by `k < n` cells along the lane is a bijection between the cells
that lie `k` cells after a run start and the run starts. -/
theorem card_shifted_runStarts (g : Grid) (s : Char) {n : Nat} {d : Nat} {k : Nat}
    (hk : k < n) (C : Finset (Int × Int))
    (hC : ∀ p : Int × Int, p ∈ C ↔ IsValidIndex p.1 p.2 = true) :
    (C.filter (fun p : Int × Int =>
        isRunStart g s n (offsetPos p.1 p.2 d (-(k : Int))).1
          (offsetPos p.1 p.2 d (-(k : Int))).2 d = true)).card =
      (C.filter (fun q : Int × Int => isRunStart g s n q.1 q.2 d = true)).card := by
  apply Finset.card_nbij' (fun p => offsetPos p.1 p.2 d (-(k : Int)))
    (fun q => offsetPos q.1 q.2 d (k : Int))
  · intro p hp
    rw [Finset.mem_filter, hC] at hp ⊢
    refine ⟨?_, hp.2⟩
    have := ((isRunStart_iff.mp hp.2).1 0 (by omega)).1
    simpa [offsetPos] using this
  · intro q hq
    rw [Finset.mem_filter, hC] at hq ⊢
    refine ⟨((isRunStart_iff.mp hq.2).1 k hk).1, ?_⟩
    rw [offsetPos_add]
    have e : (k : Int) + -(k : Int) = 0 := by omega
    rw [e]
    simpa [offsetPos] using hq.2
  · intro p _
    show offsetPos (offsetPos p.1 p.2 d (-(k : Int))).1 (offsetPos p.1 p.2 d (-(k : Int))).2 d
      (k : Int) = p
    rw [offsetPos_add]
    have e : -(k : Int) + (k : Int) = 0 := by omega
    rw [e]
    simp [offsetPos]
  · intro q _
    show offsetPos (offsetPos q.1 q.2 d (k : Int)).1 (offsetPos q.1 q.2 d (k : Int)).2 d
      (-(k : Int)) = q
    rw [offsetPos_add]
    have e : (k : Int) + -(k : Int) = 0 := by omega
    rw [e]
    simp [offsetPos]

theorem length_filter_eq_card {α : Type} [DecidableEq α] (l : List α) (hl : l.Nodup)
    (p : α → Bool) :
    (l.filter p).length = (l.toFinset.filter (fun q => p q = true)).card := by
  rw [← List.toFinset_card_of_nodup (hl.filter _), List.toFinset_filter]

theorem sum_filter_lengths {α : Type} [DecidableEq α] (l : List α) (hl : l.Nodup)
    (S : Nat → α → Bool) :
    ((List.range 4).map (fun d => (l.filter (S d)).length)).sum =
      ∑ d ∈ Finset.range 4, (l.toFinset.filter (fun q => S d q = true)).card := by
  have e4 : List.range 4 = [0, 1, 2, 3] := by decide
  simp only [e4, List.map_cons, List.map_nil, List.sum_cons, List.sum_nil,
    length_filter_eq_card l hl, Finset.sum_range_succ, Finset.sum_range_zero]
  ring

theorem countRuns_eq_sum (g : Grid) (s : Char) (n : Nat) :
    countRuns g s n =
      ∑ d ∈ Finset.range 4,
        (allCells.toFinset.filter (fun q : Int × Int =>
          isRunStart g s n q.1 q.2 d = true)).card :=
  sum_filter_lengths allCells allCells_nodup (fun d p => isRunStart g s n p.1 p.2 d)

/-- The sum over cells and lanes of the test of `GetUninterStones(n, s)` is `n`
times the number of run starts. -/
theorem sum_laneExact (g : Grid) {s : Char} {n : Nat} (hs : s ≠ NULL_PIECE) (hn : 1 ≤ n)
    (C : Finset (Int × Int))
    (hC : ∀ p : Int × Int, p ∈ C ↔ IsValidIndex p.1 p.2 = true) :
    (∑ p ∈ C, ∑ d ∈ Finset.range 4, (if laneExact g s n p.1 p.2 d = true then 1 else 0)) =
      n * ∑ d ∈ Finset.range 4,
        (C.filter (fun q : Int × Int => isRunStart g s n q.1 q.2 d = true)).card := by
  have h1 : ∀ p ∈ C, ∀ d ∈ Finset.range 4,
      (if laneExact g s n p.1 p.2 d = true then 1 else 0) =
        ∑ k ∈ Finset.range n,
          (if isRunStart g s n (offsetPos p.1 p.2 d (-(k : Int))).1
            (offsetPos p.1 p.2 d (-(k : Int))).2 d = true then 1 else 0) := by
    intro p hp d hd
    rw [laneExact_eq_card hs hn ((hC p).mp hp) (Finset.mem_range.mp hd), Finset.card_filter]
  rw [Finset.sum_congr rfl (fun p hp => Finset.sum_congr rfl (h1 p hp)), Finset.sum_comm,
    Finset.mul_sum]
  apply Finset.sum_congr rfl
  intro d _
  rw [Finset.sum_comm]
  have h2 : ∀ k ∈ Finset.range n,
      (∑ p ∈ C,
        (if isRunStart g s n (offsetPos p.1 p.2 d (-(k : Int))).1
          (offsetPos p.1 p.2 d (-(k : Int))).2 d = true then 1 else 0)) =
      (C.filter (fun q : Int × Int => isRunStart g s n q.1 q.2 d = true)).card := by
    intro k hk
    rw [← Finset.card_filter, card_shifted_runStarts g s (Finset.mem_range.mp hk) C hC]
  rw [Finset.sum_congr rfl h2, Finset.sum_const, Finset.card_range, smul_eq_mul]

/-- The raw total of `GetUninterStones(n, s)` is `n` times the number of maximal
runs of exactly `n` stones of `s`. -/
theorem uninterTotal_eq (g : Grid) {s : Char} {n : Nat} (hs : s ≠ NULL_PIECE) (hn : 1 ≤ n) :
    uninterTotal g (n : Int) s = ((n * countRuns g s n : Nat) : Int) := by
  rw [uninterTotal_eq_sum, countRuns_eq_sum,
    sum_laneExact g hs hn allCells.toFinset mem_allCells_toFinset]

/-- C19: for every board, side `s` (not the null piece) and 1 <= n <= 18,
`GetUninterStones(n, s)` is the number of maximal straight runs, over the four
lanes, of exactly `n` stones of `s`; the raw total before the division is
exactly `n` times that number, so runs longer or shorter than `n` add nothing. -/
theorem uninterrupted_count (g : Grid) (s : Char) (n : Nat) (hs : s ≠ NULL_PIECE)
    (hn1 : 1 ≤ n) (hn18 : n ≤ 18) :
    GetUninterStones g (n : Int) s = (countRuns g s n : Int) ∧
      uninterTotal g (n : Int) s = (n : Int) * (countRuns g s n : Int) := by
  have htot := uninterTotal_eq g hs hn1
  have hguard : ¬ ((n : Int) < 1 ∨ (n : Int) > BOARD_SIZE - 1) := by
    simp only [BOARD_SIZE]
    omega
  refine ⟨?_, by rw [htot]; push_cast; rfl⟩
  unfold GetUninterStones
  rw [if_neg hguard, htot, Int.tdiv_eq_ediv (by positivity) (by positivity)]
  push_cast
  exact Int.mul_ediv_cancel_left _ (by omega)

set_option maxRecDepth 100000 in
theorem uninterrupted_count_witness :
    GetUninterStones (runBoard 'W' 9 5 2 5) 4 'W' = 0 ∧
    countRuns (runBoard 'W' 9 5 2 5) 'W' 4 = 0 ∧
    GetUninterStones (runBoard 'W' 9 5 2 5) 5 'W' = 1 ∧
    (GetUninterStones (runBoard 'W' 9 5 2 5) ((4 : Nat) : Int) 'W' =
        (countRuns (runBoard 'W' 9 5 2 5) 'W' 4 : Int) ∧
      uninterTotal (runBoard 'W' 9 5 2 5) ((4 : Nat) : Int) 'W' =
        ((4 : Nat) : Int) * (countRuns (runBoard 'W' 9 5 2 5) 'W' 4 : Int)) :=
  ⟨by decide, by decide, by decide,
    uninterrupted_count (runBoard 'W' 9 5 2 5) 'W' 4 (by decide) (by decide) (by decide)⟩

/-! ## The score of `EvaluateMove` -/

theorem buildLengths_eq : buildLengths = [4, 3, 2] := by decide

theorem EvaluateMove_score (p : Player) (b : Board) (a : Player) (r c : Int)
    (hp : ParsePosition b.GetLastPosition = some (r, c)) :
    (EvaluateMove p b a).evalScore =
      closedScore (decide (p.m_color = a.m_color)) b.GetWinInARow
        (GetNumNInARow b.m_gameBoard 4 r c) (GetNumNInARow b.m_gameBoard 3 r c)
        (GetNumNInARow b.m_gameBoard 2 r c)
        (GetPotentialCaptures b.m_gameBoard a.m_color r c) b.GetCapturedPairs := by
  unfold EvaluateMove
  rw [buildLengths_eq]
  simp only [List.foldl, hp, Option.getD_some, closedScore, Player.GetColor,
    decide_eq_true_eq, zero_add, gt_iff_lt]
  generalize GetNumNInARow b.m_gameBoard 4 r c = n4
  generalize GetNumNInARow b.m_gameBoard 3 r c = n3
  generalize GetNumNInARow b.m_gameBoard 2 r c = n2
  generalize GetPotentialCaptures b.m_gameBoard a.m_color r c = pc
  generalize b.GetWinInARow = w
  generalize b.GetCapturedPairs = cap
  by_cases hc : p.m_color = a.m_color
  · simp only [hc, and_true]
    split_ifs <;> first | (exfalso; omega) | ring
  · simp only [hc, and_false, if_false]
    ring

theorem EvaluateMove_reason (p : Player) (b : Board) (a : Player) :
    (EvaluateMove p b a).reason =
      if (EvaluateMove p b a).evalScore ≥ 10000 then MoveReason.WIN
      else if (EvaluateMove p b a).evalScore ≥ 2000 then MoveReason.CAPTURE
      else if (EvaluateMove p b a).evalScore > 0 then MoveReason.BUILD
      else MoveReason.UNKNOWN := rfl

/-- C23: the reason tag of `EvaluateMove` is Win iff the score is at least 10000,
Capture iff it is in [2000, 10000), Build iff it is in (0, 2000), and Unknown
iff it is at most 0, the score being the `evalScore` of the same move. -/
theorem classification_thresholds (p : Player) (b : Board) (a : Player) :
    ((EvaluateMove p b a).reason = MoveReason.WIN ↔ (EvaluateMove p b a).evalScore ≥ 10000) ∧
    ((EvaluateMove p b a).reason = MoveReason.CAPTURE ↔
      (2000 ≤ (EvaluateMove p b a).evalScore ∧ (EvaluateMove p b a).evalScore < 10000)) ∧
    ((EvaluateMove p b a).reason = MoveReason.BUILD ↔
      (0 < (EvaluateMove p b a).evalScore ∧ (EvaluateMove p b a).evalScore < 2000)) ∧
    ((EvaluateMove p b a).reason = MoveReason.UNKNOWN ↔ (EvaluateMove p b a).evalScore ≤ 0) ∧
    (EvaluateMove p b a).reason ≠ MoveReason.BOARD_RESTRICTION := by
  rw [EvaluateMove_reason]
  generalize (EvaluateMove p b a).evalScore = s
  split_ifs with h1 h2 h3 <;> simp <;> omega

/-- C21: on the board after `W` at J10, K10 and L10 (last placement L10, cell
(9, 11)), the counts are 0 winning lines, 0 fours, 1 three, 1 two, no potential
capture and no captured pair; evaluated by the opponent the score is 85 and
evaluated by the owner it is 90, where the claimed formula gives 65. -/
theorem score_formula_counterexample :
    (PlaceStone pairBoard 'W' ['L', '1', '0']).2 = ReturnCode.SUCCESS ∧
    ParsePosition tripleBoard.GetLastPosition = some (9, 11) ∧
    (EvaluateMove blackPlayer tripleBoard whitePlayer).evalScore = 85 ∧
    (EvaluateMove whitePlayer tripleBoard whitePlayer).evalScore = 90 ∧
    claimedScore false tripleBoard.GetWinInARow
      (GetNumNInARow tripleBoard.m_gameBoard 4 9 11)
      (GetNumNInARow tripleBoard.m_gameBoard 3 9 11)
      (GetNumNInARow tripleBoard.m_gameBoard 2 9 11)
      (GetPotentialCaptures tripleBoard.m_gameBoard 'W' 9 11)
      tripleBoard.GetCapturedPairs = 65 ∧
    claimedScore true tripleBoard.GetWinInARow
      (GetNumNInARow tripleBoard.m_gameBoard 4 9 11)
      (GetNumNInARow tripleBoard.m_gameBoard 3 9 11)
      (GetNumNInARow tripleBoard.m_gameBoard 2 9 11)
      (GetPotentialCaptures tripleBoard.m_gameBoard 'W' 9 11)
      tripleBoard.GetCapturedPairs = 65 := by
  refine ⟨by rfl, by rfl, by rfl, by rfl, by rfl, by rfl⟩

/-- C21 (amended): for a board whose last position is the cell `(r, c)`, with
`w = GetWinInARow()`, `Nn = GetNumNInARow(n, r, c)` and the block counts
accumulated from n = 4 down (`B4 = N4 - w`, `B3 = B4 + N3 - w`,
`B2 = B3 + N2 - w`), the score of `EvaluateMove` for player `a` is
`10000 * w + 5 * (16 * B4 + 9 * B3 + 4 * B2)`, plus 5 when `B2 > 0` and the
evaluating player has the colour of `a`, minus `2000 * GetPotentialCaptures`
when the evaluating player has the colour of `a` and the running score is below
10000, plus `2000 * GetCapturedPairs()`. -/
theorem score_formula (p : Player) (b : Board) (a : Player) (r c : Int)
    (hp : ParsePosition b.GetLastPosition = some (r, c)) :
    (EvaluateMove p b a).evalScore =
      closedScore (decide (p.m_color = a.m_color)) b.GetWinInARow
        (GetNumNInARow b.m_gameBoard 4 r c) (GetNumNInARow b.m_gameBoard 3 r c)
        (GetNumNInARow b.m_gameBoard 2 r c)
        (GetPotentialCaptures b.m_gameBoard a.m_color r c) b.GetCapturedPairs ∧
    ∀ (own : Bool) (w n4 n3 n2 pc cap : Int),
      closedScore own w n4 n3 n2 pc cap =
        10000 * w +
          5 * (16 * (n4 - w) + 9 * ((n4 - w) + (n3 - w)) +
            4 * ((n4 - w) + (n3 - w) + (n2 - w))) +
          (if 0 < (n4 - w) + (n3 - w) + (n2 - w) ∧ own = true then 5 else 0) -
          (if 10000 * w +
              5 * (16 * (n4 - w) + 9 * ((n4 - w) + (n3 - w)) +
                4 * ((n4 - w) + (n3 - w) + (n2 - w))) +
              (if 0 < (n4 - w) + (n3 - w) + (n2 - w) ∧ own = true then 5 else 0) < 10000 ∧
              own = true then 2000 * pc else 0) +
          2000 * cap := by
  refine ⟨EvaluateMove_score p b a r c hp, ?_⟩
  intro own w n4 n3 n2 pc cap
  have e : 10000 * w + 5 * (29 * (n4 - w) + 13 * (n3 - w) + 4 * (n2 - w)) =
      10000 * w + 5 * (16 * (n4 - w) + 9 * ((n4 - w) + (n3 - w)) +
        4 * ((n4 - w) + (n3 - w) + (n2 - w))) := by ring
  simp only [closedScore, e]

theorem score_formula_witness :
    ParsePosition tripleBoard.GetLastPosition = some (9, 11) ∧
    (EvaluateMove whitePlayer tripleBoard whitePlayer).evalScore = 90 ∧
    closedScore (decide (whitePlayer.m_color = whitePlayer.m_color)) tripleBoard.GetWinInARow
        (GetNumNInARow tripleBoard.m_gameBoard 4 9 11)
        (GetNumNInARow tripleBoard.m_gameBoard 3 9 11)
        (GetNumNInARow tripleBoard.m_gameBoard 2 9 11)
        (GetPotentialCaptures tripleBoard.m_gameBoard whitePlayer.m_color 9 11)
        tripleBoard.GetCapturedPairs = 90 ∧
    (EvaluateMove whitePlayer tripleBoard whitePlayer).evalScore =
      closedScore (decide (whitePlayer.m_color = whitePlayer.m_color)) tripleBoard.GetWinInARow
        (GetNumNInARow tripleBoard.m_gameBoard 4 9 11)
        (GetNumNInARow tripleBoard.m_gameBoard 3 9 11)
        (GetNumNInARow tripleBoard.m_gameBoard 2 9 11)
        (GetPotentialCaptures tripleBoard.m_gameBoard whitePlayer.m_color 9 11)
        tripleBoard.GetCapturedPairs :=
  ⟨by rfl, by rfl, by rfl,
    (score_formula whitePlayer tripleBoard whitePlayer 9 11 (by rfl)).1⟩

/-- C22: on the board after `W` at J10 and K10 (last placement K10, cell (9, 10))
the stone is exposed to no capture, and the score is 25 when the evaluating
player owns the stone and 20 when the opponent evaluates it. -/
theorem side_independence_counterexample :
    ParsePosition pairBoard.GetLastPosition = some (9, 10) ∧
    GetPotentialCaptures pairBoard.m_gameBoard whitePlayer.m_color 9 10 = 0 ∧
    (EvaluateMove whitePlayer pairBoard whitePlayer).evalScore = 25 ∧
    (EvaluateMove blackPlayer pairBoard whitePlayer).evalScore = 20 := by
  refine ⟨by rfl, by rfl, by rfl, by rfl⟩

/-- C22 (amended): for a board whose last position is the cell `(r, c)`, a
player `a`, an evaluating player `own` of the colour of `a` and an evaluating
player `opp` of another colour, with `blocks` the accumulated block count
`(N4 - w) + (N3 - w) + (N2 - w)`: the score of `own` is the score of `opp` plus
5 when `blocks > 0`, minus `2000 * GetPotentialCaptures` when the running score
is below 10000. So when `GetPotentialCaptures` is 0 the two scores differ by
exactly the build bonus: 5 when `blocks > 0`, nothing otherwise. -/
theorem side_dependence (own opp a : Player) (b : Board) (r c : Int)
    (hp : ParsePosition b.GetLastPosition = some (r, c))
    (hown : own.m_color = a.m_color) (hopp : opp.m_color ≠ a.m_color)
    (blocks bonus : Int)
    (hblocks : blocks = (GetNumNInARow b.m_gameBoard 4 r c - b.GetWinInARow) +
      (GetNumNInARow b.m_gameBoard 3 r c - b.GetWinInARow) +
      (GetNumNInARow b.m_gameBoard 2 r c - b.GetWinInARow))
    (hbonus : bonus = if 0 < blocks then 5 else 0) :
    (EvaluateMove own b a).evalScore =
      (EvaluateMove opp b a).evalScore + bonus -
        (if (EvaluateMove opp b a).evalScore - 2000 * b.GetCapturedPairs + bonus < 10000
          then 2000 * GetPotentialCaptures b.m_gameBoard a.m_color r c else 0) ∧
    (GetPotentialCaptures b.m_gameBoard a.m_color r c = 0 →
      (EvaluateMove own b a).evalScore = (EvaluateMove opp b a).evalScore + bonus) := by
  have h1 := EvaluateMove_score own b a r c hp
  have h2 := EvaluateMove_score opp b a r c hp
  simp only [closedScore, hown, hopp, decide_True, decide_False, and_true, and_false,
    if_false, Bool.false_eq_true] at h1 h2
  rw [h1, h2, hbonus, hblocks]
  generalize GetNumNInARow b.m_gameBoard 4 r c = n4
  generalize GetNumNInARow b.m_gameBoard 3 r c = n3
  generalize GetNumNInARow b.m_gameBoard 2 r c = n2
  generalize GetPotentialCaptures b.m_gameBoard a.m_color r c = pc
  generalize b.GetWinInARow = w
  generalize b.GetCapturedPairs = cap
  refine ⟨?_, ?_⟩
  · split_ifs <;> first | (exfalso; omega) | ring
  · intro hpc
    subst hpc
    split_ifs <;> first | (exfalso; omega) | ring

theorem side_dependence_witness :
    ParsePosition pairBoard.GetLastPosition = some (9, 10) ∧
    whitePlayer.m_color = whitePlayer.m_color ∧ blackPlayer.m_color ≠ whitePlayer.m_color ∧
    GetPotentialCaptures pairBoard.m_gameBoard whitePlayer.m_color 9 10 = 0 ∧
    (EvaluateMove whitePlayer pairBoard whitePlayer).evalScore =
      (EvaluateMove blackPlayer pairBoard whitePlayer).evalScore + 5 :=
  ⟨by rfl, rfl, by decide, by rfl,
    (side_dependence whitePlayer blackPlayer whitePlayer pairBoard 9 10 (by rfl) rfl
      (by decide) 1 5 (by rfl) (by decide)).2 (by rfl)⟩

/-! ## The scan of `BestMove` over the cells -/

theorem SameGame_refl (b : Board) : SameGame b b :=
  ⟨rfl, rfl, rfl, rfl, Iff.rfl, rfl⟩

theorem isOpenCell_congr {b b2 : Board} (h : SameGame b b2) (cell : Int × Int) :
    isOpenCell b2 cell = isOpenCell b cell := by
  obtain ⟨h1, _, h3, h4, h5, h6⟩ := h
  have h5' : decide (b2.m_currMove.winInARow > 0) = decide (b.m_currMove.winInARow > 0) :=
    decide_eq_decide.mpr h5
  simp only [isOpenCell, h1, h3, h4, h5', h6]

theorem isOpenCell_iff {b : Board} {cell : Int × Int} :
    isOpenCell b cell = true ↔
      ¬ (b.m_currMove.innerBounds > AwayFromCenter cell.1 cell.2 ∨
          AwayFromCenter cell.1 cell.2 > b.m_currMove.outerBounds) ∧
      getCell b.m_gameBoard cell.1 cell.2 = NULL_PIECE ∧ ¬ b.m_currMove.winInARow > 0 ∧
      b.IsBoardFull = false := by
  simp only [isOpenCell, Bool.and_eq_true, Bool.not_eq_true', Bool.or_eq_false_iff,
    decide_eq_false_iff_not, beq_iff_eq, not_or, and_assoc]

theorem PlaceStone_of_open (b : Board) (m : Char) {pos : List Char} {r c : Int}
    (hp : ParsePosition pos = some (r, c)) (hv : IsValidIndex r c = true)
    (ho : isOpenCell b (r, c) = true) :
    PlaceStone b m pos = (placedBoard b m pos r c, ReturnCode.SUCCESS) := by
  obtain ⟨h2, h3, h4, h5⟩ := isOpenCell_iff.mp ho
  have hs : (PlaceStone b m pos).2 = ReturnCode.SUCCESS := by
    simp only [PlaceStone, hp, hv, h2, h3, h4, h5, Bool.not_true, Bool.false_eq_true, if_false,
      ne_eq, not_true]
  obtain ⟨r', c', hp', _, _, _, _, _, e⟩ := PlaceStone_success hs
  rw [hp] at hp'
  cases hp'
  exact Prod.ext e hs

theorem PlaceStone_not_open (b : Board) (m : Char) {pos : List Char} {r c : Int}
    (hp : ParsePosition pos = some (r, c)) (ho : isOpenCell b (r, c) = false) :
    (PlaceStone b m pos).2 ≠ ReturnCode.SUCCESS := by
  intro hs
  obtain ⟨r', c', hp', _, h2, h3, h4, h5, _⟩ := PlaceStone_success hs
  rw [hp] at hp'
  cases hp'
  have : isOpenCell b (r, c) = true := isOpenCell_iff.mpr ⟨h2, h3, h4, h5⟩
  rw [ho] at this
  exact Bool.false_ne_true this

theorem parse_label_of_mem {cell : Int × Int} (h : cell ∈ allCells) :
    ParsePosition (IndicesToString cell.1 cell.2) = some cell ∧
      IsValidIndex cell.1 cell.2 = true := by
  have hv := (mem_allCells cell).mp h
  have hv' := hv
  simp only [IsValidIndex, BOARD_SIZE, Bool.and_eq_true, decide_eq_true_eq] at hv'
  exact ⟨ParsePosition_IndicesToString hv'.1.1 hv'.1.2 hv'.2.1 hv'.2.2, hv⟩

theorem EvaluateMove_congr {p p2 a a2 : Player} {b b2 : Board} (hp : p.m_color = p2.m_color)
    (ha : a.m_color = a2.m_color) (hg : b.m_gameBoard = b2.m_gameBoard)
    (hpos : b.m_currMove.position = b2.m_currMove.position)
    (hw : b.m_currMove.winInARow = b2.m_currMove.winInARow)
    (hc : b.m_currMove.capturedPairs = b2.m_currMove.capturedPairs) :
    EvaluateMove p b a = EvaluateMove p2 b2 a2 := by
  simp only [EvaluateMove, Board.GetLastPosition, Board.GetWinInARow, Board.GetCapturedPairs,
    Player.GetColor, hp, ha, hg, hpos, hw, hc]

theorem EvaluateMove_placedBoard {b b2 : Board} (h : SameGame b b2) (p a : Player) (m : Char)
    (pos : List Char) (r c : Int) :
    EvaluateMove p (placedBoard b2 m pos r c) a = EvaluateMove p (placedBoard b m pos r c) a := by
  obtain ⟨h1, _, _, _, _, _⟩ := h
  apply EvaluateMove_congr rfl rfl
  · simp only [placedBoard, h1]
  · rfl
  · simp only [placedBoard, h1]
  · simp only [placedBoard, h1]

theorem placedBoard_capturedPairs_nonneg (b : Board) (m : Char) (pos : List Char) (r c : Int) :
    0 ≤ (placedBoard b m pos r c).GetCapturedPairs := by
  simp only [placedBoard, Board.GetCapturedPairs]
  exact Int.natCast_nonneg _

theorem UndoMove_placedBoard_SameGame {b b2 : Board} (hwf : WellFormed b.m_gameBoard)
    (h : SameGame b b2) (m : Char) {pos : List Char} {r c : Int}
    (hp : ParsePosition pos = some (r, c)) (hv : IsValidIndex r c = true)
    (ho : isOpenCell b (r, c) = true) :
    SameGame b (UndoMove (placedBoard b2 m pos r c)).1 := by
  have ho2 : isOpenCell b2 (r, c) = true := by rw [isOpenCell_congr h]; exact ho
  obtain ⟨_, hO, hw2, hf2⟩ := isOpenCell_iff.mp ho2
  obtain ⟨_, _, hw, hf⟩ := isOpenCell_iff.mp ho
  obtain ⟨h1, h2, h3, h4, _, _⟩ := h
  have hwf2 : WellFormed b2.m_gameBoard := by rw [h1]; exact hwf
  obtain ⟨_, hg, hst⟩ := UndoMove_placedBoard hwf2 m hp hv hO (placedBoard b2 m pos r c) rfl rfl
  have hil := UndoMove_placedBoard_intersectLeft b2 m pos r c
  have hk := placedBoard_capturedPairs_nonneg b2 m pos r c
  refine ⟨hg.trans h1, hst.trans h2, ?_, ?_, ?_, ?_⟩
  · exact h3
  · exact h4
  · have e : (UndoMove (placedBoard b2 m pos r c)).1.m_currMove.winInARow = 0 := rfl
    rw [e]
    constructor
    · intro hlt
      exact absurd hlt (by decide)
    · intro hlt
      exact absurd hlt hw
  · rw [hf]
    simp only [Board.IsBoardFull, decide_eq_false_iff_not, not_le] at hf2 ⊢
    simp only [Board.GetIntersectLeft] at hil
    rw [hil]
    omega

theorem scanStep_closed {p q : Player} {b : Board} {s : ScanState}
    (hs : SameGame b s.boardCopy) {cell : Int × Int} (hmem : cell ∈ allCells)
    (ho : isOpenCell b cell = false) : scanStep p q s cell = s := by
  obtain ⟨hp, _⟩ := parse_label_of_mem hmem
  have ho2 : isOpenCell s.boardCopy cell = false := by rw [isOpenCell_congr hs]; exact ho
  have hne := PlaceStone_not_open s.boardCopy p.m_color hp ho2
  have hb := PlaceStone_failure hne
  simp only [scanStep, hne, ne_eq, not_false_eq_true, if_true, hb]

theorem scanStep_open {p q : Player} {b : Board} (hwf : WellFormed b.m_gameBoard)
    {s : ScanState} (hs : SameGame b s.boardCopy) {cell : Int × Int} (hmem : cell ∈ allCells)
    (ho : isOpenCell b cell = true) :
    ∃ b4, SameGame b b4 ∧
      scanStep p q s cell =
        recordMoves s b4 (ourCandidate p b cell) (theirCandidate p b q cell) := by
  obtain ⟨hp, hv⟩ := parse_label_of_mem hmem
  have ho1 : isOpenCell s.boardCopy cell = true := by rw [isOpenCell_congr hs]; exact ho
  have e0 := PlaceStone_of_open b p.m_color hp hv ho
  have e0' := PlaceStone_of_open b q.GetColor hp hv ho
  have e1 := PlaceStone_of_open s.boardCopy p.m_color hp hv ho1
  have hs2 := UndoMove_placedBoard_SameGame hwf hs p.m_color hp hv ho
  have ho2 : isOpenCell (UndoMove (placedBoard s.boardCopy p.m_color
      (IndicesToString cell.1 cell.2) cell.1 cell.2)).1 cell = true := by
    rw [isOpenCell_congr hs2]; exact ho
  have e2 := PlaceStone_of_open (UndoMove (placedBoard s.boardCopy p.m_color
      (IndicesToString cell.1 cell.2) cell.1 cell.2)).1 q.GetColor hp hv ho2
  have hs4 := UndoMove_placedBoard_SameGame hwf hs2 q.GetColor hp hv ho
  refine ⟨_, hs4, ?_⟩
  have c1 : ourCandidate p b cell = EvaluateMove p (placedBoard s.boardCopy p.m_color
      (IndicesToString cell.1 cell.2) cell.1 cell.2) p := by
    rw [ourCandidate, e0, EvaluateMove_placedBoard hs]
  have c2 : theirCandidate p b q cell = EvaluateMove p (placedBoard
      (UndoMove (placedBoard s.boardCopy p.m_color
        (IndicesToString cell.1 cell.2) cell.1 cell.2)).1 q.GetColor
      (IndicesToString cell.1 cell.2) cell.1 cell.2) q := by
    rw [theirCandidate, e0', EvaluateMove_placedBoard hs2]
  rw [c1, c2]
  simp only [scanStep, e1, e2, ne_eq, not_true, if_false, recordMoves]
  split_ifs <;> simp

theorem scanStep_cases {p q : Player} {b : Board} (hwf : WellFormed b.m_gameBoard)
    {s : ScanState} (hs : SameGame b s.boardCopy) {cell : Int × Int} (hmem : cell ∈ allCells) :
    (isOpenCell b cell = false ∧ scanStep p q s cell = s) ∨
      (isOpenCell b cell = true ∧ ∃ b4, SameGame b b4 ∧
        scanStep p q s cell =
          recordMoves s b4 (ourCandidate p b cell) (theirCandidate p b q cell)) := by
  cases ho : isOpenCell b cell with
  | false => exact Or.inl ⟨rfl, scanStep_closed hs hmem ho⟩
  | true => exact Or.inr ⟨rfl, scanStep_open hwf hs hmem ho⟩

theorem scan_SameGame {p q : Player} {b : Board} (hwf : WellFormed b.m_gameBoard)
    (cells : List (Int × Int)) (hsub : ∀ cell ∈ cells, cell ∈ allCells) (s : ScanState)
    (hs : SameGame b s.boardCopy) : SameGame b (cells.foldl (scanStep p q) s).boardCopy := by
  induction cells generalizing s with
  | nil => exact hs
  | cons cell rest ih =>
    rw [List.foldl_cons]
    apply ih (fun x hx => hsub x (List.mem_cons_of_mem _ hx))
    rcases scanStep_cases (p := p) (q := q) hwf hs (hsub cell (List.mem_cons_self _ _)) with
      ⟨_, e⟩ | ⟨_, b4, h4, e⟩
    · rw [e]; exact hs
    · rw [e]; exact h4

theorem scan_filter {p q : Player} {b : Board} (hwf : WellFormed b.m_gameBoard)
    (cells : List (Int × Int)) (hsub : ∀ cell ∈ cells, cell ∈ allCells) (s : ScanState)
    (hs : SameGame b s.boardCopy) :
    cells.foldl (scanStep p q) s = (cells.filter (isOpenCell b)).foldl (scanStep p q) s := by
  induction cells generalizing s with
  | nil => rfl
  | cons cell rest ih =>
    have hrest : ∀ x ∈ rest, x ∈ allCells := fun x hx => hsub x (List.mem_cons_of_mem _ hx)
    rcases scanStep_cases (p := p) (q := q) hwf hs (hsub cell (List.mem_cons_self _ _)) with
      ⟨ho, e⟩ | ⟨ho, b4, h4, e⟩
    · rw [List.foldl_cons, e, List.filter_cons_of_neg (by simp [ho])]
      exact ih hrest s hs
    · rw [List.foldl_cons, List.filter_cons_of_pos ho, List.foldl_cons]
      apply ih hrest
      rw [e]; exact h4

theorem bestMoveScan_eq_filter (p q : Player) {b : Board} (hwf : WellFormed b.m_gameBoard) :
    bestMoveScan p b q = (allCells.filter (isOpenCell b)).foldl (scanStep p q) (scanStart b) :=
  scan_filter hwf allCells (fun _ h => h) (scanStart b) (SameGame_refl b)

theorem mem_recordMoves_topMoves {s : ScanState} {b4 : Board} {ours theirs m : ComputerMove}
    (h : m ∈ (recordMoves s b4 ours theirs).topMoves) :
    m ∈ s.topMoves ∨ m = ours ∨ m = theirs := by
  simp only [recordMoves, List.mem_append] at h
  rcases h with (h | h) | h
  · exact Or.inl h
  · split_ifs at h
    · exact Or.inr (Or.inl (List.mem_singleton.mp h))
    · exact absurd h (List.not_mem_nil _)
  · split_ifs at h
    · exact Or.inr (Or.inr (List.mem_singleton.mp h))
    · exact absurd h (List.not_mem_nil _)

theorem recordMoves_best_ge (s : ScanState) (b4 : Board) (ours theirs : ComputerMove) :
    s.ourBest.evalScore ≤ (recordMoves s b4 ours theirs).ourBest.evalScore ∧
    s.theirBest.evalScore ≤ (recordMoves s b4 ours theirs).theirBest.evalScore ∧
    ours.evalScore ≤ (recordMoves s b4 ours theirs).ourBest.evalScore ∧
    theirs.evalScore ≤ (recordMoves s b4 ours theirs).theirBest.evalScore := by
  simp only [recordMoves]
  refine ⟨?_, ?_, ?_, ?_⟩ <;> split_ifs <;> omega

theorem recordMoves_best_mem (s : ScanState) (b4 : Board) (ours theirs : ComputerMove)
    (h : (s.ourBest ∈ s.topMoves ∧ s.theirBest ∈ s.topMoves) ∨
      (s.ourBest.evalScore ≤ ours.evalScore ∧ s.theirBest.evalScore ≤ theirs.evalScore)) :
    (recordMoves s b4 ours theirs).ourBest ∈ (recordMoves s b4 ours theirs).topMoves ∧
    (recordMoves s b4 ours theirs).theirBest ∈ (recordMoves s b4 ours theirs).topMoves := by
  simp only [recordMoves, List.mem_append]
  refine ⟨?_, ?_⟩
  · by_cases h1 : ours.evalScore ≥ s.ourBest.evalScore
    · simp only [h1, if_true, List.mem_singleton]
      exact Or.inl (Or.inr trivial)
    · simp only [h1, if_false]
      rcases h with h | h
      · exact Or.inl (Or.inl h.1)
      · exact absurd h.1 h1
  · by_cases h2 : theirs.evalScore ≥ s.theirBest.evalScore
    · simp only [h2, if_true, List.mem_singleton]
      exact Or.inr trivial
    · simp only [h2, if_false]
      rcases h with h | h
      · exact Or.inl (Or.inl h.2)
      · exact absurd h.2 h2

theorem scan_topMoves {p q : Player} {b : Board} (hwf : WellFormed b.m_gameBoard)
    (cells : List (Int × Int)) (hsub : ∀ cell ∈ cells, cell ∈ allCells) (s : ScanState)
    (hs : SameGame b s.boardCopy) (m : ComputerMove)
    (hm : m ∈ (cells.foldl (scanStep p q) s).topMoves) :
    m ∈ s.topMoves ∨ ∃ cell ∈ cells, isOpenCell b cell = true ∧
      (m = ourCandidate p b cell ∨ m = theirCandidate p b q cell) := by
  induction cells generalizing s with
  | nil => exact Or.inl hm
  | cons cell rest ih =>
    have hrest : ∀ x ∈ rest, x ∈ allCells := fun x hx => hsub x (List.mem_cons_of_mem _ hx)
    rw [List.foldl_cons] at hm
    rcases scanStep_cases (p := p) (q := q) hwf hs (hsub cell (List.mem_cons_self _ _)) with
      ⟨ho, e⟩ | ⟨ho, b4, h4, e⟩
    · rw [e] at hm
      rcases ih hrest s hs hm with h | ⟨x, hx, h⟩
      · exact Or.inl h
      · exact Or.inr ⟨x, List.mem_cons_of_mem _ hx, h⟩
    · rw [e] at hm
      rcases ih hrest _ h4 hm with h | ⟨x, hx, h⟩
      · rcases mem_recordMoves_topMoves h with h | h | h
        · exact Or.inl h
        · exact Or.inr ⟨cell, List.mem_cons_self _ _, ho, Or.inl h⟩
        · exact Or.inr ⟨cell, List.mem_cons_self _ _, ho, Or.inr h⟩
      · exact Or.inr ⟨x, List.mem_cons_of_mem _ hx, h⟩

theorem scan_best_mono {p q : Player} {b : Board} (hwf : WellFormed b.m_gameBoard)
    (cells : List (Int × Int)) (hsub : ∀ cell ∈ cells, cell ∈ allCells) (s : ScanState)
    (hs : SameGame b s.boardCopy) :
    s.ourBest.evalScore ≤ (cells.foldl (scanStep p q) s).ourBest.evalScore ∧
    s.theirBest.evalScore ≤ (cells.foldl (scanStep p q) s).theirBest.evalScore := by
  induction cells generalizing s with
  | nil => exact ⟨le_refl _, le_refl _⟩
  | cons cell rest ih =>
    have hrest : ∀ x ∈ rest, x ∈ allCells := fun x hx => hsub x (List.mem_cons_of_mem _ hx)
    rw [List.foldl_cons]
    rcases scanStep_cases (p := p) (q := q) hwf hs (hsub cell (List.mem_cons_self _ _)) with
      ⟨ho, e⟩ | ⟨ho, b4, h4, e⟩
    · rw [e]; exact ih hrest s hs
    · rw [e]
      have h1 := ih hrest
        (recordMoves s b4 (ourCandidate p b cell) (theirCandidate p b q cell)) h4
      have h2 := recordMoves_best_ge s b4 (ourCandidate p b cell) (theirCandidate p b q cell)
      exact ⟨le_trans h2.1 h1.1, le_trans h2.2.1 h1.2⟩

theorem scan_best_ge {p q : Player} {b : Board} (hwf : WellFormed b.m_gameBoard)
    (cells : List (Int × Int)) (hsub : ∀ cell ∈ cells, cell ∈ allCells) (s : ScanState)
    (hs : SameGame b s.boardCopy) (x : Int × Int) (hx : x ∈ cells)
    (hox : isOpenCell b x = true) :
    (ourCandidate p b x).evalScore ≤ (cells.foldl (scanStep p q) s).ourBest.evalScore ∧
    (theirCandidate p b q x).evalScore ≤
      (cells.foldl (scanStep p q) s).theirBest.evalScore := by
  induction cells generalizing s with
  | nil => exact absurd hx (List.not_mem_nil _)
  | cons cell rest ih =>
    have hrest : ∀ x ∈ rest, x ∈ allCells := fun x hx => hsub x (List.mem_cons_of_mem _ hx)
    rw [List.foldl_cons]
    rcases scanStep_cases (p := p) (q := q) hwf hs (hsub cell (List.mem_cons_self _ _)) with
      ⟨ho, e⟩ | ⟨ho, b4, h4, e⟩
    · rw [e]
      rcases List.mem_cons.mp hx with rfl | hx'
      · rw [ho] at hox; exact absurd hox (by decide)
      · exact ih hrest s hs hx'
    · rw [e]
      rcases List.mem_cons.mp hx with rfl | hx'
      · have h1 := scan_best_mono (p := p) (q := q) hwf rest hrest
          (recordMoves s b4 (ourCandidate p b x) (theirCandidate p b q x)) h4
        have h2 := recordMoves_best_ge s b4 (ourCandidate p b x) (theirCandidate p b q x)
        exact ⟨le_trans h2.2.2.1 h1.1, le_trans h2.2.2.2 h1.2⟩
      · exact ih hrest _ h4 hx'

theorem scan_best_mem {p q : Player} {b : Board} (hwf : WellFormed b.m_gameBoard)
    (cells : List (Int × Int)) (hsub : ∀ cell ∈ cells, cell ∈ allCells) (s : ScanState)
    (hs : SameGame b s.boardCopy) (lo : Int)
    (hlo : ∀ cell ∈ cells, isOpenCell b cell = true →
      lo ≤ (ourCandidate p b cell).evalScore ∧ lo ≤ (theirCandidate p b q cell).evalScore)
    (h : (s.ourBest ∈ s.topMoves ∧ s.theirBest ∈ s.topMoves) ∨
      (s.ourBest.evalScore ≤ lo ∧ s.theirBest.evalScore ≤ lo ∧
        ∃ cell ∈ cells, isOpenCell b cell = true)) :
    (cells.foldl (scanStep p q) s).ourBest ∈ (cells.foldl (scanStep p q) s).topMoves ∧
    (cells.foldl (scanStep p q) s).theirBest ∈ (cells.foldl (scanStep p q) s).topMoves := by
  induction cells generalizing s with
  | nil =>
    rcases h with h | ⟨_, _, x, hx, _⟩
    · exact h
    · exact absurd hx (List.not_mem_nil _)
  | cons cell rest ih =>
    have hrest : ∀ x ∈ rest, x ∈ allCells := fun x hx => hsub x (List.mem_cons_of_mem _ hx)
    have hlo' : ∀ x ∈ rest, isOpenCell b x = true →
        lo ≤ (ourCandidate p b x).evalScore ∧ lo ≤ (theirCandidate p b q x).evalScore :=
      fun x hx => hlo x (List.mem_cons_of_mem _ hx)
    rw [List.foldl_cons]
    rcases scanStep_cases (p := p) (q := q) hwf hs (hsub cell (List.mem_cons_self _ _)) with
      ⟨ho, e⟩ | ⟨ho, b4, h4, e⟩
    · rw [e]
      apply ih hrest s hs hlo'
      rcases h with h | ⟨h1, h2, x, hx, hox⟩
      · exact Or.inl h
      · rcases List.mem_cons.mp hx with rfl | hx'
        · rw [ho] at hox; exact absurd hox (by decide)
        · exact Or.inr ⟨h1, h2, x, hx', hox⟩
    · rw [e]
      apply ih hrest _ h4 hlo'
      left
      apply recordMoves_best_mem
      rcases h with h | ⟨h1, h2, _⟩
      · exact Or.inl h
      · have := hlo cell (List.mem_cons_self _ _) ho
        exact Or.inr ⟨le_trans h1 this.1, le_trans h2 this.2⟩

/-! ## A lower bound on the score of a candidate -/

theorem CountSameStones_nonneg (s : List Char) : 0 ≤ CountSameStones s := by
  unfold CountSameStones
  split
  · exact le_refl _
  · exact Int.natCast_nonneg _

theorem foldl_add_nonneg {α : Type} (f : α → Int) (l : List α)
    (h : ∀ x ∈ l, 0 ≤ f x) (acc : Int) : acc ≤ l.foldl (fun a x => a + f x) acc := by
  induction l generalizing acc with
  | nil => exact le_refl _
  | cons x rest ih =>
    rw [List.foldl_cons]
    have h1 := h x (List.mem_cons_self _ _)
    have h2 := ih (fun y hy => h y (List.mem_cons_of_mem _ hy)) (acc + f x)
    omega

theorem GetNumNInARow_nonneg (g : Grid) (n r c : Int) : 0 ≤ GetNumNInARow g n r c := by
  unfold GetNumNInARow
  simp only
  split
  · exact le_refl _
  · rename_i hn
    apply foldl_add_nonneg (fun count : Int =>
      Int.tdiv (if count > 0 ∧ Int.tmod (Int.tdiv count 2) n ≠ 0 then count - 1 else count) n)
    intro x hx
    have hx0 : 0 ≤ x := by
      simp only [CardinalCount, List.mem_map] at hx
      obtain ⟨d, _, rfl⟩ := hx
      exact add_nonneg (CountSameStones_nonneg _) (CountSameStones_nonneg _)
    apply Int.tdiv_nonneg
    · split_ifs <;> omega
    · omega

theorem GetPotentialCaptures_le (g : Grid) (s : Char) (r c : Int) :
    GetPotentialCaptures g s r c ≤ 4 := by
  unfold GetPotentialCaptures
  simp only
  rw [foldl_count (fun direction => regex_search s
    (((ColorSeq g (CAPTURE_NUM + 1) r c).getD (direction + NUM_DIRECTIONS / 2) []).reverse ++
      ((ColorSeq g (CAPTURE_NUM + 1) r c).getD direction []).drop 1))]
  have h := List.length_filter_le (fun direction => regex_search s
    (((ColorSeq g (CAPTURE_NUM + 1) r c).getD (direction + NUM_DIRECTIONS / 2) []).reverse ++
      ((ColorSeq g (CAPTURE_NUM + 1) r c).getD direction []).drop 1))
    (List.range (NUM_DIRECTIONS / 2))
  simp only [List.length_range, NUM_DIRECTIONS] at h
  simp only [NUM_DIRECTIONS]
  omega

theorem closedScore_ge (own : Bool) {w n4 n3 n2 pc cap : Int} (hw : 0 ≤ w) (h4 : 0 ≤ n4)
    (h3 : 0 ≤ n3) (h2 : 0 ≤ n2) (hpc : pc ≤ 4) (hcap : 0 ≤ cap) :
    -8000 ≤ closedScore own w n4 n3 n2 pc cap := by
  simp only [closedScore]
  split_ifs <;> omega

theorem EvaluateMove_placedBoard_ge (p a : Player) (b : Board) (m : Char) {pos : List Char}
    {r c : Int} (hp : ParsePosition pos = some (r, c)) :
    DEFAULT_EVAL ≤ (EvaluateMove p (placedBoard b m pos r c) a).evalScore := by
  have hp' : ParsePosition (placedBoard b m pos r c).GetLastPosition = some (r, c) := hp
  rw [EvaluateMove_score p _ a r c hp']
  have hw : 0 ≤ (placedBoard b m pos r c).GetWinInARow := by
    show 0 ≤ GetNumNInARow (setCell b.m_gameBoard r c m) WIN_SCORE r c
    exact GetNumNInARow_nonneg _ _ _ _
  have h := closedScore_ge (decide (p.m_color = a.m_color)) hw
    (GetNumNInARow_nonneg (placedBoard b m pos r c).m_gameBoard 4 r c)
    (GetNumNInARow_nonneg (placedBoard b m pos r c).m_gameBoard 3 r c)
    (GetNumNInARow_nonneg (placedBoard b m pos r c).m_gameBoard 2 r c)
    (GetPotentialCaptures_le (placedBoard b m pos r c).m_gameBoard a.m_color r c)
    (placedBoard_capturedPairs_nonneg b m pos r c)
  have : DEFAULT_EVAL = -2147483648 := rfl
  omega

theorem candidate_ge (p q : Player) (b : Board) {cell : Int × Int} (hmem : cell ∈ allCells)
    (ho : isOpenCell b cell = true) :
    DEFAULT_EVAL ≤ (ourCandidate p b cell).evalScore ∧
      DEFAULT_EVAL ≤ (theirCandidate p b q cell).evalScore := by
  obtain ⟨hp, hv⟩ := parse_label_of_mem hmem
  rw [ourCandidate, theirCandidate, PlaceStone_of_open b p.m_color hp hv ho,
    PlaceStone_of_open b q.GetColor hp hv ho]
  exact ⟨EvaluateMove_placedBoard_ge p p b _ hp, EvaluateMove_placedBoard_ge p q b _ hp⟩

/-! ## The bounds seen by `DetermineBest`, and its two cases -/

theorem PlaceStone_bounds (b : Board) (m : Char) (pos : List Char) :
    (PlaceStone b m pos).1.GetInnerBounds = b.GetInnerBounds ∧
      (PlaceStone b m pos).1.GetOuterBounds = b.GetOuterBounds := by
  by_cases h : (PlaceStone b m pos).2 = ReturnCode.SUCCESS
  · obtain ⟨r, c, _, _, _, _, _, _, e⟩ := PlaceStone_success h
    rw [e]
    exact ⟨rfl, rfl⟩
  · rw [PlaceStone_failure h]
    exact ⟨rfl, rfl⟩

theorem UndoMove_PlaceStone_bounds (b : Board) (m : Char) (pos : List Char)
    (h : (PlaceStone b m pos).2 = ReturnCode.SUCCESS) :
    (UndoMove (PlaceStone b m pos).1).1.GetInnerBounds = b.GetInnerBounds ∧
      (UndoMove (PlaceStone b m pos).1).1.GetOuterBounds = b.GetOuterBounds := by
  obtain ⟨r, c, _, _, _, _, _, _, e⟩ := PlaceStone_success h
  rw [e]
  exact ⟨rfl, rfl⟩

theorem scanStep_bounds (p q : Player) (s : ScanState) (cell : Int × Int) :
    (scanStep p q s cell).boardCopy.GetInnerBounds = s.boardCopy.GetInnerBounds ∧
      (scanStep p q s cell).boardCopy.GetOuterBounds = s.boardCopy.GetOuterBounds := by
  by_cases h1 : (PlaceStone s.boardCopy p.m_color (IndicesToString cell.1 cell.2)).2 =
      ReturnCode.SUCCESS
  · have u1 := UndoMove_PlaceStone_bounds _ _ _ h1
    by_cases h2 : (PlaceStone (UndoMove (PlaceStone s.boardCopy p.m_color
        (IndicesToString cell.1 cell.2)).1).1 q.GetColor
        (IndicesToString cell.1 cell.2)).2 = ReturnCode.SUCCESS
    · have u2 := UndoMove_PlaceStone_bounds _ _ _ h2
      have e : (scanStep p q s cell).boardCopy =
          (UndoMove (PlaceStone (UndoMove (PlaceStone s.boardCopy p.m_color
            (IndicesToString cell.1 cell.2)).1).1 q.GetColor
            (IndicesToString cell.1 cell.2)).1).1 := by
        simp only [scanStep, h1, h2, ne_eq, not_true, if_false]
        split_ifs <;> rfl
      rw [e]
      exact ⟨u2.1.trans u1.1, u2.2.trans u1.2⟩
    · have e : (scanStep p q s cell).boardCopy =
          (PlaceStone (UndoMove (PlaceStone s.boardCopy p.m_color
            (IndicesToString cell.1 cell.2)).1).1 q.GetColor
            (IndicesToString cell.1 cell.2)).1 := by
        simp only [scanStep, h1, h2, ne_eq, not_true, if_false, not_false_eq_true, if_true]
      rw [e]
      have u2 := PlaceStone_bounds (UndoMove (PlaceStone s.boardCopy p.m_color
        (IndicesToString cell.1 cell.2)).1).1 q.GetColor (IndicesToString cell.1 cell.2)
      exact ⟨u2.1.trans u1.1, u2.2.trans u1.2⟩
  · have e : (scanStep p q s cell).boardCopy =
        (PlaceStone s.boardCopy p.m_color (IndicesToString cell.1 cell.2)).1 := by
      simp only [scanStep, h1, ne_eq, not_false_eq_true, if_true]
    rw [e]
    exact PlaceStone_bounds _ _ _

theorem scan_bounds (p q : Player) (cells : List (Int × Int)) (s : ScanState) :
    (cells.foldl (scanStep p q) s).boardCopy.GetInnerBounds = s.boardCopy.GetInnerBounds ∧
      (cells.foldl (scanStep p q) s).boardCopy.GetOuterBounds =
        s.boardCopy.GetOuterBounds := by
  induction cells generalizing s with
  | nil => exact ⟨rfl, rfl⟩
  | cons cell rest ih =>
    rw [List.foldl_cons]
    have h1 := ih (scanStep p q s cell)
    have h2 := scanStep_bounds p q s cell
    exact ⟨h1.1.trans h2.1, h1.2.trans h2.2⟩

theorem DetermineBest_win (p : Player) (b : Board) {ourBest : ComputerMove}
    (theirBest : ComputerMove) (topMoves : List ComputerMove) (rand : Nat → Nat)
    (h : ourBest.reason = MoveReason.WIN) :
    DetermineBest p b ourBest theirBest topMoves rand =
      ({ p with m_bestMove := ourBest }, topMoves, 0) := by
  simp only [DetermineBest, h, if_true]

/-- The move picked by `DetermineBest` before the two overrides, when the
mover's best is not a win. -/
theorem DetermineBest_not_win (p : Player) (b : Board) {ourBest : ComputerMove}
    (theirBest : ComputerMove) (topMoves : List ComputerMove) (rand : Nat → Nat)
    (h : ourBest.reason ≠ MoveReason.WIN) :
    ∃ (best : ComputerMove) (retained : List ComputerMove) (calls : Nat),
      retained = topMoves.filter (fun it => decide (it.evalScore =
        (if ourBest.evalScore > theirBest.evalScore then ourBest else theirBest).evalScore)) ∧
      calls = (if retained.length > 1 then 1 else 0) ∧
      best = (if retained.length > 1 then retained.getD (rand 0 % retained.length)
          (if ourBest.evalScore > theirBest.evalScore then ourBest else theirBest)
        else (if ourBest.evalScore > theirBest.evalScore then ourBest else theirBest)) ∧
      (DetermineBest p b ourBest theirBest topMoves rand).2.1 = retained ∧
      (DetermineBest p b ourBest theirBest topMoves rand).1.m_bestMove.evalScore =
        best.evalScore ∧
      (DetermineBest p b ourBest theirBest topMoves rand).1.m_bestMove.color = best.color ∧
      (DetermineBest p b ourBest theirBest topMoves rand).1.m_bestMove.reason =
        (if b.GetOuterBounds = 0 ∨ b.GetInnerBounds = 3 then MoveReason.BOARD_RESTRICTION
          else best.reason) ∧
      (DetermineBest p b ourBest theirBest topMoves rand).1.m_bestMove.position =
        (if b.GetInnerBounds = 3 then VALUES.getD (rand calls % 4) [] else best.position) ∧
      (DetermineBest p b ourBest theirBest topMoves rand).2.2 =
        (if b.GetInnerBounds = 3 then calls + 1 else calls) := by
  refine ⟨_, _, _, rfl, rfl, rfl, ?_⟩
  have hf : (fun it : ComputerMove => !decide (it.evalScore ≠
      (if ourBest.evalScore > theirBest.evalScore then ourBest else theirBest).evalScore)) =
      fun it => decide (it.evalScore =
        (if ourBest.evalScore > theirBest.evalScore then ourBest else theirBest).evalScore) := by
    funext it
    simp
  simp only [DetermineBest, h, if_false, hf]
  by_cases h3 : b.GetInnerBounds = 3 <;> by_cases h0 : b.GetOuterBounds = 0 <;>
    simp [h3, h0]

theorem PlaceStone_label_code (b : Board) (m : Char) {cell : Int × Int}
    (hmem : cell ∈ allCells) :
    (PlaceStone b m (IndicesToString cell.1 cell.2)).2 = ReturnCode.SUCCESS ↔
      isOpenCell b cell = true := by
  obtain ⟨hp, hv⟩ := parse_label_of_mem hmem
  constructor
  · intro h
    by_contra ho
    exact PlaceStone_not_open b m hp (by simpa using ho) h
  · intro ho
    rw [PlaceStone_of_open b m hp hv ho]

theorem scan_ourBest_candidate {p q : Player} {b : Board} (hwf : WellFormed b.m_gameBoard)
    (cells : List (Int × Int)) (hsub : ∀ cell ∈ cells, cell ∈ allCells) (s : ScanState)
    (hs : SameGame b s.boardCopy) :
    (cells.foldl (scanStep p q) s).ourBest = s.ourBest ∨
      ∃ cell ∈ cells, isOpenCell b cell = true ∧
        (cells.foldl (scanStep p q) s).ourBest = ourCandidate p b cell := by
  induction cells generalizing s with
  | nil => exact Or.inl rfl
  | cons cell rest ih =>
    have hrest : ∀ x ∈ rest, x ∈ allCells := fun x hx => hsub x (List.mem_cons_of_mem _ hx)
    rw [List.foldl_cons]
    rcases scanStep_cases (p := p) (q := q) hwf hs (hsub cell (List.mem_cons_self _ _)) with
      ⟨ho, e⟩ | ⟨ho, b4, h4, e⟩
    · rw [e]
      rcases ih hrest s hs with h | ⟨x, hx, h⟩
      · exact Or.inl h
      · exact Or.inr ⟨x, List.mem_cons_of_mem _ hx, h⟩
    · rw [e]
      rcases ih hrest (recordMoves s b4 (ourCandidate p b cell) (theirCandidate p b q cell))
        h4 with h | ⟨x, hx, h⟩
      · rw [h]
        simp only [recordMoves]
        split_ifs
        · exact Or.inr ⟨cell, List.mem_cons_self _ _, ho, rfl⟩
        · exact Or.inl rfl
      · exact Or.inr ⟨x, List.mem_cons_of_mem _ hx, h⟩

/-! ## A winning move of the mover is selected as it is -/

theorem fourBoard_reachable : Reachable fourBoard :=
  Reachable.setBounds _ _ _ (Reachable.place _ _ _ (Reachable.place _ _ _
    (Reachable.place _ _ _ (Reachable.place _ _ _ Reachable.init))))

theorem contestedBoard_reachable : Reachable contestedBoard :=
  Reachable.setBounds _ _ _ (Reachable.place _ _ _ (Reachable.place _ _ _
    (Reachable.place _ _ _ (Reachable.place _ _ _ (Reachable.place _ _ _
    (Reachable.place _ _ _ (Reachable.place _ _ _ (Reachable.place _ _ _
    (Reachable.place _ _ _ (Reachable.place _ _ _
    (Reachable.place _ _ _ Reachable.init)))))))))))

set_option maxRecDepth 100000 in
theorem fourBoard_scan (p q : Player) :
    bestMoveScan p fourBoard q = scanStep p q (scanStart fourBoard) (9, 9) := by
  rw [bestMoveScan_eq_filter p q (Reachable_wf fourBoard_reachable)]
  have e : allCells.filter (isOpenCell fourBoard) = [(9, 9)] := by decide
  rw [e, List.foldl_cons, List.foldl_nil]

set_option maxRecDepth 100000 in
theorem contestedBoard_scan (p q : Player) :
    bestMoveScan p contestedBoard q = scanStep p q (scanStart contestedBoard) (9, 9) := by
  rw [bestMoveScan_eq_filter p q (Reachable_wf contestedBoard_reachable)]
  have e : allCells.filter (isOpenCell contestedBoard) = [(9, 9)] := by decide
  rw [e, List.foldl_cons, List.foldl_nil]

/-- C24: on a reachable board, when the best move found for the mover `p` is
classified Win, `BestMove` selects exactly that move, of the mover's colour and
with reason Win, and makes no call of `rand()`, whatever the best move of the
opponent is. That move is the mover's candidate at a cell where `PlaceStone`
accepts the stone, and no candidate of the mover scores higher. -/
theorem win_overrides (p : Player) (b : Board) (q : Player) (rand : Nat → Nat)
    (hb : Reachable b) (hwin : (bestMoveScan p b q).ourBest.reason = MoveReason.WIN) :
    (BestMove p b q rand).1.m_bestMove = (bestMoveScan p b q).ourBest ∧
    (BestMove p b q rand).1.m_bestMove.color = p.m_color ∧
    (BestMove p b q rand).1.m_bestMove.reason = MoveReason.WIN ∧
    (BestMove p b q rand).2 = 0 ∧
    (∃ cell ∈ allCells,
      (PlaceStone b p.m_color (IndicesToString cell.1 cell.2)).2 = ReturnCode.SUCCESS ∧
      (bestMoveScan p b q).ourBest = ourCandidate p b cell) ∧
    (∀ cell ∈ allCells,
      (PlaceStone b p.m_color (IndicesToString cell.1 cell.2)).2 = ReturnCode.SUCCESS →
      (ourCandidate p b cell).evalScore ≤ (bestMoveScan p b q).ourBest.evalScore) := by
  have hwf := Reachable_wf hb
  have hsel : (BestMove p b q rand).1.m_bestMove = (bestMoveScan p b q).ourBest := by
    simp only [BestMove, DetermineBest_win p _ _ _ rand hwin]
  have hcand : ∃ cell ∈ allCells, isOpenCell b cell = true ∧
      (bestMoveScan p b q).ourBest = ourCandidate p b cell := by
    rcases scan_ourBest_candidate (p := p) (q := q) hwf allCells (fun _ h => h) (scanStart b)
      (SameGame_refl b) with h | h
    · exfalso
      have h' : (bestMoveScan p b q).ourBest = ComputerMove.default := h
      rw [h'] at hwin
      exact absurd hwin (by decide)
    · exact h
  obtain ⟨cell, hmem, ho, hc⟩ := hcand
  refine ⟨hsel, ?_, ?_, ?_, ⟨cell, hmem, (PlaceStone_label_code b _ hmem).mpr ho, hc⟩, ?_⟩
  · rw [hsel, hc]; rfl
  · rw [hsel]; exact hwin
  · simp only [BestMove, DetermineBest_win p _ _ _ rand hwin]
  · intro x hx hs
    unfold bestMoveScan
    exact (scan_best_ge (p := p) (q := q) hwf allCells (fun _ h => h) (scanStart b)
      (SameGame_refl b) x hx ((PlaceStone_label_code b _ hx).mp hs)).1

set_option maxRecDepth 100000 in
theorem win_overrides_witness :
    Reachable contestedBoard ∧
    (bestMoveScan whitePlayer contestedBoard blackPlayer).ourBest.reason = MoveReason.WIN ∧
    (bestMoveScan whitePlayer contestedBoard blackPlayer).ourBest.evalScore = 10090 ∧
    (bestMoveScan whitePlayer contestedBoard blackPlayer).theirBest.evalScore = 12000 ∧
    (BestMove whitePlayer contestedBoard blackPlayer (fun _ => 1)).1.m_bestMove =
      (bestMoveScan whitePlayer contestedBoard blackPlayer).ourBest ∧
    (BestMove whitePlayer contestedBoard blackPlayer (fun _ => 1)).2 = 0 :=
  ⟨contestedBoard_reachable,
    by rw [contestedBoard_scan]; rfl,
    by rw [contestedBoard_scan]; rfl,
    by rw [contestedBoard_scan]; rfl,
    (win_overrides whitePlayer contestedBoard blackPlayer (fun _ => 1)
      contestedBoard_reachable (by rw [contestedBoard_scan]; rfl)).1,
    (win_overrides whitePlayer contestedBoard blackPlayer (fun _ => 1)
      contestedBoard_reachable (by rw [contestedBoard_scan]; rfl)).2.2.2.1⟩

/-! ## The two restriction overrides -/

theorem centreOnlyBoard_reachable : Reachable centreOnlyBoard :=
  Reachable.setBounds _ _ _ Reachable.init

set_option maxRecDepth 100000 in
theorem centreOnlyBoard_open : allCells.filter (isOpenCell centreOnlyBoard) = [(9, 9)] := by
  decide

theorem centreOnlyBoard_scan (p q : Player) :
    bestMoveScan p centreOnlyBoard q = scanStep p q (scanStart centreOnlyBoard) (9, 9) := by
  rw [bestMoveScan_eq_filter p q (Reachable_wf centreOnlyBoard_reachable),
    centreOnlyBoard_open, List.foldl_cons, List.foldl_nil]

theorem BestMove_eq (p : Player) (b : Board) (q : Player) (rand : Nat → Nat) :
    BestMove p b q rand =
      ((DetermineBest p (bestMoveScan p b q).boardCopy (bestMoveScan p b q).ourBest
          (bestMoveScan p b q).theirBest (bestMoveScan p b q).topMoves rand).1,
        (DetermineBest p (bestMoveScan p b q).boardCopy (bestMoveScan p b q).ourBest
          (bestMoveScan p b q).theirBest (bestMoveScan p b q).topMoves rand).2.2) := rfl

theorem bestMoveScan_bounds (p q : Player) (b : Board) :
    (bestMoveScan p b q).boardCopy.GetInnerBounds = b.GetInnerBounds ∧
      (bestMoveScan p b q).boardCopy.GetOuterBounds = b.GetOuterBounds :=
  scan_bounds p q allCells (scanStart b)

set_option maxRecDepth 100000 in
/-- C27: on `fourBoard` the outer bound is 0 and the mover `W` has a winning move
at the centre; the move `BestMove` selects is classified Win, not
BoardRestriction. -/
theorem restriction_overrides_counterexample :
    Reachable fourBoard ∧ fourBoard.GetOuterBounds = 0 ∧
    (BestMove whitePlayer fourBoard blackPlayer (fun _ => 0)).1.m_bestMove =
      { position := ['J', '1', '0'], evalScore := 10000, color := 'W',
        reason := MoveReason.WIN } ∧
    (BestMove whitePlayer fourBoard blackPlayer (fun _ => 0)).1.m_bestMove.reason ≠
      MoveReason.BOARD_RESTRICTION := by
  have e : (BestMove whitePlayer fourBoard blackPlayer (fun _ => 0)).1.m_bestMove =
      { position := ['J', '1', '0'], evalScore := 10000, color := 'W',
        reason := MoveReason.WIN } := by
    simp only [BestMove, fourBoard_scan]
    rfl
  refine ⟨fourBoard_reachable, rfl, e, ?_⟩
  rw [e]
  decide

/-- C27 (amended): for every board, players and values of `rand()`, if the outer
bound is 0 or the inner bound is 3 and the best move found for the mover is not
classified Win, the move `BestMove` selects is classified BoardRestriction; when
the best move found for the mover is classified Win, the selected move is
classified Win whatever the bounds are. -/
theorem restriction_overrides (p : Player) (b : Board) (q : Player) (rand : Nat → Nat)
    (hbounds : b.GetOuterBounds = 0 ∨ b.GetInnerBounds = 3) :
    ((bestMoveScan p b q).ourBest.reason ≠ MoveReason.WIN →
      (BestMove p b q rand).1.m_bestMove.reason = MoveReason.BOARD_RESTRICTION) ∧
    ((bestMoveScan p b q).ourBest.reason = MoveReason.WIN →
      (BestMove p b q rand).1.m_bestMove.reason = MoveReason.WIN) := by
  obtain ⟨hi, ho⟩ := bestMoveScan_bounds p q b
  constructor
  · intro hnw
    obtain ⟨best, retained, calls, _, _, _, _, _, _, hr, _, _⟩ :=
      DetermineBest_not_win p (bestMoveScan p b q).boardCopy (bestMoveScan p b q).theirBest
        (bestMoveScan p b q).topMoves rand hnw
    rw [hi, ho, if_pos hbounds] at hr
    simp only [BestMove_eq]
    exact hr
  · intro hwin
    simp only [BestMove_eq, DetermineBest_win p _ _ _ rand hwin]
    exact hwin

set_option maxRecDepth 100000 in
theorem restriction_overrides_witness :
    centreOnlyBoard.GetOuterBounds = 0 ∧
    (bestMoveScan whitePlayer centreOnlyBoard blackPlayer).ourBest.reason ≠ MoveReason.WIN ∧
    (BestMove whitePlayer centreOnlyBoard blackPlayer (fun _ => 0)).1.m_bestMove.reason =
      MoveReason.BOARD_RESTRICTION :=
  ⟨rfl, by rw [centreOnlyBoard_scan]; decide,
    (restriction_overrides whitePlayer centreOnlyBoard blackPlayer (fun _ => 0)
      (Or.inl rfl)).1 (by rw [centreOnlyBoard_scan]; decide)⟩

theorem ringBoard_reachable : Reachable ringBoard :=
  Reachable.setBounds _ _ _ (Reachable.place _ _ _ (Reachable.place _ _ _ Reachable.init))

set_option maxHeartbeats 4000000 in
set_option maxRecDepth 100000 in
theorem ringBoard_scan :
    (bestMoveScan whitePlayer ringBoard blackPlayer).ourBest =
      { position := ['I', '7'], evalScore := 90, color := 'W', reason := MoveReason.BUILD } ∧
    (bestMoveScan whitePlayer ringBoard blackPlayer).theirBest =
      { position := ['M', '1', '3'], evalScore := 0, color := 'B',
        reason := MoveReason.UNKNOWN } ∧
    (bestMoveScan whitePlayer ringBoard blackPlayer).topMoves.filter
        (fun it => decide (it.evalScore = 90)) =
      [{ position := ['I', '7'], evalScore := 90, color := 'W',
         reason := MoveReason.BUILD }] := by
  rw [bestMoveScan_eq_filter whitePlayer blackPlayer (Reachable_wf ringBoard_reachable)]
  have e : allCells.filter (isOpenCell ringBoard) =
      [(6, 8), (6, 9), (6, 10), (6, 11), (6, 12), (7, 6), (7, 12), (8, 6), (8, 12), (9, 6),
        (9, 12), (10, 6), (10, 12), (11, 6), (11, 12), (12, 6), (12, 7), (12, 8), (12, 9),
        (12, 10), (12, 11), (12, 12)] := by decide
  rw [e]
  decide

/-- C28: when the inner bound is 3 and the best move found for the mover is not
classified Win, the position `BestMove` selects is `VALUES[rand() % 4]` for the
value of the last call of `rand()` it makes, one of "J7", "M10", "J13", "G10";
each of these four labels parses to a cell of the board at Chebyshev distance
exactly 3 from the centre, which passes the bounds check of `PlaceStone` under
the bounds (3, 19). -/
theorem ring_positions (p : Player) (b : Board) (q : Player) (rand : Nat → Nat)
    (hin : b.GetInnerBounds = 3)
    (hnw : (bestMoveScan p b q).ourBest.reason ≠ MoveReason.WIN) :
    1 ≤ (BestMove p b q rand).2 ∧
    (BestMove p b q rand).1.m_bestMove.position =
      VALUES.getD (rand ((BestMove p b q rand).2 - 1) % 4) [] ∧
    (BestMove p b q rand).1.m_bestMove.position ∈
      [['J', '7'], ['M', '1', '0'], ['J', '1', '3'], ['G', '1', '0']] ∧
    ∀ label ∈ VALUES, ∃ r c : Int, ParsePosition label = some (r, c) ∧
      IsValidIndex r c = true ∧ AwayFromCenter r c = 3 ∧
      ¬ ((3 : Int) > AwayFromCenter r c ∨ AwayFromCenter r c > 19) := by
  obtain ⟨hi, _⟩ := bestMoveScan_bounds p q b
  obtain ⟨best, retained, calls, _, _, _, _, _, _, _, hpos, hcalls⟩ :=
    DetermineBest_not_win p (bestMoveScan p b q).boardCopy (bestMoveScan p b q).theirBest
      (bestMoveScan p b q).topMoves rand hnw
  rw [hi, if_pos hin] at hpos hcalls
  simp only [BestMove_eq]
  rw [hpos, hcalls]
  refine ⟨by omega, by simp, ?_, ?_⟩
  · have h4 : rand calls % 4 < 4 := Nat.mod_lt _ (by decide)
    generalize rand calls % 4 = k at h4
    interval_cases k <;> decide
  · intro label hl
    simp only [VALUES, List.mem_cons, List.mem_singleton, List.not_mem_nil, or_false] at hl
    rcases hl with rfl | rfl | rfl | rfl
    · exact ⟨6, 9, by rfl, by rfl, by rfl, by decide⟩
    · exact ⟨9, 12, by rfl, by rfl, by rfl, by decide⟩
    · exact ⟨12, 9, by rfl, by rfl, by rfl, by decide⟩
    · exact ⟨9, 6, by rfl, by rfl, by rfl, by decide⟩

set_option maxRecDepth 100000 in
theorem ring_positions_witness :
    ringBoard.GetInnerBounds = 3 ∧
    (bestMoveScan whitePlayer ringBoard blackPlayer).ourBest.reason ≠ MoveReason.WIN ∧
    (BestMove whitePlayer ringBoard blackPlayer (fun _ => 2)).1.m_bestMove.position =
      ['J', '1', '3'] :=
  ⟨rfl, by rw [ringBoard_scan.1]; decide,
    (ring_positions whitePlayer ringBoard blackPlayer (fun _ => 2) rfl
      (by rw [ringBoard_scan.1]; decide)).2.1⟩

/-! ## The opening recommendation -/

theorem isOpenCell_eq_of {b b2 : Board} (hg : b2.m_gameBoard = b.m_gameBoard)
    (hi : b2.m_currMove.innerBounds = b.m_currMove.innerBounds)
    (ho : b2.m_currMove.outerBounds = b.m_currMove.outerBounds)
    (hw : b2.m_currMove.winInARow > 0 ↔ b.m_currMove.winInARow > 0)
    (hf : b2.IsBoardFull = b.IsBoardFull) (cell : Int × Int) :
    isOpenCell b2 cell = isOpenCell b cell :=
  isOpenCell_congr (b := { b with m_prevMoves := b2.m_prevMoves })
    ⟨hg, rfl, hi, ho, hw, hf⟩ cell

theorem opening_candidate (p a : Player) (b : Board) (hg : b.m_gameBoard = InitGameBoard)
    (hp : p.m_color = 'W' ∨ p.m_color = 'B') (ha : a.m_color = 'W' ∨ a.m_color = 'B') :
    EvaluateMove p (placedBoard b a.m_color ['J', '1', '0'] 9 9) a =
      { position := ['J', '1', '0'], evalScore := 0, color := a.m_color,
        reason := MoveReason.UNKNOWN } := by
  have hgrid : ∀ m : Char, (placedBoard b m ['J', '1', '0'] 9 9).m_gameBoard =
      (placedBoard centreOnlyBoard m ['J', '1', '0'] 9 9).m_gameBoard := by
    intro m
    have e : centreOnlyBoard.m_gameBoard = InitGameBoard := rfl
    simp only [placedBoard, hg, e]
  have hwin : ∀ m : Char, (placedBoard b m ['J', '1', '0'] 9 9).m_currMove.winInARow =
      (placedBoard centreOnlyBoard m ['J', '1', '0'] 9 9).m_currMove.winInARow := by
    intro m
    have e : centreOnlyBoard.m_gameBoard = InitGameBoard := rfl
    simp only [placedBoard, hg, e]
  have hcap : ∀ m : Char, (placedBoard b m ['J', '1', '0'] 9 9).m_currMove.capturedPairs =
      (placedBoard centreOnlyBoard m ['J', '1', '0'] 9 9).m_currMove.capturedPairs := by
    intro m
    have e : centreOnlyBoard.m_gameBoard = InitGameBoard := rfl
    simp only [placedBoard, hg, e]
  have hpos : ∀ m : Char, (placedBoard b m ['J', '1', '0'] 9 9).m_currMove.position =
      (placedBoard centreOnlyBoard m ['J', '1', '0'] 9 9).m_currMove.position := by
    intro m
    simp only [placedBoard]
  have hpW : whitePlayer.m_color = 'W' := rfl
  have hpB : blackPlayer.m_color = 'B' := rfl
  have c1 : EvaluateMove whitePlayer (placedBoard centreOnlyBoard 'W' ['J', '1', '0'] 9 9)
      whitePlayer =
      { position := ['J', '1', '0'], evalScore := 0, color := 'W',
        reason := MoveReason.UNKNOWN } := by rfl
  have c2 : EvaluateMove whitePlayer (placedBoard centreOnlyBoard 'B' ['J', '1', '0'] 9 9)
      blackPlayer =
      { position := ['J', '1', '0'], evalScore := 0, color := 'B',
        reason := MoveReason.UNKNOWN } := by rfl
  have c3 : EvaluateMove blackPlayer (placedBoard centreOnlyBoard 'W' ['J', '1', '0'] 9 9)
      whitePlayer =
      { position := ['J', '1', '0'], evalScore := 0, color := 'W',
        reason := MoveReason.UNKNOWN } := by rfl
  have c4 : EvaluateMove blackPlayer (placedBoard centreOnlyBoard 'B' ['J', '1', '0'] 9 9)
      blackPlayer =
      { position := ['J', '1', '0'], evalScore := 0, color := 'B',
        reason := MoveReason.UNKNOWN } := by rfl
  rcases hp with hp | hp <;> rcases ha with ha | ha <;> rw [ha]
  · exact (EvaluateMove_congr (hp.trans hpW.symm) (ha.trans hpW.symm) (hgrid _) (hpos _)
      (hwin _) (hcap _)).trans c1
  · exact (EvaluateMove_congr (hp.trans hpW.symm) (ha.trans hpB.symm) (hgrid _) (hpos _)
      (hwin _) (hcap _)).trans c2
  · exact (EvaluateMove_congr (hp.trans hpB.symm) (ha.trans hpW.symm) (hgrid _) (hpos _)
      (hwin _) (hcap _)).trans c3
  · exact (EvaluateMove_congr (hp.trans hpB.symm) (ha.trans hpB.symm) (hgrid _) (hpos _)
      (hwin _) (hcap _)).trans c4

theorem opening_scan (p q : Player) (b : Board) (hg : b.m_gameBoard = InitGameBoard)
    (hin : b.GetInnerBounds = 0) (hout : b.GetOuterBounds = 0) (hover : b.IsGameOver = false)
    (hp : p.m_color = 'W' ∨ p.m_color = 'B') (hq : q.m_color = 'W' ∨ q.m_color = 'B') :
    ∃ b4, bestMoveScan p b q =
      recordMoves (scanStart b) b4
        { position := ['J', '1', '0'], evalScore := 0, color := p.m_color,
          reason := MoveReason.UNKNOWN }
        { position := ['J', '1', '0'], evalScore := 0, color := q.m_color,
          reason := MoveReason.UNKNOWN } := by
  have hwf : WellFormed b.m_gameBoard := by rw [hg]; exact InitGameBoard_wf
  simp only [Board.IsGameOver, Bool.or_eq_false_iff, Board.IsWinner,
    decide_eq_false_iff_not] at hover
  have hopen : ∀ cell, isOpenCell b cell = isOpenCell centreOnlyBoard cell := by
    intro cell
    have e0 : centreOnlyBoard.m_gameBoard = InitGameBoard := rfl
    have e1 : centreOnlyBoard.m_currMove.innerBounds = 0 := rfl
    have e2 : centreOnlyBoard.m_currMove.outerBounds = 0 := rfl
    have e3 : centreOnlyBoard.m_currMove.winInARow = 0 := rfl
    have e4 : centreOnlyBoard.IsBoardFull = false := rfl
    apply isOpenCell_eq_of (hg.trans e0.symm) (hin.trans e1.symm) (hout.trans e2.symm) _
      (hover.1.trans e4.symm)
    rw [e3]
    constructor
    · intro h; exact absurd h hover.2
    · intro h; exact absurd h (by decide)
  have hfilter : allCells.filter (isOpenCell b) = [(9, 9)] := by
    rw [← centreOnlyBoard_open]
    exact List.filter_congr (fun cell _ => hopen cell)
  have hmem : ((9 : Int), (9 : Int)) ∈ allCells := (mem_allCells _).mpr (by decide)
  have ho : isOpenCell b (9, 9) = true := by rw [hopen]; decide
  obtain ⟨b4, _, e⟩ := scanStep_open (p := p) (q := q) hwf (SameGame_refl b)
    (s := scanStart b) hmem ho
  refine ⟨b4, ?_⟩
  have hlabel : IndicesToString 9 9 = ['J', '1', '0'] := by rfl
  have hparse : ParsePosition ['J', '1', '0'] = some (9, 9) := by rfl
  have c1 : ourCandidate p b (9, 9) =
      { position := ['J', '1', '0'], evalScore := 0, color := p.m_color,
        reason := MoveReason.UNKNOWN } := by
    rw [ourCandidate, hlabel, PlaceStone_of_open b p.m_color hparse (by decide) ho]
    exact opening_candidate p p b hg hp hp
  have c2 : theirCandidate p b q (9, 9) =
      { position := ['J', '1', '0'], evalScore := 0, color := q.m_color,
        reason := MoveReason.UNKNOWN } := by
    rw [theirCandidate, hlabel, PlaceStone_of_open b q.GetColor hparse (by decide) ho]
    exact opening_candidate p q b hg hp hq
  rw [bestMoveScan_eq_filter p q hwf, hfilter, List.foldl_cons, List.foldl_nil, e, c1, c2]

/-- C26: on a board whose grid is empty, with bounds inner = 0 and outer = 0 and
the game not over, for every value of the random draw and all colours `W` / `B`
of the mover and of the next player (the two pairs of distinct colours
included), `BestMove` selects position "J10" with classification
BoardRestriction. -/
theorem opening_recommendation (p q : Player) (b : Board) (rand : Nat → Nat)
    (hg : b.m_gameBoard = InitGameBoard) (hin : b.GetInnerBounds = 0)
    (hout : b.GetOuterBounds = 0) (hover : b.IsGameOver = false)
    (hp : p.m_color = 'W' ∨ p.m_color = 'B') (hq : q.m_color = 'W' ∨ q.m_color = 'B') :
    (BestMove p b q rand).1.m_bestMove.position = ['J', '1', '0'] ∧
    (BestMove p b q rand).1.m_bestMove.reason = MoveReason.BOARD_RESTRICTION := by
  obtain ⟨b4, e⟩ := opening_scan p q b hg hin hout hover hp hq
  obtain ⟨hi, ho⟩ := bestMoveScan_bounds p q b
  rw [hin] at hi
  rw [hout] at ho
  have hnw : (bestMoveScan p b q).ourBest.reason ≠ MoveReason.WIN := by
    rw [e]
    simp [recordMoves, scanStart, ComputerMove.default, DEFAULT_EVAL]
  obtain ⟨best, retained, calls, hret, hcalls, hbest, _, _, _, hr, hpos, _⟩ :=
    DetermineBest_not_win p (bestMoveScan p b q).boardCopy (bestMoveScan p b q).theirBest
      (bestMoveScan p b q).topMoves rand hnw
  rw [hi, ho] at hr
  rw [hi] at hpos
  simp only [BestMove_eq]
  refine ⟨?_, by simpa using hr⟩
  rw [hpos, if_neg (by decide)]
  have hret2 : retained =
      [{ position := ['J', '1', '0'], evalScore := 0, color := p.m_color,
         reason := MoveReason.UNKNOWN },
       { position := ['J', '1', '0'], evalScore := 0, color := q.m_color,
         reason := MoveReason.UNKNOWN }] := by
    rw [hret, e]
    simp [recordMoves, scanStart, ComputerMove.default, DEFAULT_EVAL]
  rw [hbest, hret2]
  simp only [List.length_cons, List.length_nil, Nat.reduceAdd, Nat.one_lt_ofNat, if_true]
  have h2 : rand 0 % 2 < 2 := Nat.mod_lt _ (by decide)
  generalize rand 0 % 2 = k at h2
  interval_cases k <;> rfl

theorem opening_recommendation_witness :
    (BestMove whitePlayer centreOnlyBoard blackPlayer (fun _ => 7)).1.m_bestMove.position =
      ['J', '1', '0'] ∧
    (BestMove blackPlayer centreOnlyBoard whitePlayer (fun _ => 4)).1.m_bestMove.reason =
      MoveReason.BOARD_RESTRICTION :=
  ⟨(opening_recommendation whitePlayer blackPlayer centreOnlyBoard (fun _ => 7) rfl rfl rfl rfl
      (Or.inl rfl) (Or.inr rfl)).1,
    (opening_recommendation blackPlayer whitePlayer centreOnlyBoard (fun _ => 4) rfl rfl rfl rfl
      (Or.inr rfl) (Or.inl rfl)).2⟩

/-! ## Balance of the simulated placements -/

theorem scanStep_balance {p q : Player} {b : Board} (hwf : WellFormed b.m_gameBoard)
    {s : ScanState} (hs : SameGame b s.boardCopy) {cell : Int × Int} (hmem : cell ∈ allCells)
    (hplace : (PlaceStone s.boardCopy p.m_color (IndicesToString cell.1 cell.2)).2 =
      ReturnCode.SUCCESS) (b1 b2 b3 : Board)
    (h1 : b1 = (PlaceStone s.boardCopy p.m_color (IndicesToString cell.1 cell.2)).1)
    (h2 : b2 = (UndoMove b1).1)
    (h3 : b3 = (PlaceStone b2 q.GetColor (IndicesToString cell.1 cell.2)).1) :
    (UndoMove b1).2 = ReturnCode.SUCCESS ∧ b2.m_gameBoard = b.m_gameBoard ∧
      b2.m_prevMoves = b.m_prevMoves ∧
      (PlaceStone b2 q.GetColor (IndicesToString cell.1 cell.2)).2 = ReturnCode.SUCCESS ∧
      (UndoMove b3).2 = ReturnCode.SUCCESS ∧
      (scanStep p q s cell).boardCopy = (UndoMove b3).1 ∧
      b1.m_prevMoves.length = b.m_prevMoves.length + 1 ∧
      b3.m_prevMoves.length = b.m_prevMoves.length + 1 := by
  obtain ⟨hp, hv⟩ := parse_label_of_mem hmem
  have ho1 : isOpenCell s.boardCopy cell = true := (PlaceStone_label_code _ _ hmem).mp hplace
  have ho : isOpenCell b cell = true := by rw [← isOpenCell_congr hs]; exact ho1
  have e1 := PlaceStone_of_open s.boardCopy p.m_color hp hv ho1
  have hs2 := UndoMove_placedBoard_SameGame hwf hs p.m_color hp hv ho
  have hwf1 : WellFormed s.boardCopy.m_gameBoard := by rw [hs.1]; exact hwf
  have hO1 := (isOpenCell_iff.mp ho1).2.1
  obtain ⟨u1, _, _⟩ := UndoMove_placedBoard hwf1 p.m_color hp hv hO1
    (placedBoard s.boardCopy p.m_color (IndicesToString cell.1 cell.2) cell.1 cell.2) rfl rfl
  rw [e1] at h1
  simp only at h1
  subst h1
  subst h2
  have ho2 : isOpenCell (UndoMove (placedBoard s.boardCopy p.m_color
      (IndicesToString cell.1 cell.2) cell.1 cell.2)).1 cell = true := by
    rw [isOpenCell_congr hs2]; exact ho
  have e2 := PlaceStone_of_open (UndoMove (placedBoard s.boardCopy p.m_color
      (IndicesToString cell.1 cell.2) cell.1 cell.2)).1 q.GetColor hp hv ho2
  have hwf2 : WellFormed (UndoMove (placedBoard s.boardCopy p.m_color
      (IndicesToString cell.1 cell.2) cell.1 cell.2)).1.m_gameBoard := by
    rw [hs2.1]; exact hwf
  have hO2 := (isOpenCell_iff.mp ho2).2.1
  obtain ⟨u2, _, _⟩ := UndoMove_placedBoard hwf2 q.GetColor hp hv hO2
    (placedBoard (UndoMove (placedBoard s.boardCopy p.m_color
      (IndicesToString cell.1 cell.2) cell.1 cell.2)).1 q.GetColor
      (IndicesToString cell.1 cell.2) cell.1 cell.2) rfl rfl
  rw [e2] at h3
  simp only at h3
  subst h3
  refine ⟨u1, hs2.1, hs2.2.1, by rw [e2], u2, ?_, ?_, ?_⟩
  · simp only [scanStep, e1, e2, ne_eq, not_true, if_false]
    split_ifs <;> rfl
  · show (_ :: s.boardCopy.m_prevMoves).length = _
    rw [List.length_cons, hs.2.1]
  · show (_ :: (UndoMove (placedBoard s.boardCopy p.m_color
      (IndicesToString cell.1 cell.2) cell.1 cell.2)).1.m_prevMoves).length = _
    rw [List.length_cons, hs2.2.1]

set_option maxRecDepth 100000 in
theorem allCells_length : allCells.length = 361 := by decide

/-- C29: `BestMove` works on a copy of the board (the board is an argument that
is never returned). On a reachable board, after any number `k` of cells scanned
the working copy has the grid and the history of the input board; at the next
cell, a successful simulated `PlaceStone` for the mover (history one deeper) is
followed by an `UndoMove` that succeeds and restores grid and history, then the
`PlaceStone` for the next player succeeds (history one deeper) and is followed
by an `UndoMove` that succeeds, leaving the working copy of the next iteration.
So after the scan of all 361 cells grid and history depth equal those of the
input board, whatever move is selected. -/
theorem evaluation_balanced (p q : Player) (b : Board) (hb : Reachable b) :
    (bestMoveScan p b q).boardCopy.m_gameBoard = b.m_gameBoard ∧
    (bestMoveScan p b q).boardCopy.m_prevMoves.length = b.m_prevMoves.length ∧
    allCells.length = 361 ∧
    ∀ (k : Nat) (s : ScanState), s = (allCells.take k).foldl (scanStep p q) (scanStart b) →
      s.boardCopy.m_gameBoard = b.m_gameBoard ∧ s.boardCopy.m_prevMoves = b.m_prevMoves ∧
      ∀ (cell : Int × Int) (b1 b2 b3 : Board), allCells.get? k = some cell →
        b1 = (PlaceStone s.boardCopy p.m_color (IndicesToString cell.1 cell.2)).1 →
        b2 = (UndoMove b1).1 →
        b3 = (PlaceStone b2 q.GetColor (IndicesToString cell.1 cell.2)).1 →
        (PlaceStone s.boardCopy p.m_color (IndicesToString cell.1 cell.2)).2 =
          ReturnCode.SUCCESS →
        b1.m_prevMoves.length = b.m_prevMoves.length + 1 ∧
        (UndoMove b1).2 = ReturnCode.SUCCESS ∧ b2.m_gameBoard = b.m_gameBoard ∧
        b2.m_prevMoves = b.m_prevMoves ∧
        (PlaceStone b2 q.GetColor (IndicesToString cell.1 cell.2)).2 = ReturnCode.SUCCESS ∧
        b3.m_prevMoves.length = b.m_prevMoves.length + 1 ∧
        (UndoMove b3).2 = ReturnCode.SUCCESS ∧
        (scanStep p q s cell).boardCopy = (UndoMove b3).1 := by
  have hwf := Reachable_wf hb
  have hfull : SameGame b (bestMoveScan p b q).boardCopy := by
    unfold bestMoveScan
    exact scan_SameGame hwf allCells (fun _ h => h) (scanStart b) (SameGame_refl b)
  refine ⟨hfull.1, by rw [hfull.2.1], allCells_length, ?_⟩
  intro k s hs
  have hsame : SameGame b s.boardCopy := by
    rw [hs]
    exact scan_SameGame hwf (allCells.take k) (fun _ h => List.mem_of_mem_take h) (scanStart b)
      (SameGame_refl b)
  refine ⟨hsame.1, hsame.2.1, ?_⟩
  intro cell b1 b2 b3 hcell h1 h2 h3 hplace
  have hmem : cell ∈ allCells := List.get?_mem hcell
  obtain ⟨a1, a2, a3, a4, a5, a6, a7, a8⟩ :=
    scanStep_balance (p := p) (q := q) hwf hsame hmem hplace b1 b2 b3 h1 h2 h3
  exact ⟨a7, a1, a2, a3, a4, a8, a5, a6⟩

set_option maxRecDepth 100000 in
theorem evaluation_balanced_witness :
    Reachable contestedBoard ∧
    (BestMove whitePlayer contestedBoard blackPlayer (fun _ => 0)).1.m_bestMove.reason =
      MoveReason.WIN ∧
    (bestMoveScan whitePlayer contestedBoard blackPlayer).boardCopy.m_gameBoard =
      contestedBoard.m_gameBoard ∧
    (bestMoveScan whitePlayer contestedBoard blackPlayer).boardCopy.m_prevMoves.length = 11 :=
  ⟨contestedBoard_reachable,
    by simp only [BestMove_eq, contestedBoard_scan]; rfl,
    (evaluation_balanced whitePlayer blackPlayer contestedBoard contestedBoard_reachable).1,
    (evaluation_balanced whitePlayer blackPlayer contestedBoard
      contestedBoard_reachable).2.1.trans (by rfl)⟩

/-! ## Selection of the best score -/

theorem ComputerMove_ext {m1 m2 : ComputerMove} (h1 : m1.position = m2.position)
    (h2 : m1.evalScore = m2.evalScore) (h3 : m1.color = m2.color)
    (h4 : m1.reason = m2.reason) : m1 = m2 := by
  cases m1
  cases m2
  simp only at h1 h2 h3 h4
  subst h1 h2 h3 h4
  rfl

theorem getD_mem_of_lt {α : Type} (l : List α) (d : α) {i : Nat} (h : i < l.length) :
    l.getD i d ∈ l := by
  rw [List.getD_eq_getElem l d h]
  exact List.getElem_mem h

/-- The facts about the scan that the selection relies on, on a board with a
well-formed grid and at least one cell open to a stone. -/
theorem bestMoveScan_facts (p q : Player) {b : Board} (hwf : WellFormed b.m_gameBoard) :
    (∀ m ∈ (bestMoveScan p b q).topMoves, ∃ cell ∈ allCells, isOpenCell b cell = true ∧
      (m = ourCandidate p b cell ∨ m = theirCandidate p b q cell)) ∧
    (∀ cell ∈ allCells, isOpenCell b cell = true →
      (ourCandidate p b cell).evalScore ≤ (bestMoveScan p b q).ourBest.evalScore ∧
      (theirCandidate p b q cell).evalScore ≤ (bestMoveScan p b q).theirBest.evalScore) ∧
    ((∃ cell ∈ allCells, isOpenCell b cell = true) →
      (bestMoveScan p b q).ourBest ∈ (bestMoveScan p b q).topMoves ∧
      (bestMoveScan p b q).theirBest ∈ (bestMoveScan p b q).topMoves) := by
  unfold bestMoveScan
  refine ⟨?_, ?_, ?_⟩
  · intro m hm
    rcases scan_topMoves hwf allCells (fun _ h => h) (scanStart b) (SameGame_refl b) m hm with
      h | h
    · exact absurd h (List.not_mem_nil _)
    · exact h
  · intro cell hmem ho
    exact scan_best_ge hwf allCells (fun _ h => h) (scanStart b) (SameGame_refl b) cell hmem ho
  · intro hex
    apply scan_best_mem hwf allCells (fun _ h => h) (scanStart b) (SameGame_refl b) DEFAULT_EVAL
    · intro cell hmem ho
      exact candidate_ge p q b hmem ho
    · exact Or.inr ⟨le_refl _, le_refl _, hex⟩

theorem BestMove_fst (p : Player) (b : Board) (q : Player) (rand : Nat → Nat) :
    (BestMove p b q rand).1 =
      (DetermineBest p (bestMoveScan p b q).boardCopy (bestMoveScan p b q).ourBest
        (bestMoveScan p b q).theirBest (bestMoveScan p b q).topMoves rand).1 := by
  simp only [BestMove_eq]

set_option maxRecDepth 100000 in
/-- C25: on `ringBoard` (inner bound 3, a legal cell at I7, the mover's best move
not a win) the only retained candidate is the mover's move at I7 with score 90,
while the move `BestMove` selects has position "J7": it is not one of the
retained candidates, and no retained candidate has its position. -/
theorem best_score_selection_counterexample :
    Reachable ringBoard ∧
    (PlaceStone ringBoard whitePlayer.m_color (IndicesToString 6 8)).2 = ReturnCode.SUCCESS ∧
    (bestMoveScan whitePlayer ringBoard blackPlayer).ourBest.reason ≠ MoveReason.WIN ∧
    (DetermineBest whitePlayer (bestMoveScan whitePlayer ringBoard blackPlayer).boardCopy
      (bestMoveScan whitePlayer ringBoard blackPlayer).ourBest
      (bestMoveScan whitePlayer ringBoard blackPlayer).theirBest
      (bestMoveScan whitePlayer ringBoard blackPlayer).topMoves (fun _ => 0)).2.1 =
      [{ position := ['I', '7'], evalScore := 90, color := 'W',
         reason := MoveReason.BUILD }] ∧
    (BestMove whitePlayer ringBoard blackPlayer (fun _ => 0)).1.m_bestMove.position =
      ['J', '7'] ∧
    (BestMove whitePlayer ringBoard blackPlayer (fun _ => 0)).1.m_bestMove ∉
      (DetermineBest whitePlayer (bestMoveScan whitePlayer ringBoard blackPlayer).boardCopy
        (bestMoveScan whitePlayer ringBoard blackPlayer).ourBest
        (bestMoveScan whitePlayer ringBoard blackPlayer).theirBest
        (bestMoveScan whitePlayer ringBoard blackPlayer).topMoves (fun _ => 0)).2.1 := by
  obtain ⟨s1, s2, s3⟩ := ringBoard_scan
  have hnw : (bestMoveScan whitePlayer ringBoard blackPlayer).ourBest.reason ≠
      MoveReason.WIN := by rw [s1]; decide
  obtain ⟨hi, _⟩ := bestMoveScan_bounds whitePlayer blackPlayer ringBoard
  obtain ⟨best, retained, calls, hret, _, _, hR, _, _, _, hpos, _⟩ :=
    DetermineBest_not_win whitePlayer (bestMoveScan whitePlayer ringBoard blackPlayer).boardCopy
      (bestMoveScan whitePlayer ringBoard blackPlayer).theirBest
      (bestMoveScan whitePlayer ringBoard blackPlayer).topMoves (fun _ => 0) hnw
  have hin : ringBoard.GetInnerBounds = 3 := rfl
  rw [hi, if_pos hin] at hpos
  have hret2 : retained =
      [{ position := ['I', '7'], evalScore := 90, color := 'W',
         reason := MoveReason.BUILD }] := by
    rw [hret, s1, s2, ← s3]
    apply List.filter_congr
    intro it _
    simp
  have hposJ : (BestMove whitePlayer ringBoard blackPlayer (fun _ => 0)).1.m_bestMove.position =
      ['J', '7'] := by
    rw [BestMove_fst, hpos]
    rfl
  refine ⟨ringBoard_reachable, by rfl, hnw, hR.trans hret2, hposJ, ?_⟩
  rw [hR, hret2]
  intro hmem
  rw [List.mem_singleton] at hmem
  rw [hmem] at hposJ
  exact absurd hposJ (by decide)

/-- C25 (amended): on a reachable board with at least one cell where `PlaceStone`
accepts the mover's stone, when the best move found for the mover is not
classified Win, for every value of the random draw the move `BestMove` selects
has score `max(mover-best score, opponent-best score)`, which is at least the
score of every candidate evaluated from either perspective; every retained
candidate has exactly that score and is a candidate of a legal cell; and the
selected move agrees in score and colour with one of the retained candidates,
also in position unless the inner bound is 3, and it is that retained candidate
itself when the outer bound is not 0 and the inner bound is not 3. -/
theorem best_score_selection (p q : Player) (b : Board) (rand : Nat → Nat) (hb : Reachable b)
    (hlegal : ∃ cell ∈ allCells,
      (PlaceStone b p.m_color (IndicesToString cell.1 cell.2)).2 = ReturnCode.SUCCESS)
    (hnw : (bestMoveScan p b q).ourBest.reason ≠ MoveReason.WIN)
    (sel : ComputerMove) (retained : List ComputerMove)
    (hsel : sel = (BestMove p b q rand).1.m_bestMove)
    (hret : retained = (DetermineBest p (bestMoveScan p b q).boardCopy
      (bestMoveScan p b q).ourBest (bestMoveScan p b q).theirBest
      (bestMoveScan p b q).topMoves rand).2.1) :
    sel.evalScore =
      max (bestMoveScan p b q).ourBest.evalScore (bestMoveScan p b q).theirBest.evalScore ∧
    (∀ cell ∈ allCells,
      (PlaceStone b p.m_color (IndicesToString cell.1 cell.2)).2 = ReturnCode.SUCCESS →
      (ourCandidate p b cell).evalScore ≤ sel.evalScore ∧
      (theirCandidate p b q cell).evalScore ≤ sel.evalScore) ∧
    (∀ m ∈ retained, m.evalScore = sel.evalScore ∧ ∃ cell ∈ allCells,
      (PlaceStone b p.m_color (IndicesToString cell.1 cell.2)).2 = ReturnCode.SUCCESS ∧
      (m = ourCandidate p b cell ∨ m = theirCandidate p b q cell)) ∧
    (∃ m ∈ retained, sel.evalScore = m.evalScore ∧ sel.color = m.color ∧
      (b.GetInnerBounds ≠ 3 → sel.position = m.position) ∧
      (b.GetOuterBounds ≠ 0 → b.GetInnerBounds ≠ 3 → sel = m)) := by
  have hwf := Reachable_wf hb
  obtain ⟨f1, f2, f3⟩ := bestMoveScan_facts p q hwf
  obtain ⟨c0, hc0, hs0⟩ := hlegal
  obtain ⟨hmo, hmt⟩ := f3 ⟨c0, hc0, (PlaceStone_label_code b _ hc0).mp hs0⟩
  obtain ⟨hi, ho⟩ := bestMoveScan_bounds p q b
  obtain ⟨best, ret, calls, hret', _, hbest, hR, hscore, hcolor, hr, hpos, _⟩ :=
    DetermineBest_not_win p (bestMoveScan p b q).boardCopy (bestMoveScan p b q).theirBest
      (bestMoveScan p b q).topMoves rand hnw
  rw [hi, ho] at hr
  rw [hi] at hpos
  rw [hR] at hret
  subst hret
  rw [← BestMove_fst, ← hsel] at hscore hcolor hr hpos
  generalize hS : bestMoveScan p b q = S at *
  generalize hc : (if S.ourBest.evalScore > S.theirBest.evalScore then S.ourBest
    else S.theirBest) = chosen at *
  have hchosen_mem : chosen ∈ S.topMoves := by
    rw [← hc]; split_ifs
    · exact hmo
    · exact hmt
  have hchosen_score : chosen.evalScore = max S.ourBest.evalScore S.theirBest.evalScore := by
    rw [← hc]; split_ifs with h
    · rw [max_eq_left (le_of_lt h)]
    · rw [max_eq_right (not_lt.mp h)]
  have hchosen_ret : chosen ∈ retained := by
    rw [hret', List.mem_filter]
    exact ⟨hchosen_mem, by simp⟩
  have hbest_ret : best ∈ retained := by
    rw [hbest]
    split_ifs with hlen
    · exact getD_mem_of_lt retained chosen (Nat.mod_lt _ (by omega))
    · exact hchosen_ret
  have hret_score : ∀ m ∈ retained, m.evalScore = chosen.evalScore := by
    intro m hm
    rw [hret', List.mem_filter] at hm
    simpa using hm.2
  have hsel_score : sel.evalScore = chosen.evalScore := by
    rw [hscore]; exact hret_score best hbest_ret
  refine ⟨hsel_score.trans hchosen_score, ?_, ?_, ?_⟩
  · intro cell hmem hs
    have h := f2 cell hmem ((PlaceStone_label_code b _ hmem).mp hs)
    rw [hsel_score, hchosen_score]
    exact ⟨le_trans h.1 (le_max_left _ _), le_trans h.2 (le_max_right _ _)⟩
  · intro m hm
    refine ⟨(hret_score m hm).trans hsel_score.symm, ?_⟩
    have hm' : m ∈ S.topMoves := by
      rw [hret', List.mem_filter] at hm
      exact hm.1
    obtain ⟨cell, hmem, hopen, hcand⟩ := f1 m hm'
    exact ⟨cell, hmem, (PlaceStone_label_code b _ hmem).mpr hopen, hcand⟩
  · refine ⟨best, hbest_ret, hscore, hcolor, ?_, ?_⟩
    · intro h3
      rw [hpos, if_neg h3]
    · intro h0 h3
      apply ComputerMove_ext
      · rw [hpos, if_neg h3]
      · exact hscore
      · exact hcolor
      · rw [hr, if_neg (not_or.mpr ⟨h0, h3⟩)]

theorem crowdedBoard_reachable : Reachable crowdedBoard :=
  Reachable.setBounds _ _ _ (Reachable.place _ _ _ (Reachable.place _ _ _
    (Reachable.place _ _ _ (Reachable.place _ _ _ (Reachable.place _ _ _
    (Reachable.place _ _ _ (Reachable.place _ _ _
    (Reachable.place _ _ _ Reachable.init))))))))

set_option maxRecDepth 100000 in
theorem crowdedBoard_scan (p q : Player) :
    bestMoveScan p crowdedBoard q = scanStep p q (scanStart crowdedBoard) (9, 9) := by
  rw [bestMoveScan_eq_filter p q (Reachable_wf crowdedBoard_reachable)]
  have e : allCells.filter (isOpenCell crowdedBoard) = [(9, 9)] := by decide
  rw [e, List.foldl_cons, List.foldl_nil]

set_option maxRecDepth 100000 in
theorem best_score_selection_witness :
    Reachable crowdedBoard ∧
    (PlaceStone crowdedBoard whitePlayer.m_color (IndicesToString 9 9)).2 =
      ReturnCode.SUCCESS ∧
    (bestMoveScan whitePlayer crowdedBoard blackPlayer).ourBest.reason ≠ MoveReason.WIN ∧
    (BestMove whitePlayer crowdedBoard blackPlayer (fun _ => 0)).1.m_bestMove.evalScore =
      max (bestMoveScan whitePlayer crowdedBoard blackPlayer).ourBest.evalScore
        (bestMoveScan whitePlayer crowdedBoard blackPlayer).theirBest.evalScore ∧
    ∃ m ∈ (DetermineBest whitePlayer (bestMoveScan whitePlayer crowdedBoard blackPlayer).boardCopy
        (bestMoveScan whitePlayer crowdedBoard blackPlayer).ourBest
        (bestMoveScan whitePlayer crowdedBoard blackPlayer).theirBest
        (bestMoveScan whitePlayer crowdedBoard blackPlayer).topMoves (fun _ => 0)).2.1,
      (BestMove whitePlayer crowdedBoard blackPlayer (fun _ => 0)).1.m_bestMove = m := by
  have h1 : (PlaceStone crowdedBoard whitePlayer.m_color (IndicesToString 9 9)).2 =
      ReturnCode.SUCCESS := by rfl
  have h2 : (bestMoveScan whitePlayer crowdedBoard blackPlayer).ourBest.reason ≠
      MoveReason.WIN := by
    rw [crowdedBoard_scan]
    decide
  have hmem : ((9 : Int), (9 : Int)) ∈ allCells := (mem_allCells _).mpr (by decide)
  obtain ⟨a, _, _, m, hm, _, _, _, hm4⟩ :=
    best_score_selection whitePlayer blackPlayer crowdedBoard (fun _ => 0)
      crowdedBoard_reachable ⟨(9, 9), hmem, h1⟩ h2
      (BestMove whitePlayer crowdedBoard blackPlayer (fun _ => 0)).1.m_bestMove
      (DetermineBest whitePlayer (bestMoveScan whitePlayer crowdedBoard blackPlayer).boardCopy
        (bestMoveScan whitePlayer crowdedBoard blackPlayer).ourBest
        (bestMoveScan whitePlayer crowdedBoard blackPlayer).theirBest
        (bestMoveScan whitePlayer crowdedBoard blackPlayer).topMoves (fun _ => 0)).2.1
      (Eq.refl _) (Eq.refl _)
  have hb0 : crowdedBoard.GetOuterBounds ≠ 0 := by decide
  have hb3 : crowdedBoard.GetInnerBounds ≠ 3 := by decide
  exact ⟨crowdedBoard_reachable, h1, h2, a, m, hm, hm4 hb0 hb3⟩

/-! ## The run count primitive `CountSameStones` -/

theorem takeWhile_length_spec {α : Type} (p : α → Bool) (d : α) (l : List α) :
    (∀ i, i < (l.takeWhile p).length → p (l.getD i d) = true) ∧
      ((l.takeWhile p).length < l.length → p (l.getD (l.takeWhile p).length d) = false) := by
  induction l with
  | nil => simp
  | cons a t ih =>
    by_cases ha : p a = true
    · rw [List.takeWhile_cons_of_pos ha]
      refine ⟨?_, ?_⟩
      · intro i hi
        cases i with
        | zero => simpa using ha
        | succ j =>
          simp only [List.length_cons, Nat.succ_lt_succ_iff] at hi
          simpa using ih.1 j hi
      · intro h
        simp only [List.length_cons, Nat.succ_lt_succ_iff] at h
        simpa using ih.2 h
    · rw [List.takeWhile_cons_of_neg ha]
      refine ⟨by simp, ?_⟩
      intro _
      simpa using ha

/-- C30: a sequence starting with the null piece counts 0 (the start cell is not
counted); the claim as stated would give at least 1. -/
theorem run_count_primitive_counterexample :
    CountSameStones [NULL_PIECE] = 0 ∧ CountSameStones ['O', 'W', 'W'] = 0 ∧
      ¬ (1 ≤ CountSameStones [NULL_PIECE]) := by
  decide

/-- C30 (amended): for a sequence `first :: rest`, `CountSameStones` is 0 when
`first` is the null piece; otherwise it is the length `k ≥ 1` of the longest
prefix whose cells all equal `first`: the cells before index `k` equal `first`,
and the cell at index `k`, when there is one, differs from `first`. -/
theorem run_count_primitive (first : Char) (rest : List Char) :
    (first = NULL_PIECE → CountSameStones (first :: rest) = 0) ∧
    (first ≠ NULL_PIECE →
      ∃ k : Nat, CountSameStones (first :: rest) = (k : Int) ∧ 1 ≤ k ∧
        k ≤ (first :: rest).length ∧
        (∀ i, i < k → (first :: rest).getD i ' ' = first) ∧
        (k < (first :: rest).length → (first :: rest).getD k ' ' ≠ first)) := by
  refine ⟨?_, ?_⟩
  · intro h
    simp [CountSameStones, h]
  · intro h
    have hp : ∀ ch : Char, (!(ch != first || ch == NULL_PIECE)) = decide (ch = first) := by
      intro ch
      by_cases e : ch = first
      · simp [e, h]
      · simp [e]
    have hfun : (fun ch : Char => !(ch != first || ch == NULL_PIECE)) =
        fun ch => decide (ch = first) := funext hp
    have hc : CountSameStones (first :: rest) =
        (((first :: rest).takeWhile (fun ch => decide (ch = first))).length : Int) := by
      simp only [CountSameStones, hfun]
    obtain ⟨h1, h2⟩ := takeWhile_length_spec (fun ch => decide (ch = first)) ' ' (first :: rest)
    refine ⟨_, hc, ?_, (List.takeWhile_sublist _).length_le, ?_, ?_⟩
    · simp [List.takeWhile_cons]
    · intro i hi
      simpa using h1 i hi
    · intro hk
      simpa using h2 hk

/-! ## Rejected placements, and the bounds after an undo -/

/-- C34: whenever `PlaceStone` returns anything other than SUCCESS, the board is
exactly as before the call: grid, bounds, last-move record (position,
winning-line count, captured pairs, remaining-empty count) and history stack. -/
theorem rejected_placement_atomic (b : Board) (a_color : Char) (a_position : List Char)
    (h : (PlaceStone b a_color a_position).2 ≠ ReturnCode.SUCCESS) :
    (PlaceStone b a_color a_position).1 = b ∧
    (PlaceStone b a_color a_position).1.m_gameBoard = b.m_gameBoard ∧
    (PlaceStone b a_color a_position).1.GetInnerBounds = b.GetInnerBounds ∧
    (PlaceStone b a_color a_position).1.GetOuterBounds = b.GetOuterBounds ∧
    (PlaceStone b a_color a_position).1.GetLastPosition = b.GetLastPosition ∧
    (PlaceStone b a_color a_position).1.GetWinInARow = b.GetWinInARow ∧
    (PlaceStone b a_color a_position).1.GetCapturedPairs = b.GetCapturedPairs ∧
    (PlaceStone b a_color a_position).1.GetIntersectLeft = b.GetIntersectLeft ∧
    (PlaceStone b a_color a_position).1.m_prevMoves = b.m_prevMoves := by
  rw [PlaceStone_failure h]
  exact ⟨rfl, rfl, rfl, rfl, rfl, rfl, rfl, rfl, rfl⟩

theorem rejected_placement_atomic_witness :
    (PlaceStone bracketBoard 'W' ['K', '1', '0']).2 = ReturnCode.SPACE_OCCUPIED ∧
    (PlaceStone bracketBoard 'W' ['K', '1', '0']).1 = bracketBoard :=
  ⟨by rfl, (rejected_placement_atomic bracketBoard 'W' ['K', '1', '0'] (by decide)).1⟩

theorem applyOp_boundsLog (b : Board) (log : List (Int × Int)) (op : Op)
    (h : b.m_prevMoves.map (fun mv => (mv.innerBounds, mv.outerBounds)) = log) :
    (applyOp b op).1.m_prevMoves.map (fun mv => (mv.innerBounds, mv.outerBounds)) =
      boundsLogAfter log b op (applyOp b op).2 := by
  cases op with
  | place m pos =>
    simp only [applyOp]
    by_cases hs : (PlaceStone b m pos).2 = ReturnCode.SUCCESS
    · obtain ⟨r, c, _, _, _, _, _, _, e⟩ := PlaceStone_success hs
      rw [hs, e]
      simp only [boundsLogAfter, ← h]
      rfl
    · rw [PlaceStone_failure hs]
      cases hc : (PlaceStone b m pos).2 <;> simp_all [boundsLogAfter]
  | undo =>
    simp only [applyOp]
    cases hst : b.m_prevMoves with
    | nil =>
      rw [UndoMove_nil hst]
      simp [boundsLogAfter, ← h, hst]
    | cons top rest =>
      obtain ⟨h1, h2⟩ := UndoMove_cons hst
      rw [h1, h2]
      simp [boundsLogAfter, ← h, hst]
  | setBounds i o =>
    simp only [applyOp, SetBounds_stack, h]
    cases hc : (SetBounds b i o).2 <;> rfl
  | setBoard g =>
    simp only [applyOp]
    by_cases hs : (SetBoard b g).2 = ReturnCode.SUCCESS
    · rw [SetBoard_success_stack hs, hs]
      rfl
    · rw [SetBoard_failure hs]
      cases hc : (SetBoard b g).2 <;> simp_all [boundsLogAfter]

theorem runOpsLog_inv (ops : List Op) :
    ∀ (b : Board) (log : List (Int × Int)),
      b.m_prevMoves.map (fun mv => (mv.innerBounds, mv.outerBounds)) = log →
      (runOpsLog b log ops).1.m_prevMoves.map (fun mv => (mv.innerBounds, mv.outerBounds)) =
        (runOpsLog b log ops).2 := by
  induction ops with
  | nil => intro b log h; exact h
  | cons op rest ih =>
    intro b log h
    exact ih _ _ (applyOp_boundsLog b log op h)

theorem UndoMove_bounds {b : Board} {top : Move} {rest : List Move}
    (h : b.m_prevMoves = top :: rest) :
    (UndoMove b).1.GetInnerBounds = top.innerBounds ∧
      (UndoMove b).1.GetOuterBounds = top.outerBounds := by
  unfold UndoMove
  rw [h]
  exact ⟨rfl, rfl⟩

/-- C40: after any run of public calls from the constructed board, a successful
`UndoMove` leaves `GetInnerBounds()` and `GetOuterBounds()` equal to the bounds
that were in force when the undone stone (the newest placement not yet undone)
was placed; `SetBounds` calls made since that placement are discarded. -/
theorem undo_rewinds_bounds (ops : List Op) (b : Board) (log : List (Int × Int))
    (hrun : runOpsLog Board.init [] ops = (b, log))
    (hundo : (UndoMove b).2 = ReturnCode.SUCCESS) :
    ∃ (i o : Int) (rest : List (Int × Int)), log = (i, o) :: rest ∧
      (UndoMove b).1.GetInnerBounds = i ∧ (UndoMove b).1.GetOuterBounds = o := by
  have hinv := runOpsLog_inv ops Board.init [] rfl
  rw [hrun] at hinv
  simp only at hinv
  cases hst : b.m_prevMoves with
  | nil =>
    rw [(UndoMove_nil hst)] at hundo
    exact absurd hundo (by simp)
  | cons top rest =>
    obtain ⟨h1, h2⟩ := UndoMove_bounds hst
    rw [hst, List.map_cons] at hinv
    exact ⟨top.innerBounds, top.outerBounds,
      rest.map (fun mv => (mv.innerBounds, mv.outerBounds)), hinv.symm, h1, h2⟩

theorem undo_rewinds_bounds_witness :
    runOpsLog Board.init [] [Op.place 'W' ['J', '1', '0'], Op.setBounds 3 19] =
      ((SetBounds (PlaceStone Board.init 'W' ['J', '1', '0']).1 3 19).1, [(0, 19)]) ∧
    (SetBounds (PlaceStone Board.init 'W' ['J', '1', '0']).1 3 19).1.GetInnerBounds = 3 ∧
    (UndoMove (SetBounds (PlaceStone Board.init 'W' ['J', '1', '0']).1 3 19).1).2 =
      ReturnCode.SUCCESS ∧
    ∃ (i o : Int) (rest : List (Int × Int)), [((0 : Int), (19 : Int))] = (i, o) :: rest ∧
      (UndoMove (SetBounds (PlaceStone Board.init 'W' ['J', '1', '0']).1 3 19).1).1.GetInnerBounds
        = i ∧
      (UndoMove (SetBounds (PlaceStone Board.init 'W' ['J', '1', '0']).1 3 19).1).1.GetOuterBounds
        = o :=
  ⟨by rfl, by rfl, by rfl,
    undo_rewinds_bounds [Op.place 'W' ['J', '1', '0'], Op.setBounds 3 19] _ _ (by rfl)
      (by rfl)⟩

/-! ## The board after a successful `SetBoard` -/

theorem count_eq_filter_range (l : List Char) (x : Char) :
    ((List.range l.length).filter (fun (c : Nat) => l.getD c NULL_PIECE == x)).length =
      l.count x := by
  induction l with
  | nil => rfl
  | cons a t ih =>
    have hf : ((fun (c : Nat) => (a :: t).getD c NULL_PIECE == x) ∘ Nat.succ) =
        fun (c : Nat) => t.getD c NULL_PIECE == x := by
      funext c
      simp
    rw [List.length_cons, List.range_succ_eq_map, List.filter_cons, List.filter_map, hf,
      List.count_cons]
    simp only [List.getD_cons_zero]
    by_cases h : a = x
    · rw [if_pos (by simpa using h), if_pos (by simpa using h), List.length_cons,
        List.length_map, ih]
    · rw [if_neg (by simpa using h), if_neg (by simpa using h), List.length_map, ih]
      rfl

theorem emptyCells_length {g : Grid} (hg : WellFormed g) :
    ((emptyCells g).length : Int) = countEmpty g := by
  obtain ⟨hlen, hrows⟩ := hg
  have hrow : ∀ (r : Nat), r < 19 →
      (((List.range 19).map (fun (column : Nat) => ((r : Int), (column : Int)))).filter
        (fun p => getCell g p.1 p.2 == NULL_PIECE)).length = (g.getD r []).count NULL_PIECE := by
    intro r hr
    have hl : (g.getD r []).length = 19 := by
      apply hrows
      rw [List.getD_eq_getElem g [] (by omega)]
      exact List.getElem_mem _
    rw [List.filter_map, List.length_map, ← count_eq_filter_range, hl]
    congr 1
  have hgmap : g = (List.range 19).map (fun (r : Nat) => g.getD r []) := by
    apply List.ext_getElem
    · simp [hlen]
    · intro i h1 h2
      simp [List.getElem?_eq_getElem h1]
  have e19 : BOARD_SIZE.toNat = 19 := rfl
  have hsum : (emptyCells g).length =
      ((List.range 19).map (fun (r : Nat) => (g.getD r []).count NULL_PIECE)).sum := by
    unfold emptyCells allCells
    rw [e19, List.filter_flatMap, List.length_flatMap]
    congr 1
    apply List.map_congr_left
    intro r hr
    exact hrow r (List.mem_range.mp hr)
  have hcount : countEmpty g =
      ((((List.range 19).map (fun (r : Nat) => (g.getD r []).count NULL_PIECE)).sum : Nat) :
        Int) := by
    unfold countEmpty
    conv_lhs => rw [hgmap]
    rw [List.map_map]
    rfl
  rw [hsum, hcount]

/-- C33: when `SetBoard(g)` returns SUCCESS, the grid equals `g`,
`GetIntersectLeft()` is the number of cells of `g` holding the null piece,
`GetWinInARow()` and `GetCapturedPairs()` are 0, `GetLastPosition()` is the empty
default, the history is empty (an immediate `UndoMove` returns NO_PREV_MOVES),
and the inner and outer bounds are those of before the call. -/
theorem setBoard_success_postcondition (b : Board) (g : Grid)
    (h : (SetBoard b g).2 = ReturnCode.SUCCESS) :
    (SetBoard b g).1.m_gameBoard = g ∧
    (SetBoard b g).1.GetIntersectLeft = ((emptyCells g).length : Int) ∧
    (SetBoard b g).1.GetIntersectLeft = countEmpty g ∧
    (∀ p : Int × Int, p ∈ emptyCells g ↔
      (IsValidIndex p.1 p.2 = true ∧ getCell g p.1 p.2 = NULL_PIECE)) ∧
    (SetBoard b g).1.GetWinInARow = 0 ∧
    (SetBoard b g).1.GetCapturedPairs = 0 ∧
    (SetBoard b g).1.GetLastPosition = DEFAULT_LAST_POSITION ∧
    DEFAULT_LAST_POSITION = [] ∧
    (SetBoard b g).1.m_prevMoves = [] ∧
    (UndoMove (SetBoard b g).1).2 = ReturnCode.NO_PREV_MOVES ∧
    (SetBoard b g).1.GetInnerBounds = b.GetInnerBounds ∧
    (SetBoard b g).1.GetOuterBounds = b.GetOuterBounds := by
  have hmem : ∀ p : Int × Int, p ∈ emptyCells g ↔
      (IsValidIndex p.1 p.2 = true ∧ getCell g p.1 p.2 = NULL_PIECE) := by
    intro p
    simp only [emptyCells, List.mem_filter, mem_allCells, beq_iff_eq]
  by_cases hwf : WellFormed g
  · have e := SetBoard_of_wf b hwf
    cases hsc : setBoardScan g allCells 0 with
    | none =>
      simp only [hsc] at e
      rw [e] at h
      exact absurd h (by simp)
    | some n =>
      simp only [hsc] at e
      by_cases hn : n = 0
      · rw [if_pos hn] at e
        rw [e] at h
        exact absurd h (by simp)
      · rw [if_neg hn] at e
        have hcount := setBoardScan_some hsc
        rw [zero_add] at hcount
        have hil : (SetBoard b g).1.GetIntersectLeft = ((emptyCells g).length : Int) := by
          rw [e]
          exact hcount
        refine ⟨by rw [e], hil, hil.trans (emptyCells_length hwf), hmem, by rw [e]; rfl,
          by rw [e]; rfl, by rw [e]; rfl, rfl, by rw [e], ?_, by rw [e]; rfl, by rw [e]; rfl⟩
        rw [e]
        rfl
  · have e := SetBoard_of_not_wf b hwf
    rw [e] at h
    exact absurd h (by simp)

set_option maxRecDepth 100000 in
theorem setBoard_success_postcondition_witness :
    (SetBoard wonBoard bracketBoard.m_gameBoard).2 = ReturnCode.SUCCESS ∧
    (SetBoard wonBoard bracketBoard.m_gameBoard).1.GetIntersectLeft = 358 ∧
    (SetBoard wonBoard bracketBoard.m_gameBoard).1.m_prevMoves = [] := by
  have h : (SetBoard wonBoard bracketBoard.m_gameBoard).2 = ReturnCode.SUCCESS := by decide
  have hp := setBoard_success_postcondition wonBoard bracketBoard.m_gameBoard h
  exact ⟨h, hp.2.2.1.trans (by rfl), hp.2.2.2.2.2.2.2.2.1⟩

/-! ## The directional scan `ColorSeq` -/

theorem filter_range_prefix (P : Nat → Bool) (hdown : ∀ j k, j ≤ k → P k = true → P j = true)
    (N : Nat) : ∀ k, k < N → (P k = true ↔ k < ((List.range N).filter P).length) := by
  induction N with
  | zero => intro k hk; omega
  | succ N ih =>
    intro k hk
    rw [List.range_succ, List.filter_append, List.length_append]
    have hle : ((List.range N).filter P).length ≤ N := by
      have := List.length_filter_le P (List.range N)
      simpa using this
    by_cases hN : P N = true
    · have hall : ((List.range N).filter P).length = N := by
        cases N with
        | zero => rfl
        | succ M =>
          have := (ih M (by omega)).mp (hdown M (M + 1) (by omega) hN)
          omega
      simp only [List.filter_cons, hN, if_true, List.filter_nil, List.length_singleton, hall]
      constructor
      · intro _; omega
      · intro _; exact hdown k N (by omega) hN
    · simp only [List.filter_cons, hN, Bool.false_eq_true, if_false, List.filter_nil,
        List.length_nil, add_zero]
      by_cases hkN : k = N
      · subst hkN
        constructor
        · intro h; exact absurd h hN
        · intro h; omega
      · exact ih k (by omega)

theorem offsetPos_invalid_far {r c : Int} {d : Nat} (hd : d < 8)
    (hrc : IsValidIndex r c = true) {k : Int} (hk : 19 ≤ k) :
    IsValidIndex (offsetPos r c d k).1 (offsetPos r c d k).2 = false := by
  simp only [IsValidIndex, BOARD_SIZE, Bool.and_eq_true, decide_eq_true_eq] at hrc
  have e : ∀ x y : Int, IsValidIndex x y = false ↔ ¬ (0 ≤ x ∧ x < 19 ∧ 0 ≤ y ∧ y < 19) := by
    intro x y
    simp only [IsValidIndex, BOARD_SIZE, ← Bool.not_eq_true, Bool.and_eq_true, decide_eq_true_eq]
    tauto
  rw [e]
  interval_cases d <;> simp [offsetPos, ROW_DELTA, COLUMN_DELTA] <;> omega

theorem rayLength_spec {r c : Int} {d : Nat} (hd : d < 8) (hrc : IsValidIndex r c = true)
    (k : Nat) :
    IsValidIndex (offsetPos r c d (k : Int)).1 (offsetPos r c d (k : Int)).2 = true ↔
      k < rayLength r c d := by
  have hdown : ∀ j k : Nat, j ≤ k →
      IsValidIndex (offsetPos r c d (k : Int)).1 (offsetPos r c d (k : Int)).2 = true →
      IsValidIndex (offsetPos r c d (j : Int)).1 (offsetPos r c d (j : Int)).2 = true := by
    intro j k hjk hk
    exact offsetPos_valid_between hrc hk (by omega) (by omega)
  have e19 : BOARD_SIZE.toNat = 19 := rfl
  by_cases hk : k < 19
  · unfold rayLength
    rw [e19]
    exact filter_range_prefix
      (fun (k : Nat) => IsValidIndex (offsetPos r c d (k : Int)).1 (offsetPos r c d (k : Int)).2)
      hdown 19 k hk
  · have h1 := offsetPos_invalid_far hd hrc (k := (k : Int)) (by omega)
    have h2 : rayLength r c d ≤ 19 := by
      unfold rayLength
      have := List.length_filter_le (fun (k : Nat) =>
        IsValidIndex (offsetPos r c d (k : Int)).1 (offsetPos r c d (k : Int)).2)
        (List.range BOARD_SIZE.toNat)
      rw [e19] at this ⊢
      simpa using this
    rw [h1]
    constructor
    · intro h; exact absurd h (by decide)
    · intro h; omega

theorem colorSeqFrom_length (g : Grid) {r c : Int} {d : Nat} (hd : d < 8)
    (hrc : IsValidIndex r c = true) (n : Nat) :
    (colorSeqFrom g r c d 0 n).length = min n (rayLength r c d) := by
  have hle := colorSeqFrom_length_le g r c d 0 n
  have h1 : ∀ i, i < n → i < rayLength r c d → i < (colorSeqFrom g r c d 0 n).length := by
    intro i hin hiL
    have hv : ∀ k, k ≤ i → IsValidIndex (offsetPos r c d ((0 + k : Nat) : Int)).1
        (offsetPos r c d ((0 + k : Nat) : Int)).2 = true := by
      intro k hk
      rw [Nat.zero_add]
      exact (rayLength_spec hd hrc k).mpr (by omega)
    have h := colorSeqFrom_getElem?_of_valid (g := g) hv hin
    by_contra hcon
    rw [List.getElem?_eq_none (by omega)] at h
    exact absurd h (by simp)
  have h2 : ∀ i, i < (colorSeqFrom g r c d 0 n).length → i < rayLength r c d := by
    intro i hi
    have h := colorSeqFrom_getElem? (List.getElem?_eq_getElem hi)
    rw [Nat.zero_add] at h
    exact (rayLength_spec hd hrc i).mp h.1
  rcases Nat.lt_or_ge (colorSeqFrom g r c d 0 n).length (min n (rayLength r c d)) with h | h
  · have := h1 (colorSeqFrom g r c d 0 n).length (by omega) (by omega)
    omega
  · rcases Nat.eq_or_lt_of_le h with h' | h'
    · exact h'.symm
    · exfalso
      have hm : min n (rayLength r c d) < rayLength r c d := by
        have := h2 (min n (rayLength r c d)) h'
        exact this
      omega

/-- C31: for every on-board cell `(r, c)` and every `n` (`n.toNat` is `n` for
`n ≥ 0`), `ColorSeq(n, r, c)` returns exactly 8 sequences, one per direction in
the order N, NE, E, SE, S, SW, W, NW (row + 1 is north, column + 1 is east);
the sequence of direction `d` has length `min(n, rayLength)`, where `rayLength`
counts the on-board cells of the ray from `(r, c)` inclusive (the steps `k` with
an on-board cell are exactly `k < rayLength`), and its `k`-th element is the
grid cell at `(r + k * ROW_DELTA[d], c + k * COLUMN_DELTA[d])`; direction
`d + 4` is the exact opposite of direction `d`. The function only reads the
grid. -/
theorem directional_scan (g : Grid) (n r c : Int) (hrc : IsValidIndex r c = true) :
    (ColorSeq g n r c).length = 8 ∧
    (∀ d : Nat, d < 8 → ∃ s : List Char, (ColorSeq g n r c)[d]? = some s ∧
      s.length = min n.toNat (rayLength r c d) ∧
      ∀ k : Nat, k < s.length →
        IsValidIndex (r + k * ROW_DELTA.getD d 0) (c + k * COLUMN_DELTA.getD d 0) = true ∧
        s[k]? = some (getCell g (r + k * ROW_DELTA.getD d 0) (c + k * COLUMN_DELTA.getD d 0))) ∧
    (∀ d k : Nat, d < 8 →
      (IsValidIndex (r + k * ROW_DELTA.getD d 0) (c + k * COLUMN_DELTA.getD d 0) = true ↔
        k < rayLength r c d)) ∧
    ROW_DELTA.zip COLUMN_DELTA =
      [(1, 0), (1, 1), (0, 1), (-1, 1), (-1, 0), (-1, -1), (0, -1), (1, -1)] ∧
    (∀ d : Nat, d < 4 → ROW_DELTA.getD (d + 4) 0 = - ROW_DELTA.getD d 0 ∧
      COLUMN_DELTA.getD (d + 4) 0 = - COLUMN_DELTA.getD d 0) := by
  have hpos : ∀ (d k : Nat), (r + k * ROW_DELTA.getD d 0, c + k * COLUMN_DELTA.getD d 0) =
      offsetPos r c d (k : Int) := by
    intro d k
    simp only [offsetPos, mul_comm]
  have hfst : ∀ (d k : Nat), r + k * ROW_DELTA.getD d 0 = (offsetPos r c d (k : Int)).1 :=
    fun d k => congrArg Prod.fst (hpos d k)
  have hsnd : ∀ (d k : Nat), c + k * COLUMN_DELTA.getD d 0 = (offsetPos r c d (k : Int)).2 :=
    fun d k => congrArg Prod.snd (hpos d k)
  refine ⟨ColorSeq_length g n r c, ?_, ?_, by decide, ?_⟩
  · intro d hd
    refine ⟨colorSeqFrom g r c d 0 n.toNat, ColorSeq_getElem?_lt hd,
      colorSeqFrom_length g hd hrc n.toNat, ?_⟩
    intro k hk
    have h := colorSeqFrom_getElem? (List.getElem?_eq_getElem hk)
    rw [Nat.zero_add] at h
    rw [hfst, hsnd]
    exact ⟨h.1, by rw [List.getElem?_eq_getElem hk, h.2]⟩
  · intro d k hd
    rw [hfst, hsnd]
    exact rayLength_spec hd hrc k
  · intro d hd
    interval_cases d <;> decide

theorem directional_scan_witness :
    IsValidIndex 0 17 = true ∧
    ColorSeq bracketBoard.m_gameBoard 5 9 9 =
      [['O', 'O', 'O', 'O', 'O'], ['O', 'O', 'O', 'O', 'O'], ['O', 'B', 'B', 'W', 'O'],
        ['O', 'O', 'O', 'O', 'O'], ['O', 'O', 'O', 'O', 'O'], ['O', 'O', 'O', 'O', 'O'],
        ['O', 'O', 'O', 'O', 'O'], ['O', 'O', 'O', 'O', 'O']] ∧
    (ColorSeq bracketBoard.m_gameBoard 5 0 17).map List.length = [5, 2, 2, 1, 1, 1, 5, 5] ∧
    (ColorSeq bracketBoard.m_gameBoard 5 0 17).length = 8 :=
  ⟨by rfl, by rfl, by rfl, (directional_scan bracketBoard.m_gameBoard 5 0 17 (by rfl)).1⟩

/-! ## The n-in-a-row count in closed form -/

theorem runLength_spec (g : Grid) (r c : Int) (d n : Nat) :
    runLength g r c d n ≤ n ∧
    (∀ k, k < runLength g r c d n →
      IsValidIndex (offsetPos r c d (k : Int)).1 (offsetPos r c d (k : Int)).2 = true ∧
        getCell g (offsetPos r c d (k : Int)).1 (offsetPos r c d (k : Int)).2 =
          getCell g r c) ∧
    (runLength g r c d n < n →
      ¬ (IsValidIndex (offsetPos r c d (runLength g r c d n : Int)).1
          (offsetPos r c d (runLength g r c d n : Int)).2 = true ∧
        getCell g (offsetPos r c d (runLength g r c d n : Int)).1
          (offsetPos r c d (runLength g r c d n : Int)).2 = getCell g r c)) := by
  have hle : runLength g r c d n ≤ n := by
    have := (List.takeWhile_sublist (fun (k : Nat) =>
      IsValidIndex (offsetPos r c d (k : Int)).1 (offsetPos r c d (k : Int)).2 &&
        getCell g (offsetPos r c d (k : Int)).1 (offsetPos r c d (k : Int)).2 ==
          getCell g r c) (l := List.range n)).length_le
    simpa [runLength] using this
  obtain ⟨h1, h2⟩ := takeWhile_length_spec (fun (k : Nat) =>
      IsValidIndex (offsetPos r c d (k : Int)).1 (offsetPos r c d (k : Int)).2 &&
        getCell g (offsetPos r c d (k : Int)).1 (offsetPos r c d (k : Int)).2 ==
          getCell g r c) 0 (List.range n)
  have hget : ∀ i, i < n → (List.range n).getD i 0 = i := by
    intro i hi
    rw [List.getD_eq_getElem _ _ (by simpa using hi)]
    simp
  refine ⟨hle, ?_, ?_⟩
  · intro k hk
    have := h1 k hk
    rw [hget k (by unfold runLength at hk hle; omega)] at this
    simpa using this
  · intro hlt
    have := h2 (by simpa [runLength] using hlt)
    rw [show ((List.range n).takeWhile (fun (k : Nat) =>
      IsValidIndex (offsetPos r c d (k : Int)).1 (offsetPos r c d (k : Int)).2 &&
        getCell g (offsetPos r c d (k : Int)).1 (offsetPos r c d (k : Int)).2 ==
          getCell g r c)).length = runLength g r c d n from rfl, hget _ hlt] at this
    simpa using this

theorem runLength_pos (g : Grid) {r c : Int} (d : Nat) {n : Nat} (hn : 1 ≤ n)
    (hrc : IsValidIndex r c = true) : 1 ≤ runLength g r c d n := by
  obtain ⟨_, _, h3⟩ := runLength_spec g r c d n
  by_contra hcon
  have h0 : runLength g r c d n = 0 := by omega
  apply h3 (by omega)
  rw [h0, offsetPos_zero]
  exact ⟨hrc, rfl⟩

theorem CountSameStones_eq_runLength (g : Grid) {r c : Int} (d : Nat) {n : Nat} (hn : 1 ≤ n)
    (hrc : IsValidIndex r c = true) (hX : getCell g r c ≠ NULL_PIECE) :
    CountSameStones (colorSeqFrom g r c d 0 n) = (runLength g r c d n : Int) := by
  obtain ⟨h1, h2, h3⟩ := runLength_spec g r c d n
  apply CountSameStones_colorSeqFrom hX (runLength_pos g d hn hrc) h1 h2
  intro hlt hv hcell
  exact h3 hlt ⟨hv, hcell⟩

theorem CountSameStones_of_empty (g : Grid) {r c : Int} (d n : Nat)
    (hO : getCell g r c = NULL_PIECE) : CountSameStones (colorSeqFrom g r c d 0 n) = 0 := by
  cases hs : colorSeqFrom g r c d 0 n with
  | nil => rfl
  | cons v t =>
    have h0 : (colorSeqFrom g r c d 0 n)[0]? = some v := by rw [hs]; simp
    have h := colorSeqFrom_getElem? h0
    rw [Nat.zero_add, offsetPos_zero] at h
    have hv : v = NULL_PIECE := h.2.trans hO
    subst hv
    simp [CountSameStones]

theorem CountSameStones_le_length (s : List Char) : CountSameStones s ≤ (s.length : Int) := by
  unfold CountSameStones
  split
  · simp
  · exact Int.ofNat_le.mpr (List.takeWhile_sublist _).length_le

theorem laneScore_zero (n : Int) : laneScore n 0 = 0 := by
  simp [laneScore]

theorem laneScore_bounds {n : Nat} (hn : 2 ≤ n) {count : Int} (h0 : 0 ≤ count)
    (h1 : count ≤ 2 * n) : 0 ≤ laneScore n count ∧ laneScore n count ≤ 2 := by
  unfold laneScore
  have hx : ∀ x : Int, 0 ≤ x → x ≤ 2 * n → 0 ≤ Int.tdiv x n ∧ Int.tdiv x n ≤ 2 := by
    intro x hx0 hx1
    rw [Int.tdiv_eq_ediv hx0 (by omega)]
    constructor
    · exact Int.ediv_nonneg hx0 (by omega)
    · have : x / (n : Int) < 3 := Int.ediv_lt_of_lt_mul (by omega) (by omega)
      omega
  split_ifs with h
  · exact hx _ (by omega) (by omega)
  · exact hx _ h0 h1

theorem laneScore_eq_laneTerm {n : Nat} (hn : 2 ≤ n) {a b : Nat} (ha : 1 ≤ a) (han : a ≤ n)
    (hb : 1 ≤ b) (hbn : b ≤ n) : laneScore n ((a : Int) + (b : Int)) = laneTerm n a b := by
  have h := @laneScore_eq n hn (a + b) (by omega) (by omega)
  rw [Nat.cast_add] at h
  rw [h]
  unfold laneTerm
  split_ifs <;> first | rfl | (exfalso; omega)

theorem GetNumNInARow_runs (g : Grid) {n : Nat} (hn : 2 ≤ n) {r c : Int}
    (hrc : IsValidIndex r c = true) (hX : getCell g r c ≠ NULL_PIECE) :
    GetNumNInARow g (n : Int) r c =
      laneTerm n (runLength g r c 0 n) (runLength g r c 4 n) +
        laneTerm n (runLength g r c 1 n) (runLength g r c 5 n) +
        laneTerm n (runLength g r c 2 n) (runLength g r c 6 n) +
        laneTerm n (runLength g r c 3 n) (runLength g r c 7 n) := by
  have h1 : 1 ≤ n := by omega
  have hl : ∀ d e : Nat, laneScore n (CountSameStones (colorSeqFrom g r c d 0 n) +
      CountSameStones (colorSeqFrom g r c e 0 n)) =
      laneTerm n (runLength g r c d n) (runLength g r c e n) := by
    intro d e
    rw [CountSameStones_eq_runLength g d h1 hrc hX, CountSameStones_eq_runLength g e h1 hrc hX]
    exact laneScore_eq_laneTerm hn (runLength_pos g d h1 hrc) (runLength_spec g r c d n).1
      (runLength_pos g e h1 hrc) (runLength_spec g r c e n).1
  rw [GetNumNInARow_eq g hn r c, hl, hl, hl, hl]

theorem GetNumNInARow_of_empty (g : Grid) (n : Int) {r c : Int}
    (hO : getCell g r c = NULL_PIECE) : GetNumNInARow g n r c = 0 := by
  by_cases hn : n < 2
  · simp [GetNumNInARow, hn]
  · obtain ⟨k, rfl⟩ := Int.eq_ofNat_of_zero_le (by omega : 0 ≤ n)
    rw [GetNumNInARow_eq g (by omega) r c]
    simp only [CountSameStones_of_empty g _ _ hO, add_zero, laneScore_zero]

theorem GetNumNInARow_of_invalid (g : Grid) (n : Int) {r c : Int}
    (h : ¬ IsValidIndex r c = true) : GetNumNInARow g n r c = 0 := by
  by_cases hn : n < 2
  · simp [GetNumNInARow, hn]
  · obtain ⟨k, rfl⟩ := Int.eq_ofNat_of_zero_le (by omega : 0 ≤ n)
    have h0 : ∀ d : Nat, d < 8 → colorSeqFrom g r c d 0 k = [] := by
      intro d hd
      have e := ColorSeq_getD g (k : Int) r c hd
      rw [ColorSeq_invalid g (k : Int) h, Int.toNat_ofNat] at e
      rw [← e]
      interval_cases d <;> rfl
    rw [GetNumNInARow_eq g (by omega) r c]
    simp only [h0 0 (by decide), h0 1 (by decide), h0 2 (by decide), h0 3 (by decide),
      h0 4 (by decide), h0 5 (by decide), h0 6 (by decide), h0 7 (by decide)]
    have e : CountSameStones [] = 0 := rfl
    simp only [e, add_zero, laneScore_zero]

theorem GetNumNInARow_le (g : Grid) (n r c : Int) : GetNumNInARow g n r c ≤ 8 := by
  by_cases hn : n < 2
  · simp [GetNumNInARow, hn]
  · obtain ⟨k, rfl⟩ := Int.eq_ofNat_of_zero_le (by omega : 0 ≤ n)
    have hk : 2 ≤ k := by omega
    have hb : ∀ d e : Nat, laneScore k (CountSameStones (colorSeqFrom g r c d 0 k) +
        CountSameStones (colorSeqFrom g r c e 0 k)) ≤ 2 := by
      intro d e
      have a0 := CountSameStones_nonneg (colorSeqFrom g r c d 0 k)
      have b0 := CountSameStones_nonneg (colorSeqFrom g r c e 0 k)
      have a1 := CountSameStones_le_length (colorSeqFrom g r c d 0 k)
      have b1 := CountSameStones_le_length (colorSeqFrom g r c e 0 k)
      have a2 := colorSeqFrom_length_le g r c d 0 k
      have b2 := colorSeqFrom_length_le g r c e 0 k
      exact (laneScore_bounds hk (by omega) (by omega)).2
    rw [GetNumNInARow_eq g hk r c]
    have := hb 0 4
    have := hb 1 5
    have := hb 2 6
    have := hb 3 7
    omega

/-- C32: for every grid and cell `(r, c)`: for `n ≥ 2` and an on-board occupied
cell, `GetNumNInARow(n, r, c)` is the sum over the 4 lanes of `t(a, b)` with `a`
and `b` the same-colour run lengths from the cell, inclusive, in the lane's two
opposite directions `d` and `d + 4`, capped at `n` (each in `[1, n]`), where
`t(a, b)` is 0 if `a + b - 1 < n`, 2 if `a = b = n`, and 1 otherwise; the count
is 0 for a cell holding the null piece and for every `n < 2`, and it always
lies in `[0, 8]`. -/
theorem n_in_a_row_closed_form (g : Grid) (r c : Int) :
    (∀ n : Nat, 2 ≤ n → IsValidIndex r c = true → getCell g r c ≠ NULL_PIECE →
      GetNumNInARow g (n : Int) r c =
        ((List.range 4).map (fun d =>
          laneTerm n (runLength g r c d n) (runLength g r c (d + 4) n))).sum ∧
      ∀ d : Nat, 1 ≤ runLength g r c d n ∧ runLength g r c d n ≤ n) ∧
    (∀ n a b : Nat, laneTerm n a b =
      if (a : Int) + (b : Int) - 1 < (n : Int) then 0 else if a = n ∧ b = n then 2 else 1) ∧
    (∀ n : Int, getCell g r c = NULL_PIECE → GetNumNInARow g n r c = 0) ∧
    (∀ n : Int, n < 2 → GetNumNInARow g n r c = 0) ∧
    (∀ n : Int, 0 ≤ GetNumNInARow g n r c ∧ GetNumNInARow g n r c ≤ 8) := by
  refine ⟨?_, fun n a b => rfl, fun n hO => GetNumNInARow_of_empty g n hO, ?_,
    fun n => ⟨GetNumNInARow_nonneg g n r c, GetNumNInARow_le g n r c⟩⟩
  · intro n hn hrc hX
    refine ⟨?_, fun d => ⟨runLength_pos g d (by omega) hrc, (runLength_spec g r c d n).1⟩⟩
    rw [GetNumNInARow_runs g hn hrc hX]
    have e4 : List.range 4 = [0, 1, 2, 3] := by decide
    simp only [e4, List.map_cons, List.map_nil, List.sum_cons, List.sum_nil, Nat.reduceAdd,
      zero_add, add_zero]
    ring
  · intro n hn
    simp [GetNumNInARow, hn]

theorem runLength_min (g : Grid) (r c : Int) (d : Nat) {n m : Nat} (hnm : n ≤ m) :
    runLength g r c d n = min n (runLength g r c d m) := by
  obtain ⟨a1, a2, a3⟩ := runLength_spec g r c d n
  obtain ⟨b1, b2, b3⟩ := runLength_spec g r c d m
  rcases Nat.lt_or_ge (runLength g r c d m) n with hlt | hge
  · rw [Nat.min_eq_right (le_of_lt hlt)]
    rcases Nat.lt_trichotomy (runLength g r c d n) (runLength g r c d m) with h | h | h
    · exact absurd (b2 _ h) (a3 (by omega))
    · exact h
    · exact absurd (a2 _ h) (b3 (by omega))
  · rw [Nat.min_eq_left hge]
    by_contra hne
    have hlt : runLength g r c d n < n := by omega
    exact absurd (b2 _ (by omega)) (a3 hlt)

theorem laneTerm_antitone {n m a b : Nat} (hn : 2 ≤ n) (hnm : n ≤ m) (ha : 1 ≤ a)
    (hb : 1 ≤ b) :
    laneTerm m a b ≤ laneTerm n (min n a) (min n b) := by
  unfold laneTerm
  simp only [Nat.min_def]
  split_ifs <;> omega

theorem GetNumNInARow_antitone (g : Grid) (r c : Int) {n m : Int} (hn : 2 ≤ n) (hnm : n ≤ m) :
    GetNumNInARow g m r c ≤ GetNumNInARow g n r c := by
  by_cases hrc : IsValidIndex r c = true
  · by_cases hX : getCell g r c = NULL_PIECE
    · rw [GetNumNInARow_of_empty g m hX, GetNumNInARow_of_empty g n hX]
    · obtain ⟨k, rfl⟩ := Int.eq_ofNat_of_zero_le (by omega : 0 ≤ n)
      obtain ⟨l, rfl⟩ := Int.eq_ofNat_of_zero_le (by omega : 0 ≤ m)
      have hk : 2 ≤ k := by omega
      have hkl : k ≤ l := by omega
      have hlane : ∀ d e : Nat, laneTerm l (runLength g r c d l) (runLength g r c e l) ≤
          laneTerm k (runLength g r c d k) (runLength g r c e k) := by
        intro d e
        rw [runLength_min g r c d hkl, runLength_min g r c e hkl]
        exact laneTerm_antitone hk hkl (runLength_pos g d (by omega) hrc)
          (runLength_pos g e (by omega) hrc)
      rw [GetNumNInARow_runs g (by omega : 2 ≤ l) hrc hX, GetNumNInARow_runs g hk hrc hX]
      have := hlane 0 4
      have := hlane 1 5
      have := hlane 2 6
      have := hlane 3 7
      omega
  · rw [GetNumNInARow_of_invalid g m hrc, GetNumNInARow_of_invalid g n hrc]

theorem runLength_congr {g1 g2 : Grid} {r c : Int} (d n : Nat)
    (h : ∀ q : Int × Int, IsValidIndex q.1 q.2 = true →
      (getCell g1 q.1 q.2 = getCell g1 r c ↔ getCell g2 q.1 q.2 = getCell g2 r c)) :
    runLength g1 r c d n = runLength g2 r c d n := by
  unfold runLength
  congr 2
  funext k
  by_cases hv : IsValidIndex (offsetPos r c d (k : Int)).1 (offsetPos r c d (k : Int)).2 = true
  · have := h (offsetPos r c d (k : Int)) hv
    simp only [hv, Bool.true_and]
    by_cases h1 : getCell g1 (offsetPos r c d (k : Int)).1 (offsetPos r c d (k : Int)).2 =
        getCell g1 r c
    · simp [h1, this.mp h1]
    · have h2 : ¬ getCell g2 (offsetPos r c d (k : Int)).1 (offsetPos r c d (k : Int)).2 =
          getCell g2 r c := fun e => h1 (this.mpr e)
      simp [h1, h2]
  · simp [hv]

theorem GetNumNInARow_congr {g1 g2 : Grid} {r c : Int} (n : Int)
    (h0 : getCell g1 r c = getCell g2 r c)
    (h : ∀ q : Int × Int, IsValidIndex q.1 q.2 = true →
      (getCell g1 q.1 q.2 = getCell g1 r c ↔ getCell g2 q.1 q.2 = getCell g2 r c)) :
    GetNumNInARow g1 n r c = GetNumNInARow g2 n r c := by
  by_cases hrc : IsValidIndex r c = true
  · by_cases hX : getCell g1 r c = NULL_PIECE
    · rw [GetNumNInARow_of_empty g1 n hX, GetNumNInARow_of_empty g2 n (h0 ▸ hX)]
    · by_cases hn : n < 2
      · simp [GetNumNInARow, hn]
      · obtain ⟨k, rfl⟩ := Int.eq_ofNat_of_zero_le (by omega : 0 ≤ n)
        have hX2 : getCell g2 r c ≠ NULL_PIECE := h0 ▸ hX
        rw [GetNumNInARow_runs g1 (by omega) hrc hX, GetNumNInARow_runs g2 (by omega) hrc hX2]
        simp only [runLength_congr _ k h]
  · rw [GetNumNInARow_of_invalid g1 n hrc, GetNumNInARow_of_invalid g2 n hrc]

/-! ## The winning-line count and the captures -/

theorem captured_cell_ne {g : Grid} {m : Char} {r c : Int} {q : Int × Int}
    (hrc : IsValidIndex r c = true) (hq : isCapturedCell g m r c q = true) :
    getCell g q.1 q.2 ≠ m := by
  obtain ⟨d, _, hcap, hq⟩ := isCapturedCell_iff.mp hq
  obtain ⟨_, _, h12, _, hne⟩ := (capturesAlong_iff hrc).mp hcap
  rcases hq with rfl | rfl
  · exact hne
  · rw [← h12]
    exact hne

theorem placedBoard_win_eq {b : Board} (hg : WellFormed b.m_gameBoard) (m : Char)
    (pos : List Char) {r c : Int} (hrc : IsValidIndex r c = true) :
    (placedBoard b m pos r c).GetWinInARow =
      GetNumNInARow (placedBoard b m pos r c).m_gameBoard WIN_SCORE r c := by
  have h1 : getCell (setCell b.m_gameBoard r c m) r c = m := by
    rw [getCell_setCell hg m hrc hrc, if_pos ⟨rfl, rfl⟩]
  have h2 : getCell (placedBoard b m pos r c).m_gameBoard r c = m := by
    rw [placedBoard_cell hg m pos hrc (r, c) hrc, if_pos rfl]
  show GetNumNInARow (setCell b.m_gameBoard r c m) WIN_SCORE r c = _
  by_cases hm : m = NULL_PIECE
  · rw [GetNumNInARow_of_empty _ _ (h1.trans hm), GetNumNInARow_of_empty _ _ (h2.trans hm)]
  · apply GetNumNInARow_congr _ (h1.trans h2.symm)
    intro q hq
    rw [h1, h2, getCell_setCell hg m hrc hq, placedBoard_cell hg m pos hrc q hq]
    by_cases hqe : q = (r, c)
    · have h3 : q.1 = r ∧ q.2 = c := by rw [hqe]; exact ⟨rfl, rfl⟩
      rw [if_pos h3, if_pos hqe]
    · have h3 : ¬ (q.1 = r ∧ q.2 = c) := fun h => hqe (Prod.ext h.1 h.2)
      rw [if_neg h3, if_neg hqe]
      by_cases hc : isCapturedCell b.m_gameBoard m r c q = true
      · rw [if_pos hc]
        exact ⟨fun h => absurd h (captured_cell_ne hrc hc), fun h => absurd h.symm hm⟩
      · rw [if_neg hc]

/-- C35: after every successful `PlaceStone(m, p)` on a board of the program,
`GetWinInARow()`, computed on the grid holding the new stone before the
captures are applied, equals `GetNumNInARow(5, row(p), column(p))` on the
resulting grid, after the captures. -/
theorem win_count_on_final_board (b : Board) (hb : Reachable b) (m : Char) (pos : List Char)
    (hs : (PlaceStone b m pos).2 = ReturnCode.SUCCESS) :
    ∃ r c, ParsePosition pos = some (r, c) ∧
      (PlaceStone b m pos).1.GetWinInARow =
        GetNumNInARow (setCell b.m_gameBoard r c m) 5 r c ∧
      (PlaceStone b m pos).1.GetWinInARow =
        GetNumNInARow (PlaceStone b m pos).1.m_gameBoard 5 r c := by
  obtain ⟨r, c, hp, hv, _, _, _, _, he⟩ := PlaceStone_success hs
  refine ⟨r, c, hp, ?_, ?_⟩
  · rw [he]
    rfl
  · rw [he]
    exact placedBoard_win_eq (Reachable_wf hb) m pos hv

theorem contestedBoard_place :
    ParsePosition ['J', '1', '0'] = some (9, 9) ∧
    (PlaceStone contestedBoard 'B' ['J', '1', '0']).2 = ReturnCode.SUCCESS ∧
    (PlaceStone contestedBoard 'B' ['J', '1', '0']).1.GetCapturedPairs = 1 ∧
    (PlaceStone contestedBoard 'B' ['J', '1', '0']).1.GetWinInARow = 1 ∧
    GetNumNInARow (PlaceStone contestedBoard 'B' ['J', '1', '0']).1.m_gameBoard 5 9 9 = 1 := by
  decide

theorem win_count_on_final_board_witness :
    (PlaceStone contestedBoard 'B' ['J', '1', '0']).2 = ReturnCode.SUCCESS ∧
    (PlaceStone contestedBoard 'B' ['J', '1', '0']).1.GetCapturedPairs = 1 ∧
    ∃ r c, ParsePosition ['J', '1', '0'] = some (r, c) ∧
      (PlaceStone contestedBoard 'B' ['J', '1', '0']).1.GetWinInARow =
        GetNumNInARow (setCell contestedBoard.m_gameBoard r c 'B') 5 r c ∧
      (PlaceStone contestedBoard 'B' ['J', '1', '0']).1.GetWinInARow =
        GetNumNInARow (PlaceStone contestedBoard 'B' ['J', '1', '0']).1.m_gameBoard 5 r c :=
  ⟨contestedBoard_place.2.1, contestedBoard_place.2.2.1,
    win_count_on_final_board contestedBoard contestedBoard_reachable 'B' ['J', '1', '0']
      contestedBoard_place.2.1⟩

theorem evaluate_fold_fst (b : Board) (r c : Int) (ns : List Int) (acc : Int × Int) :
    (ns.foldl (fun (acc : Int × Int) n =>
      let blockCount := acc.1 + (GetNumNInARow b.m_gameBoard n r c - b.GetWinInARow)
      (blockCount, acc.2 + 5 * blockCount * n * n)) acc).1 =
    ns.foldl (fun blockCount n =>
      blockCount + (GetNumNInARow b.m_gameBoard n r c - b.GetWinInARow)) acc.1 := by
  induction ns generalizing acc with
  | nil => rfl
  | cons n rest ih => simp only [List.foldl_cons]; rw [ih]

theorem foldl_add_nonneg_of {α : Type} (f : α → Int) (l : List α) (acc : Int) (ha : 0 ≤ acc)
    (h : ∀ x ∈ l, 0 ≤ f x) : 0 ≤ l.foldl (fun s x => s + f x) acc := by
  induction l generalizing acc with
  | nil => exact ha
  | cons x rest ih =>
    simp only [List.foldl_cons]
    exact ih _ (add_nonneg ha (h x (List.mem_cons_self _ _)))
      (fun y hy => h y (List.mem_cons_of_mem _ hy))

/-- C36: the n-in-a-row count is antitone in n on every grid and at every cell,
for 2 <= n <= m; and after a successful placement at x on a board of the program
the term `GetNumNInARow(n, x) - GetWinInARow()` the evaluator adds to
`blockCount` is non-negative for n = 4, 3, 2, and `blockCount` is non-negative
after each round of the loop. -/
theorem count_antitone (b : Board) (hb : Reachable b) (a_color : Char)
    (a_position : List Char)
    (hs : (PlaceStone b a_color a_position).2 = ReturnCode.SUCCESS) :
    (∀ (g : Grid) (r c n m : Int), 2 ≤ n → n ≤ m →
      GetNumNInARow g m r c ≤ GetNumNInARow g n r c) ∧
    ∃ r c, ParsePosition (PlaceStone b a_color a_position).1.GetLastPosition = some (r, c) ∧
      (∀ n : Int, 2 ≤ n → n ≤ 5 →
        0 ≤ GetNumNInARow (PlaceStone b a_color a_position).1.m_gameBoard n r c -
          (PlaceStone b a_color a_position).1.GetWinInARow) ∧
      (∀ k : Nat,
        0 ≤ blockCountAfter (PlaceStone b a_color a_position).1 r c (buildLengths.take k)) ∧
      (buildLengths.foldl (fun (acc : Int × Int) n =>
        let blockCount := acc.1 +
          (GetNumNInARow (PlaceStone b a_color a_position).1.m_gameBoard n r c -
            (PlaceStone b a_color a_position).1.GetWinInARow)
        (blockCount, acc.2 + 5 * blockCount * n * n))
        (0, 10000 * (PlaceStone b a_color a_position).1.GetWinInARow)).1 =
        blockCountAfter (PlaceStone b a_color a_position).1 r c buildLengths := by
  refine ⟨fun g r c n m hn hnm => GetNumNInARow_antitone g r c hn hnm, ?_⟩
  obtain ⟨r, c, hp, hv, _, _, _, _, he⟩ := PlaceStone_success hs
  have hterm : ∀ n : Int, 2 ≤ n → n ≤ 5 →
      0 ≤ GetNumNInARow (PlaceStone b a_color a_position).1.m_gameBoard n r c -
        (PlaceStone b a_color a_position).1.GetWinInARow := by
    intro n hn hn5
    rw [he, placedBoard_win_eq (Reachable_wf hb) a_color a_position hv]
    have := GetNumNInARow_antitone (placedBoard b a_color a_position r c).m_gameBoard r c hn
      (show n ≤ WIN_SCORE from hn5)
    omega
  refine ⟨r, c, ?_, hterm, ?_, ?_⟩
  · rw [he]
    exact hp
  · intro k
    unfold blockCountAfter
    apply foldl_add_nonneg_of (fun n =>
      GetNumNInARow (PlaceStone b a_color a_position).1.m_gameBoard n r c -
        (PlaceStone b a_color a_position).1.GetWinInARow) _ 0 (le_refl 0)
    intro n hn
    have hmem := List.mem_of_mem_take hn
    rw [buildLengths_eq] at hmem
    simp only [List.mem_cons, List.mem_singleton, List.mem_nil_iff, or_false] at hmem
    exact hterm n (by omega) (by omega)
  · exact evaluate_fold_fst _ r c buildLengths _

theorem count_antitone_witness :
    (PlaceStone contestedBoard 'B' ['J', '1', '0']).2 = ReturnCode.SUCCESS ∧
    ((∀ (g : Grid) (r c n m : Int), 2 ≤ n → n ≤ m →
      GetNumNInARow g m r c ≤ GetNumNInARow g n r c) ∧
    ∃ r c, ParsePosition (PlaceStone contestedBoard 'B' ['J', '1', '0']).1.GetLastPosition =
        some (r, c) ∧
      (∀ n : Int, 2 ≤ n → n ≤ 5 →
        0 ≤ GetNumNInARow (PlaceStone contestedBoard 'B' ['J', '1', '0']).1.m_gameBoard n r c -
          (PlaceStone contestedBoard 'B' ['J', '1', '0']).1.GetWinInARow) ∧
      (∀ k : Nat,
        0 ≤ blockCountAfter (PlaceStone contestedBoard 'B' ['J', '1', '0']).1 r c
          (buildLengths.take k)) ∧
      (buildLengths.foldl (fun (acc : Int × Int) n =>
        let blockCount := acc.1 +
          (GetNumNInARow (PlaceStone contestedBoard 'B' ['J', '1', '0']).1.m_gameBoard n r c -
            (PlaceStone contestedBoard 'B' ['J', '1', '0']).1.GetWinInARow)
        (blockCount, acc.2 + 5 * blockCount * n * n))
        (0, 10000 * (PlaceStone contestedBoard 'B' ['J', '1', '0']).1.GetWinInARow)).1 =
        blockCountAfter (PlaceStone contestedBoard 'B' ['J', '1', '0']).1 r c buildLengths) :=
  ⟨contestedBoard_place.2.1,
    count_antitone contestedBoard contestedBoard_reachable 'B' ['J', '1', '0']
      contestedBoard_place.2.1⟩

theorem EvaluateMove_score_getD (p : Player) (b : Board) (a : Player) :
    (EvaluateMove p b a).evalScore =
      closedScore (decide (p.m_color = a.m_color)) b.GetWinInARow
        (GetNumNInARow b.m_gameBoard 4 ((ParsePosition b.GetLastPosition).getD (0, 0)).1
          ((ParsePosition b.GetLastPosition).getD (0, 0)).2)
        (GetNumNInARow b.m_gameBoard 3 ((ParsePosition b.GetLastPosition).getD (0, 0)).1
          ((ParsePosition b.GetLastPosition).getD (0, 0)).2)
        (GetNumNInARow b.m_gameBoard 2 ((ParsePosition b.GetLastPosition).getD (0, 0)).1
          ((ParsePosition b.GetLastPosition).getD (0, 0)).2)
        (GetPotentialCaptures b.m_gameBoard a.m_color
          ((ParsePosition b.GetLastPosition).getD (0, 0)).1
          ((ParsePosition b.GetLastPosition).getD (0, 0)).2) b.GetCapturedPairs := by
  unfold EvaluateMove
  rw [buildLengths_eq]
  simp only [List.foldl, closedScore, Player.GetColor,
    decide_eq_true_eq, zero_add, gt_iff_lt]
  generalize (ParsePosition b.GetLastPosition).getD (0, 0) = rc
  generalize GetNumNInARow b.m_gameBoard 4 rc.1 rc.2 = n4
  generalize GetNumNInARow b.m_gameBoard 3 rc.1 rc.2 = n3
  generalize GetNumNInARow b.m_gameBoard 2 rc.1 rc.2 = n2
  generalize GetPotentialCaptures b.m_gameBoard a.m_color rc.1 rc.2 = pc
  generalize b.GetWinInARow = w
  generalize b.GetCapturedPairs = cap
  by_cases hc : p.m_color = a.m_color
  · simp only [hc, and_true]
    split_ifs <;> first | (exfalso; omega) | ring
  · simp only [hc, and_false, if_false]
    ring

theorem GetPotentialCaptures_nonneg (g : Grid) (s : Char) (r c : Int) :
    0 ≤ GetPotentialCaptures g s r c := by
  unfold GetPotentialCaptures
  simp only
  rw [foldl_count (fun direction => regex_search s
    (((ColorSeq g (CAPTURE_NUM + 1) r c).getD (direction + NUM_DIRECTIONS / 2) []).reverse ++
      ((ColorSeq g (CAPTURE_NUM + 1) r c).getD direction []).drop 1))]
  omega

theorem closedScore_le (own : Bool) {n4 n3 n2 pc : Int} (h4 : n4 ≤ 8) (h3 : n3 ≤ 8)
    (h2 : n2 ≤ 8) (hpc : 0 ≤ pc) : closedScore own 0 n4 n3 n2 pc 0 ≤ 1845 := by
  unfold closedScore
  simp only
  split_ifs <;> omega

theorem closedScore_win (own : Bool) {w n4 n3 n2 pc cap : Int} (hw : 1 ≤ w) (h4 : w ≤ n4)
    (h3 : w ≤ n3) (h2 : w ≤ n2) (hcap : 0 ≤ cap) :
    10000 ≤ closedScore own w n4 n3 n2 pc cap := by
  unfold closedScore
  simp only
  split_ifs <;> omega

/-- On a board of the program either the last move record holds no winning line
and no captured pair, or it is that of a placement: the position parses to a
cell of the board, the recorded winning-line count is the count of fives
through that cell on the present grid, and the captured pairs are not negative. -/
theorem Reachable_win_inv {b : Board} (hb : Reachable b) :
    (b.GetWinInARow = 0 ∧ b.GetCapturedPairs = 0) ∨
    ∃ r c, ParsePosition b.GetLastPosition = some (r, c) ∧ IsValidIndex r c = true ∧
      b.GetWinInARow = GetNumNInARow b.m_gameBoard WIN_SCORE r c ∧ 0 ≤ b.GetCapturedPairs := by
  induction hb with
  | init => exact Or.inl ⟨rfl, rfl⟩
  | place b m pos hb ih =>
    by_cases hs : (PlaceStone b m pos).2 = ReturnCode.SUCCESS
    · obtain ⟨r, c, hp, hv, _, _, _, _, he⟩ := PlaceStone_success hs
      rw [he]
      exact Or.inr ⟨r, c, hp, hv, placedBoard_win_eq (Reachable_wf hb) m pos hv,
        placedBoard_capturedPairs_nonneg b m pos r c⟩
    · rw [PlaceStone_failure hs]
      exact ih
  | undo b hb ih =>
    cases hst : b.m_prevMoves with
    | nil =>
      have : UndoMove b = (b, ReturnCode.NO_PREV_MOVES) := by
        unfold UndoMove
        rw [hst]
      rw [this]
      exact ih
    | cons top rest =>
      left
      unfold UndoMove
      rw [hst]
      exact ⟨rfl, rfl⟩
  | setBounds b i o hb ih =>
    unfold SetBounds
    split_ifs
    · exact ih
    · exact ih
  | setBoard b g hb ih =>
    by_cases hg : WellFormed g
    · rw [SetBoard_of_wf b hg]
      cases setBoardScan g allCells 0 with
      | none => exact ih
      | some k =>
        simp only
        split_ifs
        · exact ih
        · exact Or.inl ⟨rfl, rfl⟩
    · rw [SetBoard_of_not_wf b hg]
      exact ih

/-! ## The score of a winning placement and of a building placement -/

/-- C37: on every board of the program whose last placement completed at least
one winning line (`GetWinInARow() >= 1`), `EvaluateMove` returns a score of at
least 10000 and the reason Win, for every evaluating player and every player the
move is evaluated for, whatever the number of potential captures. -/
theorem winning_placement_tagged_win (b : Board) (hb : Reachable b) (p a : Player)
    (hw : 1 ≤ b.GetWinInARow) :
    10000 ≤ (EvaluateMove p b a).evalScore ∧
    (EvaluateMove p b a).reason = MoveReason.WIN := by
  have hscore : 10000 ≤ (EvaluateMove p b a).evalScore := by
    rcases Reachable_win_inv hb with ⟨h0, _⟩ | ⟨r, c, hp, _, hwin, hcap⟩
    · omega
    · rw [EvaluateMove_score p b a r c hp]
      have h4 := GetNumNInARow_antitone b.m_gameBoard r c (by decide : (2 : Int) ≤ 4)
        (show (4 : Int) ≤ WIN_SCORE by decide)
      have h3 := GetNumNInARow_antitone b.m_gameBoard r c (by decide : (2 : Int) ≤ 3)
        (show (3 : Int) ≤ WIN_SCORE by decide)
      have h2 := GetNumNInARow_antitone b.m_gameBoard r c (by decide : (2 : Int) ≤ 2)
        (show (2 : Int) ≤ WIN_SCORE by decide)
      rw [← hwin] at h4 h3 h2
      exact closedScore_win _ hw h4 h3 h2 hcap
  refine ⟨hscore, ?_⟩
  rw [EvaluateMove_reason, if_pos hscore]

theorem winning_placement_tagged_win_witness :
    1 ≤ (PlaceStone contestedBoard 'B' ['J', '1', '0']).1.GetWinInARow ∧
    10000 ≤ (EvaluateMove whitePlayer (PlaceStone contestedBoard 'B' ['J', '1', '0']).1
      blackPlayer).evalScore ∧
    (EvaluateMove whitePlayer (PlaceStone contestedBoard 'B' ['J', '1', '0']).1
      blackPlayer).reason = MoveReason.WIN :=
  ⟨by decide,
    winning_placement_tagged_win (PlaceStone contestedBoard 'B' ['J', '1', '0']).1
      (Reachable.place contestedBoard 'B' ['J', '1', '0'] contestedBoard_reachable)
      whitePlayer blackPlayer (by decide)⟩

theorem EvaluateMove_quiet_le (b : Board) (p a : Player)
    (hw : b.GetWinInARow = 0) (hc : b.GetCapturedPairs = 0) :
    (EvaluateMove p b a).evalScore ≤ 1845 := by
  rw [EvaluateMove_score_getD, hw, hc]
  exact closedScore_le _ (GetNumNInARow_le _ _ _ _) (GetNumNInARow_le _ _ _ _)
    (GetNumNInARow_le _ _ _ _) (GetPotentialCaptures_nonneg _ _ _ _)

/-- C38: on every board whose last move record holds no winning line and no
captured pair, the score of `EvaluateMove` is at most
1845 = 5 * (16 * 8 + 9 * 16 + 4 * 24) + 5, below the capture threshold 2000, and
the reason is neither Capture nor Win. -/
theorem building_below_capturing (b : Board) (p a : Player)
    (hw : b.GetWinInARow = 0) (hc : b.GetCapturedPairs = 0) :
    (EvaluateMove p b a).evalScore ≤ 1845 ∧
    (1845 : Int) = 5 * (16 * 8 + 9 * 16 + 4 * 24) + 5 ∧
    (EvaluateMove p b a).evalScore < 2000 ∧
    (EvaluateMove p b a).reason ≠ MoveReason.CAPTURE ∧
    (EvaluateMove p b a).reason ≠ MoveReason.WIN := by
  have hscore : (EvaluateMove p b a).evalScore ≤ 1845 := EvaluateMove_quiet_le b p a hw hc
  refine ⟨hscore, by decide, by omega, ?_, ?_⟩
  · rw [EvaluateMove_reason]
    split_ifs <;> first | omega | simp
  · rw [EvaluateMove_reason]
    split_ifs <;> first | omega | simp

theorem building_below_capturing_witness :
    tripleBoard.GetWinInARow = 0 ∧ tripleBoard.GetCapturedPairs = 0 ∧
    (EvaluateMove whitePlayer tripleBoard whitePlayer).evalScore ≤ 1845 ∧
    (EvaluateMove whitePlayer tripleBoard whitePlayer).reason ≠ MoveReason.CAPTURE ∧
    (EvaluateMove whitePlayer tripleBoard whitePlayer).reason ≠ MoveReason.WIN :=
  ⟨by decide, by decide,
    (building_below_capturing tripleBoard whitePlayer whitePlayer (by decide) (by decide)).1,
    (building_below_capturing tripleBoard whitePlayer whitePlayer (by decide)
      (by decide)).2.2.2⟩

/-! ## The move recommended at the third ply -/

theorem offsetPos_one_two (r c : Int) {d : Nat} (hd : d < 8) :
    offsetPos r c d 1 ≠ offsetPos r c d 2 ∧ offsetPos r c d 1 ≠ (r, c) ∧
      offsetPos r c d 2 ≠ (r, c) := by
  interval_cases d <;>
    simp [offsetPos, ROW_DELTA, COLUMN_DELTA, Prod.ext_iff]

theorem runLength_le_two {g : Grid} {r c : Int} (q0 : Int × Int) {d : Nat} (hd : d < 8)
    (n : Nat)
    (h : ∀ q : Int × Int, IsValidIndex q.1 q.2 = true → q ≠ (r, c) →
      getCell g q.1 q.2 = getCell g r c → q = q0) :
    runLength g r c d n ≤ 2 := by
  by_contra hlt
  obtain ⟨_, hrun, _⟩ := runLength_spec g r c d n
  obtain ⟨h12, h1, h2⟩ := offsetPos_one_two r c hd
  have e1 := hrun 1 (by omega)
  have e2 := hrun 2 (by omega)
  simp only [Nat.cast_one, Nat.cast_ofNat] at e1 e2
  exact h12 ((h _ e1.1 h1 e1.2).trans (h _ e2.1 h2 e2.2).symm)

theorem GetNumNInARow_lonely {g : Grid} {r c : Int} (q0 : Int × Int)
    (h : ∀ q : Int × Int, IsValidIndex q.1 q.2 = true → q ≠ (r, c) →
      getCell g q.1 q.2 = getCell g r c → q = q0) :
    GetNumNInARow g WIN_SCORE r c = 0 := by
  by_cases hrc : IsValidIndex r c = true
  · by_cases hX : getCell g r c = NULL_PIECE
    · exact GetNumNInARow_of_empty g _ hX
    · show GetNumNInARow g ((5 : Nat) : Int) r c = 0
      rw [GetNumNInARow_runs g (by decide) hrc hX]
      have hz : ∀ d e : Nat, d < 8 → e < 8 →
          laneTerm 5 (runLength g r c d 5) (runLength g r c e 5) = 0 := by
        intro d e hd he
        have h1 := runLength_le_two q0 hd 5 h
        have h2 := runLength_le_two q0 he 5 h
        unfold laneTerm
        rw [if_pos (by omega)]
      rw [hz 0 4 (by decide) (by decide), hz 1 5 (by decide) (by decide),
        hz 2 6 (by decide) (by decide), hz 3 7 (by decide) (by decide)]
      rfl
  · exact GetNumNInARow_of_invalid g _ hrc

theorem capturesAlong_lonely {g : Grid} {m : Char} {r c : Int} (q0 : Int × Int) {d : Nat}
    (hd : d < 8)
    (h : ∀ q : Int × Int, IsValidIndex q.1 q.2 = true →
      getCell g q.1 q.2 ≠ NULL_PIECE → getCell g q.1 q.2 ≠ m → q = q0) :
    capturesAlong g m r c d = false := by
  by_contra hne
  have ht : capturesAlong g m r c d = true := by simpa using hne
  simp only [capturesAlong, Bool.and_eq_true, beq_iff_eq, bne_iff_ne, ne_eq] at ht
  obtain ⟨⟨⟨⟨⟨⟨v1, v2⟩, _⟩, e12⟩, hnull⟩, hm⟩, _⟩ := ht
  obtain ⟨h12, _, _⟩ := offsetPos_one_two r c hd
  exact h12 ((h _ v1 hnull hm).trans (h _ v2 (e12 ▸ hnull) (e12 ▸ hm)).symm)

theorem thirdPlyBoard_reachable : Reachable thirdPlyBoard :=
  Reachable.setBounds _ 3 19 (Reachable.place _ 'B' ['J', '7'] (Reachable.setBounds _ 0 19
    (Reachable.place _ 'W' ['J', '1', '0'] (Reachable.setBounds _ 0 0 Reachable.init))))

theorem thirdPlyBoard_cell (q : Int × Int) (hq : IsValidIndex q.1 q.2 = true) :
    getCell thirdPlyBoard.m_gameBoard q.1 q.2 =
      if q.1 = 6 ∧ q.2 = 9 then 'B' else if q.1 = 9 ∧ q.2 = 9 then 'W' else NULL_PIECE := by
  have hg : thirdPlyBoard.m_gameBoard = setCell (setCell InitGameBoard 9 9 'W') 6 9 'B' := by
    decide
  rw [hg, getCell_setCell (wf_setCell 9 9 'W' InitGameBoard_wf) 'B' (by decide) hq,
    getCell_setCell InitGameBoard_wf 'W' (by decide) hq, getCell_InitGameBoard hq]

theorem thirdPlyBoard_quiet {cell : Int × Int} (hmem : cell ∈ allCells)
    (ho : isOpenCell thirdPlyBoard cell = true) (m : Char) (hm : m = 'W' ∨ m = 'B') :
    (PlaceStone thirdPlyBoard m (IndicesToString cell.1 cell.2)).1.GetWinInARow = 0 ∧
    (PlaceStone thirdPlyBoard m (IndicesToString cell.1 cell.2)).1.GetCapturedPairs = 0 := by
  obtain ⟨hp, hv⟩ := parse_label_of_mem hmem
  have hwf := Reachable_wf thirdPlyBoard_reachable
  rw [PlaceStone_of_open thirdPlyBoard m hp hv ho]
  have hnull : getCell thirdPlyBoard.m_gameBoard cell.1 cell.2 = NULL_PIECE :=
    (isOpenCell_iff.mp ho).2.1
  constructor
  · show GetNumNInARow (setCell thirdPlyBoard.m_gameBoard cell.1 cell.2 m) WIN_SCORE
      cell.1 cell.2 = 0
    have hself :
        getCell (setCell thirdPlyBoard.m_gameBoard cell.1 cell.2 m) cell.1 cell.2 = m := by
      rw [getCell_setCell hwf m hv hv, if_pos ⟨rfl, rfl⟩]
    apply GetNumNInARow_lonely (if m = 'W' then ((9 : Int), (9 : Int)) else (6, 9))
    intro q hq hne heq
    have hne' : ¬ (q.1 = cell.1 ∧ q.2 = cell.2) := fun h => hne (Prod.ext h.1 h.2)
    rw [hself, getCell_setCell hwf m hv hq, if_neg hne', thirdPlyBoard_cell q hq] at heq
    rcases hm with rfl | rfl
    · rw [if_pos rfl]
      split_ifs at heq with h1 h2
      · exact absurd heq (by decide)
      · exact Prod.ext h2.1 h2.2
      · exact absurd heq (by decide)
    · rw [if_neg (by decide)]
      split_ifs at heq with h1 h2
      · exact Prod.ext h1.1 h1.2
      · exact absurd heq (by decide)
      · exact absurd heq (by decide)
  · show (placedBoard thirdPlyBoard m (IndicesToString cell.1 cell.2) cell.1
      cell.2).m_currMove.capturedPairs = 0
    rw [placedBoard_capturedPairs hwf m _ hv]
    have hnil : (List.range 8).filter (capturesAlong thirdPlyBoard.m_gameBoard m cell.1 cell.2)
        = [] := by
      rw [List.filter_eq_nil_iff]
      intro d hd
      have hd' : d < 8 := List.mem_range.mp hd
      rw [capturesAlong_lonely (if m = 'W' then ((6 : Int), (9 : Int)) else (9, 9)) hd']
      · simp
      · intro q hq h1 h2
        rw [thirdPlyBoard_cell q hq] at h1 h2
        rcases hm with rfl | rfl
        · rw [if_pos rfl]
          split_ifs at h1 h2 with h3 h4
          · exact Prod.ext h3.1 h3.2
          · exact absurd rfl h2
          · exact absurd rfl h1
        · rw [if_neg (by decide)]
          split_ifs at h1 h2 with h3 h4
          · exact absurd rfl h2
          · exact Prod.ext h4.1 h4.2
          · exact absurd rfl h1
    rw [hnil]
    rfl

theorem thirdPlyBoard_not_win :
    (bestMoveScan whitePlayer thirdPlyBoard blackPlayer).ourBest.reason ≠ MoveReason.WIN := by
  have hwf := Reachable_wf thirdPlyBoard_reachable
  rcases scan_ourBest_candidate (p := whitePlayer) (q := blackPlayer) hwf allCells
      (fun _ h => h) (scanStart thirdPlyBoard) (SameGame_refl _) with h | ⟨cell, hmem, ho, h⟩
  · unfold bestMoveScan
    rw [h]
    decide
  · unfold bestMoveScan
    rw [h]
    obtain ⟨hw, hc⟩ := thirdPlyBoard_quiet hmem ho 'W' (Or.inl rfl)
    have hle := EvaluateMove_quiet_le _ whitePlayer whitePlayer hw hc
    unfold ourCandidate
    rw [EvaluateMove_reason]
    have e : whitePlayer.m_color = 'W' := rfl
    rw [e]
    split_ifs <;> first | omega | simp

/-- C39, the code at the failing input: on the board at the third ply of a round
(`W` at J10, `B` at J7, bounds (3, 19)) a placement by `W` succeeds at A1, yet for
every random draw whose values are multiples of 4 the position `BestMove` selects
for `W` is J7, where `PlaceStone` returns SPACE_OCCUPIED and leaves the board as
it was. -/
theorem recommended_move_rejected :
    (PlaceStone thirdPlyBoard 'W' ['A', '1']).2 = ReturnCode.SUCCESS ∧
    (∀ rand : Nat → Nat, (∀ k, rand k % 4 = 0) →
      (BestMove whitePlayer thirdPlyBoard blackPlayer rand).1.m_bestMove.position =
        ['J', '7']) ∧
    PlaceStone thirdPlyBoard 'W' ['J', '7'] = (thirdPlyBoard, ReturnCode.SPACE_OCCUPIED) := by
  refine ⟨by decide, ?_, ?_⟩
  · intro rand hrand
    rw [BestMove_fst]
    obtain ⟨best, retained, calls, _, _, _, _, _, _, _, hpos, _⟩ :=
      DetermineBest_not_win whitePlayer
        (bestMoveScan whitePlayer thirdPlyBoard blackPlayer).boardCopy
        (bestMoveScan whitePlayer thirdPlyBoard blackPlayer).theirBest
        (bestMoveScan whitePlayer thirdPlyBoard blackPlayer).topMoves rand thirdPlyBoard_not_win
    have hb :
        (bestMoveScan whitePlayer thirdPlyBoard blackPlayer).boardCopy.GetInnerBounds = 3 := by
      rw [(bestMoveScan_bounds whitePlayer blackPlayer thirdPlyBoard).1]
      decide
    rw [hpos, if_pos hb, hrand calls]
    rfl
  · have h2 : (PlaceStone thirdPlyBoard 'W' ['J', '7']).2 = ReturnCode.SPACE_OCCUPIED := by
      decide
    have h1 : (PlaceStone thirdPlyBoard 'W' ['J', '7']).1 = thirdPlyBoard :=
      PlaceStone_failure (by rw [h2]; decide)
    exact Prod.ext h1 h2

end Pente
